import Mathlib

/-!
# iflowkit-cli sync engine: a shallow embedding

Go strings are embedded as Lean `String`s read through their list of code
points (`String.data`).  Go compares strings byte by byte; on well-formed
UTF-8 that order coincides with the code-point order used here.

Calls that leave the process (the CPI tenant, the file system, the Go
standard library tables) are parameters of the model.
-/

namespace Sync

/-- Equality of Go results is decidable when it is on errors and on values. -/
instance instDecidableEqExcept {ε α : Type} [DecidableEq ε] [DecidableEq α] :
    DecidableEq (Except ε α)
  | .ok a, .ok b => if h : a = b then isTrue (by rw [h]) else isFalse (by intro e; cases e; exact h rfl)
  | .error a, .error b =>
    if h : a = b then isTrue (by rw [h]) else isFalse (by intro e; cases e; exact h rfl)
  | .ok _, .error _ => isFalse (by intro e; cases e)
  | .error _, .ok _ => isFalse (by intro e; cases e)

/-! ## Go `strings` helpers -/

/-- Go `unicode.IsSpace`: the Latin-1 white space plus the Unicode `White_Space` runes. -/
def isSpace (c : Char) : Bool :=
  let n := c.toNat
  n = 0x20 || (0x09 ≤ n && n ≤ 0x0D) || n = 0x85 || n = 0xA0 || n = 0x1680 ||
  (0x2000 ≤ n && n ≤ 0x200A) || n = 0x2028 || n = 0x2029 || n = 0x202F ||
  n = 0x205F || n = 0x3000

/-- Drop the leading runes that satisfy `p` (Go `strings.TrimLeftFunc`). -/
def trimLeftFunc (p : Char → Bool) : List Char → List Char
  | [] => []
  | c :: cs => if p c then trimLeftFunc p cs else c :: cs

/-- Drop the leading and trailing runes that satisfy `p` (Go `strings.TrimFunc`). -/
def trimFunc (p : Char → Bool) (s : List Char) : List Char :=
  (trimLeftFunc p (trimLeftFunc p s).reverse).reverse

/-- Go `strings.TrimSpace`. -/
def TrimSpace (s : String) : String := ⟨trimFunc isSpace s.data⟩

/-- Go `strings.Trim(s, cutset)`. -/
def Trim (s : String) (cutset : String) : String :=
  ⟨trimFunc (fun c => cutset.data.contains c) s.data⟩

/-- Lower-casing of one rune as Go `unicode.ToLower` does it: the ASCII letters are
shifted, the other ASCII runes are kept, and the runes above U+007F go through the
Unicode case table, which is the parameter `table`. -/
def toLowerRune (table : Char → Char) (c : Char) : Char :=
  if c.toNat < 0x80 then
    (if 0x41 ≤ c.toNat ∧ c.toNat ≤ 0x5A then Char.ofNat (c.toNat + 0x20) else c)
  else table c

/-- Go `strings.ToLower`, with the Unicode case table for non-ASCII runes as a parameter. -/
def ToLower (table : Char → Char) (s : String) : String :=
  ⟨s.data.map (toLowerRune table)⟩

/-- Go `strings.HasPrefix`. -/
def HasPrefix (s pre : String) : Bool := pre.data.isPrefixOf s.data

/-- Go `strings.TrimPrefix`. -/
def TrimPrefix (s pre : String) : String :=
  if HasPrefix s pre then ⟨s.data.drop pre.data.length⟩ else s

/-- Go `strings.Contains` on code-point lists: `sub` occurs somewhere in `s`. -/
def containsL (sub : List Char) : List Char → Bool
  | [] => sub.isEmpty
  | c :: cs => sub.isPrefixOf (c :: cs) || containsL sub cs

/-- Go `strings.Contains`. -/
def Contains (s sub : String) : Bool := containsL sub.data s.data

/-- The text before the first `sep` and, when there is one, the text after it. -/
def cutAt (sep : Char) : List Char → List Char × Option (List Char)
  | [] => ([], none)
  | c :: cs =>
    if c = sep then ([], some cs)
    else
      let r := cutAt sep cs
      (c :: r.1, r.2)

/-- Go `strings.SplitN(s, sep, n)` for a one-rune separator and `n > 0`:
at most `n` pieces, the last one holding the unsplit remainder. -/
def splitNL (sep : Char) : Nat → List Char → List (List Char)
  | 0, _ => []
  | 1, s => [s]
  | n + 2, s =>
    match cutAt sep s with
    | (a, none) => [a]
    | (a, some rest) => a :: splitNL sep (n + 1) rest

/-- Go `strings.SplitN(s, "/", n)` for `n > 0`. -/
def SplitN (s : String) (sep : Char) (n : Nat) : List String :=
  (splitNL sep n s.data).map String.mk

/-- Go `s < t` on strings. -/
def strLtL : List Char → List Char → Bool
  | _, [] => false
  | [], _ :: _ => true
  | a :: as, b :: bs => decide (a.toNat < b.toNat) || (a.toNat == b.toNat && strLtL as bs)

/-- Go `s < t` on strings. -/
def strLt (s t : String) : Bool := strLtL s.data t.data

/-! ## types.go -/

/-- Go `artifactKey`: the kind folder and the artifact id. -/
structure artifactKey where
  Kind : String
  ID : String
deriving DecidableEq, Repr

/-- Go `SyncObject`. -/
structure SyncObject where
  Kind : String
  ID : String
deriving DecidableEq, Repr

/-- Go `deployTarget`. -/
structure deployTarget where
  Kind : String
  ID : String
deriving DecidableEq, Repr

/-- Go `artifactKey.isZero`. -/
def artifactKey.isZero (k : artifactKey) : Bool := k.Kind == "" || k.ID == ""

/-- Go `SyncObject.isZero`. -/
def SyncObject.isZero (o : SyncObject) : Bool := o.Kind == "" || o.ID == ""

/-- Go `deployTarget.isZero`. -/
def deployTarget.isZero (d : deployTarget) : Bool := d.Kind == "" || d.ID == ""

/-! ## The `sort.Slice` comparison used throughout the engine -/

/-- The `less` closure passed to every `sort.Slice` of the engine:
`if a.Kind == b.Kind { return a.ID < b.ID }; return a.Kind < b.Kind`. -/
def lessKindID (k1 i1 k2 i2 : String) : Bool :=
  if k1 = k2 then strLt i1 i2 else strLt k1 k2

/-- The `less` closure on `artifactKey`. -/
def keyLess (a b : artifactKey) : Bool := lessKindID a.Kind a.ID b.Kind b.ID

/-- The `less` closure on `deployTarget`. -/
def targetLess (a b : deployTarget) : Bool := lessKindID a.Kind a.ID b.Kind b.ID

/-- Insert `a` into a list sorted by `less`, after the entries that are not greater. -/
def insertSorted {α : Type} (less : α → α → Bool) (a : α) : List α → List α
  | [] => [a]
  | b :: bs => if less b a then b :: insertSorted less a bs else
      if less a b then a :: b :: bs else b :: insertSorted less a bs

/-- Go `sort.Slice(xs, less)`.  The comparison of the engine is a strict total order
on (Kind, ID) and the elements carry nothing else, so the sorted slice does not depend
on the sorting algorithm; insertion sort stands for it. -/
def sortSlice {α : Type} (less : α → α → Bool) : List α → List α
  | [] => []
  | a :: as => insertSorted less a (sortSlice less as)

/-- The copy of a key list sorted by (Kind, ID): `orderedDelete`, `orderedUpload`. -/
def sortKeys (l : List artifactKey) : List artifactKey := sortSlice keyLess l

/-- The copy of a deploy list sorted by (Kind, ID): `orderedDeploy`. -/
def sortTargets (l : List deployTarget) : List deployTarget := sortSlice targetLess l

/-! ## models/sync_metadata.go, config.go -/

/-- Go `models.SyncMetadata`, the content of `.iflowkit/package.json`. -/
structure SyncMetadata where
  SchemaVersion : Int
  ProfileID : String
  CPITenantLevels : Int
  PackageID : String
  PackageName : String
  BaseFolder : String
  GitRemote : String
  GitProvider : String
  CreatedAt : String
deriving DecidableEq, Repr

/-- Go `resolveContentFolder`. -/
def resolveContentFolder (meta : SyncMetadata) : String :=
  let p := TrimSpace meta.BaseFolder
  if p = "" then "IntegrationPackage" else Trim p "/"

/-! ## envmap.go -/

/-- The four `fmt.Errorf` exits of `resolveTargetTenant`, with the values they print. -/
inductive RouterError where
  /-- The message "cannot resolve tenant from empty branch". -/
  | emptyBranch
  /-- The message "branch 'qas' is not enabled: cpiTenantLevels=%d (expected 3)". -/
  | qasNotEnabled (levels : Int)
  /-- The message "invalid cpiTenantLevels=%d (expected 2 or 3)". -/
  | invalidLevels (levels : Int)
  /-- The message "branch %q is not supported by sync (allowed: ...)"; the list of allowed
  branches names qas when `levels` is 3. -/
  | unsupportedBranch (branch : String) (levels : Int)
deriving DecidableEq, Repr

/-- Go `resolveTargetTenant`: the tenant and the `isEnvBranch` flag of a branch. -/
def resolveTargetTenant (meta : SyncMetadata) (branch : String) :
    Except RouterError (String × Bool) :=
  let branch := TrimSpace branch
  if branch = "" then .error .emptyBranch
  else
    let levels := meta.CPITenantLevels
    if branch = "dev" then .ok ("dev", true)
    else if branch = "qas" then
      (if levels ≠ 3 then .error (.qasNotEnabled levels) else .ok ("qas", true))
    else if branch = "prd" then
      (if levels ≠ 2 ∧ levels ≠ 3 then .error (.invalidLevels levels) else .ok ("prd", true))
    else if HasPrefix branch "feature/" || HasPrefix branch "bugfix/" then .ok ("dev", false)
    else .error (.unsupportedBranch branch levels)

/-- The message of the PRD gate. -/
def prdGateMessage : String :=
  "refusing to run against PRD without explicit confirmation: pass --to prd"

/-- Go `validateToFlag`: `none` is the nil error, `some msg` an error with that message. -/
def validateToFlag (table : Char → Char) (toFlag tenant : String) : Option String :=
  let toFlag := ToLower table (TrimSpace toFlag)
  let tenant := ToLower table (TrimSpace tenant)
  if tenant = "prd" then
    (if toFlag ≠ "prd" then some prdGateMessage else none)
  else if toFlag = "" then none
  else if toFlag ≠ tenant then
    some ("--to " ++ toFlag ++ " does not match target tenant " ++ tenant)
  else none

/-! ## service_deliver.go: the promotion path -/

/-- The error exits of the promotion-path part of `runSyncDeliver`. -/
inductive DeliverError where
  /-- The message "--to must be qas or prd". -/
  | badTarget
  /-- An error of `validateToFlag("prd", "prd")`. -/
  | gate (msg : String)
  /-- The message "qas deliver is not enabled: cpiTenantLevels=%d (expected 3)". -/
  | qasNotEnabled (levels : Int)
  /-- The message "invalid cpiTenantLevels=%d (expected 2 or 3)". -/
  | invalidLevels (levels : Int)
deriving DecidableEq, Repr

/-- The promotion path of `runSyncDeliver` (service_deliver.go lines 33 to 72): from the
`--to` flag and the `cpiTenantLevels` of the loaded, validated metadata to
(sourceBranch, targetBranch).  Locating the repository and loading its metadata, which
lie between the two halves, are taken as done. -/
def deliverPath (table : Char → Char) (toArg : String) (levels : Int) :
    Except DeliverError (String × String) :=
  let dest := ToLower table (TrimSpace toArg)
  if dest ≠ "qas" ∧ dest ≠ "prd" then .error .badTarget
  else
    match (if dest = "prd" then validateToFlag table "prd" "prd" else none) with
    | some msg => .error (.gate msg)
    | none =>
      if dest = "qas" ∧ levels ≠ 3 then .error (.qasNotEnabled levels)
      else if dest = "prd" ∧ levels ≠ 2 ∧ levels ≠ 3 then .error (.invalidLevels levels)
      else
        let sourceBranch := if dest = "prd" ∧ levels = 3 then "qas" else "dev"
        let targetBranch := dest
        .ok (sourceBranch, targetBranch)

/-! ## The host: path joining and directory tests -/

/-- The parts of the host the classifier and the CPI phase consult: Go `filepath.Join`
of the path elements, and the test `st, err := os.Stat(p); err == nil && st.IsDir()`. -/
structure FileSystem where
  /-- Go `filepath.Join(elem...)`. -/
  Join : List String → String
  /-- The path names an existing directory. -/
  IsDir : String → Bool

/-- Go `filepath.ToSlash` on a host whose `os.PathSeparator` is `sep`. -/
def ToSlash (sep : Char) (s : String) : String :=
  if sep = '/' then s else ⟨s.data.map (fun c => if c = sep then '/' else c)⟩

/-- A Go `map[K]struct{}` is embedded as the duplicate-free list of its keys;
this is `m[k] = struct{}{}`. -/
def setInsert {α : Type} [DecidableEq α] (m : List α) (k : α) : List α :=
  if k ∈ m then m else m ++ [k]

/-! ## artifacts.go -/

/-- Go `knownArtifactKinds`. -/
def knownArtifactKinds : List String :=
  ["iFlows", "ValueMappings", "MessageMappings", "Scripts", "CustomTags"]

/-- The body of the loop of `detectChangedArtifacts` for one changed path: the key the
path contributes, or `none` where the loop says `continue`. -/
def detectKey (sep : Char) (base : String) (p : String) : Option artifactKey :=
  let p := ToSlash sep (TrimSpace p)
  if p = "" ∨ HasPrefix p base = false then none
  else
    let rel := TrimPrefix p base
    match SplitN rel '/' 3 with
    | p0 :: p1 :: _ :: _ =>
      let kind := TrimSpace p0
      let id := TrimSpace p1
      if kind = "" ∨ id = "" then none
      else if kind ∉ knownArtifactKinds then none
      else if Contains id ".json" = true then none
      else some ⟨kind, id⟩
    | _ => none

/-- Go `detectChangedArtifacts`: the artifacts touched by the changed paths. -/
def detectChangedArtifacts (sep : Char) (meta : SyncMetadata) (changedPaths : List String) :
    List artifactKey :=
  let baseFolder := resolveContentFolder meta
  let base := ToSlash sep (Trim baseFolder "/") ++ "/"
  changedPaths.foldl
    (fun keys p =>
      match detectKey sep base p with
      | some k => setInsert keys k
      | none => keys)
    []

/-- Go `kindToEntitySet`. -/
def kindToEntitySet (kind : String) : String :=
  if kind = "iFlows" then "IntegrationDesigntimeArtifacts"
  else if kind = "ValueMappings" then "ValueMappingDesigntimeArtifacts"
  else if kind = "MessageMappings" then "MessageMappingDesigntimeArtifacts"
  else if kind = "Scripts" then "ScriptCollectionDesigntimeArtifacts"
  else ""

/-! ## artifact_inventory.go -/

/-- The closure `deletableKind` of `partitionChangedKeys`. -/
def deletableKind (kind : String) : Bool :=
  kind = "iFlows" || kind = "Scripts" || kind = "ValueMappings" || kind = "MessageMappings"

/-- Go `partitionChangedKeys`: (toUpload, toDelete).  `changed` lists the keys of the
map in the order the `range` loop visits them. -/
def partitionChangedKeys (fs : FileSystem) (repoRoot : String) (meta : SyncMetadata)
    (changed : List artifactKey) : List artifactKey × List artifactKey :=
  let baseFolder := resolveContentFolder meta
  changed.foldl
    (fun (acc : List artifactKey × List artifactKey) k =>
      let artifactDir := fs.Join [repoRoot, baseFolder, k.Kind, k.ID]
      if fs.IsDir artifactDir = true then (setInsert acc.1 k, acc.2)
      else if deletableKind k.Kind = true then (acc.1, setInsert acc.2 k)
      else acc)
    ([], [])

/-! ## transports.go -/

/-- Go `TransportRecord`, the content of `<transportId>.transport.json`.  A nil slice
and an empty slice are both the empty list. -/
structure TransportRecord where
  SchemaVersion : Int
  TransportID : String
  TransportType : String
  PackageID : String
  Branch : String
  CreatedAt : String
  GitCommits : List String
  GitUserName : String
  GitUserEmail : String
  Objects : List SyncObject
  DeletedObjects : List SyncObject
  TransportStatus : String
  Error : String
  UploadRemaining : List artifactKey
  DeleteRemaining : List artifactKey
  DeployRemaining : List deployTarget
deriving DecidableEq, Repr

/-- Go `normalizeTransportType`. -/
def normalizeTransportType (table : Char → Char) (t : String) : String :=
  let t := ToLower table (TrimSpace t)
  if t = "init" ∨ t = "pull" ∨ t = "push" ∨ t = "deliver" then t else "push"

/-- Go `normalizeTransportStatus`. -/
def normalizeTransportStatus (table : Char → Char) (s : String) : String :=
  let s := ToLower table (TrimSpace s)
  if s = "completed" then "completed" else "pending"

/-- Go `TransportStore.PersistTransportRecord`, as far as the record file goes: the
record that is written to `<transportId>.transport.json`, or the error for a blank id.
The directory and the files are taken to be writable. -/
def PersistTransportRecord (table : Char → Char) (rec : TransportRecord) :
    Except String TransportRecord :=
  let id := TrimSpace rec.TransportID
  if id = "" then .error "transportId is required"
  else
    .ok { rec with
      TransportID := id
      SchemaVersion := if rec.SchemaVersion = 0 then 1 else rec.SchemaVersion
      TransportType := normalizeTransportType table rec.TransportType
      TransportStatus := normalizeTransportStatus table rec.TransportStatus }

/-! ## collections.go -/

/-- Go `removeUpload`: the list without the entries equal to `k`. -/
def removeUpload (list : List artifactKey) (k : artifactKey) : List artifactKey :=
  list.filter (fun it => !(decide (it.Kind = k.Kind) && decide (it.ID = k.ID)))

/-- Go `removeDeployTarget`: the list without the entries equal to `d`. -/
def removeDeployTarget (list : List deployTarget) (d : deployTarget) : List deployTarget :=
  list.filter (fun it => !(decide (it.Kind = d.Kind) && decide (it.ID = d.ID)))

/-- A Go `map[string]V` is embedded as an association list with distinct keys;
this is `m[key] = v`. -/
def mapSet {β : Type} (m : List (String × β)) (key : String) (v : β) : List (String × β) :=
  match m with
  | [] => [(key, v)]
  | (k, w) :: rest => if k = key then (k, v) :: rest else (k, w) :: mapSet rest key v

/-- The first two loops of `mergeDeployRemaining`: the map keyed by `Kind + "|" + ID`. -/
def deploySet (m : List (String × deployTarget)) (l : List deployTarget) :
    List (String × deployTarget) :=
  l.foldl
    (fun m d => if d.isZero = true then m else mapSet m (d.Kind ++ "|" ++ d.ID) ⟨d.Kind, d.ID⟩)
    m

/-- Go `mergeDeployRemaining`. -/
def mergeDeployRemaining (existing add : List deployTarget) : List deployTarget :=
  let set := deploySet (deploySet [] existing) add
  sortTargets (set.map Prod.snd)

/-! ## cpix: the CPI client -/

/-- Go `cpix.ArtifactInfo`. -/
structure ArtifactInfo where
  ID : String
  Name : String
  Version : String
  URI : String
  MediaSrc : String
  EditMedia : String
deriving DecidableEq, Repr

/-- An error value handed back by the CPI client: a `*HTTPStatusError` or any other error. -/
inductive CPIError where
  /-- Go `&HTTPStatusError{StatusCode, Status, Body}`. -/
  | http (StatusCode : Int) (Status : String) (Body : String)
  /-- Any other error, with its message. -/
  | other (msg : String)
deriving DecidableEq, Repr

/-- Go `err.Error()`. -/
def CPIError.Error : CPIError → String
  | .http _ status body =>
    if body ≠ "" then "CPI request failed (" ++ status ++ "): " ++ body
    else "CPI request failed (" ++ status ++ ")"
  | .other msg => msg

/-- Go `isHTTPStatus(err, code)`. -/
def isHTTPStatus (err : CPIError) (code : Int) : Bool :=
  match err with
  | .http c _ _ => c = code
  | .other _ => false

/-- Go `cpix.IsNotFound`. -/
def IsNotFound (err : CPIError) : Bool := isHTTPStatus err 404

/-- Go `cpix.IsBadRequest`. -/
def IsBadRequest (err : CPIError) : Bool := isHTTPStatus err 400

/-- Go `escapeODataID`: every single quote is doubled. -/
def escapeODataID (id : String) : String :=
  ⟨id.data.flatMap (fun c => if c = Char.ofNat 39 then [c, c] else [c])⟩

/-- Go `listEndpointForKind`. -/
def listEndpointForKind (packageID kind : String) : Option String :=
  let mainPath := "/api/v1/IntegrationPackages(" ++ String.singleton (Char.ofNat 39) ++
    escapeODataID packageID ++ String.singleton (Char.ofNat 39) ++ ")"
  if kind = "iFlows" then some (mainPath ++ "/IntegrationDesigntimeArtifacts")
  else if kind = "ValueMappings" then some (mainPath ++ "/ValueMappingDesigntimeArtifacts")
  else if kind = "MessageMappings" then some (mainPath ++ "/MessageMappingDesigntimeArtifacts")
  else if kind = "Scripts" then some (mainPath ++ "/ScriptCollectionDesigntimeArtifacts")
  else if kind = "CustomTags" then some (mainPath ++ "/CustomTags")
  else none

/-- The CPI tenant as the engine sees it during one run.  The mutating requests thread
the tenant state `σ`, so the same request may be answered differently when it is
repeated.  The reads are answered once per run: the CSRF handshake is done once, the
artifact list of a kind is fetched at most once, and the content folder is not written
by the CPI phase.  The CSRF token and cookies are fixed for the run and left out of the
requests. -/
structure CPIClient (σ : Type) where
  /-- Lines 25 to 44 of `applyTransportToTenant`: resolve the profile, read the tenant
  key, build the client and fetch the CSRF token; the error message when one fails. -/
  connect : Option String
  /-- Go `Client.DeleteArtifact(entitySet, id, version)`. -/
  DeleteArtifact : σ → String → String → String → Option CPIError × σ
  /-- Go `Client.ListArtifacts(listEndpoint)`: the map from id to artifact. -/
  ListArtifacts : String → Except CPIError (String → Option ArtifactInfo)
  /-- Go `filex.ZipDirToBytes(dir)`. -/
  ZipDirToBytes : String → Except String (List Nat)
  /-- Go `Client.UpdateArtifact(entitySet, info, zipBytes)`. -/
  UpdateArtifact : σ → String → ArtifactInfo → List Nat → Option CPIError × σ
  /-- Go `Client.deployByEndpoint(endpointName, id, "active")`, reached through the four
  `Deploy...DesigntimeArtifact` methods. -/
  deployByEndpoint : σ → String → String → Option CPIError × σ
  /-- The order in which `for kind := range byKind` visits the keys of the map. -/
  rangeKinds : List String → List String
  /-- The `range` loop visits every key once. -/
  rangeKinds_perm : ∀ l, List.Perm (rangeKinds l) l

/-- The three kinds of CPI mutation. -/
inductive Op where
  | delete
  | upload
  | deploy
deriving DecidableEq, Repr

/-- One mutating request sent to the tenant: the operation, the artifact the engine was
working on, the entity set or deploy endpoint addressed, and whether it succeeded. -/
structure CPICall where
  op : Op
  key : artifactKey
  target : String
  ok : Bool
deriving DecidableEq, Repr

/-- Go `deleteArtifactInCPI`: the error, the tenant afterwards and the requests sent. -/
def deleteArtifactInCPI {σ : Type} (client : CPIClient σ) (w : σ) (kind id : String) :
    Option CPIError × σ × List CPICall :=
  if kind = "iFlows" then
    match client.DeleteArtifact w "IntegrationAdapterDesigntimeArtifacts" id "" with
    | (none, w1) =>
      (none, w1, [⟨.delete, ⟨kind, id⟩, "IntegrationAdapterDesigntimeArtifacts", true⟩])
    | (some err, w1) =>
      if IsNotFound err || IsBadRequest err then
        match client.DeleteArtifact w1 "IntegrationDesigntimeArtifacts" id "active" with
        | (e2, w2) =>
          (e2, w2, [⟨.delete, ⟨kind, id⟩, "IntegrationAdapterDesigntimeArtifacts", false⟩,
            ⟨.delete, ⟨kind, id⟩, "IntegrationDesigntimeArtifacts", e2.isNone⟩])
      else
        (some err, w1, [⟨.delete, ⟨kind, id⟩, "IntegrationAdapterDesigntimeArtifacts", false⟩])
  else if kind = "ValueMappings" then
    match client.DeleteArtifact w "ValueMappingDesigntimeArtifacts" id "active" with
    | (e, w1) => (e, w1, [⟨.delete, ⟨kind, id⟩, "ValueMappingDesigntimeArtifacts", e.isNone⟩])
  else if kind = "MessageMappings" then
    match client.DeleteArtifact w "MessageMappingDesigntimeArtifacts" id "active" with
    | (e, w1) => (e, w1, [⟨.delete, ⟨kind, id⟩, "MessageMappingDesigntimeArtifacts", e.isNone⟩])
  else if kind = "Scripts" then
    match client.DeleteArtifact w "ScriptCollectionDesigntimeArtifacts" id "active" with
    | (e, w1) =>
      (e, w1, [⟨.delete, ⟨kind, id⟩, "ScriptCollectionDesigntimeArtifacts", e.isNone⟩])
  else (none, w, [])

/-! ## cpi_apply.go: the CPI phase -/

/-- A place where the CPI phase can stop with an error. -/
inductive Step where
  /-- Before the first mutation: profile, tenant key or CSRF token. -/
  | connect
  /-- In `deleteArtifactInCPI` for the key. -/
  | delete (k : artifactKey)
  /-- In `ListArtifacts` for the kind. -/
  | list (kind : String)
  /-- In `ZipDirToBytes` for the directory of the key. -/
  | zip (k : artifactKey)
  /-- In `UpdateArtifact` for the key. -/
  | upload (k : artifactKey)
  /-- In the deploy request for the target. -/
  | deploy (d : deployTarget)
deriving DecidableEq, Repr

/-- The state of one run of the CPI phase: the transport record (`*rec` in the source), the tenant,
the mutating requests sent so far, the records handed to `PersistTransportRecord` so
far, the three counters, and the step and message of the error the run stopped with. -/
structure Run (σ : Type) where
  record : TransportRecord
  tenant : σ
  calls : List CPICall
  persisted : List TransportRecord
  deleted : Int
  updated : Int
  deployed : Int
  failed : Option (Step × String)

/-- The error the run returns (`retErr`), by its message. -/
def Run.retErr {σ : Type} (r : Run σ) : Option String := r.failed.map Prod.snd

/-- The statement `_, _ = store.PersistTransportRecord(*rec)`. -/
def Run.persist {σ : Type} (r : Run σ) : Run σ :=
  { r with persisted := r.persisted ++ [r.record] }

/-- The error exit of the phase: `rec.TransportStatus = "pending"`,
`rec.Error = err.Error()`, persist, return the error. -/
def Run.fail {σ : Type} (r : Run σ) (s : Step) (msg : String) : Run σ :=
  { r with
    record := { r.record with TransportStatus := "pending", Error := msg }
    persisted := r.persisted ++ [{ r.record with TransportStatus := "pending", Error := msg }]
    failed := some (s, msg) }

/-- A `for _, a := range xs` loop whose body may return from the function. -/
def forEach {σ α : Type} (body : α → Run σ → Run σ) : List α → Run σ → Run σ
  | [], r => r
  | a :: as, r =>
    let r1 := body a r
    if r1.failed.isSome = true then r1 else forEach body as r1

/-- The body of the delete loop. -/
def deleteStep {σ : Type} (client : CPIClient σ) (k : artifactKey) (r : Run σ) : Run σ :=
  match deleteArtifactInCPI client r.tenant k.Kind k.ID with
  | (some err, w, cs) =>
    Run.fail { r with tenant := w, calls := r.calls ++ cs } (.delete k) err.Error
  | (none, w, cs) =>
    Run.persist { r with
      tenant := w
      calls := r.calls ++ cs
      deleted := r.deleted + 1
      record := { r.record with DeleteRemaining := removeUpload r.record.DeleteRemaining k } }

/-- The map `artsByKind`: for a kind, the artifact list of the tenant. -/
abbrev ArtsByKind := String → Option (String → Option ArtifactInfo)

/-- The loop `for kind := range byKind` that fills `artsByKind`; on an error of
`ListArtifacts` it gives the kind and the error. -/
def listArtifactsByKind {σ : Type} (client : CPIClient σ) (packageID : String) :
    List String → ArtsByKind → Except (String × CPIError) ArtsByKind
  | [], arts => .ok arts
  | kind :: ks, arts =>
    match listEndpointForKind packageID kind with
    | none => listArtifactsByKind client packageID ks arts
    | some endpoint =>
      match client.ListArtifacts endpoint with
      | .error err => .error (kind, err)
      | .ok m => listArtifactsByKind client packageID ks (fun k => if k = kind then some m else arts k)

/-- The kinds after whose upload a deploy is recorded:
`case "iFlows", "Scripts", "ValueMappings", "MessageMappings"`. -/
def deployRequiredKind (kind : String) : Bool :=
  kind = "iFlows" || kind = "Scripts" || kind = "ValueMappings" || kind = "MessageMappings"

/-- The exit `continue` of the upload loop after a warning: drop the key, persist. -/
def skipUpload {σ : Type} (k : artifactKey) (r : Run σ) : Run σ :=
  Run.persist { r with record := { r.record with UploadRemaining := removeUpload r.record.UploadRemaining k } }

/-- The body of the upload loop. -/
def uploadStep {σ : Type} (client : CPIClient σ) (fs : FileSystem) (repoRoot : String)
    (meta : SyncMetadata) (artsByKind : ArtsByKind) (k : artifactKey) (r : Run σ) : Run σ :=
  match (artsByKind k.Kind).bind (fun arts => arts k.ID) with
  | none => skipUpload k r
  | some art =>
    let artifactDir := fs.Join [repoRoot, meta.BaseFolder, k.Kind, k.ID]
    if fs.IsDir artifactDir = false then skipUpload k r
    else
      match client.ZipDirToBytes artifactDir with
      | .error msg => Run.fail r (.zip k) msg
      | .ok zipBytes =>
        let entitySet := kindToEntitySet k.Kind
        if entitySet = "" then skipUpload k r
        else
          match client.UpdateArtifact r.tenant entitySet art zipBytes with
          | (some err, w) =>
            Run.fail { r with tenant := w, calls := r.calls ++ [⟨.upload, k, entitySet, false⟩] }
              (.upload k) err.Error
          | (none, w) =>
            Run.persist { r with
              tenant := w
              calls := r.calls ++ [⟨.upload, k, entitySet, true⟩]
              updated := r.updated + 1
              record := { r.record with
                UploadRemaining := removeUpload r.record.UploadRemaining k
                DeployRemaining :=
                  if deployRequiredKind k.Kind = true then
                    mergeDeployRemaining r.record.DeployRemaining [⟨k.Kind, k.ID⟩]
                  else r.record.DeployRemaining } }

/-- The deploy endpoint the `switch d.Kind` of the deploy loop selects. -/
def deployEndpointForKind (kind : String) : Option String :=
  if kind = "iFlows" then some "DeployIntegrationDesigntimeArtifact"
  else if kind = "Scripts" then some "DeployScriptCollectionDesigntimeArtifact"
  else if kind = "ValueMappings" then some "DeployValueMappingDesigntimeArtifact"
  else if kind = "MessageMappings" then some "DeployMessageMappingDesigntimeArtifact"
  else none

/-- The body of the deploy loop. -/
def deployStep {σ : Type} (client : CPIClient σ) (d : deployTarget) (r : Run σ) : Run σ :=
  match deployEndpointForKind d.Kind with
  | none =>
    Run.persist { r with
      record := { r.record with DeployRemaining := removeDeployTarget r.record.DeployRemaining d } }
  | some endpoint =>
    match client.deployByEndpoint r.tenant endpoint d.ID with
    | (some err, w) =>
      Run.fail { r with tenant := w, calls := r.calls ++ [⟨.deploy, ⟨d.Kind, d.ID⟩, endpoint, false⟩] }
        (.deploy d) err.Error
    | (none, w) =>
      Run.persist { r with
        tenant := w
        calls := r.calls ++ [⟨.deploy, ⟨d.Kind, d.ID⟩, endpoint, true⟩]
        deployed := r.deployed + 1
        record := { r.record with DeployRemaining := removeDeployTarget r.record.DeployRemaining d } }

/-- The keys of the map `byKind`: the kinds that occur in `rec.UploadRemaining`. -/
def uploadKinds (l : List artifactKey) : List String :=
  l.foldl (fun m k => setInsert m k.Kind) []

/-- The part of the phase after the delete loop: lists, uploads, deploys, completion. -/
def uploadAndDeploy {σ : Type} (client : CPIClient σ) (fs : FileSystem) (repoRoot : String)
    (meta : SyncMetadata) (r1 : Run σ) : Run σ :=
  match listArtifactsByKind client meta.PackageID
      (client.rangeKinds (uploadKinds r1.record.UploadRemaining)) (fun _ => none) with
  | .error (kind, err) => Run.fail r1 (.list kind) err.Error
  | .ok artsByKind =>
    let r2 := forEach (uploadStep client fs repoRoot meta artsByKind)
      (sortKeys r1.record.UploadRemaining) r1
    if r2.failed.isSome = true then r2
    else
      let r3 := forEach (deployStep client) (sortTargets r2.record.DeployRemaining) r2
      if r3.failed.isSome = true then r3
      else Run.persist { r3 with record := { r3.record with TransportStatus := "completed", Error := "" } }

/-- Go `applyTransportToTenant` for a non-nil record: delete, upload and deploy against
the tenant with the transport record as retry state.  The run starts in tenant state
`w`; the result holds the record as the run leaves it, the requests sent, the records
persisted, the counters and the error. -/
def applyTransportToTenant {σ : Type} (client : CPIClient σ) (fs : FileSystem)
    (repoRoot : String) (meta : SyncMetadata) (rec : TransportRecord) (w : σ) : Run σ :=
  match client.connect with
  | some msg => ⟨rec, w, [], [], 0, 0, 0, some (.connect, msg)⟩
  | none =>
    let r1 := forEach (deleteStep client) (sortKeys rec.DeleteRemaining) ⟨rec, w, [], [], 0, 0, 0, none⟩
    if r1.failed.isSome = true then r1
    else uploadAndDeploy client fs repoRoot meta r1

/-- The CPI phase inlined in `runSyncPush` (service_push.go lines 261 to 438): the same
statements as `applyTransportToTenant`, on the record planned by the push. -/
def runSyncPushCPI {σ : Type} (client : CPIClient σ) (fs : FileSystem)
    (repoRoot : String) (meta : SyncMetadata) (rec : TransportRecord) (w : σ) : Run σ :=
  applyTransportToTenant client fs repoRoot meta rec w

/-- The artifact the upload loop finds for a key: `arts := artsByKind[k.Kind]; arts[k.ID]`. -/
def lookupArtifact (artsByKind : ArtsByKind) (k : artifactKey) : Option ArtifactInfo :=
  (artsByKind k.Kind).bind (fun arts => arts k.ID)

/-- The upload loop does not skip the key: the tenant lists the artifact, its directory
exists, and its kind has an entity set. -/
def uploadableIn (fs : FileSystem) (repoRoot : String) (meta : SyncMetadata)
    (artsByKind : ArtsByKind) (k : artifactKey) : Bool :=
  (lookupArtifact artsByKind k).isSome &&
  fs.IsDir (fs.Join [repoRoot, meta.BaseFolder, k.Kind, k.ID]) &&
  decide (kindToEntitySet k.Kind ≠ "")

/-- The deploy list after the uploads of `uploaded`, in that order, starting from `dep`:
each upload runs `mergeDeployRemaining(rec.DeployRemaining, {Kind, ID})`. -/
def deployPlan (dep : List deployTarget) (uploaded : List artifactKey) : List deployTarget :=
  uploaded.foldl (fun acc k => mergeDeployRemaining acc [⟨k.Kind, k.ID⟩]) dep

/-! ## Loop invariants of the CPI phase

These predicates describe a run that has processed the entries `pre` of a loop, started
in the state `r0`, without an error. -/

/-- The (operation, artifact) a request belongs to. -/
def CPICall.mutation (c : CPICall) : Op × artifactKey := (c.op, c.key)

/-- The state of the delete loop after the entries `pre`. -/
def DeleteInv {σ : Type} (r0 : Run σ) (pre : List artifactKey) (r : Run σ) : Prop :=
  r.failed = none ∧
  r.record = { r0.record with
    DeleteRemaining := r0.record.DeleteRemaining.filter (fun x => decide (x ∉ pre)) } ∧
  ∃ cs snaps, r.calls = r0.calls ++ cs ∧ r.persisted = r0.persisted ++ snaps ∧
    (∀ c ∈ cs, c.op = Op.delete ∧ c.key ∈ pre) ∧
    ((∀ c ∈ cs, c.ok = true) →
      cs.map CPICall.mutation =
        (pre.filter (fun k => deletableKind k.Kind)).map (fun k => (Op.delete, k))) ∧
    (∀ x ∈ snaps, pre ≠ [] ∧ x.TransportStatus = r0.record.TransportStatus)

/-- The request the upload loop sends for a key it does not skip, when it succeeds. -/
def uploadCall (k : artifactKey) : CPICall := ⟨Op.upload, k, kindToEntitySet k.Kind, true⟩

/-- The state of the upload loop after the entries `pre`. -/
def UploadInv {σ : Type} (fs : FileSystem) (repoRoot : String) (meta : SyncMetadata)
    (artsByKind : ArtsByKind) (r0 : Run σ) (pre : List artifactKey) (r : Run σ) : Prop :=
  r.failed = none ∧
  r.record = { r0.record with
    UploadRemaining := r0.record.UploadRemaining.filter (fun x => decide (x ∉ pre))
    DeployRemaining := deployPlan r0.record.DeployRemaining
      (pre.filter (uploadableIn fs repoRoot meta artsByKind)) } ∧
  r.calls = r0.calls ++ (pre.filter (uploadableIn fs repoRoot meta artsByKind)).map uploadCall ∧
  ∃ snaps, r.persisted = r0.persisted ++ snaps ∧
    (∀ x ∈ snaps, pre ≠ [] ∧ x.TransportStatus = r0.record.TransportStatus)

/-- The request the deploy loop sends for a target of a deployable kind, when it succeeds. -/
def deployCall (d : deployTarget) : CPICall :=
  ⟨Op.deploy, ⟨d.Kind, d.ID⟩, (deployEndpointForKind d.Kind).getD "", true⟩

/-- The deploy loop sends a request for the target: its kind has a deploy endpoint. -/
def deployableKind (kind : String) : Bool := (deployEndpointForKind kind).isSome

/-- The state of the deploy loop after the entries `pre`. -/
def DeployInv {σ : Type} (r0 : Run σ) (pre : List deployTarget) (r : Run σ) : Prop :=
  r.failed = none ∧
  r.record = { r0.record with
    DeployRemaining := r0.record.DeployRemaining.filter (fun x => decide (x ∉ pre)) } ∧
  r.calls = r0.calls ++ (pre.filter (fun d => deployableKind d.Kind)).map deployCall ∧
  ∃ snaps, r.persisted = r0.persisted ++ snaps ∧
    (∀ x ∈ snaps, pre ≠ [] ∧ x.TransportStatus = r0.record.TransportStatus)

/-- What the CPI phase, started on `rec`, hands to `PersistTransportRecord`: a pending
record, or a record with the status of `rec` while `rec` still has work planned, or a
completed record without remaining work. -/
def SnapshotOK (rec x : TransportRecord) : Prop :=
  x.TransportStatus = "pending" ∨
  (x.TransportStatus = rec.TransportStatus ∧
    (rec.DeleteRemaining ≠ [] ∨ rec.UploadRemaining ≠ [] ∨ rec.DeployRemaining ≠ [])) ∨
  (x.TransportStatus = "completed" ∧
    x.UploadRemaining = [] ∧ x.DeleteRemaining = [] ∧ x.DeployRemaining = [])

/-- The requests of a delete loop over the delete list of `rec` that ran to its end. -/
def DeleteCalls (rec : TransportRecord) (csd : List CPICall) : Prop :=
  (∀ c ∈ csd, c.op = Op.delete ∧ c.key ∈ rec.DeleteRemaining) ∧
  ((∀ c ∈ csd, c.ok = true) →
    csd.map CPICall.mutation =
      ((sortKeys rec.DeleteRemaining).filter (fun k => deletableKind k.Kind)).map
        (fun k => (Op.delete, k)))

/-! ## The plan of a run, read off the record and the answers of the tenant -/

/-- The artifact the tenant lists for a key: the entry for the id in the list fetched
from the endpoint of the kind; `none` when the kind has no endpoint, the list cannot be
fetched, or the list has no such id. -/
def listedArtifact {σ : Type} (client : CPIClient σ) (packageID : String) (k : artifactKey) :
    Option ArtifactInfo :=
  match listEndpointForKind packageID k.Kind with
  | none => none
  | some endpoint =>
    match client.ListArtifacts endpoint with
    | .ok m => m k.ID
    | .error _ => none

/-- The upload loop sends a request for the key: the tenant lists the artifact, the
directory `filepath.Join(repoRoot, meta.BaseFolder, kind, id)` exists, and the kind has
an entity set. -/
def uploadable {σ : Type} (client : CPIClient σ) (fs : FileSystem) (repoRoot : String)
    (meta : SyncMetadata) (k : artifactKey) : Bool :=
  (listedArtifact client meta.PackageID k).isSome &&
  fs.IsDir (fs.Join [repoRoot, meta.BaseFolder, k.Kind, k.ID]) &&
  decide (kindToEntitySet k.Kind ≠ "")

/-- The keys the upload loop uploads, in the order of the loop. -/
def uploadsPlanned {σ : Type} (client : CPIClient σ) (fs : FileSystem) (repoRoot : String)
    (meta : SyncMetadata) (rec : TransportRecord) : List artifactKey :=
  (sortKeys rec.UploadRemaining).filter (uploadable client fs repoRoot meta)

/-- The deploy targets of a run: `rec.DeployRemaining` as it stands when the deploy loop
starts, after every upload has merged its artifact into it. -/
def deployTargets {σ : Type} (client : CPIClient σ) (fs : FileSystem) (repoRoot : String)
    (meta : SyncMetadata) (rec : TransportRecord) : List deployTarget :=
  deployPlan rec.DeployRemaining (uploadsPlanned client fs repoRoot meta rec)

/-- The mutations of a run in which nothing fails: a delete for each entry of the sorted
delete list whose kind has a delete endpoint, then an upload for each entry of the
sorted upload list that is not skipped, then a deploy for each entry of the sorted
deploy targets whose kind has a deploy endpoint. -/
def plannedMutations {σ : Type} (client : CPIClient σ) (fs : FileSystem) (repoRoot : String)
    (meta : SyncMetadata) (rec : TransportRecord) : List (Op × artifactKey) :=
  ((sortKeys rec.DeleteRemaining).filter (fun k => deletableKind k.Kind)).map
    (fun k => (Op.delete, k)) ++
  (uploadsPlanned client fs repoRoot meta rec).map (fun k => (Op.upload, k)) ++
  ((sortTargets (deployTargets client fs repoRoot meta rec)).filter
    (fun d => deployableKind d.Kind)).map (fun d => (Op.deploy, ⟨d.Kind, d.ID⟩))

/-- The list `remaining` is what is left of `planned` when a loop over the sorted copy
of `planned` stops at the entry `k`: nothing is added, no entry before `k` is left,
every entry after `k` is left, `k` itself is left unless an earlier copy of it was
already processed, and for a duplicate-free plan exactly the entries not before `k`
are left. -/
def RemainingFrom {α : Type} [DecidableEq α] (less : α → α → Bool) (planned : List α) (k : α)
    (remaining : List α) : Prop :=
  List.Sublist remaining planned ∧
  (∀ x, less x k = true → x ∉ remaining) ∧
  (∀ x ∈ planned, less k x = true → x ∈ remaining) ∧
  (planned.count k ≤ 1 → k ∈ remaining) ∧
  (planned.Nodup → remaining = planned.filter (fun x => !less x k))

/-! ## Concrete runs -/

/-- A tenant without state that lists the artifacts given by `listed` under every
endpoint and answers every delete, update and deploy request with the given results. -/
def fixedClient (listed : String → Option ArtifactInfo)
    (deleteResult updateResult deployResult : Option CPIError) : CPIClient Unit where
  connect := none
  DeleteArtifact := fun w _ _ _ => (deleteResult, w)
  ListArtifacts := fun _ => .ok listed
  ZipDirToBytes := fun _ => .ok []
  UpdateArtifact := fun w _ _ _ => (updateResult, w)
  deployByEndpoint := fun w _ _ => (deployResult, w)
  rangeKinds := fun l => l
  rangeKinds_perm := fun l => List.Perm.refl l

/-- A tenant that lists every id. -/
def listsAll : String → Option ArtifactInfo := fun id => some ⟨id, id, "1.0.0", "", "", ""⟩

/-- A tenant that lists nothing. -/
def listsNone : String → Option ArtifactInfo := fun _ => none

/-- A host on which every artifact directory exists. -/
def allDirs : FileSystem := ⟨fun elems => String.intercalate "/" elems, fun _ => true⟩

/-- A three-tier package. -/
def pkgMeta : SyncMetadata :=
  ⟨1, "p", 3, "pkg", "Package", "IntegrationPackage", "r", "github", "t"⟩

/-- A pending push record with the given remaining work. -/
def pendingRecord (upload delete : List artifactKey) (deploy : List deployTarget) :
    TransportRecord :=
  { SchemaVersion := 1, TransportID := "20240101T000000000Z", TransportType := "push",
    PackageID := "pkg", Branch := "dev", CreatedAt := "2024-01-01T00:00:00Z",
    GitCommits := [], GitUserName := "", GitUserEmail := "", Objects := [],
    DeletedObjects := [], TransportStatus := "pending", Error := "",
    UploadRemaining := upload, DeleteRemaining := delete, DeployRemaining := deploy }

/-- The answer of a tenant that is out of order. -/
def serverError : CPIError := .http 500 "500 Internal Server Error" "boom"

/-- A tenant whose state counts the update requests it has received: it accepts the
first `okUpdates` of them and answers the later ones with an HTTP 500.  It accepts every
delete request, and every deploy request when `deployOk` holds. -/
def countingClient (listed : String → Option ArtifactInfo) (okUpdates : Nat) (deployOk : Bool) :
    CPIClient Nat where
  connect := none
  DeleteArtifact := fun n _ _ _ => (none, n)
  ListArtifacts := fun _ => .ok listed
  ZipDirToBytes := fun _ => .ok []
  UpdateArtifact := fun n _ _ _ => if n < okUpdates then (none, n + 1) else (some serverError, n + 1)
  deployByEndpoint := fun n _ _ => if deployOk = true then (none, n) else (some serverError, n)
  rangeKinds := fun l => l
  rangeKinds_perm := fun l => List.Perm.refl l

/-- One step of the CPI phase takes the record `a` to the record `b`: the upload and
delete lists do not grow, and the deploy list grows by at most one entry. -/
def StepShrinks (a b : TransportRecord) : Prop :=
  b.UploadRemaining.length ≤ a.UploadRemaining.length ∧
  b.DeleteRemaining.length ≤ a.DeleteRemaining.length ∧
  b.DeployRemaining.length ≤ a.DeployRemaining.length + 1

/-! ## text.go, collections.go, artifacts.go: merging -/

/-- The `less` closure on `SyncObject`. -/
def objectLess (a b : SyncObject) : Bool := lessKindID a.Kind a.ID b.Kind b.ID

/-- The copy of an object list sorted by (Kind, ID). -/
def sortObjects (l : List SyncObject) : List SyncObject := sortSlice objectLess l

/-- Go `uniqueSortedStrings`: the trimmed, non-empty strings of both lists, each once,
sorted by `sort.Strings`. -/
def uniqueSortedStrings (a b : List String) : List String :=
  sortSlice strLt
    ((a ++ b).foldl (fun set s => if TrimSpace s = "" then set else setInsert set (TrimSpace s)) [])

/-- Go `mergeStringList`. -/
def mergeStringList (a b : List String) : List String := uniqueSortedStrings a b

/-- Go `mergeUpload`: the non-zero keys of both collections, each once, sorted. -/
def mergeUpload (existing add : List artifactKey) : List artifactKey :=
  sortKeys ((existing ++ add).foldl (fun set k => if k.isZero = true then set else setInsert set k) [])

/-- The first two loops of `mergeObjects`: the map keyed by `Kind + "|" + ID`. -/
def objectSet (m : List (String × SyncObject)) (l : List SyncObject) :
    List (String × SyncObject) :=
  l.foldl
    (fun m o => if o.isZero = true then m else mapSet m (o.Kind ++ "|" ++ o.ID) ⟨o.Kind, o.ID⟩)
    m

/-- Go `mergeObjects`. -/
def mergeObjects (existing add : List SyncObject) : List SyncObject :=
  sortObjects ((objectSet (objectSet [] existing) add).map Prod.snd)

/-- Go `keysToObjects`: the non-zero keys of the map as objects, sorted. -/
def keysToObjects (m : List artifactKey) : List SyncObject :=
  sortObjects ((m.filter (fun k => !k.isZero)).map (fun k => ⟨k.Kind, k.ID⟩))

/-- Go `keysToObjectsFromSlice`. -/
def keysToObjectsFromSlice (list : List artifactKey) : List SyncObject :=
  sortObjects ((objectSet [] (list.map (fun k => ⟨k.Kind, k.ID⟩))).map Prod.snd)

/-- Go `mapKeysToSortedSlice`. -/
def mapKeysToSortedSlice (m : List artifactKey) : List artifactKey := sortKeys m

/-! ## The transport records the four commands persist -/

/-- Go `TransportStore.LoadRecord` after the JSON decoding of the file: the
normalisation of the decoded record. -/
def LoadRecord (table : Char → Char) (r : TransportRecord) : TransportRecord :=
  { r with
    TransportType := normalizeTransportType table r.TransportType
    TransportStatus := normalizeTransportStatus table r.TransportStatus }

/-- The records of the list that `PersistTransportRecord` writes, as written. -/
def writtenRecords (table : Char → Char) (handed : List TransportRecord) :
    List TransportRecord :=
  handed.filterMap (fun rec =>
    match PersistTransportRecord table rec with
    | .ok written => some written
    | .error _ => none)

/-- Go `writeInitTransport` (init and the bootstrap of an environment branch): the
record it hands to `PersistTransportRecord`; `objs` is the inventory of the export. -/
def writeInitTransport (objs : List SyncObject) (packageID branch transportID createdAt : String) :
    TransportRecord :=
  { SchemaVersion := 1, TransportID := transportID, TransportType := "init",
    PackageID := packageID, Branch := branch, CreatedAt := createdAt, GitCommits := [],
    GitUserName := "", GitUserEmail := "", Objects := objs, DeletedObjects := [],
    TransportStatus := "completed", Error := "", UploadRemaining := [],
    DeleteRemaining := [], DeployRemaining := [] }

/-- What a command has found out by the time it builds its transport record. -/
structure TransportInputs where
  /-- The transport id and creation time chosen for a new record. -/
  transportID : String
  createdAt : String
  packageID : String
  branch : String
  commitsToPush : List String
  gitUserName : String
  gitUserEmail : String
  /-- The keys to upload, or for pull the changed keys. -/
  keysToUpload : List artifactKey
  /-- The keys to delete, or for pull the deleted keys. -/
  keysToDelete : List artifactKey

/-- Lines 212 to 249 of `runSyncPull`: the records handed to `PersistTransportRecord`.
`gitPush` is the error of `git push origin <branch>`, if any. -/
def runSyncPullRecords (table : Char → Char) (inp : TransportInputs) (gitPush : Option String) :
    List TransportRecord :=
  let rec0 : TransportRecord :=
    { SchemaVersion := 1, TransportID := inp.transportID, TransportType := "pull",
      PackageID := inp.packageID, Branch := inp.branch, CreatedAt := inp.createdAt,
      GitCommits := inp.commitsToPush, GitUserName := inp.gitUserName,
      GitUserEmail := inp.gitUserEmail, Objects := keysToObjects inp.keysToUpload,
      DeletedObjects := keysToObjects inp.keysToDelete, TransportStatus := "pending",
      Error := "", UploadRemaining := [], DeleteRemaining := [], DeployRemaining := [] }
  match PersistTransportRecord table rec0 with
  | .error _ => [rec0]
  | .ok _ =>
    match gitPush with
    | some msg => [rec0, { rec0 with TransportStatus := "pending", Error := msg }]
    | none => [rec0, { rec0 with TransportStatus := "completed", Error := "" }]

/-- Lines 199 to 205 of `runSyncPush`: the commits and the git user merged into the
pending record. -/
def resumeCommits (r : TransportRecord) (inp : TransportInputs) : TransportRecord :=
  { r with
    GitCommits := mergeStringList r.GitCommits inp.commitsToPush
    GitUserName := if r.GitUserName = "" then inp.gitUserName else r.GitUserName
    GitUserEmail := if r.GitUserEmail = "" then inp.gitUserEmail else r.GitUserEmail }

/-- Lines 206 to 209 of `runSyncPush`: the new upload keys merged into the pending record. -/
def resumeUploads (r : TransportRecord) (inp : TransportInputs) : TransportRecord :=
  if inp.keysToUpload.length > 0 then
    { r with
      UploadRemaining := mergeUpload r.UploadRemaining inp.keysToUpload
      Objects := mergeObjects r.Objects (keysToObjects inp.keysToUpload) }
  else r

/-- Lines 210 to 213 of `runSyncPush`: the new delete keys merged into the pending record. -/
def resumeDeletes (r : TransportRecord) (inp : TransportInputs) : TransportRecord :=
  if inp.keysToDelete.length > 0 then
    { r with
      DeleteRemaining := mergeUpload r.DeleteRemaining inp.keysToDelete
      DeletedObjects := mergeObjects r.DeletedObjects (keysToObjects inp.keysToDelete) }
  else r

/-- Lines 215 to 220 of `runSyncPush`: objects rebuilt from the remaining lists when an
older pending record has none. -/
def resumeObjects (r : TransportRecord) : TransportRecord :=
  let r1 :=
    if r.Objects.length = 0 ∧ r.UploadRemaining.length > 0 then
      { r with Objects := mergeObjects r.Objects (keysToObjectsFromSlice r.UploadRemaining) }
    else r
  if r1.DeletedObjects.length = 0 ∧ r1.DeleteRemaining.length > 0 then
    { r1 with
      DeletedObjects := mergeObjects r1.DeletedObjects (keysToObjectsFromSlice r1.DeleteRemaining) }
  else r1

/-- Lines 221 to 223 of `runSyncPush`: a completed record that is resumed is pending again. -/
def resumeStatus (r : TransportRecord) : TransportRecord :=
  if r.TransportStatus = "completed" then { r with TransportStatus := "pending" } else r

/-- Lines 190 to 253 of `runSyncPush`: the transport record planned for the CPI phase,
or `none` where the command returns because nothing concerns CPI.  `pending` is the
decoded file of the pending push record, if there is one. -/
def runSyncPushPlan (table : Char → Char) (pending : Option TransportRecord)
    (inp : TransportInputs) : Option TransportRecord :=
  match pending with
  | some stored =>
    some (resumeStatus (resumeObjects (resumeDeletes (resumeUploads
      (resumeCommits (LoadRecord table stored) inp) inp) inp)))
  | none =>
    if inp.keysToUpload.length = 0 ∧ inp.keysToDelete.length = 0 then none
    else
      some
        { SchemaVersion := 1, TransportID := inp.transportID, TransportType := "push",
          PackageID := inp.packageID, Branch := inp.branch, CreatedAt := inp.createdAt,
          GitCommits := inp.commitsToPush, GitUserName := inp.gitUserName,
          GitUserEmail := inp.gitUserEmail, Objects := keysToObjects inp.keysToUpload,
          DeletedObjects := keysToObjects inp.keysToDelete, TransportStatus := "pending",
          Error := "", UploadRemaining := mapKeysToSortedSlice inp.keysToUpload,
          DeleteRemaining := mapKeysToSortedSlice inp.keysToDelete, DeployRemaining := [] }

/-- Lines 190 to 438 of `runSyncPush`: the records handed to `PersistTransportRecord`,
by the plan and then by the CPI phase. -/
def runSyncPushRecords {σ : Type} (table : Char → Char) (client : CPIClient σ)
    (fs : FileSystem) (repoRoot : String) (meta : SyncMetadata)
    (pending : Option TransportRecord) (inp : TransportInputs) (w : σ) : List TransportRecord :=
  match runSyncPushPlan table pending inp with
  | none => []
  | some rec =>
    match PersistTransportRecord table rec with
    | .error _ => [rec]
    | .ok _ => rec :: (runSyncPushCPI client fs repoRoot meta rec w).persisted

/-- Lines 157 to 271 of `runSyncDeliver`: the records handed to
`PersistTransportRecord`.  With a pending deliver record (`pending`, the decoded file)
the command resumes it; otherwise it plans a new record, persists it and pushes the
target branch (`gitPush` is the error of that push, if any).  Then comes the CPI phase,
and after its success one more persist. -/
def runSyncDeliverRecords {σ : Type} (table : Char → Char) (client : CPIClient σ)
    (fs : FileSystem) (repoRoot : String) (meta : SyncMetadata)
    (pending : Option TransportRecord) (inp : TransportInputs) (gitPush : Option String)
    (w : σ) : List TransportRecord :=
  match pending with
  | some stored =>
    let run := applyTransportToTenant client fs repoRoot meta (LoadRecord table stored) w
    if run.failed.isSome = true then run.persisted else run.persisted ++ [run.record]
  | none =>
    let rec0 : TransportRecord :=
      { SchemaVersion := 1, TransportID := inp.transportID, TransportType := "deliver",
        PackageID := inp.packageID, Branch := inp.branch, CreatedAt := inp.createdAt,
        GitCommits := inp.commitsToPush, GitUserName := inp.gitUserName,
        GitUserEmail := inp.gitUserEmail, Objects := keysToObjects inp.keysToUpload,
        DeletedObjects := keysToObjects inp.keysToDelete, TransportStatus := "pending",
        Error := "", UploadRemaining := mapKeysToSortedSlice inp.keysToUpload,
        DeleteRemaining := mapKeysToSortedSlice inp.keysToDelete, DeployRemaining := [] }
    match PersistTransportRecord table rec0 with
    | .error _ => [rec0]
    | .ok _ =>
      match gitPush with
      | some msg => [rec0, { rec0 with TransportStatus := "pending", Error := msg }]
      | none =>
        let run := applyTransportToTenant client fs repoRoot meta rec0 w
        if run.failed.isSome = true then rec0 :: run.persisted
        else rec0 :: (run.persisted ++ [run.record])

/-- One run of a command of the engine, as far as it persists transport records. -/
inductive EngineRun (σ : Type) where
  /-- `init`, or the bootstrap of a missing environment branch by `deliver`. -/
  | init (objs : List SyncObject) (packageID branch transportID createdAt : String)
  /-- `pull`. -/
  | pull (inp : TransportInputs) (gitPush : Option String)
  /-- `push`. -/
  | push (client : CPIClient σ) (fs : FileSystem) (repoRoot : String) (meta : SyncMetadata)
      (pending : Option TransportRecord) (inp : TransportInputs) (w : σ)
  /-- `deliver`. -/
  | deliver (client : CPIClient σ) (fs : FileSystem) (repoRoot : String) (meta : SyncMetadata)
      (pending : Option TransportRecord) (inp : TransportInputs) (gitPush : Option String) (w : σ)
  /-- The CPI phase on its own, on the record `rec`. -/
  | cpiPhase (client : CPIClient σ) (fs : FileSystem) (repoRoot : String) (meta : SyncMetadata)
      (rec : TransportRecord) (w : σ)

/-- The records a run writes to the transport store, in order. -/
def EngineRun.persists {σ : Type} (table : Char → Char) : EngineRun σ → List TransportRecord
  | .init objs packageID branch transportID createdAt =>
    writtenRecords table [writeInitTransport objs packageID branch transportID createdAt]
  | .pull inp gitPush => writtenRecords table (runSyncPullRecords table inp gitPush)
  | .push client fs repoRoot meta pending inp w =>
    writtenRecords table (runSyncPushRecords table client fs repoRoot meta pending inp w)
  | .deliver client fs repoRoot meta pending inp gitPush w =>
    writtenRecords table
      (runSyncDeliverRecords table client fs repoRoot meta pending inp gitPush w)
  | .cpiPhase client fs repoRoot meta rec w =>
    writtenRecords table (applyTransportToTenant client fs repoRoot meta rec w).persisted

/-- The record a run starts the CPI phase from without having built or reset it itself:
the stored record a deliver resumes, or the argument of the phase run on its own. -/
def EngineRun.resumed {σ : Type} (table : Char → Char) : EngineRun σ → Option TransportRecord
  | .deliver _ _ _ _ (some stored) _ _ _ => some (LoadRecord table stored)
  | .cpiPhase _ _ _ _ rec _ => some rec
  | _ => none

/-- The three lists of remaining work are empty. -/
def TransportRecord.noWork (r : TransportRecord) : Prop :=
  r.UploadRemaining = [] ∧ r.DeleteRemaining = [] ∧ r.DeployRemaining = []


/-! ## ignore.go -/

/-- Go `strings.Split(s, sep)` for a one-rune separator, on code-point lists. -/
def splitL (sep : Char) : List Char → List (List Char)
  | [] => [[]]
  | c :: cs =>
    if c = sep then [] :: splitL sep cs
    else
      match splitL sep cs with
      | [] => [[c]]
      | h :: t => (c :: h) :: t

/-- Go `strings.Split(s, sep)` for a one-rune separator. -/
def Split (s : String) (sep : Char) : List String := (splitL sep s.data).map String.mk

/-- The loop of Go `path.Clean` over the elements of the path, the cleaned elements
kept newest first: an empty element and `.` are dropped, `..` removes the element before
it, stays when there is none to remove and the path is not rooted, and is dropped at the
root. -/
def cleanElems (rooted : Bool) (stack : List (List Char)) (seg : List Char) : List (List Char) :=
  if seg = [] ∨ seg = ['.'] then stack
  else if seg = ['.', '.'] then
    match stack with
    | top :: rest => if top = ['.', '.'] then seg :: stack else rest
    | [] => if rooted then [] else [seg]
  else seg :: stack

/-- Go `path.Clean`. -/
def Clean (p : String) : String :=
  if p = "" then "."
  else
    let rooted := p.data.head? = some '/'
    let elems := ((splitL '/' p.data).foldl (cleanElems rooted) []).reverse
    let body := String.intercalate "/" (elems.map String.mk)
    if rooted then "/" ++ body else if body = "" then "." else body

/-- The runes `globToRegex` escapes with a backslash. -/
def regexMeta : List Char :=
  ['.', '+', '(', ')', '|', '^', '$', '{', '}', '[', ']', '\\']

/-- What the body of the loop of `globToRegex` writes for a rune that does not start
`**`. -/
def globRune (ch : Char) : List Char :=
  if ch = '*' then "[^/]*".data
  else if ch = '?' then "[^/]".data
  else if ch ∈ regexMeta then ['\\', ch] else [ch]

/-- The loop of `globToRegex`: `**` gives `.*`, `*` gives `[^/]*`, `?` gives `[^/]`,
a regular-expression metacharacter is escaped, and any other rune is copied. -/
def globBody : List Char → List Char
  | [] => []
  | [ch] => globRune ch
  | ch :: c2 :: rest =>
    if ch = '*' ∧ c2 = '*' then ".*".data ++ globBody rest
    else globRune ch ++ globBody (c2 :: rest)

/-- Go `globToRegex`: the source of a full-string regular expression for the glob.  The
glob is cleaned with `path.Clean` only when it holds no `**`.  It never fails. -/
def globToRegex (sep : Char) (glob : String) : String :=
  let glob := ToSlash sep glob
  let glob := if Contains glob "**" = true then glob else ToSlash sep (Clean glob)
  ⟨'^' :: (globBody glob.data ++ ['$'])⟩

/-- The pieces of the regular expressions that `globToRegex` writes. -/
inductive RegexTok where
  /-- The piece `.*`: any run of runes other than the newline. -/
  | anyStar
  /-- The piece `[^/]*`: any run of runes other than the slash. -/
  | segStar
  /-- The piece `[^/]`: one rune other than the slash. -/
  | segOne
  /-- A literal rune, written as itself or after a backslash. -/
  | lit (c : Char)
deriving DecidableEq, Repr

/-- A compiled Go `*regexp.Regexp` of the form `^` pieces `$`. -/
structure Regexp where
  toks : List RegexTok
deriving DecidableEq, Repr

/-- Where the reader of a regular expression source stands: between pieces, after a
`.`, after a backslash, inside the class `[^/]`, after that class, after the closing `$`,
or at a source outside the form `globToRegex` writes. -/
inductive ParseState where
  | plain
  | dot
  | esc
  | cls1
  | cls2
  | cls3
  | clsDone
  | closed
  | bad
deriving DecidableEq, Repr

/-- Reading one rune between two pieces. -/
def plainStep (toks : List RegexTok) (c : Char) : ParseState × List RegexTok :=
  if c = '$' then (.closed, toks)
  else if c = '.' then (.dot, toks)
  else if c = '[' then (.cls1, toks)
  else if c = '\\' then (.esc, toks)
  else if c ∈ regexMeta ∨ c = '*' ∨ c = '?' then (.bad, toks)
  else (.plain, toks ++ [RegexTok.lit c])

/-- Reading one rune of a regular expression source. -/
def parseStep (st : ParseState × List RegexTok) (c : Char) : ParseState × List RegexTok :=
  match st.1 with
  | .plain => plainStep st.2 c
  | .dot => if c = '*' then (.plain, st.2 ++ [RegexTok.anyStar]) else (.bad, st.2)
  | .esc => if c ∈ regexMeta then (.plain, st.2 ++ [RegexTok.lit c]) else (.bad, st.2)
  | .cls1 => if c = '^' then (.cls2, st.2) else (.bad, st.2)
  | .cls2 => if c = '/' then (.cls3, st.2) else (.bad, st.2)
  | .cls3 => if c = ']' then (.clsDone, st.2) else (.bad, st.2)
  | .clsDone =>
    if c = '*' then (.plain, st.2 ++ [RegexTok.segStar])
    else plainStep (st.2 ++ [RegexTok.segOne]) c
  | .closed => (.bad, st.2)
  | .bad => (.bad, st.2)

/-- The pieces of a regular expression source up to its closing `$`. -/
def parseRegex (src : List Char) : Option (List RegexTok) :=
  match src.foldl parseStep (.plain, []) with
  | (.closed, toks) => some toks
  | _ => none

/-- Go `regexp.Compile` on the regular expressions `globToRegex` writes: `^`, then
pieces `.*`, `[^/]*`, `[^/]`, escaped runes and plain runes, then `$`.  A source outside
that form is not modelled and reported as an error. -/
def regexpCompile (src : String) : Except String Regexp :=
  match src.data with
  | c :: rest =>
    if c = '^' then
      match parseRegex rest with
      | some ts => .ok ⟨ts⟩
      | none => .error "error parsing regexp"
    else .error "error parsing regexp"
  | [] => .error "error parsing regexp"

/-- A starred piece followed by the rest of the expression `k`: the run takes any number
of leading runes that satisfy `p`. -/
def matchStar (p : Char → Bool) (k : List Char → Bool) : List Char → Bool
  | [] => k []
  | c :: cs => k (c :: cs) || (p c && matchStar p k cs)

/-- The text is matched in full by the pieces.  In Go `.` does not match a newline, a
negated class does. -/
def matchToks : List RegexTok → List Char → Bool
  | [], s => s.isEmpty
  | .anyStar :: ts, s => matchStar (fun c => c != '\n') (fun r => matchToks ts r) s
  | .segStar :: ts, s => matchStar (fun c => c != '/') (fun r => matchToks ts r) s
  | .segOne :: ts, s =>
    match s with
    | c :: cs => c != '/' && matchToks ts cs
    | [] => false
  | .lit a :: ts, s =>
    match s with
    | c :: cs => c == a && matchToks ts cs
    | [] => false

/-- Go `(*regexp.Regexp).MatchString` for an expression anchored at both ends. -/
def Regexp.MatchString (re : Regexp) (s : String) : Bool := matchToks re.toks s.data

/-- Go `ignorePattern`; `regex` is `none` for the nil pointer. -/
structure ignorePattern where
  raw : String
  regex : Option Regexp
deriving DecidableEq, Repr

/-- Go `RepoIgnore`. -/
structure RepoIgnore where
  patterns : List ignorePattern
deriving DecidableEq, Repr

/-- Go `compileIgnorePattern`. -/
def compileIgnorePattern (sep : Char) (raw : String) : Except String ignorePattern :=
  let pat := TrimSpace (ToSlash sep raw)
  if pat = "" then .error "empty pattern"
  else
    let pat := if Contains pat "/" = true then pat else "**/" ++ pat
    let pat := TrimPrefix pat "./"
    match regexpCompile (globToRegex sep pat) with
    | .error e => .error e
    | .ok re => .ok ⟨raw, some re⟩

/-- The test `ri == nil || len(ri.patterns) == 0`; `none` is the nil pointer. -/
def RepoIgnore.isEmpty (ri : Option RepoIgnore) : Bool :=
  match ri with
  | none => true
  | some r => r.patterns.isEmpty

/-- Go `(*RepoIgnore).IsIgnored`. -/
def RepoIgnore.IsIgnored (sep : Char) (ri : Option RepoIgnore) (p : String) : Bool :=
  match ri with
  | none => false
  | some r =>
    if r.patterns.isEmpty then false
    else
      let norm := TrimPrefix (ToSlash sep (TrimSpace p)) "./"
      if norm = "" then false
      else r.patterns.any (fun pat =>
        match pat.regex with
        | some re => re.MatchString norm
        | none => false)

/-- The body of the loop of `dedupeStable`, on the pair of the map `seen` and the slice
`out`. -/
def dedupeStep (sep : Char) (acc : List String × List String) (p : String) :
    List String × List String :=
  let p := ToSlash sep (TrimSpace p)
  if p = "" then acc
  else if p ∈ acc.1 then acc
  else (setInsert acc.1 p, acc.2 ++ [p])

/-- Go `dedupeStable`. -/
def dedupeStable (sep : Char) (l : List String) : List String :=
  (l.foldl (dedupeStep sep) ([], [])).2

/-- Go `(*RepoIgnore).Filter`. -/
def RepoIgnore.Filter (sep : Char) (ri : Option RepoIgnore) (paths : List String) :
    List String :=
  if RepoIgnore.isEmpty ri = true then dedupeStable sep paths
  else
    dedupeStable sep
      (paths.foldl
        (fun out p =>
          if TrimSpace p = "" then out
          else if RepoIgnore.IsIgnored sep ri p = true then out
          else out ++ [p])
        [])

/-- Go `defaultRepoIgnorePatterns`. -/
def defaultRepoIgnorePatterns : List String :=
  ["IntegrationPackage/**/metainfo.prop",
   "IntegrationPackage/**/src/main/resources/parameters.prop"]

/-- The closure `add` of `LoadRepoIgnore`, on the pair of the map `seen` and the
patterns compiled so far. -/
def addIgnorePattern (sep : Char) (acc : List String × List ignorePattern) (raw : String) :
    Except String (List String × List ignorePattern) :=
  let norm := TrimPrefix (ToSlash sep (TrimSpace raw)) "./"
  if norm = "" then .ok acc
  else if norm ∈ acc.1 then .ok acc
  else
    match compileIgnorePattern sep norm with
    | .error e => .error e
    | .ok compiled => .ok (setInsert acc.1 norm, acc.2 ++ [compiled])

/-- The loops of `LoadRepoIgnore` over a list of raw patterns, stopping at the first
error. -/
def addIgnorePatterns (sep : Char) :
    List String → List String × List ignorePattern →
      Except String (List String × List ignorePattern)
  | [], acc => .ok acc
  | raw :: rest, acc =>
    match addIgnorePattern sep acc raw with
    | .error e => .error e
    | .ok acc1 => addIgnorePatterns sep rest acc1

/-- Go `LoadRepoIgnore`: the built-in defaults first, then the lines of
`.iflowkit/ignore` that are neither blank nor comments; `file` is `none` when the file
does not exist. -/
def LoadRepoIgnore (sep : Char) (file : Option (List String)) : Except String RepoIgnore :=
  match addIgnorePatterns sep defaultRepoIgnorePatterns ([], []) with
  | .error e => .error e
  | .ok acc =>
    match file with
    | none => .ok ⟨acc.2⟩
    | some lines =>
      let kept := (lines.map TrimSpace).filter (fun line => !(line = "" || HasPrefix line "#"))
      match addIgnorePatterns sep kept acc with
      | .error e => .error e
      | .ok acc1 => .ok ⟨acc1.2⟩

/-! ## package_compare.go -/

/-- The answers of `os.Stat` that `hashDir` tells apart. -/
inductive StatResult where
  /-- The error satisfies `os.IsNotExist`. -/
  | notExist
  /-- Any other error, with its message. -/
  | failed (msg : String)
  /-- The path exists and is not a directory. -/
  | file
  /-- The path is a directory. -/
  | dir
deriving DecidableEq, Repr

/-- One call of the function `filepath.WalkDir` is given. -/
structure WalkEntry where
  path : String
  isDir : Bool
  walkErr : Option String
deriving DecidableEq, Repr

/-- The parts of the host `hashDir` consults. -/
structure TreeHost where
  /-- Go `os.Stat`. -/
  Stat : String → StatResult
  /-- The entries `filepath.WalkDir(root, fn)` visits, in its order. -/
  WalkDir : String → List WalkEntry
  /-- Go `filepath.Rel(root, path)`. -/
  Rel : String → String → Except String String
  /-- Go `sha256File`: the hexadecimal SHA-256 of the content of the file. -/
  sha256File : String → Except String String

/-- Go `m[key]` with its `ok` flag, on the association list of a map. -/
def mapGet {β : Type} (m : List (String × β)) (key : String) : Option β :=
  match m with
  | [] => none
  | (k, w) :: rest => if k = key then some w else mapGet rest key

/-- The function `hashDir` hands to `filepath.WalkDir`, on the map `hashes`. -/
def hashEntry (sep : Char) (host : TreeHost) (repoRelPrefix absRoot : String)
    (ign : Option RepoIgnore) (hashes : List (String × String)) (e : WalkEntry) :
    Except String (List (String × String)) :=
  match e.walkErr with
  | some msg => .error msg
  | none =>
    if e.isDir = true then .ok hashes
    else
      match host.Rel absRoot e.path with
      | .error msg => .error msg
      | .ok rel =>
        let repoRel := TrimPrefix (repoRelPrefix ++ "/" ++ ToSlash sep rel) "./"
        if RepoIgnore.IsIgnored sep ign repoRel = true then .ok hashes
        else
          match host.sha256File e.path with
          | .error msg => .error msg
          | .ok h => .ok (mapSet hashes repoRel h)

/-- The walk of `hashDir`: it stops at the first error. -/
def hashWalk (sep : Char) (host : TreeHost) (repoRelPrefix absRoot : String)
    (ign : Option RepoIgnore) :
    List WalkEntry → List (String × String) → Except String (List (String × String))
  | [], hashes => .ok hashes
  | e :: rest, hashes =>
    match hashEntry sep host repoRelPrefix absRoot ign hashes e with
    | .error msg => .error msg
    | .ok hashes1 => hashWalk sep host repoRelPrefix absRoot ign rest hashes1

/-- Go `hashDir`: the map from repo-relative path to content hash of the files under
`absRoot`; a root that does not exist gives the empty map. -/
def hashDir (sep : Char) (host : TreeHost) (repoRelPrefix absRoot : String)
    (ign : Option RepoIgnore) : Except String (List (String × String)) :=
  match host.Stat absRoot with
  | .notExist => .ok []
  | .failed msg => .error msg
  | .file => .error ("not a directory: " ++ absRoot)
  | .dir => hashWalk sep host repoRelPrefix absRoot ign (host.WalkDir absRoot) []

/-- The first loop over a map in `CompareFolderTrees`: the keys of `h` that `other`
lacks or maps to another hash are put into the set `diff`. -/
def diffInto (h other : List (String × String)) (diff : List String) : List String :=
  h.foldl
    (fun diff (e : String × String) =>
      match mapGet other e.1 with
      | some b => if b ≠ e.2 then setInsert diff e.1 else diff
      | none => setInsert diff e.1)
    diff

/-- The part of `CompareFolderTrees` after the two maps are built: the set `diff`
filled from both maps, its keys sorted by `sort.Strings`. -/
def compareHashes (hA hB : List (String × String)) : List String :=
  sortSlice strLt (diffInto hB hA (diffInto hA hB []))

/-- Go `CompareFolderTrees`. -/
def CompareFolderTrees (sep : Char) (host : TreeHost) (repoRelPrefix absA absB : String)
    (ign : Option RepoIgnore) : Except String (List String) :=
  let repoRelPrefix := Trim (TrimSpace (ToSlash sep repoRelPrefix)) "/"
  if repoRelPrefix = "" then .error "repoRelPrefix is required"
  else if absA = "" ∨ absB = "" then .error "compare folders: both paths are required"
  else
    match hashDir sep host repoRelPrefix absA ign with
    | .error msg => .error msg
    | .ok hA =>
      match hashDir sep host repoRelPrefix absB ign with
      | .error msg => .error msg
      | .ok hB => .ok (compareHashes hA hB)

/-! ## transports.go: transport ids -/

/-- A Go `time.Time`, as the instant it denotes: the nanoseconds elapsed since
1970-01-01T00:00:00Z, negative before it.  `t.UTC()` denotes the same instant. -/
structure Time where
  unixNano : Int
deriving DecidableEq, Repr

/-- Go `Time.Unix`: the whole seconds elapsed since 1970-01-01T00:00:00Z. -/
def Time.Unix (t : Time) : Int := t.unixNano / 1000000000

/-- Go `Time.Nanosecond`: the nanosecond offset within the second, in 0..999999999. -/
def Time.Nanosecond (t : Time) : Int := t.unixNano % 1000000000

/-- Go `Time.Truncate(time.Second)`. -/
def Time.truncateSecond (t : Time) : Time := ⟨t.unixNano - t.unixNano % 1000000000⟩

/-- The index, 0 to 3, of the member of a cycle of four that the offset `x` falls in,
when the members are `c` days long and the fourth is one day longer: the quotient
`x / c`, with 4 cut down to 3 (Go: `n -= n >> 2`). -/
def cycleIndex (x c : Int) : Int := if x / c = 4 then 3 else x / c

/-- The year within a cycle of four years and the day of that year, of an offset in the
cycle. -/
def yearOfFour (r4 : Int) : Int × Int :=
  (cycleIndex r4 365, r4 - 365 * cycleIndex r4 365)

/-- The year within a century and the day of that year, of an offset in the century:
the century is cut into cycles of four years (1461 days). -/
def yearOfCentury (r100 : Int) : Int × Int :=
  (4 * (r100 / 1461) + (yearOfFour (r100 % 1461)).1, (yearOfFour (r100 % 1461)).2)

/-- The year within a cycle of 400 years and the day of that year, of an offset in the
cycle: the cycle is cut into centuries (36524 days, the fourth one day longer). -/
def yearOfEra (r400 : Int) : Int × Int :=
  (100 * cycleIndex r400 36524 + (yearOfCentury (r400 - 36524 * cycleIndex r400 36524)).1,
    (yearOfCentury (r400 - 36524 * cycleIndex r400 36524)).2)

/-- The year and the day of the year of a day number counted from 0000-03-01, both
counted from 1 March: the day number is cut into cycles of 400 years (146097 days), of
100 years, of 4 years and into years, as Go `absDate` does. -/
def marchYearDay (z : Int) : Int × Int :=
  (400 * (z / 146097) + (yearOfEra (z % 146097)).1, (yearOfEra (z % 146097)).2)

/-- The month counted from March (0 is March, 11 is February) and the day of the month
of a day of the year counted from 1 March. -/
def marchMonthDay (doy : Int) : Int × Int :=
  ((5 * doy + 2) / 153, doy - (153 * ((5 * doy + 2) / 153) + 2) / 5 + 1)

/-- The date (year, month, day) of a day number, counted from 1970-01-01, in the
proleptic Gregorian calendar that Go `Time.Date` uses.  The years are counted from
1 March, so that the leap day ends a year; January and February belong to the next
calendar year. -/
def civilFromDays (days : Int) : Int × Int × Int :=
  let yd := marchYearDay (days + 719468)
  let md := marchMonthDay yd.2
  if md.1 < 10 then (yd.1, md.1 + 3, md.2) else (yd.1 + 1, md.1 - 9, md.2)

/-- The fields Go `Time.Date` and `Time.Clock` give for an instant in UTC. -/
structure CivilTime where
  year : Int
  month : Int
  day : Int
  hour : Int
  minute : Int
  second : Int
deriving DecidableEq, Repr

/-- The UTC date and clock of an instant. -/
def Time.civil (t : Time) : CivilTime :=
  let date := civilFromDays (t.Unix / 86400)
  let rem := t.Unix % 86400
  ⟨date.1, date.2.1, date.2.2, rem / 3600, rem % 3600 / 60, rem % 60⟩

/-- The decimal digit of the units of `n`. -/
def decDigit (n : Nat) : Char := Char.ofNat (48 + n % 10)

/-- The last `w` decimal digits of `n`, the most significant first. -/
def fixedDigits : Nat → Nat → List Char
  | 0, _ => []
  | w + 1, n => fixedDigits w (n / 10) ++ [decDigit n]

/-- Go `appendInt(b, x, width)` and the verb `%0<width>d`: the decimal digits of `x`,
padded with zeros on the left to `width` digits, after a minus sign when `x` is
negative. -/
def appendInt (x : Int) (width : Nat) : List Char :=
  if 0 ≤ x ∧ x < 10 ^ width then fixedDigits width x.toNat
  else
    (if x < 0 then ['-'] else []) ++
      List.replicate (width - (Nat.toDigits 10 x.natAbs).length) '0' ++ Nat.toDigits 10 x.natAbs

/-- Go `Time.Format("20060102T150405")`. -/
def formatCompact (c : CivilTime) : List Char :=
  appendInt c.year 4 ++ appendInt c.month 2 ++ appendInt c.day 2 ++ ['T'] ++
    appendInt c.hour 2 ++ appendInt c.minute 2 ++ appendInt c.second 2

/-- Go `Time.Format(time.RFC3339)` of a UTC time. -/
def formatRFC3339 (c : CivilTime) : List Char :=
  appendInt c.year 4 ++ ['-'] ++ appendInt c.month 2 ++ ['-'] ++ appendInt c.day 2 ++ ['T'] ++
    appendInt c.hour 2 ++ [':'] ++ appendInt c.minute 2 ++ [':'] ++ appendInt c.second 2 ++ ['Z']

/-- Go `newTransportIDs`: the pair (transportId, createdAt). -/
def newTransportIDs (t : Time) : String × String :=
  let createdAt : String := ⟨formatRFC3339 t.truncateSecond.civil⟩
  let ms := t.Nanosecond / 1000000
  (⟨formatCompact t.civil ++ (appendInt ms 3 ++ ['Z'])⟩, createdAt)

/-- The runes `sanitizeTransportID` removes. -/
def sanitizeStripped : List Char :=
  ['-', ':', '.', '+', '/', '\\', ' ', '\t', '\n', '\r']

/-- Go `sanitizeTransportID`: the trimmed string without the stripped runes. -/
def sanitizeTransportID (s : String) : String :=
  ⟨(TrimSpace s).data.filter (fun c => !(sanitizeStripped.contains c))⟩

/-! ## transports.go: the index -/

/-- Go `TransportIndexItem`.  `Seq` is a Go `int` of 64 bits: an integer from -2^63 to
2^63 - 1. -/
structure TransportIndexItem where
  Seq : Int
  TransportID : String
  TransportType : String
  TransportStatus : String
  CreatedAt : String
deriving DecidableEq, Repr

/-- Go `TransportIndex`. -/
structure TransportIndex where
  SchemaVersion : Int
  Items : List TransportIndexItem
deriving DecidableEq, Repr

/-- The files of one tenant directory `.iflowkit/transports/<tenant>`, as JSON decoding
reads them. -/
structure TransportDir where
  /-- The file `index.json`: `.ok none` when it does not exist, an error when it cannot
  be read or decoded. -/
  indexFile : Except String (Option TransportIndex)
  /-- The record file `<name>.transport.json` by its name; `none` when it cannot be read
  or decoded. -/
  recordFile : String → Option TransportRecord

/-- Go `TransportStore.loadIndex`. -/
def loadIndex (dir : TransportDir) : Except String (Option TransportIndex) :=
  match dir.indexFile with
  | .error e => .error e
  | .ok none => .ok none
  | .ok (some idx) =>
    .ok (some { idx with SchemaVersion := if idx.SchemaVersion = 0 then 1 else idx.SchemaVersion })

/-- Go `TransportStore.saveIndex`: the index as it is written. -/
def saveIndex (idx : TransportIndex) : TransportIndex :=
  { idx with SchemaVersion := if idx.SchemaVersion = 0 then 1 else idx.SchemaVersion }

/-- The first loop of `upsertIndex`: the items with the first item of the record's
transportId updated, or `none` when no item has that transportId. -/
def updateItem (table : Char → Char) (rec : TransportRecord) :
    List TransportIndexItem → Option (List TransportIndexItem)
  | [] => none
  | it :: rest =>
    if it.TransportID = rec.TransportID then
      some ({ it with
        TransportType := rec.TransportType
        TransportStatus := normalizeTransportStatus table rec.TransportStatus
        CreatedAt := rec.CreatedAt } :: rest)
    else (updateItem table rec rest).map (fun items => it :: items)

/-- The second loop of `upsertIndex`: `maxSeq`, starting from 0.  The loop only compares
and copies seqs, so the Go `int` it holds is the integer computed here. -/
def maxSeq (items : List TransportIndexItem) : Int :=
  items.foldl (fun m it => if it.Seq > m then it.Seq else m) 0

/-- The value of a Go `int` (64 bits) after an addition: the sum wrapped into the range
from -2^63 to 2^63 - 1. -/
def wrapInt (x : Int) : Int :=
  (x + 9223372036854775808) % 18446744073709551616 - 9223372036854775808

/-- The item `upsertIndex` appends for a record without an item; its seq is the Go `int`
`maxSeq + 1`. -/
def newIndexItem (table : Char → Char) (items : List TransportIndexItem)
    (rec : TransportRecord) : TransportIndexItem :=
  ⟨wrapInt (maxSeq items + 1), rec.TransportID, rec.TransportType,
    normalizeTransportStatus table rec.TransportStatus, rec.CreatedAt⟩

/-- The items `upsertIndex` leaves in the index. -/
def upsertItems (table : Char → Char) (items : List TransportIndexItem)
    (rec : TransportRecord) : List TransportIndexItem :=
  match updateItem table rec items with
  | some updated => updated
  | none => items ++ [newIndexItem table items rec]

/-- Go `TransportStore.upsertIndex`: the index it writes.  Sequence numbers are Go
`int`s of 64 bits: integers from -2^63 to 2^63 - 1, with `wrapInt` after the one
addition. -/
def upsertIndex (table : Char → Char) (dir : TransportDir) (rec : TransportRecord) :
    Except String TransportIndex :=
  match loadIndex dir with
  | .error e => .error e
  | .ok o =>
    let idx : TransportIndex :=
      match o with
      | none => ⟨1, []⟩
      | some idx => idx
    .ok (saveIndex { idx with Items := upsertItems table idx.Items rec })

/-- Go `TransportStore.LoadRecord` of a transport id: the record file named by the
sanitized id, decoded and normalised; `none` stands for its error. -/
def loadRecordFile (table : Char → Char) (dir : TransportDir) (transportID : String) :
    Option TransportRecord :=
  (dir.recordFile (sanitizeTransportID transportID)).map (LoadRecord table)

/-- The body of the loop of `LoadLatestPendingTransport` for one index item: the record
it returns, or `none` where the loop says `continue`. -/
def pendingCandidate (table : Char → Char) (dir : TransportDir)
    (packageID branch transportType : String) (it : TransportIndexItem) :
    Option TransportRecord :=
  if normalizeTransportStatus table it.TransportStatus = "completed" then none
  else if transportType ≠ "" ∧
      normalizeTransportType table it.TransportType ≠
        normalizeTransportType table transportType then none
  else
    match loadRecordFile table dir it.TransportID with
    | none => none
    | some r =>
      if packageID ≠ "" ∧ r.PackageID ≠ packageID then none
      else if branch ≠ "" ∧ r.Branch ≠ branch then none
      else if transportType ≠ "" ∧
          normalizeTransportType table r.TransportType ≠
            normalizeTransportType table transportType then none
      else some r

/-- The loop of `LoadLatestPendingTransport` over the index items, newest first: the
first record the body returns. -/
def pendingScan (table : Char → Char) (dir : TransportDir)
    (packageID branch transportType : String) :
    List TransportIndexItem → Option TransportRecord
  | [] => none
  | it :: rest =>
    match pendingCandidate table dir packageID branch transportType it with
    | some r => some r
    | none => pendingScan table dir packageID branch transportType rest

/-- Go `TransportStore.LoadLatestPendingTransport`: the record found, `.ok none` for
not found, or the error of reading the index. -/
def LoadLatestPendingTransport (table : Char → Char) (dir : TransportDir)
    (packageID branch transportType : String) : Except String (Option TransportRecord) :=
  match loadIndex dir with
  | .error e => .error e
  | .ok none => .ok none
  | .ok (some idx) =>
    .ok (pendingScan table dir packageID branch (TrimSpace transportType) idx.Items.reverse)

/-! ## text.go, git_state.go, gitutil.go -/

/-- Go `splitLines`: the trimmed non-empty lines, each once, sorted by `sort.Strings`. -/
def splitLines (s : String) : List String :=
  sortSlice strLt
    ((Split s '\n').foldl
      (fun set line => if TrimSpace line = "" then set else setInsert set (TrimSpace line)) [])

/-- Go `gitPendingChanges`; `runGitOutput` is the output of `git` for the given
arguments, or its error. -/
def gitPendingChanges (runGitOutput : List String → Except String String)
    (baseRef branch : String) : Except String (List String × List String) :=
  let first : Except String (List String × List String) :=
    if baseRef ≠ "" then
      match runGitOutput ["diff", "--name-only", baseRef ++ "..HEAD"] with
      | .error e => .error e
      | .ok out =>
        match runGitOutput ["rev-list", "--reverse", baseRef ++ "..HEAD"] with
        | .error e => .error e
        | .ok cout => .ok (splitLines out, splitLines cout)
    else
      match runGitOutput ["rev-list", "--max-count=1", "HEAD"] with
      | .error _ => .ok ([], [])
      | .ok cout => .ok ([], splitLines cout)
  match first with
  | .error e => .error e
  | .ok (changedPaths, commits) =>
    if changedPaths.length = 0 ∧ baseRef = "" ∧
        (HasPrefix branch "feature/" = true ∨ HasPrefix branch "bugfix/" = true) then
      match runGitOutput ["diff", "--name-only", "origin/dev..HEAD"] with
      | .error _ => .ok (changedPaths, commits)
      | .ok out => .ok (splitLines out, commits)
    else .ok (changedPaths, commits)

/-- Go `buildTransportCommitMessage`. -/
def buildTransportCommitMessage (transportID transportType commitType extra : String) :
    String :=
  let extra := TrimSpace extra
  let base := transportID ++ " " ++ transportType ++ " " ++ commitType
  if extra = "" then base else base ++ " " ++ extra

/-- The entries of `qs` that satisfy `keep` and are not in `seen`, each at its first
occurrence. -/
def pickFirst (keep : String → Bool) : List String → List String → List String
  | _, [] => []
  | seen, q :: qs =>
    if keep q = true ∧ q ∉ seen then q :: pickFirst keep (q :: seen) qs
    else pickFirst keep seen qs

/-- The path `IsIgnored` and `dedupeStable` work on: trimmed and slash-normalised. -/
def normPath (sep : Char) (p : String) : String := ToSlash sep (TrimSpace p)

/-- A host for examples: the directory `/a` holds the files `x` and `y`, whose hash is
their path, and nothing else exists. -/
def twoFileHost : TreeHost :=
  ⟨fun p => if p = "/a" then .dir else .notExist,
   fun _ => [⟨"/a", true, none⟩, ⟨"/a/x", false, none⟩, ⟨"/a/y", false, none⟩],
   fun _ p => .ok ⟨p.data.drop 3⟩,
   fun p => .ok p⟩

/-- The index item `it` passes every test of `LoadLatestPendingTransport` and `r` is
its record: the status of the item, normalised, is not completed; the type of the item,
normalised, is that of the filter when a filter type is given; the record file of the
item loads as `r`; and `r` matches the package id, the branch and, after normalisation,
the type, where these filters are given. -/
def pendingMatch (table : Char → Char) (dir : TransportDir)
    (packageID branch transportType : String) (it : TransportIndexItem)
    (r : TransportRecord) : Prop :=
  normalizeTransportStatus table it.TransportStatus ≠ "completed" ∧
  (transportType ≠ "" →
    normalizeTransportType table it.TransportType = normalizeTransportType table transportType) ∧
  loadRecordFile table dir it.TransportID = some r ∧
  (packageID ≠ "" → r.PackageID = packageID) ∧
  (branch ≠ "" → r.Branch = branch) ∧
  (transportType ≠ "" →
    normalizeTransportType table r.TransportType = normalizeTransportType table transportType)

/-- A record for examples: transport `a` of package `pkg` on branch `dev`. -/
def recordA (transportType status : String) : TransportRecord :=
  ⟨1, "a", transportType, "pkg", "dev", "2024-01-01T00:00:00Z", [], "", "", [], [], status, "",
    [], [], []⟩

/-- A tenant directory for examples: one index item for transport `a`, with the given
type and status, and the record file of `a`. -/
def dirA (itemType itemStatus : String) (rec : TransportRecord) : TransportDir :=
  ⟨.ok (some ⟨1, [⟨1, "a", itemType, itemStatus, "2024-01-01T00:00:00Z"⟩]⟩),
   fun name => if name = "a" then some rec else none⟩

/-- A repository for examples: two commits are ahead of `origin/dev`; `git rev-list
--reverse` prints the older one, `b7e2...`, first. -/
def gitTwoCommits (args : List String) : Except String String :=
  if args = ["rev-list", "--reverse", "origin/dev..HEAD"] then
    .ok "b7e23ac41f0d5e6a7b8c9d0e1f2a3b4c5d6e7f80\n1a9c04d2e3f4a5b6c7d8e9f0a1b2c3d4e5f6a7b8\n"
  else if args = ["diff", "--name-only", "origin/dev..HEAD"] then
    .ok "IntegrationPackage/iFlows/Orders/META-INF/MANIFEST.MF\n"
  else .error "unexpected git call"

/-! ## gittags.go -/

/-- Go `strings.ReplaceAll(s, old, new)` for one-rune `old` and `new`. -/
def replaceRune (old new : Char) (s : String) : String :=
  ⟨s.data.map (fun c => if c = old then new else c)⟩

/-- The branch name as `transportTagName` puts it into a tag. -/
def tagBranchName (branch : String) : String :=
  let b := TrimSpace branch
  let b := TrimPrefix b "refs/heads/"
  let b := TrimPrefix b "refs/remotes/"
  let b := if HasPrefix b "origin/" = true then TrimPrefix b "origin/" else b
  let b := replaceRune '/' '-' b
  let b := replaceRune ' ' '-' b
  let b := Trim b "-"
  if b = "" then "unknown" else b

/-- Go `transportTagName`. -/
def transportTagName (transportID branch : String) : String :=
  TrimSpace transportID ++ "_" ++ tagBranchName branch

/-! ## gitx.go, git_state.go: the porcelain status -/

/-- Go `gitx.Output`: `exec` stands for `exec.Command("git", args...).CombinedOutput()`,
the combined output and whether the command failed; the output is returned trimmed. -/
def gitxOutput (exec : List String → String × Bool) (args : List String) :
    Except String String :=
  let outStr := TrimSpace (exec args).1
  if (exec args).2 = true then
    .error ("git " ++ String.intercalate " " args ++ " failed: " ++ outStr)
  else .ok outStr

/-- The number of bytes of a rune in UTF-8. -/
def runeLen (c : Char) : Nat :=
  if c.toNat < 0x80 then 1 else if c.toNat < 0x800 then 2 else if c.toNat < 0x10000 then 3 else 4

/-- Go `len(s)`: the number of bytes of the string. -/
def byteLen (s : List Char) : Nat := (s.map runeLen).sum

/-- Go `s[n:]`: the string without its first `n` bytes.  A cut inside a rune leaves
bytes that Go reads as U+FFFD, one for each byte left. -/
def dropBytes (n : Nat) : List Char → List Char
  | [] => []
  | c :: cs =>
    if n = 0 then c :: cs
    else if runeLen c ≤ n then dropBytes (n - runeLen c) cs
    else List.replicate (runeLen c - n) (Char.ofNat 0xFFFD) ++ cs

/-- Go `strings.Split(s, "->")`, on code-point lists. -/
def splitArrow : List Char → List (List Char)
  | [] => [[]]
  | [c] => [[c]]
  | c :: d :: rest =>
    if c = '-' ∧ d = '>' then [] :: splitArrow rest
    else
      match splitArrow (d :: rest) with
      | [] => [[c]]
      | h :: t => (c :: h) :: t

/-- The body of the first loop of `gitPorcelainPaths` for one line of the status: the
path it appends, or `none` where it appends nothing. -/
def porcelainLinePath (line : String) : Option String :=
  let line := TrimSpace line
  if line = "" then none
  else if Contains line "->" = true then
    let p := TrimSpace ⟨((splitArrow line.data).getLast?).getD []⟩
    if p ≠ "" then some p else none
  else if byteLen line.data > 3 then
    let p := TrimSpace ⟨dropBytes 2 line.data⟩
    if p ≠ "" then some p else none
  else none

/-- Go `gitPorcelainPaths`: the paths of `git status --porcelain`, unique and sorted;
empty when git fails. -/
def gitPorcelainPaths (sep : Char) (runGitOutput : List String → Except String String) :
    List String :=
  match runGitOutput ["status", "--porcelain"] with
  | .error _ => []
  | .ok out =>
    sortSlice strLt (dedupeStable sep ((Split out '\n').filterMap porcelainLinePath))

/-- A working tree for examples: `git status --porcelain` prints the given text. -/
def statusPrints (text : String) (args : List String) : String × Bool :=
  if args = ["status", "--porcelain"] then (text, false) else ("", true)

/-! ## cpix/delete.go: the request of a delete -/

/-- A DELETE request of `Client.DeleteArtifact`. -/
structure DeleteRequest where
  entitySet : String
  id : String
  version : String
deriving DecidableEq, Repr

/-- The path of the URL `Client.DeleteArtifact` builds, after the base URL: the Version
key is left out when the version is blank. -/
def DeleteRequest.path (r : DeleteRequest) : String :=
  if TrimSpace r.version = "" then
    "/api/v1/" ++ r.entitySet ++ "(Id='" ++ escapeODataID r.id ++ "')"
  else
    "/api/v1/" ++ r.entitySet ++ "(Id='" ++ escapeODataID r.id ++ "',Version='" ++
      escapeODataID r.version ++ "')"

/-- The CPI client as a function from delete request to result; its state is the list of
the requests it has received. -/
def requestClient (answer : DeleteRequest → Option CPIError) :
    CPIClient (List DeleteRequest) where
  connect := none
  DeleteArtifact := fun w entitySet id version =>
    (answer ⟨entitySet, id, version⟩, w ++ [⟨entitySet, id, version⟩])
  ListArtifacts := fun _ => .ok (fun _ => none)
  ZipDirToBytes := fun _ => .ok []
  UpdateArtifact := fun w _ _ _ => (none, w)
  deployByEndpoint := fun w _ _ => (none, w)
  rangeKinds := fun l => l
  rangeKinds_perm := fun l => List.Perm.refl l

/-! ## The host path functions on a host whose separator is the slash -/

/-- Go `filepath.Join` on a host whose separator is `/`: the non-empty elements joined
by slashes and cleaned; the empty string when every element is empty. -/
def unixJoin (elems : List String) : String :=
  match elems.filter (fun e => e ≠ "") with
  | [] => ""
  | kept => Clean (String.intercalate "/" kept)

/-- Go `SyncMetadata.ValidateRequired`: the error for the first required field that is
missing. -/
def ValidateRequired (m : SyncMetadata) : Option String :=
  if m.SchemaVersion = 0 then some "sync metadata missing required field: schemaVersion"
  else if m.ProfileID = "" then some "sync metadata missing required field: profileId"
  else if m.CPITenantLevels = 0 then
    some "sync metadata missing required field: cpiTenantLevels"
  else if m.PackageID = "" then some "sync metadata missing required field: packageId"
  else if m.PackageName = "" then some "sync metadata missing required field: packageName"
  else if m.BaseFolder = "" then some "sync metadata missing required field: baseFolder"
  else if m.GitRemote = "" then some "sync metadata missing required field: gitRemote"
  else if m.GitProvider = "" then some "sync metadata missing required field: gitProvider"
  else if m.CreatedAt = "" then some "sync metadata missing required field: createdAt"
  else none

/-- A host whose separator is `/` on which exactly the directories of `dirs` exist. -/
def unixHost (dirs : List String) : FileSystem := ⟨unixJoin, fun p => dirs.contains p⟩

/-! ## collections.go: the map of the list merges -/

/-- The map that the first two loops of `mergeObjects` and `mergeDeployRemaining` build,
for any element type: the elements that are not zero, stored under their key. -/
def keyedSet {α : Type} (key : α → String) (zero : α → Bool) (m : List (String × α))
    (l : List α) : List (String × α) :=
  l.foldl (fun m o => if zero o = true then m else mapSet m (key o) o) m

/-! ## Packages for examples -/

/-- A package whose `.iflowkit/package.json` has a blank baseFolder. -/
def blankFolderMeta : SyncMetadata := ⟨1, "p", 3, "pkg", "Package", "", "r", "github", "t"⟩

/-- A package whose baseFolder is padded with a space. -/
def paddedFolderMeta : SyncMetadata :=
  ⟨1, "p", 3, "pkg", "Package", "IntegrationPackage ", "r", "github", "t"⟩

/-- A package whose baseFolder has a slash at both ends. -/
def slashFolderMeta : SyncMetadata :=
  ⟨1, "p", 3, "pkg", "Package", "/IntegrationPackage/", "r", "github", "t"⟩

/-! ## filex.go, archive.go: zip extraction, on a host whose separator is the slash -/

/-- Go `filepath.IsAbs`. -/
def IsAbs (p : String) : Bool := HasPrefix p "/"

/-- Go `filepath.Abs`; `wd` is the result of `os.Getwd`. -/
def Abs (wd : Except String String) (p : String) : Except String String :=
  if IsAbs p = true then .ok (Clean p)
  else
    match wd with
    | .error e => .error e
    | .ok w => .ok (unixJoin [w, p])

/-- Go `filepath.Dir`: the path up to its last separator, cleaned. -/
def Dir (p : String) : String :=
  Clean ⟨(p.data.reverse.dropWhile (fun c => c ≠ '/')).reverse⟩

/-- An entry of a zip archive as the extractors read it (`zip.File`). -/
structure ZipEntry where
  Name : String
  /-- The answer of `f.FileInfo().IsDir()`. -/
  IsDir : Bool
  /-- The error of `f.Open()`, if it fails. -/
  openErr : Option String
  /-- The error of reading the data of the entry (`io.Copy`, `io.ReadAll`), if it fails. -/
  readErr : Option String
deriving DecidableEq, Repr

/-- The errors an extraction returns. -/
inductive ExtractError where
  /-- The error "zip entry escapes destination" of `filex.ExtractZipFile`, with the name. -/
  | escapes (name : String)
  /-- The error "unsafe zip entry" of `archive.extractZipSecure`, with the name. -/
  | unsafeEntry (name : String)
  /-- The error "zip slip detected" of `archive.extractZipSecure`, with the name. -/
  | zipSlip (name : String)
  /-- An error of the host or of the archive reader, by its message. -/
  | host (msg : String)
deriving DecidableEq, Repr

/-- A change an extraction makes on the disk. -/
inductive DiskEffect where
  /-- A directory is created. -/
  | mkdir (p : String)
  /-- A file is created or written. -/
  | write (p : String)
  /-- A file or an empty directory is removed. -/
  | remove (p : String)
deriving DecidableEq, Repr

/-- The path a change is made at. -/
def DiskEffect.path : DiskEffect → String
  | .mkdir p => p
  | .write p => p
  | .remove p => p

/-- The disk: the directories and the regular files, by their cleaned absolute path, and
the changes made so far, oldest first.  The root `/` always exists. -/
structure Disk where
  dirs : List String
  files : List String
  log : List DiskEffect
deriving DecidableEq, Repr

/-- The host of an extraction. -/
structure ZipHost where
  /-- The result of `os.Getwd`. -/
  Getwd : Except String String
  /-- The paths at which the host refuses to create a directory or a file. -/
  denied : String → Bool
  /-- The error of `os.Stat` at a path, when it fails for another reason than a missing
  file. -/
  statErr : String → Option String

/-- The directories on the way to a path, outermost first: `/a` and `/a/b` for the
elements `a`, `b`. -/
def chainFrom (base : List Char) : List (List Char) → List String
  | [] => []
  | s :: rest => ⟨base ++ '/' :: s⟩ :: chainFrom (base ++ '/' :: s) rest

/-- The directories on the way to an absolute path, the path itself last. -/
def pathChain (p : String) : List String :=
  chainFrom [] ((splitL '/' p.data).filter (fun s => s ≠ []))

/-- One level of `os.MkdirAll`: a directory that exists is kept, a regular file in the
way or a refusal of the host is an error, and a missing directory is created. -/
def mkdirStep (host : ZipHost) (acc : Option ExtractError × Disk) (c : String) :
    Option ExtractError × Disk :=
  match acc.1 with
  | some _ => acc
  | none =>
    if c ∈ acc.2.dirs then acc
    else if c ∈ acc.2.files then (some (.host ("mkdir " ++ c ++ ": not a directory")), acc.2)
    else if host.denied c = true then (some (.host ("mkdir " ++ c ++ ": permission denied")), acc.2)
    else (none, { acc.2 with dirs := acc.2.dirs ++ [c], log := acc.2.log ++ [.mkdir c] })

/-- The call `os.MkdirAll(p, perm)` (`filex.EnsureDir`): the directory and its missing
parents are created, outermost first. -/
def MkdirAll (host : ZipHost) (d : Disk) (p : String) : Option ExtractError × Disk :=
  match Abs host.Getwd p with
  | .error e => (some (.host e), d)
  | .ok a => (pathChain a).foldl (mkdirStep host) (none, d)

/-- The call `os.OpenFile(p, O_CREATE|O_TRUNC|O_WRONLY, mode)`: an error for a directory,
for a missing parent directory and for a refusal of the host; otherwise the file exists
and is empty. -/
def createFile (host : ZipHost) (d : Disk) (p : String) : Option ExtractError × Disk :=
  match Abs host.Getwd p with
  | .error e => (some (.host e), d)
  | .ok a =>
    if a = "/" ∨ a ∈ d.dirs then (some (.host ("open " ++ a ++ ": is a directory")), d)
    else if Dir a ≠ "/" ∧ Dir a ∉ d.dirs then
      (some (.host ("open " ++ a ++ ": no such file or directory")), d)
    else if host.denied a = true then (some (.host ("open " ++ a ++ ": permission denied")), d)
    else (none, { d with files := setInsert d.files a, log := d.log ++ [.write a] })

/-- The call `os.Remove(p)` with its error dropped: a regular file or an empty directory
is removed, anything else is left. -/
def removePath (host : ZipHost) (d : Disk) (p : String) : Disk :=
  match Abs host.Getwd p with
  | .error _ => d
  | .ok a =>
    if host.denied a = true then d
    else if a ∈ d.files then
      { d with files := d.files.erase a, log := d.log ++ [.remove a] }
    else if a ∈ d.dirs ∧ (d.dirs ++ d.files).all (fun q => !HasPrefix q (a ++ "/")) = true then
      { d with dirs := d.dirs.erase a, log := d.log ++ [.remove a] }
    else d

/-- Go `filex.AtomicWriteFile`: the directory of the file is ensured, the data goes to a
temporary file there, and the temporary file is renamed to the file.  The temporary
file is gone when the call returns. -/
def AtomicWriteFile (host : ZipHost) (d : Disk) (filename : String) : Option ExtractError × Disk :=
  match MkdirAll host d (Dir filename) with
  | (some e, d1) => (some e, d1)
  | (none, d1) =>
    match Abs host.Getwd filename with
    | .error e => (some (.host e), d1)
    | .ok a =>
      if host.denied a = true then (some (.host ("open " ++ a ++ ": permission denied")), d1)
      else if a = "/" ∨ a ∈ d1.dirs then (some (.host ("atomic rename failed: " ++ a)), d1)
      else (none, { d1 with files := setInsert d1.files a, log := d1.log ++ [.write a] })

/-- A `for _, f := range r.File` loop whose body may return an error. -/
def forEntries (body : ZipEntry → Disk → Option ExtractError × Disk) :
    List ZipEntry → Disk → Option ExtractError × Disk
  | [], d => (none, d)
  | f :: rest, d =>
    match body f d with
    | (some e, d1) => (some e, d1)
    | (none, d1) => forEntries body rest d1

/-- The file part of the loop body of `filex.ExtractZipFile`, after the directory of the
target is ensured. -/
def copyEntry (host : ZipHost) (f : ZipEntry) (absTarget : String) (d : Disk) :
    Option ExtractError × Disk :=
  match f.openErr with
  | some e => (some (.host e), d)
  | none =>
    match createFile host d absTarget with
    | (some e, d1) => (some e, d1)
    | (none, d1) =>
      match f.readErr with
      | some e => (some (.host e), d1)
      | none => (none, d1)

/-- The target of an entry in `filex.ExtractZipFile`: the cleaned absolute path of the
destination joined with the name, whose backslashes are slashes and whose first slash
is dropped. -/
def entryTarget (host : ZipHost) (destDir : String) (f : ZipEntry) : Except String String :=
  let name := TrimPrefix (replaceRune '\\' '/' f.Name) "/"
  match Abs host.Getwd (unixJoin [destDir, name]) with
  | .error e => .error e
  | .ok a => .ok (Clean a)

/-- The loop body of `filex.ExtractZipFile`; `root` is the cleaned absolute destination
followed by a separator. -/
def extractEntry (host : ZipHost) (destDir root : String) (f : ZipEntry) (d : Disk) :
    Option ExtractError × Disk :=
  match entryTarget host destDir f with
  | .error e => (some (.host e), d)
  | .ok absTarget =>
    if HasPrefix (absTarget ++ "/") root = false then
      (some (.escapes f.Name), d)
    else if f.IsDir = true then MkdirAll host d absTarget
    else
      match MkdirAll host d (Dir absTarget) with
      | (some e, d1) => (some e, d1)
      | (none, d1) => copyEntry host f absTarget d1

/-- Go `filex.ExtractZipFile` on the entries of an archive that `zip.OpenReader` has
opened: the error, if any, and the disk afterwards. -/
def ExtractZipFile (host : ZipHost) (destDir : String) (files : List ZipEntry) (d : Disk) :
    Option ExtractError × Disk :=
  match MkdirAll host d destDir with
  | (some e, d1) => (some e, d1)
  | (none, d1) =>
    match Abs host.Getwd destDir with
    | .error e => (some (.host e), d1)
    | .ok root => forEntries (extractEntry host destDir (Clean root ++ "/")) files d1

/-- The file part of the loop body of `archive.extractZipSecure`, after the directory of
the target is ensured. -/
def replaceEntry (host : ZipHost) (f : ZipEntry) (outPath : String) (d : Disk) :
    Option ExtractError × Disk :=
  match f.openErr with
  | some e => (some (.host e), d)
  | none =>
    match f.readErr with
    | some e => (some (.host e), d)
    | none => AtomicWriteFile host (removePath host d outPath) outPath

/-- The guards of `archive.extractZipSecure` on the name of an entry: the error they
return, if one of them fires. -/
def secureGuard (destDir name : String) : Option ExtractError :=
  if Contains name ":" = true then some (.unsafeEntry name)
  else if IsAbs (Clean name) = true ∨ HasPrefix (Clean name) "../" = true ∨ Clean name = ".."
  then some (.zipSlip name)
  else if HasPrefix (unixJoin [destDir, Clean name]) (destDir ++ "/") = false ∧
      unixJoin [destDir, Clean name] ≠ destDir then some (.zipSlip name)
  else none

/-- The loop body of `archive.extractZipSecure`. -/
def secureEntry (host : ZipHost) (destDir : String) (f : ZipEntry) (d : Disk) :
    Option ExtractError × Disk :=
  if f.Name = "" then (none, d)
  else
    match secureGuard destDir f.Name with
    | some e => (some e, d)
    | none =>
      let outPath := unixJoin [destDir, Clean f.Name]
      if f.IsDir = true then MkdirAll host d outPath
      else
        match MkdirAll host d (Dir outPath) with
        | (some e, d1) => (some e, d1)
        | (none, d1) => replaceEntry host f outPath d1

/-- Go `archive.ManifestFileName`. -/
def ManifestFileName : String := "iflowkit_archive.json"

/-- Go `archive.extractZipSecure` on the entries of an archive that `zip.OpenReader` has
opened: the error, if any, and the disk afterwards. -/
def extractZipSecure (host : ZipHost) (destDir : String) (files : List ZipEntry) (d : Disk) :
    Option ExtractError × Disk :=
  match MkdirAll host d destDir with
  | (some e, d1) => (some e, d1)
  | (none, d1) =>
    match forEntries (secureEntry host destDir) files d1 with
    | (some e, d2) => (some e, d2)
    | (none, d2) =>
      match host.statErr (unixJoin [destDir, ManifestFileName]) with
      | some e => (some (.host e), d2)
      | none => (none, d2)

/-- A host for examples: the working directory is `/work` and nothing is refused. -/
def plainHost : ZipHost := ⟨.ok "/work", fun _ => false, fun _ => none⟩

/-- An empty disk. -/
def emptyDisk : Disk := ⟨[], [], []⟩

/-- A regular file entry whose data reads without error. -/
def fileEntry (name : String) : ZipEntry := ⟨name, false, none, none⟩

/-- The elements of a path joined by slashes, on code-point lists. -/
def joinSegs : List (List Char) → List Char
  | [] => []
  | [a] => a
  | a :: b :: rest => a ++ '/' :: joinSegs (b :: rest)

/-- The path is the directory `root` or lies inside it. -/
def within (root p : String) : Bool := p = root || HasPrefix p (root ++ "/")

/-- The target of the entry in `filex.ExtractZipFile` lies outside the destination: it is
neither the cleaned absolute destination nor inside it. -/
def escapesDestination (host : ZipHost) (destDir : String) (f : ZipEntry) : Bool :=
  match Abs host.Getwd destDir, entryTarget host destDir f with
  | .ok root, .ok t => !within (Clean root) t
  | _, _ => false

/-- The path `archive.extractZipSecure` extracts an entry to. -/
def secureTarget (destDir : String) (f : ZipEntry) : String := unixJoin [destDir, Clean f.Name]

/-- The target of the entry in `archive.extractZipSecure` lies outside the destination. -/
def escapesSecure (destDir : String) (f : ZipEntry) : Bool :=
  decide (f.Name ≠ "") && !within destDir (secureTarget destDir f)

/-- An element of a cleaned absolute path: not empty, not `.`, not `..`, without a slash. -/
def goodSeg (s : List Char) : Prop := s ≠ [] ∧ s ≠ ['.'] ∧ s ≠ ['.', '.'] ∧ '/' ∉ s

instance (s : List Char) : Decidable (goodSeg s) := by
  unfold goodSeg
  infer_instance

/-! # Theorems -/

/-! ## Branch/tenant router -/

theorem validateToFlag_prd_prd (table : Char → Char) :
    validateToFlag table "prd" "prd" = none := rfl

/-- C6, counterexample: the branch name " dev" is none of dev, qas, prd and starts with
neither feature/ nor bugfix/, and yet `resolveTargetTenant` answers (dev, true) for it
instead of an error, because the name is trimmed before it is looked up. -/
theorem resolveTargetTenant_padded_dev :
    (" dev" ≠ "dev" ∧ " dev" ≠ "qas" ∧ " dev" ≠ "prd" ∧
      HasPrefix " dev" "feature/" = false ∧ HasPrefix " dev" "bugfix/" = false) ∧
    resolveTargetTenant
      ⟨1, "p", 3, "pkg", "Package", "IntegrationPackage", "r", "github", "t"⟩ " dev"
      = .ok ("dev", true) := by
  decide

/-- C6, amended: `resolveTargetTenant` implements the router table on the branch name
with its surrounding white space trimmed.  With `b` the trimmed name: dev gives
(dev, true) for any cpiTenantLevels; qas gives (qas, true) exactly when
cpiTenantLevels = 3 and an error otherwise; prd gives (prd, true) when cpiTenantLevels
is 2 or 3 and an error otherwise; a name starting with feature/ or bugfix/ gives
(dev, false); every other name, the empty one included, gives an error. -/
theorem resolveTargetTenant_table (meta : SyncMetadata) (branch : String) :
    (TrimSpace branch = "dev" → resolveTargetTenant meta branch = .ok ("dev", true)) ∧
    (TrimSpace branch = "qas" →
      (resolveTargetTenant meta branch = .ok ("qas", true) ↔ meta.CPITenantLevels = 3) ∧
      (meta.CPITenantLevels ≠ 3 → ∃ e, resolveTargetTenant meta branch = .error e)) ∧
    (TrimSpace branch = "prd" →
      (meta.CPITenantLevels = 2 ∨ meta.CPITenantLevels = 3 →
        resolveTargetTenant meta branch = .ok ("prd", true)) ∧
      (¬ (meta.CPITenantLevels = 2 ∨ meta.CPITenantLevels = 3) →
        ∃ e, resolveTargetTenant meta branch = .error e)) ∧
    (HasPrefix (TrimSpace branch) "feature/" = true ∨
        HasPrefix (TrimSpace branch) "bugfix/" = true →
      resolveTargetTenant meta branch = .ok ("dev", false)) ∧
    (TrimSpace branch ≠ "dev" → TrimSpace branch ≠ "qas" → TrimSpace branch ≠ "prd" →
      HasPrefix (TrimSpace branch) "feature/" = false →
      HasPrefix (TrimSpace branch) "bugfix/" = false →
      ∃ e, resolveTargetTenant meta branch = .error e) := by
  refine ⟨?_, ?_, ?_, ?_, ?_⟩
  · intro h
    simp [resolveTargetTenant, h]
  · intro h
    refine ⟨?_, ?_⟩
    · by_cases hl : meta.CPITenantLevels = 3 <;> simp [resolveTargetTenant, h, hl]
    · intro hl
      exact ⟨.qasNotEnabled meta.CPITenantLevels, by simp [resolveTargetTenant, h, hl]⟩
  · intro h
    refine ⟨?_, ?_⟩
    · intro hl
      rcases hl with hl | hl <;> simp [resolveTargetTenant, h, hl]
    · intro hl
      have h2 : meta.CPITenantLevels ≠ 2 := fun e => hl (Or.inl e)
      have h3 : meta.CPITenantLevels ≠ 3 := fun e => hl (Or.inr e)
      exact ⟨.invalidLevels meta.CPITenantLevels, by simp [resolveTargetTenant, h, h2, h3]⟩
  · intro hp
    have hne : TrimSpace branch ≠ "" := by
      intro e; rw [e] at hp; revert hp; decide
    have hdev : TrimSpace branch ≠ "dev" := by
      intro e; rw [e] at hp; revert hp; decide
    have hqas : TrimSpace branch ≠ "qas" := by
      intro e; rw [e] at hp; revert hp; decide
    have hprd : TrimSpace branch ≠ "prd" := by
      intro e; rw [e] at hp; revert hp; decide
    have hp2 : (HasPrefix (TrimSpace branch) "feature/" || HasPrefix (TrimSpace branch) "bugfix/")
        = true := by
      rcases hp with hp | hp <;> simp [hp]
    simp only [resolveTargetTenant, hne, hdev, hqas, hprd, hp2, if_true, if_false]
  · intro hdev hqas hprd hf hb
    by_cases hne : TrimSpace branch = ""
    · exact ⟨.emptyBranch, by simp [resolveTargetTenant, hne]⟩
    · exact ⟨.unsupportedBranch (TrimSpace branch) meta.CPITenantLevels, by
        simp [resolveTargetTenant, hne, hdev, hqas, hprd, hf, hb]⟩

/-- C7, counterexample: with the tenant prd, the flag "PRD" is not the string "prd" and
yet `validateToFlag` succeeds; with the tenant dev, the flag "DEV" is non-empty and
differs from the tenant and yet `validateToFlag` succeeds.  Both arguments are trimmed
and lower-cased before they are compared. -/
theorem validateToFlag_upper_case :
    ("PRD" ≠ "prd" ∧ ∀ table, validateToFlag table "PRD" "prd" = none) ∧
    ("DEV" ≠ "" ∧ "DEV" ≠ "dev" ∧ ∀ table, validateToFlag table "DEV" "dev" = none) :=
  ⟨⟨by decide, fun _ => rfl⟩, by decide, by decide, fun _ => rfl⟩

/-- C7, amended: `validateToFlag` enforces the PRD gate on the flag and the tenant after
trimming white space and lower-casing both.  With `f` and `t` the normalised flag and
tenant: when `t` is prd it returns an error containing "refusing to run against PRD
without explicit confirmation" unless `f` is prd, and succeeds when `f` is prd; when `t`
is not prd it succeeds if `f` is empty or equals `t`, and returns an error if `f` is
non-empty and differs from `t`. -/
theorem validateToFlag_gate (table : Char → Char) (toFlag tenant : String) :
    (ToLower table (TrimSpace tenant) = "prd" →
      (ToLower table (TrimSpace toFlag) ≠ "prd" →
        ∃ msg, validateToFlag table toFlag tenant = some msg ∧
          Contains msg "refusing to run against PRD without explicit confirmation" = true) ∧
      (ToLower table (TrimSpace toFlag) = "prd" → validateToFlag table toFlag tenant = none)) ∧
    (ToLower table (TrimSpace tenant) ≠ "prd" →
      (ToLower table (TrimSpace toFlag) = "" ∨
          ToLower table (TrimSpace toFlag) = ToLower table (TrimSpace tenant) →
        validateToFlag table toFlag tenant = none) ∧
      (ToLower table (TrimSpace toFlag) ≠ "" →
          ToLower table (TrimSpace toFlag) ≠ ToLower table (TrimSpace tenant) →
        ∃ msg, validateToFlag table toFlag tenant = some msg)) := by
  refine ⟨fun ht => ⟨fun hf => ?_, fun hf => ?_⟩, fun ht => ⟨fun hf => ?_, fun h1 h2 => ?_⟩⟩
  · refine ⟨prdGateMessage, ?_, by decide⟩
    simp [validateToFlag, ht, hf]
  · simp [validateToFlag, ht, hf]
  · rcases hf with hf | hf
    · simp [validateToFlag, ht, hf]
    · simp only [validateToFlag, ht, hf]
      simp
  · refine ⟨"--to " ++ ToLower table (TrimSpace toFlag) ++ " does not match target tenant " ++
      ToLower table (TrimSpace tenant), ?_⟩
    simp only [validateToFlag, ht, h1, h2, if_false, ne_eq, not_false_eq_true, if_true]

/-- C8, counterexample: with cpiTenantLevels = 3 the flag value "QAS", which is not the
string "qas", yields (source dev, target qas) and not an error, because the flag is
trimmed and lower-cased first. -/
theorem deliverPath_upper_case :
    "QAS" ≠ "qas" ∧ "QAS" ≠ "prd" ∧ ∀ table, deliverPath table "QAS" 3 = .ok ("dev", "qas") :=
  ⟨by decide, by decide, fun _ => rfl⟩

/-- C8, amended: the deliver source/target decision as a function of the `--to` value
after trimming and lower-casing (`d`) and of cpiTenantLevels: it yields (dev, qas)
exactly when levels = 3 and `d` = qas; (qas, prd) exactly when levels = 3 and `d` = prd;
(dev, prd) exactly when levels = 2 and `d` = prd; and an error in every other case. -/
theorem deliverPath_table (table : Char → Char) (toArg : String) (levels : Int) :
    (deliverPath table toArg levels = .ok ("dev", "qas") ↔
      levels = 3 ∧ ToLower table (TrimSpace toArg) = "qas") ∧
    (deliverPath table toArg levels = .ok ("qas", "prd") ↔
      levels = 3 ∧ ToLower table (TrimSpace toArg) = "prd") ∧
    (deliverPath table toArg levels = .ok ("dev", "prd") ↔
      levels = 2 ∧ ToLower table (TrimSpace toArg) = "prd") ∧
    ((∃ e, deliverPath table toArg levels = .error e) ↔
      ¬ (levels = 3 ∧ ToLower table (TrimSpace toArg) = "qas") ∧
      ¬ (levels = 3 ∧ ToLower table (TrimSpace toArg) = "prd") ∧
      ¬ (levels = 2 ∧ ToLower table (TrimSpace toArg) = "prd")) := by
  have hq : ("qas" : String) ≠ "prd" := by decide
  have hq' : ("prd" : String) ≠ "qas" := by decide
  by_cases h1 : ToLower table (TrimSpace toArg) = "qas"
  · by_cases hl : levels = 3
    · subst hl
      simp [deliverPath, h1, hq]
    · simp [deliverPath, h1, hq, hl]
  · by_cases h2 : ToLower table (TrimSpace toArg) = "prd"
    · by_cases hl3 : levels = 3
      · subst hl3
        simp [deliverPath, h2, hq', validateToFlag_prd_prd]
      · by_cases hl2 : levels = 2
        · subst hl2
          simp [deliverPath, h2, hq', validateToFlag_prd_prd]
        · simp [deliverPath, h2, hq', validateToFlag_prd_prd, hl3, hl2]
    · simp [deliverPath, h1, h2]

/-! ## Artifact classifier -/

theorem mem_setInsert {α : Type} [DecidableEq α] (m : List α) (k x : α) :
    x ∈ setInsert m k ↔ x ∈ m ∨ x = k := by
  unfold setInsert
  split_ifs with h
  · constructor
    · exact Or.inl
    · rintro (h1 | h1)
      · exact h1
      · rw [h1]; exact h
  · simp

theorem partition_fold_mem (fs : FileSystem) (repoRoot base : String)
    (changed : List artifactKey) (acc : List artifactKey × List artifactKey) (x : artifactKey) :
    (x ∈ (changed.foldl
      (fun (acc : List artifactKey × List artifactKey) k =>
        if fs.IsDir (fs.Join [repoRoot, base, k.Kind, k.ID]) = true then (setInsert acc.1 k, acc.2)
        else if deletableKind k.Kind = true then (acc.1, setInsert acc.2 k)
        else acc) acc).1 ↔
      x ∈ acc.1 ∨ (x ∈ changed ∧ fs.IsDir (fs.Join [repoRoot, base, x.Kind, x.ID]) = true)) ∧
    (x ∈ (changed.foldl
      (fun (acc : List artifactKey × List artifactKey) k =>
        if fs.IsDir (fs.Join [repoRoot, base, k.Kind, k.ID]) = true then (setInsert acc.1 k, acc.2)
        else if deletableKind k.Kind = true then (acc.1, setInsert acc.2 k)
        else acc) acc).2 ↔
      x ∈ acc.2 ∨ (x ∈ changed ∧ fs.IsDir (fs.Join [repoRoot, base, x.Kind, x.ID]) = false ∧
        deletableKind x.Kind = true)) := by
  induction changed generalizing acc with
  | nil => simp
  | cons k ks ih =>
    simp only [List.foldl_cons, List.mem_cons]
    by_cases hd : fs.IsDir (fs.Join [repoRoot, base, k.Kind, k.ID]) = true
    · rw [if_pos hd]
      obtain ⟨h1, h2⟩ := ih (setInsert acc.1 k, acc.2)
      rw [h1, h2]
      simp only [mem_setInsert]
      constructor
      · constructor
        · rintro ((h | h) | h)
          · exact Or.inl h
          · exact Or.inr ⟨Or.inl h, by rw [h]; exact hd⟩
          · exact Or.inr ⟨Or.inr h.1, h.2⟩
        · rintro (h | ⟨h | h, h'⟩)
          · exact Or.inl (Or.inl h)
          · exact Or.inl (Or.inr h)
          · exact Or.inr ⟨h, h'⟩
      · constructor
        · rintro (h | h)
          · exact Or.inl h
          · exact Or.inr ⟨Or.inr h.1, h.2⟩
        · rintro (h | ⟨h | h, h'⟩)
          · exact Or.inl h
          · rw [h, hd] at h'; exact absurd h'.1 (by simp)
          · exact Or.inr ⟨h, h'⟩
    · rw [if_neg hd]
      have hd' : fs.IsDir (fs.Join [repoRoot, base, k.Kind, k.ID]) = false := by
        simpa using hd
      by_cases hk : deletableKind k.Kind = true
      · rw [if_pos hk]
        obtain ⟨h1, h2⟩ := ih (acc.1, setInsert acc.2 k)
        rw [h1, h2]
        simp only [mem_setInsert]
        constructor
        · constructor
          · rintro (h | h)
            · exact Or.inl h
            · exact Or.inr ⟨Or.inr h.1, h.2⟩
          · rintro (h | ⟨h | h, h'⟩)
            · exact Or.inl h
            · rw [h, hd'] at h'; exact absurd h' (by simp)
            · exact Or.inr ⟨h, h'⟩
        · constructor
          · rintro ((h | h) | h)
            · exact Or.inl h
            · exact Or.inr ⟨Or.inl h, by rw [h]; exact ⟨hd', hk⟩⟩
            · exact Or.inr ⟨Or.inr h.1, h.2⟩
          · rintro (h | ⟨h | h, h'⟩)
            · exact Or.inl (Or.inl h)
            · exact Or.inl (Or.inr h)
            · exact Or.inr ⟨h, h'⟩
      · rw [if_neg hk]
        obtain ⟨h1, h2⟩ := ih acc
        rw [h1, h2]
        constructor
        · constructor
          · rintro (h | h)
            · exact Or.inl h
            · exact Or.inr ⟨Or.inr h.1, h.2⟩
          · rintro (h | ⟨h | h, h'⟩)
            · exact Or.inl h
            · rw [h, hd'] at h'; exact absurd h' (by simp)
            · exact Or.inr ⟨h, h'⟩
        · constructor
          · rintro (h | h)
            · exact Or.inl h
            · exact Or.inr ⟨Or.inr h.1, h.2⟩
          · rintro (h | ⟨h | h, h'⟩)
            · exact Or.inl h
            · rw [h] at h'; exact absurd h'.2 hk
            · exact Or.inr ⟨h, h'⟩

/-- C9: `partitionChangedKeys` respects the local folder.  For every host, repository
root, metadata and set of changed keys, and every key `k`: `k` is in the delete set
exactly when it is a changed key whose directory
`filepath.Join(repoRoot, base, k.Kind, k.ID)` is not an existing directory and whose
kind is one of iFlows, ValueMappings, MessageMappings, Scripts; `k` is in the upload set
exactly when it is a changed key whose directory exists; no key is in both sets; and a
key of kind CustomTags is never in the delete set. -/
theorem partitionChangedKeys_spec (fs : FileSystem) (repoRoot : String) (meta : SyncMetadata)
    (changed : List artifactKey) (k : artifactKey) :
    (k ∈ (partitionChangedKeys fs repoRoot meta changed).2 ↔
      k ∈ changed ∧
      fs.IsDir (fs.Join [repoRoot, resolveContentFolder meta, k.Kind, k.ID]) = false ∧
      (k.Kind = "iFlows" ∨ k.Kind = "ValueMappings" ∨ k.Kind = "MessageMappings" ∨
        k.Kind = "Scripts")) ∧
    (k ∈ (partitionChangedKeys fs repoRoot meta changed).1 ↔
      k ∈ changed ∧
      fs.IsDir (fs.Join [repoRoot, resolveContentFolder meta, k.Kind, k.ID]) = true) ∧
    ¬ (k ∈ (partitionChangedKeys fs repoRoot meta changed).1 ∧
      k ∈ (partitionChangedKeys fs repoRoot meta changed).2) ∧
    (k ∈ (partitionChangedKeys fs repoRoot meta changed).2 → k.Kind ≠ "CustomTags") := by
  obtain ⟨h1, h2⟩ :=
    partition_fold_mem fs repoRoot (resolveContentFolder meta) changed ([], []) k
  have hdel : deletableKind k.Kind = true ↔ (k.Kind = "iFlows" ∨ k.Kind = "ValueMappings" ∨
      k.Kind = "MessageMappings" ∨ k.Kind = "Scripts") := by
    simp only [deletableKind, Bool.or_eq_true, decide_eq_true_eq]
    tauto
  have e2 : k ∈ (partitionChangedKeys fs repoRoot meta changed).2 ↔
      k ∈ changed ∧
      fs.IsDir (fs.Join [repoRoot, resolveContentFolder meta, k.Kind, k.ID]) = false ∧
      (k.Kind = "iFlows" ∨ k.Kind = "ValueMappings" ∨ k.Kind = "MessageMappings" ∨
        k.Kind = "Scripts") := by
    unfold partitionChangedKeys
    rw [h2, hdel]
    simp
  have e1 : k ∈ (partitionChangedKeys fs repoRoot meta changed).1 ↔
      k ∈ changed ∧
      fs.IsDir (fs.Join [repoRoot, resolveContentFolder meta, k.Kind, k.ID]) = true := by
    unfold partitionChangedKeys
    rw [h1]
    simp
  refine ⟨e2, e1, ?_, ?_⟩
  · rw [e1, e2]
    rintro ⟨⟨_, ha⟩, _, hb, _⟩
    rw [ha] at hb
    exact absurd hb (by simp)
  · rw [e2]
    rintro ⟨_, _, hk⟩ hc
    rw [hc] at hk
    revert hk
    decide

theorem cutAt_append (sep : Char) (a r : List Char) (h : sep ∉ a) :
    cutAt sep (a ++ sep :: r) = (a, some r) := by
  induction a with
  | nil => simp [cutAt]
  | cons c cs ih =>
    have hc : c ≠ sep := fun e => h (by simp [e])
    have hcs : sep ∉ cs := fun e => h (by simp [e])
    simp [cutAt, hc, ih hcs]

theorem cutAt_some (sep : Char) (s a r : List Char) (h : cutAt sep s = (a, some r)) :
    s = a ++ sep :: r ∧ sep ∉ a := by
  induction s generalizing a with
  | nil => simp [cutAt] at h
  | cons c cs ih =>
    unfold cutAt at h
    split_ifs at h with hc
    · simp only [Prod.mk.injEq, Option.some.injEq] at h
      obtain ⟨ha, hr⟩ := h
      subst ha; subst hr; subst hc
      simp
    · simp only [Prod.mk.injEq] at h
      obtain ⟨ha, hr⟩ := h
      obtain ⟨h1, h2⟩ := ih (cutAt sep cs).1 (by rw [← hr])
      subst ha
      refine ⟨by rw [List.cons_append, ← h1], ?_⟩
      simp only [List.mem_cons, not_or]
      exact ⟨fun e => hc e.symm, h2⟩

theorem splitNL_three (sep : Char) (s p0 p1 p2 : List Char) (t : List (List Char))
    (h : splitNL sep 3 s = p0 :: p1 :: p2 :: t) :
    t = [] ∧ s = p0 ++ sep :: (p1 ++ sep :: p2) ∧ sep ∉ p0 ∧ sep ∉ p1 := by
  simp only [splitNL] at h
  rcases h1 : cutAt sep s with ⟨a, _ | r⟩
  · rw [h1] at h; simp at h
  · rw [h1] at h
    simp only [List.cons.injEq] at h
    obtain ⟨ha, h⟩ := h
    rcases h2 : cutAt sep r with ⟨b, _ | r2⟩
    · rw [h2] at h; simp at h
    · rw [h2] at h
      simp only [List.cons.injEq] at h
      obtain ⟨hb, hc, ht⟩ := h
      obtain ⟨e1, n1⟩ := cutAt_some sep s a r h1
      obtain ⟨e2, n2⟩ := cutAt_some sep r b r2 h2
      subst ha; subst hb; subst hc
      exact ⟨ht.symm, by rw [e1, e2], n1, n2⟩

theorem splitNL_three_append (sep : Char) (a b c : List Char) (ha : sep ∉ a) (hb : sep ∉ b) :
    splitNL sep 3 (a ++ sep :: (b ++ sep :: c)) = [a, b, c] := by
  simp [splitNL, cutAt_append sep a _ ha, cutAt_append sep b _ hb]

theorem detect_fold_mem (sep : Char) (base : String) (paths : List String)
    (acc : List artifactKey) (k : artifactKey) :
    k ∈ paths.foldl
      (fun keys p =>
        match detectKey sep base p with
        | some k => setInsert keys k
        | none => keys) acc ↔
    k ∈ acc ∨ ∃ p ∈ paths, detectKey sep base p = some k := by
  induction paths generalizing acc with
  | nil => simp
  | cons p ps ih =>
    simp only [List.foldl_cons, List.mem_cons]
    rw [ih]
    rcases hp : detectKey sep base p with _ | k'
    · simp only []
      constructor
      · rintro (h | ⟨q, hq, hk⟩)
        · exact Or.inl h
        · exact Or.inr ⟨q, Or.inr hq, hk⟩
      · rintro (h | ⟨q, hq | hq, hk⟩)
        · exact Or.inl h
        · rw [hq, hp] at hk; cases hk
        · exact Or.inr ⟨q, hq, hk⟩
    · simp only [mem_setInsert]
      constructor
      · rintro ((h | h) | ⟨q, hq, hk⟩)
        · exact Or.inl h
        · exact Or.inr ⟨p, Or.inl rfl, by rw [hp, h]⟩
        · exact Or.inr ⟨q, Or.inr hq, hk⟩
      · rintro (h | ⟨q, hq | hq, hk⟩)
        · exact Or.inl (Or.inl h)
        · rw [hq, hp] at hk
          exact Or.inl (Or.inr (Option.some.inj hk).symm)
        · exact Or.inr ⟨q, hq, hk⟩

theorem detectKey_eq_some (sep : Char) (base p : String) (k : artifactKey) :
    detectKey sep base p = some k ↔
    ∃ kindSeg idSeg rest : String,
      ToSlash sep (TrimSpace p) = base ++ kindSeg ++ "/" ++ idSeg ++ "/" ++ rest ∧
      '/' ∉ kindSeg.data ∧ '/' ∉ idSeg.data ∧
      k.Kind = TrimSpace kindSeg ∧ k.ID = TrimSpace idSeg ∧
      k.Kind ∈ knownArtifactKinds ∧ k.ID ≠ "" ∧ Contains k.ID ".json" = false := by
  constructor
  · intro h
    unfold detectKey at h
    simp only [] at h
    split_ifs at h with h0
    have hpre : HasPrefix (ToSlash sep (TrimSpace p)) base = true := by
      by_contra hc
      exact h0 (Or.inr (by simpa using hc))
    rcases hs : SplitN (TrimPrefix (ToSlash sep (TrimSpace p)) base) '/' 3 with
      _ | ⟨p0, _ | ⟨p1, _ | ⟨p2, t⟩⟩⟩
    · rw [hs] at h; simp at h
    · rw [hs] at h; simp at h
    · rw [hs] at h; simp at h
    · rw [hs] at h
      simp only [] at h
      split_ifs at h with h1 h2 h3
      simp only [Option.some.injEq] at h
      have hk1 : TrimSpace p0 ≠ "" := fun e => h1 (Or.inl e)
      have hk2 : TrimSpace p1 ≠ "" := fun e => h1 (Or.inr e)
      unfold SplitN at hs
      rcases hl : splitNL '/' 3 (TrimPrefix (ToSlash sep (TrimSpace p)) base).data with
        _ | ⟨a, _ | ⟨b, _ | ⟨c, t'⟩⟩⟩
      · rw [hl] at hs; simp at hs
      · rw [hl] at hs; simp at hs
      · rw [hl] at hs; simp at hs
      · rw [hl] at hs
        simp only [List.map_cons, List.cons.injEq] at hs
        obtain ⟨e0, e1, e2, _⟩ := hs
        obtain ⟨_, hdata, na, nb⟩ := splitNL_three '/' _ a b c t' hl
        have hP : (ToSlash sep (TrimSpace p)).data =
            base.data ++ (a ++ '/' :: (b ++ '/' :: c)) := by
          unfold HasPrefix at hpre
          rw [List.isPrefixOf_iff_prefix] at hpre
          obtain ⟨r, hr⟩ := hpre
          have : (TrimPrefix (ToSlash sep (TrimSpace p)) base).data = r := by
            unfold TrimPrefix HasPrefix
            rw [if_pos (by rw [List.isPrefixOf_iff_prefix]; exact ⟨r, hr⟩)]
            simp only []
            rw [← hr]
            simp
          rw [← hr, ← hdata, this]
        refine ⟨p0, p1, p2, ?_, ?_, ?_, ?_, ?_, ?_, ?_, ?_⟩
        · apply String.ext
          rw [hP, ← e0, ← e1, ← e2]
          simp [String.data_append]
        · rw [← e0]; exact na
        · rw [← e1]; exact nb
        · rw [← h]
        · rw [← h]
        · rw [← h]; simpa using h2
        · rw [← h]; exact hk2
        · rw [← h]; simpa using h3
  · rintro ⟨kindSeg, idSeg, rest, hshape, nk, ni, hk, hi, hknown, hne, hjson⟩
    have hP : (ToSlash sep (TrimSpace p)).data =
        base.data ++ (kindSeg.data ++ '/' :: (idSeg.data ++ '/' :: rest.data)) := by
      rw [hshape]
      simp [String.data_append]
    have hpre : HasPrefix (ToSlash sep (TrimSpace p)) base = true := by
      unfold HasPrefix
      rw [List.isPrefixOf_iff_prefix, hP]
      exact List.prefix_append _ _
    have hrel : (TrimPrefix (ToSlash sep (TrimSpace p)) base).data =
        kindSeg.data ++ '/' :: (idSeg.data ++ '/' :: rest.data) := by
      unfold TrimPrefix
      rw [if_pos hpre]
      simp only []
      rw [hP]
      simp
    have hnonempty : ToSlash sep (TrimSpace p) ≠ "" := by
      intro e
      have := congrArg String.data e
      rw [hP] at this
      simp at this
    have hsplit : SplitN (TrimPrefix (ToSlash sep (TrimSpace p)) base) '/' 3 =
        [kindSeg, idSeg, rest] := by
      unfold SplitN
      rw [hrel, splitNL_three_append '/' _ _ _ nk ni]
      rfl
    have hkne : TrimSpace kindSeg ≠ "" := by
      intro e
      rw [← hk] at e
      rw [e] at hknown
      revert hknown
      decide
    unfold detectKey
    simp only []
    rw [if_neg (by
      rintro (h | h)
      · exact hnonempty h
      · rw [hpre] at h; cases h)]
    rw [hsplit]
    simp only []
    rw [if_neg (by
      rintro (h | h)
      · exact hkne h
      · rw [← hi] at h; exact hne h)]
    rw [if_neg (by rw [← hk]; simpa using hknown)]
    rw [if_neg (by rw [← hi, hjson]; simp)]
    cases k
    simp only [Option.some.injEq, artifactKey.mk.injEq]
    exact ⟨hk.symm, hi.symm⟩

/-- C10, counterexample: the path "IntegrationPackage/iFlows/ x/f" has the shape
base/kind/id/rest with the known kind iFlows and the id " x", which is non-empty and
holds no ".json"; the claim puts (iFlows, " x") in the result, the code returns
(iFlows, "x") instead, because it trims the kind and id segments. -/
theorem detectChangedArtifacts_padded_id :
    "IntegrationPackage/iFlows/ x/f" =
      "IntegrationPackage" ++ "/" ++ "iFlows" ++ "/" ++ " x" ++ "/" ++ "f" ∧
    "iFlows" ∈ knownArtifactKinds ∧ " x" ≠ "" ∧ Contains " x" ".json" = false ∧
    detectChangedArtifacts '/'
      ⟨1, "p", 3, "pkg", "Package", "IntegrationPackage", "r", "github", "t"⟩
      ["IntegrationPackage/iFlows/ x/f"] = [⟨"iFlows", "x"⟩] ∧
    (⟨"iFlows", " x"⟩ : artifactKey) ∉ detectChangedArtifacts '/'
      ⟨1, "p", 3, "pkg", "Package", "IntegrationPackage", "r", "github", "t"⟩
      ["IntegrationPackage/iFlows/ x/f"] := by
  decide

/-- C10, amended: `detectChangedArtifacts` returns exactly the set of (kind, id) pairs
such that some changed path, once trimmed and slash-normalised, has the shape
base/kindSeg/idSeg/rest (three segments after the content folder, the last possibly
empty), where kind and id are the segments `kindSeg` and `idSeg` with their surrounding
white space trimmed, kind is one of the five known kinds, id is non-empty and id does
not contain ".json".  Paths outside the content folder, with fewer segments or with an
unknown kind contribute nothing, and every returned key has a non-empty kind and id. -/
theorem detectChangedArtifacts_spec (sep : Char) (meta : SyncMetadata)
    (changedPaths : List String) (k : artifactKey) :
    (k ∈ detectChangedArtifacts sep meta changedPaths ↔
      ∃ p ∈ changedPaths, ∃ kindSeg idSeg rest : String,
        ToSlash sep (TrimSpace p) =
          ToSlash sep (Trim (resolveContentFolder meta) "/") ++ "/" ++
            kindSeg ++ "/" ++ idSeg ++ "/" ++ rest ∧
        '/' ∉ kindSeg.data ∧ '/' ∉ idSeg.data ∧
        k.Kind = TrimSpace kindSeg ∧ k.ID = TrimSpace idSeg ∧
        k.Kind ∈ knownArtifactKinds ∧ k.ID ≠ "" ∧ Contains k.ID ".json" = false) ∧
    (k ∈ detectChangedArtifacts sep meta changedPaths → k.Kind ≠ "" ∧ k.ID ≠ "") := by
  have key : k ∈ detectChangedArtifacts sep meta changedPaths ↔
      ∃ p ∈ changedPaths, ∃ kindSeg idSeg rest : String,
        ToSlash sep (TrimSpace p) =
          ToSlash sep (Trim (resolveContentFolder meta) "/") ++ "/" ++
            kindSeg ++ "/" ++ idSeg ++ "/" ++ rest ∧
        '/' ∉ kindSeg.data ∧ '/' ∉ idSeg.data ∧
        k.Kind = TrimSpace kindSeg ∧ k.ID = TrimSpace idSeg ∧
        k.Kind ∈ knownArtifactKinds ∧ k.ID ≠ "" ∧ Contains k.ID ".json" = false := by
    unfold detectChangedArtifacts
    simp only []
    rw [detect_fold_mem]
    simp only [List.not_mem_nil, false_or]
    constructor
    · rintro ⟨p, hp, h⟩
      exact ⟨p, hp, (detectKey_eq_some sep _ p k).1 h⟩
    · rintro ⟨p, hp, h⟩
      exact ⟨p, hp, (detectKey_eq_some sep _ p k).2 h⟩
  refine ⟨key, ?_⟩
  intro h
  obtain ⟨p, _, kindSeg, idSeg, rest, _, _, _, _, _, hknown, hne, _⟩ := key.1 h
  refine ⟨?_, hne⟩
  intro e
  rw [e] at hknown
  revert hknown
  decide

/-! ## The (Kind, ID) order and the sorted copies -/

theorem char_toNat_inj (a b : Char) (h : a.toNat = b.toNat) : a = b := by
  apply Char.ext
  apply UInt32.ext
  exact h

theorem strLtL_irrefl (a : List Char) : strLtL a a = false := by
  induction a with
  | nil => rfl
  | cons c cs ih => simp [strLtL, ih]

theorem strLtL_trans (a b c : List Char) (h1 : strLtL a b = true) (h2 : strLtL b c = true) :
    strLtL a c = true := by
  induction a generalizing b c with
  | nil =>
    cases b with
    | nil => simp [strLtL] at h1
    | cons y ys =>
      cases c with
      | nil => simp [strLtL] at h2
      | cons z zs => simp [strLtL]
  | cons x xs ih =>
    cases b with
    | nil => simp [strLtL] at h1
    | cons y ys =>
      cases c with
      | nil => simp [strLtL] at h2
      | cons z zs =>
        simp only [strLtL, Bool.or_eq_true, decide_eq_true_eq, Bool.and_eq_true, beq_iff_eq]
          at h1 h2 ⊢
        rcases h1 with h1 | ⟨e1, h1⟩
        · rcases h2 with h2 | ⟨e2, _⟩
          · exact Or.inl (lt_trans h1 h2)
          · exact Or.inl (by rw [← e2]; exact h1)
        · rcases h2 with h2 | ⟨e2, h2⟩
          · exact Or.inl (by rw [e1]; exact h2)
          · exact Or.inr ⟨e1.trans e2, ih ys zs h1 h2⟩

theorem strLtL_total (a b : List Char) (h1 : strLtL a b = false) (h2 : strLtL b a = false) :
    a = b := by
  induction a generalizing b with
  | nil =>
    cases b with
    | nil => rfl
    | cons y ys => simp [strLtL] at h1
  | cons x xs ih =>
    cases b with
    | nil => simp [strLtL] at h2
    | cons y ys =>
      simp only [strLtL, Bool.or_eq_false_iff, decide_eq_false_iff_not, Bool.and_eq_false_imp,
        beq_iff_eq, not_lt] at h1 h2
      have e : x.toNat = y.toNat := le_antisymm h2.1 h1.1
      rw [char_toNat_inj x y e, ih ys (h1.2 e) (h2.2 e.symm)]

theorem strLt_irrefl (a : String) : strLt a a = false := strLtL_irrefl a.data

theorem strLt_trans (a b c : String) (h1 : strLt a b = true) (h2 : strLt b c = true) :
    strLt a c = true := strLtL_trans a.data b.data c.data h1 h2

theorem strLt_total (a b : String) (h1 : strLt a b = false) (h2 : strLt b a = false) :
    a = b := String.ext (strLtL_total a.data b.data h1 h2)

theorem lessKindID_irrefl (k i : String) : lessKindID k i k i = false := by
  simp [lessKindID, strLt_irrefl]

theorem lessKindID_trans (k1 i1 k2 i2 k3 i3 : String)
    (h1 : lessKindID k1 i1 k2 i2 = true) (h2 : lessKindID k2 i2 k3 i3 = true) :
    lessKindID k1 i1 k3 i3 = true := by
  unfold lessKindID at *
  by_cases e12 : k1 = k2
  · subst e12
    by_cases e23 : k1 = k3
    · subst e23
      simp only [if_true] at h1 h2 ⊢
      exact strLt_trans _ _ _ h1 h2
    · simp only [if_true, if_neg e23] at h1 h2 ⊢
      exact h2
  · rw [if_neg e12] at h1
    by_cases e23 : k2 = k3
    · subst e23
      rw [if_neg e12]
      exact h1
    · rw [if_neg e23] at h2
      have h13 := strLt_trans _ _ _ h1 h2
      by_cases e13 : k1 = k3
      · subst e13
        rw [strLt_irrefl] at h13
        cases h13
      · rw [if_neg e13]
        exact h13

theorem lessKindID_total (k1 i1 k2 i2 : String)
    (h1 : lessKindID k1 i1 k2 i2 = false) (h2 : lessKindID k2 i2 k1 i1 = false) :
    k1 = k2 ∧ i1 = i2 := by
  unfold lessKindID at *
  by_cases e : k1 = k2
  · subst e
    simp only [if_true] at h1 h2
    exact ⟨rfl, strLt_total _ _ h1 h2⟩
  · rw [if_neg e] at h1
    rw [if_neg (fun e' => e e'.symm)] at h2
    exact absurd (strLt_total _ _ h1 h2) e

theorem keyLess_irrefl (a : artifactKey) : keyLess a a = false :=
  lessKindID_irrefl a.Kind a.ID

theorem keyLess_trans (a b c : artifactKey) (h1 : keyLess a b = true) (h2 : keyLess b c = true) :
    keyLess a c = true := lessKindID_trans _ _ _ _ _ _ h1 h2

theorem keyLess_total (a b : artifactKey) (h1 : keyLess a b = false) (h2 : keyLess b a = false) :
    a = b := by
  obtain ⟨e1, e2⟩ := lessKindID_total _ _ _ _ h1 h2
  cases a; cases b; simp_all

theorem targetLess_irrefl (a : deployTarget) : targetLess a a = false :=
  lessKindID_irrefl a.Kind a.ID

theorem targetLess_trans (a b c : deployTarget) (h1 : targetLess a b = true)
    (h2 : targetLess b c = true) : targetLess a c = true :=
  lessKindID_trans _ _ _ _ _ _ h1 h2

theorem targetLess_total (a b : deployTarget) (h1 : targetLess a b = false)
    (h2 : targetLess b a = false) : a = b := by
  obtain ⟨e1, e2⟩ := lessKindID_total _ _ _ _ h1 h2
  cases a; cases b; simp_all

/-- A strict order given as a Boolean comparison. -/
structure StrictLess {α : Type} (less : α → α → Bool) : Prop where
  irrefl : ∀ a, less a a = false
  trans : ∀ a b c, less a b = true → less b c = true → less a c = true

theorem keyLess_strict : StrictLess keyLess := ⟨keyLess_irrefl, keyLess_trans⟩

theorem targetLess_strict : StrictLess targetLess := ⟨targetLess_irrefl, targetLess_trans⟩

theorem StrictLess.asymm {α : Type} {less : α → α → Bool} (h : StrictLess less) (a b : α)
    (hab : less a b = true) : less b a = false := by
  by_contra hc
  have hba : less b a = true := by simpa using hc
  have := h.trans a b a hab hba
  rw [h.irrefl] at this
  cases this

theorem insertSorted_perm {α : Type} (less : α → α → Bool) (a : α) (l : List α) :
    List.Perm (insertSorted less a l) (a :: l) := by
  induction l with
  | nil => exact List.Perm.refl _
  | cons b bs ih =>
    unfold insertSorted
    split_ifs
    · exact (List.Perm.cons b ih).trans (List.Perm.swap a b bs)
    · exact List.Perm.refl _
    · exact (List.Perm.cons b ih).trans (List.Perm.swap a b bs)

theorem sortSlice_perm {α : Type} (less : α → α → Bool) (l : List α) :
    List.Perm (sortSlice less l) l := by
  induction l with
  | nil => exact List.Perm.refl _
  | cons a as ih =>
    exact (insertSorted_perm less a _).trans (List.Perm.cons a ih)

theorem mem_sortSlice {α : Type} (less : α → α → Bool) (l : List α) (x : α) :
    x ∈ sortSlice less l ↔ x ∈ l := (sortSlice_perm less l).mem_iff

theorem insertSorted_sorted {α : Type} {less : α → α → Bool} (h : StrictLess less) (a : α)
    (l : List α) (hl : l.Pairwise (fun x y => less y x = false)) :
    (insertSorted less a l).Pairwise (fun x y => less y x = false) := by
  induction l with
  | nil => simp [insertSorted]
  | cons b bs ih =>
    rw [List.pairwise_cons] at hl
    unfold insertSorted
    split_ifs with h1 h2
    · rw [List.pairwise_cons]
      refine ⟨?_, ih hl.2⟩
      intro y hy
      rcases List.mem_cons.1 ((insertSorted_perm less a bs).mem_iff.1 hy) with hy | hy
      · rw [hy]; exact h.asymm b a h1
      · exact hl.1 y hy
    · rw [List.pairwise_cons]
      refine ⟨?_, List.pairwise_cons.2 hl⟩
      intro y hy
      simp only [List.mem_cons] at hy
      rcases hy with hy | hy
      · rw [hy]; simpa using h1
      · by_contra hc
        have hya : less y a = true := by simpa using hc
        have := h.trans y a b hya h2
        rw [hl.1 y hy] at this
        cases this
    · rw [List.pairwise_cons]
      refine ⟨?_, ih hl.2⟩
      intro y hy
      have hy' := (insertSorted_perm less a bs).mem_iff.1 hy
      simp only [List.mem_cons] at hy'
      rcases hy' with hy' | hy'
      · rw [hy']; simpa using h2
      · exact hl.1 y hy'

theorem sortSlice_sorted {α : Type} {less : α → α → Bool} (h : StrictLess less) (l : List α) :
    (sortSlice less l).Pairwise (fun x y => less y x = false) := by
  induction l with
  | nil => simp [sortSlice]
  | cons a as ih => exact insertSorted_sorted h a _ ih

/-! ## The loops of the CPI phase -/

theorem forEach_inv {σ α : Type} (body : α → Run σ → Run σ) (I : List α → Run σ → Prop)
    (hI : ∀ pre r, I pre r → r.failed = none)
    (hstep : ∀ pre a r, I pre r → (body a r).failed = none → I (pre ++ [a]) (body a r))
    (l pre0 : List α) (r : Run σ) (h0 : I pre0 r) :
    ((forEach body l r).failed = none → I (pre0 ++ l) (forEach body l r)) ∧
    ((forEach body l r).failed ≠ none →
      ∃ pre a post rm, l = pre ++ a :: post ∧ I (pre0 ++ pre) rm ∧
        forEach body l r = body a rm ∧ (body a rm).failed ≠ none) := by
  induction l generalizing pre0 r with
  | nil =>
    refine ⟨fun _ => by simpa [forEach] using h0, fun h => ?_⟩
    exact absurd (hI _ _ h0) (by simpa [forEach] using h)
  | cons a as ih =>
    by_cases hf : (body a r).failed.isSome = true
    · have e : forEach body (a :: as) r = body a r := by simp [forEach, hf]
      rw [e]
      have hne : (body a r).failed ≠ none := by
        intro hc; rw [hc] at hf; simp at hf
      refine ⟨fun h => absurd h hne, fun _ => ?_⟩
      exact ⟨[], a, as, r, rfl, by simpa using h0, rfl, hne⟩
    · have e : forEach body (a :: as) r = forEach body as (body a r) := by simp [forEach, hf]
      rw [e]
      have hok : (body a r).failed = none := by
        cases h : (body a r).failed with
        | none => rfl
        | some x => rw [h] at hf; simp at hf
      obtain ⟨h1, h2⟩ := ih (pre0 ++ [a]) (body a r) (hstep pre0 a r h0 hok)
      refine ⟨fun h => by simpa using h1 h, fun h => ?_⟩
      obtain ⟨pre, b, post, rm, hl, hI', he, hfail⟩ := h2 h
      exact ⟨a :: pre, b, post, rm, by rw [hl]; rfl, by simpa using hI', he, hfail⟩

theorem removeUpload_eq_filter (l : List artifactKey) (k : artifactKey) :
    removeUpload l k = l.filter (fun x => decide (x ≠ k)) := by
  unfold removeUpload
  congr 1
  funext x
  cases x; cases k
  simp only [artifactKey.mk.injEq, ne_eq]
  by_cases h1 : ‹String› = ‹String› <;> simp [*]

theorem deleteArtifactInCPI_calls {σ : Type} (client : CPIClient σ) (w : σ) (kind id : String) :
    (∀ c ∈ (deleteArtifactInCPI client w kind id).2.2,
      c.op = Op.delete ∧ c.key = ⟨kind, id⟩) ∧
    ((deleteArtifactInCPI client w kind id).1 ≠ none →
      ∀ c ∈ (deleteArtifactInCPI client w kind id).2.2, c.ok = false) ∧
    ((deleteArtifactInCPI client w kind id).1 = none →
      (∀ c ∈ (deleteArtifactInCPI client w kind id).2.2, c.ok = true) →
      (deleteArtifactInCPI client w kind id).2.2.map CPICall.mutation =
        if deletableKind kind = true then [(Op.delete, ⟨kind, id⟩)] else []) := by
  unfold deleteArtifactInCPI
  by_cases h1 : kind = "iFlows"
  · subst h1
    simp only [if_true]
    rcases ha : client.DeleteArtifact w "IntegrationAdapterDesigntimeArtifacts" id "" with
      ⟨_ | err, w1⟩
    · simp [CPICall.mutation, deletableKind]
    · simp only []
      by_cases hfb : (IsNotFound err || IsBadRequest err) = true
      · rw [if_pos hfb]
        rcases hb : client.DeleteArtifact w1 "IntegrationDesigntimeArtifacts" id "active" with
          ⟨_ | e2, w2⟩
        · simp [hb, CPICall.mutation, deletableKind]
        · simp [hb, CPICall.mutation]
      · rw [if_neg hfb]
        simp [CPICall.mutation]
  · rw [if_neg h1]
    by_cases h2 : kind = "ValueMappings"
    · subst h2
      simp only [if_true]
      rcases ha : client.DeleteArtifact w "ValueMappingDesigntimeArtifacts" id "active" with
        ⟨_ | err, w1⟩ <;> simp [ha, CPICall.mutation, deletableKind]
    · rw [if_neg h2]
      by_cases h3 : kind = "MessageMappings"
      · subst h3
        simp only [if_true]
        rcases ha : client.DeleteArtifact w "MessageMappingDesigntimeArtifacts" id "active" with
          ⟨_ | err, w1⟩ <;> simp [ha, CPICall.mutation, deletableKind]
      · rw [if_neg h3]
        by_cases h4 : kind = "Scripts"
        · subst h4
          simp only [if_true]
          rcases ha : client.DeleteArtifact w "ScriptCollectionDesigntimeArtifacts" id "active"
            with ⟨_ | err, w1⟩ <;> simp [ha, CPICall.mutation, deletableKind]
        · rw [if_neg h4]
          simp [deletableKind, h1, h2, h3, h4]

theorem deleteStep_ok {σ : Type} (client : CPIClient σ) (k : artifactKey) (r : Run σ)
    (h : (deleteStep client k r).failed = none) :
    ∃ cs, (deleteStep client k r).calls = r.calls ++ cs ∧
      (∀ c ∈ cs, c.op = Op.delete ∧ c.key = k) ∧
      ((∀ c ∈ cs, c.ok = true) →
        cs.map CPICall.mutation = if deletableKind k.Kind = true then [(Op.delete, k)] else []) ∧
      (deleteStep client k r).record =
        { r.record with DeleteRemaining := removeUpload r.record.DeleteRemaining k } ∧
      (deleteStep client k r).persisted = r.persisted ++
        [{ r.record with DeleteRemaining := removeUpload r.record.DeleteRemaining k }] := by
  have hc := deleteArtifactInCPI_calls client r.tenant k.Kind k.ID
  unfold deleteStep at h ⊢
  rcases hd : deleteArtifactInCPI client r.tenant k.Kind k.ID with ⟨_ | err, w, cs⟩
  · rw [hd] at hc
    refine ⟨cs, ?_, ?_, ?_, ?_, ?_⟩
    · simp [Run.persist]
    · simpa using hc.1
    · simpa using hc.2.2
    · simp [Run.persist]
    · simp [Run.persist]
  · rw [hd] at h
    simp [Run.fail] at h

theorem deleteStep_fail {σ : Type} (client : CPIClient σ) (k : artifactKey) (r : Run σ)
    (hr : r.failed = none) (h : (deleteStep client k r).failed ≠ none) :
    ∃ cs msg, (deleteStep client k r).failed = some (Step.delete k, msg) ∧
      (deleteStep client k r).calls = r.calls ++ cs ∧
      (∀ c ∈ cs, c.op = Op.delete ∧ c.key = k ∧ c.ok = false) ∧
      (deleteStep client k r).record =
        { r.record with TransportStatus := "pending", Error := msg } ∧
      (deleteStep client k r).persisted = r.persisted ++
        [{ r.record with TransportStatus := "pending", Error := msg }] := by
  have hc := deleteArtifactInCPI_calls client r.tenant k.Kind k.ID
  unfold deleteStep at h ⊢
  rcases hd : deleteArtifactInCPI client r.tenant k.Kind k.ID with ⟨_ | err, w, cs⟩
  · rw [hd] at h
    simp [Run.persist, hr] at h
  · rw [hd] at hc
    refine ⟨cs, err.Error, ?_, ?_, ?_, ?_, ?_⟩
    · simp [Run.fail]
    · simp [Run.fail]
    · intro c hm
      have h1 := hc.1 c hm
      have h2 := hc.2.1 (by simp) c hm
      exact ⟨h1.1, h1.2, h2⟩
    · simp [Run.fail]
    · simp [Run.fail]

theorem filter_not_mem_snoc {α : Type} [DecidableEq α] (l pre : List α) (a : α) :
    (l.filter (fun x => decide (x ∉ pre))).filter (fun x => decide (x ≠ a)) =
      l.filter (fun x => decide (x ∉ pre ++ [a])) := by
  rw [List.filter_filter]
  congr 1
  funext x
  by_cases h1 : x = a <;> by_cases h2 : x ∈ pre <;> simp [h1, h2]

theorem deleteInv_init {σ : Type} (r0 : Run σ) (h0 : r0.failed = none) :
    DeleteInv r0 [] r0 := by
  refine ⟨h0, ?_, [], [], by simp, by simp, by simp, by simp, by simp⟩
  simp

theorem deleteInv_step {σ : Type} (client : CPIClient σ) (r0 : Run σ)
    (pre : List artifactKey) (a : artifactKey) (r : Run σ) (hI : DeleteInv r0 pre r)
    (hok : (deleteStep client a r).failed = none) :
    DeleteInv r0 (pre ++ [a]) (deleteStep client a r) := by
  obtain ⟨_, hrec, cs, snaps, hcalls, hpers, hops, hall, hsnap⟩ := hI
  obtain ⟨cs1, hc1, hop1, hall1, hrec1, hpers1⟩ := deleteStep_ok client a r hok
  refine ⟨hok, ?_, cs ++ cs1, snaps ++ [(deleteStep client a r).record], ?_, ?_, ?_, ?_, ?_⟩
  · rw [hrec1, hrec, removeUpload_eq_filter]
    simp only []
    rw [filter_not_mem_snoc]
  · rw [hc1, hcalls, List.append_assoc]
  · rw [hpers1, hpers, hrec1, List.append_assoc]
  · intro c hc
    rcases List.mem_append.1 hc with hc | hc
    · exact ⟨(hops c hc).1, List.mem_append.2 (Or.inl (hops c hc).2)⟩
    · exact ⟨(hop1 c hc).1, by rw [(hop1 c hc).2]; simp⟩
  · intro hallok
    have ha : ∀ c ∈ cs, c.ok = true := fun c hc => hallok c (List.mem_append.2 (Or.inl hc))
    have hb : ∀ c ∈ cs1, c.ok = true := fun c hc => hallok c (List.mem_append.2 (Or.inr hc))
    rw [List.map_append, hall ha, hall1 hb, List.filter_append, List.map_append]
    by_cases hd : deletableKind a.Kind = true <;> simp [hd]
  · intro x hx
    rcases List.mem_append.1 hx with hx | hx
    · exact ⟨by simp, (hsnap x hx).2⟩
    · simp only [List.mem_singleton] at hx
      refine ⟨by simp, ?_⟩
      rw [hx, hrec1, hrec]

theorem deleteLoop_spec {σ : Type} (client : CPIClient σ) (l : List artifactKey) (r0 : Run σ)
    (h0 : r0.failed = none) :
    ((forEach (deleteStep client) l r0).failed = none →
      DeleteInv r0 l (forEach (deleteStep client) l r0)) ∧
    ((forEach (deleteStep client) l r0).failed ≠ none →
      ∃ pre k post rm cs msg, l = pre ++ k :: post ∧ DeleteInv r0 pre rm ∧
        (forEach (deleteStep client) l r0).failed = some (Step.delete k, msg) ∧
        (forEach (deleteStep client) l r0).calls = rm.calls ++ cs ∧
        (∀ c ∈ cs, c.op = Op.delete ∧ c.key = k ∧ c.ok = false) ∧
        (forEach (deleteStep client) l r0).record =
          { rm.record with TransportStatus := "pending", Error := msg } ∧
        (forEach (deleteStep client) l r0).persisted = rm.persisted ++
          [{ rm.record with TransportStatus := "pending", Error := msg }]) := by
  obtain ⟨h1, h2⟩ := forEach_inv (deleteStep client) (DeleteInv r0) (fun _ _ h => h.1)
    (fun pre a r hI hok => deleteInv_step client r0 pre a r hI hok) l [] r0
    (deleteInv_init r0 h0)
  refine ⟨fun h => by simpa using h1 h, fun h => ?_⟩
  obtain ⟨pre, k, post, rm, hl, hI, he, hf⟩ := h2 h
  obtain ⟨cs, msg, f1, f2, f3, f4, f5⟩ := deleteStep_fail client k rm hI.1 hf
  rw [he]
  exact ⟨pre, k, post, rm, cs, msg, hl, by simpa using hI, f1, f2, f3, f4, f5⟩

theorem kindToEntitySet_ne_empty (kind : String) :
    kindToEntitySet kind ≠ "" ↔ deployRequiredKind kind = true := by
  unfold kindToEntitySet deployRequiredKind
  by_cases h1 : kind = "iFlows"
  · subst h1; decide
  · by_cases h2 : kind = "ValueMappings"
    · subst h2; decide
    · by_cases h3 : kind = "MessageMappings"
      · subst h3; decide
      · by_cases h4 : kind = "Scripts"
        · subst h4; decide
        · simp [h1, h2, h3, h4]

theorem uploadStep_ok {σ : Type} (client : CPIClient σ) (fs : FileSystem) (repoRoot : String)
    (meta : SyncMetadata) (arts : ArtsByKind) (k : artifactKey) (r : Run σ)
    (h : (uploadStep client fs repoRoot meta arts k r).failed = none) :
    (uploadStep client fs repoRoot meta arts k r).record =
      { r.record with
        UploadRemaining := removeUpload r.record.UploadRemaining k
        DeployRemaining :=
          if uploadableIn fs repoRoot meta arts k = true then
            mergeDeployRemaining r.record.DeployRemaining [⟨k.Kind, k.ID⟩]
          else r.record.DeployRemaining } ∧
    (uploadStep client fs repoRoot meta arts k r).calls = r.calls ++
      (if uploadableIn fs repoRoot meta arts k = true then [uploadCall k] else []) ∧
    (uploadStep client fs repoRoot meta arts k r).persisted = r.persisted ++
      [(uploadStep client fs repoRoot meta arts k r).record] := by
  unfold uploadStep at h ⊢
  unfold uploadableIn lookupArtifact
  rcases hl : (arts k.Kind).bind (fun arts => arts k.ID) with _ | art
  · simp [skipUpload, Run.persist]
  · simp only []
    by_cases hd : fs.IsDir (fs.Join [repoRoot, meta.BaseFolder, k.Kind, k.ID]) = false
    · simp [hd, skipUpload, Run.persist]
    · have hd' : fs.IsDir (fs.Join [repoRoot, meta.BaseFolder, k.Kind, k.ID]) = true := by
        simpa using hd
      rw [hl] at h
      simp only [hd', Bool.true_eq_false, if_false] at h ⊢
      rcases hz : client.ZipDirToBytes (fs.Join [repoRoot, meta.BaseFolder, k.Kind, k.ID]) with
        msg | zipBytes
      · rw [hz] at h
        simp [Run.fail] at h
      · rw [hz] at h
        simp only [] at h ⊢
        by_cases he : kindToEntitySet k.Kind = ""
        · simp [he, skipUpload, Run.persist]
        · have hdr : deployRequiredKind k.Kind = true := (kindToEntitySet_ne_empty _).1 he
          rw [if_neg he] at h ⊢
          rcases hu : client.UpdateArtifact r.tenant (kindToEntitySet k.Kind) art zipBytes with
            ⟨_ | err, w⟩
          · simp [he, hdr, Run.persist, uploadCall]
          · rw [hu] at h
            simp [Run.fail] at h

theorem uploadStep_fail {σ : Type} (client : CPIClient σ) (fs : FileSystem) (repoRoot : String)
    (meta : SyncMetadata) (arts : ArtsByKind) (k : artifactKey) (r : Run σ)
    (hr : r.failed = none)
    (h : (uploadStep client fs repoRoot meta arts k r).failed ≠ none) :
    ∃ cs s msg, (uploadStep client fs repoRoot meta arts k r).failed = some (s, msg) ∧
      (s = Step.zip k ∨ s = Step.upload k) ∧
      (uploadStep client fs repoRoot meta arts k r).calls = r.calls ++ cs ∧
      (∀ c ∈ cs, c.op = Op.upload ∧ c.key = k ∧ c.ok = false) ∧
      (uploadStep client fs repoRoot meta arts k r).record =
        { r.record with TransportStatus := "pending", Error := msg } ∧
      (uploadStep client fs repoRoot meta arts k r).persisted = r.persisted ++
        [{ r.record with TransportStatus := "pending", Error := msg }] := by
  unfold uploadStep at h ⊢
  rcases hl : (arts k.Kind).bind (fun arts => arts k.ID) with _ | art
  · rw [hl] at h
    simp [skipUpload, Run.persist, hr] at h
  · rw [hl] at h
    simp only [] at h ⊢
    by_cases hd : fs.IsDir (fs.Join [repoRoot, meta.BaseFolder, k.Kind, k.ID]) = false
    · simp [hd, skipUpload, Run.persist, hr] at h
    · rw [if_neg hd] at h ⊢
      rcases hz : client.ZipDirToBytes (fs.Join [repoRoot, meta.BaseFolder, k.Kind, k.ID]) with
        msg | zipBytes
      · exact ⟨[], Step.zip k, msg, by simp [Run.fail], Or.inl rfl, by simp [Run.fail],
          by simp, by simp [Run.fail], by simp [Run.fail]⟩
      · rw [hz] at h
        simp only [] at h ⊢
        by_cases he : kindToEntitySet k.Kind = ""
        · simp [he, skipUpload, Run.persist, hr] at h
        · rw [if_neg he] at h ⊢
          rcases hu : client.UpdateArtifact r.tenant (kindToEntitySet k.Kind) art zipBytes with
            ⟨_ | err, w⟩
          · rw [hu] at h
            simp [Run.persist, hr] at h
          · exact ⟨[⟨Op.upload, k, kindToEntitySet k.Kind, false⟩], Step.upload k, err.Error,
              by simp [Run.fail], Or.inr rfl, by simp [Run.fail], by simp,
              by simp [Run.fail], by simp [Run.fail]⟩

theorem uploadInv_init {σ : Type} (fs : FileSystem) (repoRoot : String) (meta : SyncMetadata)
    (arts : ArtsByKind) (r0 : Run σ) (h0 : r0.failed = none) :
    UploadInv fs repoRoot meta arts r0 [] r0 := by
  refine ⟨h0, ?_, by simp, [], by simp, by simp⟩
  simp [deployPlan]

theorem uploadInv_step {σ : Type} (client : CPIClient σ) (fs : FileSystem) (repoRoot : String)
    (meta : SyncMetadata) (arts : ArtsByKind) (r0 : Run σ)
    (pre : List artifactKey) (a : artifactKey) (r : Run σ)
    (hI : UploadInv fs repoRoot meta arts r0 pre r)
    (hok : (uploadStep client fs repoRoot meta arts a r).failed = none) :
    UploadInv fs repoRoot meta arts r0 (pre ++ [a]) (uploadStep client fs repoRoot meta arts a r) := by
  obtain ⟨_, hrec, hcalls, snaps, hpers, hsnap⟩ := hI
  obtain ⟨hrec1, hc1, hpers1⟩ := uploadStep_ok client fs repoRoot meta arts a r hok
  refine ⟨hok, ?_, ?_, snaps ++ [(uploadStep client fs repoRoot meta arts a r).record], ?_, ?_⟩
  · rw [hrec1, hrec, removeUpload_eq_filter]
    simp only []
    rw [filter_not_mem_snoc, List.filter_append]
    by_cases hu : uploadableIn fs repoRoot meta arts a = true
    · simp [hu, deployPlan, List.foldl_append]
    · simp [hu]
  · rw [hc1, hcalls, List.filter_append, List.map_append, List.append_assoc]
    by_cases hu : uploadableIn fs repoRoot meta arts a = true <;> simp [hu]
  · rw [hpers1, hpers, List.append_assoc]
  · intro x hx
    rcases List.mem_append.1 hx with hx | hx
    · exact ⟨by simp, (hsnap x hx).2⟩
    · simp only [List.mem_singleton] at hx
      refine ⟨by simp, ?_⟩
      rw [hx, hrec1, hrec]

theorem uploadLoop_spec {σ : Type} (client : CPIClient σ) (fs : FileSystem) (repoRoot : String)
    (meta : SyncMetadata) (arts : ArtsByKind) (l : List artifactKey) (r0 : Run σ)
    (h0 : r0.failed = none) :
    ((forEach (uploadStep client fs repoRoot meta arts) l r0).failed = none →
      UploadInv fs repoRoot meta arts r0 l (forEach (uploadStep client fs repoRoot meta arts) l r0)) ∧
    ((forEach (uploadStep client fs repoRoot meta arts) l r0).failed ≠ none →
      ∃ pre k post rm cs s msg, l = pre ++ k :: post ∧ UploadInv fs repoRoot meta arts r0 pre rm ∧
        (forEach (uploadStep client fs repoRoot meta arts) l r0).failed = some (s, msg) ∧
        (s = Step.zip k ∨ s = Step.upload k) ∧
        (forEach (uploadStep client fs repoRoot meta arts) l r0).calls = rm.calls ++ cs ∧
        (∀ c ∈ cs, c.op = Op.upload ∧ c.key = k ∧ c.ok = false) ∧
        (forEach (uploadStep client fs repoRoot meta arts) l r0).record =
          { rm.record with TransportStatus := "pending", Error := msg } ∧
        (forEach (uploadStep client fs repoRoot meta arts) l r0).persisted = rm.persisted ++
          [{ rm.record with TransportStatus := "pending", Error := msg }]) := by
  obtain ⟨h1, h2⟩ := forEach_inv (uploadStep client fs repoRoot meta arts)
    (UploadInv fs repoRoot meta arts r0) (fun _ _ h => h.1)
    (fun pre a r hI hok => uploadInv_step client fs repoRoot meta arts r0 pre a r hI hok) l [] r0
    (uploadInv_init fs repoRoot meta arts r0 h0)
  refine ⟨fun h => by simpa using h1 h, fun h => ?_⟩
  obtain ⟨pre, k, post, rm, hl, hI, he, hf⟩ := h2 h
  obtain ⟨cs, s, msg, f1, f2, f3, f4, f5, f6⟩ :=
    uploadStep_fail client fs repoRoot meta arts k rm hI.1 hf
  rw [he]
  exact ⟨pre, k, post, rm, cs, s, msg, hl, by simpa using hI, f1, f2, f3, f4, f5, f6⟩

theorem removeDeployTarget_eq_filter (l : List deployTarget) (d : deployTarget) :
    removeDeployTarget l d = l.filter (fun x => decide (x ≠ d)) := by
  unfold removeDeployTarget
  congr 1
  funext x
  cases x; cases d
  simp only [deployTarget.mk.injEq, ne_eq]
  by_cases h1 : ‹String› = ‹String› <;> simp [*]

theorem deployStep_ok {σ : Type} (client : CPIClient σ) (d : deployTarget) (r : Run σ)
    (h : (deployStep client d r).failed = none) :
    (deployStep client d r).record =
      { r.record with DeployRemaining := removeDeployTarget r.record.DeployRemaining d } ∧
    (deployStep client d r).calls = r.calls ++
      (if deployableKind d.Kind = true then [deployCall d] else []) ∧
    (deployStep client d r).persisted = r.persisted ++ [(deployStep client d r).record] := by
  unfold deployStep at h ⊢
  unfold deployableKind deployCall
  rcases he : deployEndpointForKind d.Kind with _ | endpoint
  · simp [Run.persist]
  · rw [he] at h
    simp only [] at h ⊢
    rcases hu : client.deployByEndpoint r.tenant endpoint d.ID with ⟨_ | err, w⟩
    · simp [Run.persist]
    · rw [hu] at h
      simp [Run.fail] at h

theorem deployStep_fail {σ : Type} (client : CPIClient σ) (d : deployTarget) (r : Run σ)
    (hr : r.failed = none) (h : (deployStep client d r).failed ≠ none) :
    ∃ cs msg, (deployStep client d r).failed = some (Step.deploy d, msg) ∧
      (deployStep client d r).calls = r.calls ++ cs ∧
      (∀ c ∈ cs, c.op = Op.deploy ∧ c.key = ⟨d.Kind, d.ID⟩ ∧ c.ok = false) ∧
      (deployStep client d r).record =
        { r.record with TransportStatus := "pending", Error := msg } ∧
      (deployStep client d r).persisted = r.persisted ++
        [{ r.record with TransportStatus := "pending", Error := msg }] := by
  unfold deployStep at h ⊢
  rcases he : deployEndpointForKind d.Kind with _ | endpoint
  · rw [he] at h
    simp [Run.persist, hr] at h
  · rw [he] at h
    simp only [] at h ⊢
    rcases hu : client.deployByEndpoint r.tenant endpoint d.ID with ⟨_ | err, w⟩
    · rw [hu] at h
      simp [Run.persist, hr] at h
    · exact ⟨[⟨Op.deploy, ⟨d.Kind, d.ID⟩, endpoint, false⟩], err.Error, by simp [Run.fail],
        by simp [Run.fail], by simp, by simp [Run.fail], by simp [Run.fail]⟩

theorem deployInv_init {σ : Type} (r0 : Run σ) (h0 : r0.failed = none) :
    DeployInv r0 [] r0 := by
  refine ⟨h0, ?_, by simp, [], by simp, by simp⟩
  simp

theorem deployInv_step {σ : Type} (client : CPIClient σ) (r0 : Run σ)
    (pre : List deployTarget) (a : deployTarget) (r : Run σ) (hI : DeployInv r0 pre r)
    (hok : (deployStep client a r).failed = none) :
    DeployInv r0 (pre ++ [a]) (deployStep client a r) := by
  obtain ⟨_, hrec, hcalls, snaps, hpers, hsnap⟩ := hI
  obtain ⟨hrec1, hc1, hpers1⟩ := deployStep_ok client a r hok
  refine ⟨hok, ?_, ?_, snaps ++ [(deployStep client a r).record], ?_, ?_⟩
  · rw [hrec1, hrec, removeDeployTarget_eq_filter]
    simp only []
    rw [filter_not_mem_snoc]
  · rw [hc1, hcalls, List.filter_append, List.map_append, List.append_assoc]
    by_cases hu : deployableKind a.Kind = true <;> simp [hu]
  · rw [hpers1, hpers, List.append_assoc]
  · intro x hx
    rcases List.mem_append.1 hx with hx | hx
    · exact ⟨by simp, (hsnap x hx).2⟩
    · simp only [List.mem_singleton] at hx
      refine ⟨by simp, ?_⟩
      rw [hx, hrec1, hrec]

theorem deployLoop_spec {σ : Type} (client : CPIClient σ) (l : List deployTarget) (r0 : Run σ)
    (h0 : r0.failed = none) :
    ((forEach (deployStep client) l r0).failed = none →
      DeployInv r0 l (forEach (deployStep client) l r0)) ∧
    ((forEach (deployStep client) l r0).failed ≠ none →
      ∃ pre d post rm cs msg, l = pre ++ d :: post ∧ DeployInv r0 pre rm ∧
        (forEach (deployStep client) l r0).failed = some (Step.deploy d, msg) ∧
        (forEach (deployStep client) l r0).calls = rm.calls ++ cs ∧
        (∀ c ∈ cs, c.op = Op.deploy ∧ c.key = ⟨d.Kind, d.ID⟩ ∧ c.ok = false) ∧
        (forEach (deployStep client) l r0).record =
          { rm.record with TransportStatus := "pending", Error := msg } ∧
        (forEach (deployStep client) l r0).persisted = rm.persisted ++
          [{ rm.record with TransportStatus := "pending", Error := msg }]) := by
  obtain ⟨h1, h2⟩ := forEach_inv (deployStep client) (DeployInv r0) (fun _ _ h => h.1)
    (fun pre a r hI hok => deployInv_step client r0 pre a r hI hok) l [] r0
    (deployInv_init r0 h0)
  refine ⟨fun h => by simpa using h1 h, fun h => ?_⟩
  obtain ⟨pre, d, post, rm, hl, hI, he, hf⟩ := h2 h
  obtain ⟨cs, msg, f1, f2, f3, f4, f5⟩ := deployStep_fail client d rm hI.1 hf
  rw [he]
  exact ⟨pre, d, post, rm, cs, msg, hl, by simpa using hI, f1, f2, f3, f4, f5⟩

theorem filter_not_mem_sortSlice {α : Type} [DecidableEq α] (less : α → α → Bool) (l : List α) :
    l.filter (fun x => decide (x ∉ sortSlice less l)) = [] := by
  rw [List.filter_eq_nil_iff]
  intro x hx
  simp [mem_sortSlice, hx]

theorem sortSlice_eq_nil {α : Type} (less : α → α → Bool) (l : List α)
    (h : sortSlice less l = []) : l = [] := by
  have := (sortSlice_perm less l).length_eq
  rw [h] at this
  exact List.length_eq_zero.1 this.symm

theorem sortSlice_ne_nil {α : Type} (less : α → α → Bool) (l pre post : List α) (a : α)
    (h : sortSlice less l = pre ++ a :: post) : l ≠ [] := by
  intro hl
  rw [hl] at h
  simp [sortSlice] at h

/-- The outcomes of the part of the phase after the delete loop, started in `r1`. -/
theorem uploadAndDeploy_cases {σ : Type} (client : CPIClient σ) (fs : FileSystem)
    (repoRoot : String) (meta : SyncMetadata) (r1 : Run σ) (h1 : r1.failed = none) :
    (∃ kind err,
      listArtifactsByKind client meta.PackageID
        (client.rangeKinds (uploadKinds r1.record.UploadRemaining)) (fun _ => none)
        = .error (kind, err) ∧
      uploadAndDeploy client fs repoRoot meta r1 = Run.fail r1 (Step.list kind) err.Error) ∨
    (∃ arts,
      listArtifactsByKind client meta.PackageID
        (client.rangeKinds (uploadKinds r1.record.UploadRemaining)) (fun _ => none)
        = .ok arts ∧
      ((∃ pre k post rm cs s msg,
          sortKeys r1.record.UploadRemaining = pre ++ k :: post ∧
          UploadInv fs repoRoot meta arts r1 pre rm ∧
          (uploadAndDeploy client fs repoRoot meta r1).failed = some (s, msg) ∧
          (s = Step.zip k ∨ s = Step.upload k) ∧
          (uploadAndDeploy client fs repoRoot meta r1).calls = rm.calls ++ cs ∧
          (∀ c ∈ cs, c.op = Op.upload ∧ c.key = k ∧ c.ok = false) ∧
          (uploadAndDeploy client fs repoRoot meta r1).record =
            { rm.record with TransportStatus := "pending", Error := msg } ∧
          (uploadAndDeploy client fs repoRoot meta r1).persisted = rm.persisted ++
            [{ rm.record with TransportStatus := "pending", Error := msg }]) ∨
       (∃ r2, UploadInv fs repoRoot meta arts r1 (sortKeys r1.record.UploadRemaining) r2 ∧
          ((∃ pre d post rm cs msg,
              sortTargets r2.record.DeployRemaining = pre ++ d :: post ∧
              DeployInv r2 pre rm ∧
              (uploadAndDeploy client fs repoRoot meta r1).failed = some (Step.deploy d, msg) ∧
              (uploadAndDeploy client fs repoRoot meta r1).calls = rm.calls ++ cs ∧
              (∀ c ∈ cs, c.op = Op.deploy ∧ c.key = ⟨d.Kind, d.ID⟩ ∧ c.ok = false) ∧
              (uploadAndDeploy client fs repoRoot meta r1).record =
                { rm.record with TransportStatus := "pending", Error := msg } ∧
              (uploadAndDeploy client fs repoRoot meta r1).persisted = rm.persisted ++
                [{ rm.record with TransportStatus := "pending", Error := msg }]) ∨
           (∃ r3, DeployInv r2 (sortTargets r2.record.DeployRemaining) r3 ∧
              uploadAndDeploy client fs repoRoot meta r1 =
                Run.persist { r3 with
                  record := { r3.record with TransportStatus := "completed", Error := "" } }))))) := by
  unfold uploadAndDeploy
  rcases hl : listArtifactsByKind client meta.PackageID
      (client.rangeKinds (uploadKinds r1.record.UploadRemaining)) (fun _ => none) with
    ⟨kind, err⟩ | arts
  · exact Or.inl ⟨kind, err, rfl, rfl⟩
  · refine Or.inr ⟨arts, rfl, ?_⟩
    simp only []
    obtain ⟨u1, u2⟩ := uploadLoop_spec client fs repoRoot meta arts
      (sortKeys r1.record.UploadRemaining) r1 h1
    by_cases hf2 : (forEach (uploadStep client fs repoRoot meta arts)
        (sortKeys r1.record.UploadRemaining) r1).failed.isSome = true
    · rw [if_pos hf2]
      have hne : (forEach (uploadStep client fs repoRoot meta arts)
          (sortKeys r1.record.UploadRemaining) r1).failed ≠ none := by
        intro hc; rw [hc] at hf2; simp at hf2
      exact Or.inl (u2 hne)
    · rw [if_neg hf2]
      have hok : (forEach (uploadStep client fs repoRoot meta arts)
          (sortKeys r1.record.UploadRemaining) r1).failed = none := by
        cases h : (forEach (uploadStep client fs repoRoot meta arts)
          (sortKeys r1.record.UploadRemaining) r1).failed with
        | none => rfl
        | some x => rw [h] at hf2; simp at hf2
      refine Or.inr ⟨_, u1 hok, ?_⟩
      generalize (forEach (uploadStep client fs repoRoot meta arts)
          (sortKeys r1.record.UploadRemaining) r1) = r2 at hok ⊢
      obtain ⟨d1, d2⟩ := deployLoop_spec client (sortTargets r2.record.DeployRemaining) r2 hok
      by_cases hf3 : (forEach (deployStep client)
          (sortTargets r2.record.DeployRemaining) r2).failed.isSome = true
      · rw [if_pos hf3]
        have hne : (forEach (deployStep client)
            (sortTargets r2.record.DeployRemaining) r2).failed ≠ none := by
          intro hc; rw [hc] at hf3; simp at hf3
        exact Or.inl (d2 hne)
      · rw [if_neg hf3]
        have hok3 : (forEach (deployStep client)
            (sortTargets r2.record.DeployRemaining) r2).failed = none := by
          cases h : (forEach (deployStep client)
            (sortTargets r2.record.DeployRemaining) r2).failed with
          | none => rfl
          | some x => rw [h] at hf3; simp at hf3
        exact Or.inr ⟨_, d1 hok3, rfl⟩

theorem snapshotOK_pending (rec x : TransportRecord) (h : x.TransportStatus = "pending") :
    SnapshotOK rec x := Or.inl h

/-- The outcomes of `applyTransportToTenant`, in terms of the record it is started on. -/
theorem applyTransportToTenant_cases {σ : Type} (client : CPIClient σ) (fs : FileSystem)
    (repoRoot : String) (meta : SyncMetadata) (rec : TransportRecord) (w : σ)
    (R : Run σ) (hR : R = applyTransportToTenant client fs repoRoot meta rec w) :
    (∀ x ∈ R.persisted, SnapshotOK rec x) ∧
    ((∃ msg, R.failed = some (Step.connect, msg) ∧ R.calls = [] ∧ R.record = rec) ∨
     (∃ pre k post msg, sortKeys rec.DeleteRemaining = pre ++ k :: post ∧
        R.failed = some (Step.delete k, msg) ∧
        (∀ c ∈ R.calls, c.op = Op.delete ∧ (c.ok = true → c.key ∈ pre)) ∧
        R.record = { rec with
          DeleteRemaining := rec.DeleteRemaining.filter (fun x => decide (x ∉ pre))
          TransportStatus := "pending"
          Error := msg }) ∨
     (∃ csd, DeleteCalls rec csd ∧
        ((∃ kind msg, R.failed = some (Step.list kind, msg) ∧ R.calls = csd ∧
            R.record = { rec with
              DeleteRemaining := [], TransportStatus := "pending", Error := msg }) ∨
         (∃ arts,
            listArtifactsByKind client meta.PackageID
              (client.rangeKinds (uploadKinds rec.UploadRemaining)) (fun _ => none) = .ok arts ∧
            ((∃ pre k post cs s msg,
                sortKeys rec.UploadRemaining = pre ++ k :: post ∧
                R.failed = some (s, msg) ∧ (s = Step.zip k ∨ s = Step.upload k) ∧
                R.calls = csd ++ (pre.filter (uploadableIn fs repoRoot meta arts)).map uploadCall
                  ++ cs ∧
                (∀ c ∈ cs, c.op = Op.upload ∧ c.key = k ∧ c.ok = false) ∧
                R.record = { rec with
                  DeleteRemaining := []
                  UploadRemaining := rec.UploadRemaining.filter (fun x => decide (x ∉ pre))
                  DeployRemaining := deployPlan rec.DeployRemaining
                    (pre.filter (uploadableIn fs repoRoot meta arts))
                  TransportStatus := "pending"
                  Error := msg }) ∨
             (∃ pre d post cs msg,
                sortTargets (deployPlan rec.DeployRemaining
                  ((sortKeys rec.UploadRemaining).filter (uploadableIn fs repoRoot meta arts)))
                  = pre ++ d :: post ∧
                R.failed = some (Step.deploy d, msg) ∧
                R.calls = csd ++
                  ((sortKeys rec.UploadRemaining).filter
                    (uploadableIn fs repoRoot meta arts)).map uploadCall ++
                  (pre.filter (fun d => deployableKind d.Kind)).map deployCall ++ cs ∧
                (∀ c ∈ cs, c.op = Op.deploy ∧ c.key = ⟨d.Kind, d.ID⟩ ∧ c.ok = false) ∧
                R.record = { rec with
                  DeleteRemaining := []
                  UploadRemaining := []
                  DeployRemaining := (deployPlan rec.DeployRemaining
                    ((sortKeys rec.UploadRemaining).filter
                      (uploadableIn fs repoRoot meta arts))).filter (fun x => decide (x ∉ pre))
                  TransportStatus := "pending"
                  Error := msg }) ∨
             (R.failed = none ∧
                R.calls = csd ++
                  ((sortKeys rec.UploadRemaining).filter
                    (uploadableIn fs repoRoot meta arts)).map uploadCall ++
                  ((sortTargets (deployPlan rec.DeployRemaining
                    ((sortKeys rec.UploadRemaining).filter
                      (uploadableIn fs repoRoot meta arts)))).filter
                    (fun d => deployableKind d.Kind)).map deployCall ∧
                R.record = { rec with
                  DeleteRemaining := []
                  UploadRemaining := []
                  DeployRemaining := []
                  TransportStatus := "completed"
                  Error := "" })))))) := by
  subst hR
  unfold applyTransportToTenant
  rcases hc : client.connect with _ | msg
  · simp only []
    obtain ⟨d1, d2⟩ := deleteLoop_spec client (sortKeys rec.DeleteRemaining)
      (⟨rec, w, [], [], 0, 0, 0, none⟩ : Run σ) rfl
    by_cases hf1 : (forEach (deleteStep client) (sortKeys rec.DeleteRemaining)
        (⟨rec, w, [], [], 0, 0, 0, none⟩ : Run σ)).failed.isSome = true
    · rw [if_pos hf1]
      have hne : (forEach (deleteStep client) (sortKeys rec.DeleteRemaining)
          (⟨rec, w, [], [], 0, 0, 0, none⟩ : Run σ)).failed ≠ none := by
        intro hc; rw [hc] at hf1; simp at hf1
      obtain ⟨pre, k, post, rm, cs, msg, hl, hI, f1, f2, f3, f4, f5⟩ := d2 hne
      obtain ⟨_, hrec, cs0, snaps, hcalls, hpers, hops, _, hsnap⟩ := hI
      simp only [List.nil_append] at hcalls hpers
      refine ⟨?_, Or.inr (Or.inl ⟨pre, k, post, msg, hl, f1, ?_, ?_⟩)⟩
      · intro x hx
        rw [f5, hpers] at hx
        rcases List.mem_append.1 hx with hx | hx
        · exact Or.inr (Or.inl ⟨(hsnap x hx).2,
            Or.inl (sortSlice_ne_nil keyLess _ pre post k hl)⟩)
        · simp only [List.mem_singleton] at hx
          exact Or.inl (by rw [hx])
      · intro c hcm
        rw [f2, hcalls] at hcm
        rcases List.mem_append.1 hcm with hcm | hcm
        · exact ⟨(hops c hcm).1, fun _ => (hops c hcm).2⟩
        · refine ⟨(f3 c hcm).1, fun hok => ?_⟩
          rw [(f3 c hcm).2.2] at hok
          cases hok
      · rw [f4, hrec]
    · rw [if_neg hf1]
      have hok : (forEach (deleteStep client) (sortKeys rec.DeleteRemaining)
          (⟨rec, w, [], [], 0, 0, 0, none⟩ : Run σ)).failed = none := by
        cases h : (forEach (deleteStep client) (sortKeys rec.DeleteRemaining)
          (⟨rec, w, [], [], 0, 0, 0, none⟩ : Run σ)).failed with
        | none => rfl
        | some x => rw [h] at hf1; simp at hf1
      obtain ⟨hfail1, hrec1, csd, snapsd, hcalls1, hpers1, hops1, hall1, hsnap1⟩ := d1 hok
      generalize (forEach (deleteStep client) (sortKeys rec.DeleteRemaining)
          (⟨rec, w, [], [], 0, 0, 0, none⟩ : Run σ)) = r1 at *
      simp only [List.nil_append] at hcalls1 hpers1
      have hdel0 : rec.DeleteRemaining.filter
          (fun x => decide (x ∉ sortKeys rec.DeleteRemaining)) = [] :=
        filter_not_mem_sortSlice keyLess rec.DeleteRemaining
      rw [hdel0] at hrec1
      have hup1 : r1.record.UploadRemaining = rec.UploadRemaining := by rw [hrec1]
      have hdep1 : r1.record.DeployRemaining = rec.DeployRemaining := by rw [hrec1]
      have hst1 : r1.record.TransportStatus = rec.TransportStatus := by rw [hrec1]
      have hdc : DeleteCalls rec csd :=
        ⟨fun c hcm => ⟨(hops1 c hcm).1, (mem_sortSlice keyLess _ _).1 (hops1 c hcm).2⟩, hall1⟩
      have hsd : ∀ x ∈ snapsd, SnapshotOK rec x := by
        intro x hx
        refine Or.inr (Or.inl ⟨(hsnap1 x hx).2, Or.inl ?_⟩)
        intro he
        apply (hsnap1 x hx).1
        rw [he]; rfl
      have hcases := uploadAndDeploy_cases client fs repoRoot meta r1 hfail1
      rw [hup1] at hcases
      rcases hcases with ⟨kind, err, hlist, hres⟩ | ⟨arts, hlist, hcases⟩
      · rw [hres]
        refine ⟨?_, Or.inr (Or.inr ⟨csd, hdc, Or.inl ⟨kind, err.Error, ?_, ?_, ?_⟩⟩)⟩
        · intro x hx
          simp only [Run.fail, hpers1] at hx
          rcases List.mem_append.1 hx with hx | hx
          · exact hsd x hx
          · simp only [List.mem_singleton] at hx
            exact Or.inl (by rw [hx])
        · simp [Run.fail]
        · simp [Run.fail, hcalls1]
        · simp [Run.fail, hrec1]
      · rcases hcases with ⟨pre, k, post, rm, cs, s, msg, hl, hI, f1, f2, f3, f4, f5, f6⟩ |
          ⟨r2, hI2, hcases⟩
        · obtain ⟨_, hrecm, hcallsm, snapsu, hpersm, hsnapm⟩ := hI
          have hupne : rec.UploadRemaining ≠ [] := sortSlice_ne_nil keyLess _ pre post k hl
          refine ⟨?_, Or.inr (Or.inr ⟨csd, hdc, Or.inr ⟨arts, hlist, Or.inl
            ⟨pre, k, post, cs, s, msg, hl, f1, f2, ?_, f4, ?_⟩⟩⟩)⟩
          · intro x hx
            rw [f6, hpersm, hpers1] at hx
            rcases List.mem_append.1 hx with hx | hx
            · rcases List.mem_append.1 hx with hx | hx
              · exact hsd x hx
              · exact Or.inr (Or.inl ⟨by rw [(hsnapm x hx).2, hst1], Or.inr (Or.inl hupne)⟩)
            · simp only [List.mem_singleton] at hx
              exact Or.inl (by rw [hx])
          · rw [f3, hcallsm, hcalls1]
          · rw [f5, hrecm, hrec1]
        · obtain ⟨hfail2, hrec2, hcalls2, snapsu, hpers2, hsnap2⟩ := hI2
          have hdepr2 : r2.record.DeployRemaining = deployPlan rec.DeployRemaining
              ((sortKeys rec.UploadRemaining).filter (uploadableIn fs repoRoot meta arts)) := by
            rw [hrec2, hrec1]
          have hup0 : rec.UploadRemaining.filter
              (fun x => decide (x ∉ sortKeys rec.UploadRemaining)) = [] :=
            filter_not_mem_sortSlice keyLess rec.UploadRemaining
          have hst2 : r2.record.TransportStatus = rec.TransportStatus := by rw [hrec2, hrec1]
          have hsu : ∀ x ∈ snapsu, SnapshotOK rec x := by
            intro x hx
            refine Or.inr (Or.inl ⟨by rw [(hsnap2 x hx).2, hst1], Or.inr (Or.inl ?_)⟩)
            intro he
            apply (hsnap2 x hx).1
            rw [he]; rfl
          have hplan_ne : deployPlan rec.DeployRemaining
              ((sortKeys rec.UploadRemaining).filter (uploadableIn fs repoRoot meta arts)) ≠ [] →
              (rec.DeleteRemaining ≠ [] ∨ rec.UploadRemaining ≠ [] ∨ rec.DeployRemaining ≠ []) := by
            intro hp
            by_cases hu : rec.UploadRemaining = []
            · refine Or.inr (Or.inr ?_)
              intro hd
              apply hp
              rw [hu, hd]
              rfl
            · exact Or.inr (Or.inl hu)
          rw [hup1] at hrec2
          rw [hdepr2] at hcases
          rcases hcases with ⟨pre, d, post, rm, cs, msg, hl, hI, f1, f2, f3, f4, f5⟩ |
            ⟨r3, hI3, hres⟩
          · obtain ⟨_, hrecm, hcallsm, snapsp, hpersm, hsnapm⟩ := hI
            refine ⟨?_, Or.inr (Or.inr ⟨csd, hdc, Or.inr ⟨arts, hlist, Or.inr (Or.inl
              ⟨pre, d, post, cs, msg, hl, f1, ?_, f3, ?_⟩)⟩⟩)⟩
            · intro x hx
              rw [f5, hpersm, hpers2, hpers1] at hx
              rcases List.mem_append.1 hx with hx | hx
              · rcases List.mem_append.1 hx with hx | hx
                · rcases List.mem_append.1 hx with hx | hx
                  · exact hsd x hx
                  · exact hsu x hx
                · refine Or.inr (Or.inl ⟨by rw [(hsnapm x hx).2, hst2], hplan_ne ?_⟩)
                  exact sortSlice_ne_nil targetLess _ pre post d hl
              · simp only [List.mem_singleton] at hx
                exact Or.inl (by rw [hx])
            · rw [f2, hcallsm, hcalls2, hcalls1]
            · rw [f4, hrecm, hdepr2, hrec2, hrec1, hup0]
          · obtain ⟨hfail3, hrec3, hcalls3, snapsp, hpers3, hsnap3⟩ := hI3
            have hdep0 : (deployPlan rec.DeployRemaining
                ((sortKeys rec.UploadRemaining).filter
                  (uploadableIn fs repoRoot meta arts))).filter
                (fun x => decide (x ∉ sortTargets (deployPlan rec.DeployRemaining
                  ((sortKeys rec.UploadRemaining).filter
                    (uploadableIn fs repoRoot meta arts))))) = [] :=
              filter_not_mem_sortSlice targetLess _
            rw [hdepr2, hdep0] at hrec3
            rw [hres]
            refine ⟨?_, Or.inr (Or.inr ⟨csd, hdc, Or.inr ⟨arts, hlist, Or.inr (Or.inr
              ⟨?_, ?_, ?_⟩)⟩⟩)⟩
            · intro x hx
              simp only [Run.persist, hpers3, hpers2, hpers1] at hx
              rcases List.mem_append.1 hx with hx | hx
              · rcases List.mem_append.1 hx with hx | hx
                · rcases List.mem_append.1 hx with hx | hx
                  · exact hsd x hx
                  · exact hsu x hx
                · refine Or.inr (Or.inl ⟨by rw [(hsnap3 x hx).2, hst2], hplan_ne ?_⟩)
                  intro he
                  apply (hsnap3 x hx).1
                  rw [he]; rfl
              · simp only [List.mem_singleton] at hx
                refine Or.inr (Or.inr ?_)
                rw [hx, hrec3, hrec2, hrec1, hup0]
                exact ⟨rfl, rfl, rfl, rfl⟩
            · simp [Run.persist, hfail3]
            · simp only [Run.persist]
              rw [hcalls3, hcalls2, hcalls1]
            · simp only [Run.persist]
              rw [hrec3, hrec2, hrec1, hup0]
  · exact ⟨by simp, Or.inl ⟨msg, rfl, rfl, rfl⟩⟩

theorem setInsert_nodup {α : Type} [DecidableEq α] (m : List α) (k : α) (h : m.Nodup) :
    (setInsert m k).Nodup := by
  unfold setInsert
  split_ifs with hk
  · exact h
  · rw [List.nodup_append]
    refine ⟨h, List.nodup_singleton k, ?_⟩
    intro x hx hx'
    simp only [List.mem_singleton] at hx'
    rw [hx'] at hx
    exact hk hx

theorem uploadKinds_fold (l : List artifactKey) (acc : List String) (hacc : acc.Nodup) :
    (l.foldl (fun m k => setInsert m k.Kind) acc).Nodup ∧
    ∀ x, x ∈ l.foldl (fun m k => setInsert m k.Kind) acc ↔ x ∈ acc ∨ ∃ k ∈ l, k.Kind = x := by
  induction l generalizing acc with
  | nil => simp [hacc]
  | cons a as ih =>
    simp only [List.foldl_cons]
    obtain ⟨h1, h2⟩ := ih (setInsert acc a.Kind) (setInsert_nodup acc a.Kind hacc)
    refine ⟨h1, fun x => ?_⟩
    rw [h2, mem_setInsert]
    constructor
    · rintro ((h | h) | ⟨k, hk, hx⟩)
      · exact Or.inl h
      · exact Or.inr ⟨a, by simp, h.symm⟩
      · exact Or.inr ⟨k, by simp [hk], hx⟩
    · rintro (h | ⟨k, hk, hx⟩)
      · exact Or.inl (Or.inl h)
      · rcases List.mem_cons.1 hk with hk | hk
        · exact Or.inl (Or.inr (by rw [← hx, hk]))
        · exact Or.inr ⟨k, hk, hx⟩

theorem listArtifactsByKind_ok {σ : Type} (client : CPIClient σ) (pkg : String)
    (ks : List String) (init arts : ArtsByKind)
    (h : listArtifactsByKind client pkg ks init = .ok arts) (hnd : ks.Nodup) (kind : String) :
    (kind ∈ ks → arts kind =
      match listEndpointForKind pkg kind with
      | none => init kind
      | some endpoint =>
        match client.ListArtifacts endpoint with
        | .ok m => some m
        | .error _ => none) ∧
    (kind ∉ ks → arts kind = init kind) := by
  induction ks generalizing init with
  | nil =>
    simp only [listArtifactsByKind, Except.ok.injEq] at h
    subst h
    simp
  | cons k0 ks ih =>
    rw [List.nodup_cons] at hnd
    unfold listArtifactsByKind at h
    rcases he : listEndpointForKind pkg k0 with _ | endpoint
    · rw [he] at h
      simp only [] at h
      obtain ⟨i1, i2⟩ := ih init h hnd.2
      refine ⟨fun hk => ?_, fun hk => ?_⟩
      · rcases List.mem_cons.1 hk with hk | hk
        · subst hk
          rw [he]
          exact i2 hnd.1
        · exact i1 hk
      · exact i2 (fun hc => hk (List.mem_cons_of_mem _ hc))
    · rw [he] at h
      simp only [] at h
      rcases hl : client.ListArtifacts endpoint with err | m
      · rw [hl] at h
        cases h
      · rw [hl] at h
        simp only [] at h
        obtain ⟨i1, i2⟩ := ih _ h hnd.2
        refine ⟨fun hk => ?_, fun hk => ?_⟩
        · rcases List.mem_cons.1 hk with hk | hk
          · subst hk
            rw [he]
            simp only [hl]
            rw [i2 hnd.1]
            simp
          · have hne : kind ≠ k0 := fun e => hnd.1 (e ▸ hk)
            rw [i1 hk]
            rcases listEndpointForKind pkg kind with _ | ep2
            · simp [hne]
            · rfl
        · have hne : kind ≠ k0 := fun e => hk (by rw [e]; exact List.mem_cons_self _ _)
          rw [i2 (fun hc => hk (List.mem_cons_of_mem _ hc))]
          simp [hne]

theorem lookupArtifact_eq_listed {σ : Type} (client : CPIClient σ) (pkg : String)
    (up : List artifactKey) (arts : ArtsByKind)
    (h : listArtifactsByKind client pkg (client.rangeKinds (uploadKinds up)) (fun _ => none)
      = .ok arts) (k : artifactKey) (hk : k ∈ up) :
    lookupArtifact arts k = listedArtifact client pkg k := by
  obtain ⟨hnd, hmem⟩ := uploadKinds_fold up [] List.nodup_nil
  have hperm := client.rangeKinds_perm (uploadKinds up)
  have hnd' : (client.rangeKinds (uploadKinds up)).Nodup := hperm.nodup_iff.2 hnd
  have hin : k.Kind ∈ client.rangeKinds (uploadKinds up) := by
    rw [hperm.mem_iff]
    exact (hmem k.Kind).2 (Or.inr ⟨k, hk, rfl⟩)
  have := (listArtifactsByKind_ok client pkg _ _ arts h hnd' k.Kind).1 hin
  unfold lookupArtifact listedArtifact
  rw [this]
  rcases listEndpointForKind pkg k.Kind with _ | ep
  · rfl
  · simp only []
    rcases client.ListArtifacts ep with err | m <;> rfl

theorem uploadableIn_eq {σ : Type} (client : CPIClient σ) (fs : FileSystem) (repoRoot : String)
    (meta : SyncMetadata) (up : List artifactKey) (arts : ArtsByKind)
    (h : listArtifactsByKind client meta.PackageID (client.rangeKinds (uploadKinds up))
      (fun _ => none) = .ok arts) (l : List artifactKey) (hl : ∀ k ∈ l, k ∈ up) :
    l.filter (uploadableIn fs repoRoot meta arts) = l.filter (uploadable client fs repoRoot meta) := by
  apply List.filter_congr
  intro k hk
  unfold uploadableIn uploadable
  rw [lookupArtifact_eq_listed client meta.PackageID up arts h k (hl k hk)]

theorem applyTransportToTenant_ok_calls {σ : Type} (client : CPIClient σ) (fs : FileSystem)
    (repoRoot : String) (meta : SyncMetadata) (rec : TransportRecord) (w : σ)
    (hfail : (applyTransportToTenant client fs repoRoot meta rec w).failed = none)
    (hok : ∀ c ∈ (applyTransportToTenant client fs repoRoot meta rec w).calls, c.ok = true) :
    (applyTransportToTenant client fs repoRoot meta rec w).calls.map CPICall.mutation =
      plannedMutations client fs repoRoot meta rec := by
  obtain ⟨_, hcases⟩ := applyTransportToTenant_cases client fs repoRoot meta rec w _ rfl
  rcases hcases with ⟨msg, hf, _⟩ | ⟨pre, k, post, msg, _, hf, _⟩ | ⟨csd, hdc, hcases⟩
  · rw [hf] at hfail; cases hfail
  · rw [hf] at hfail; cases hfail
  · rcases hcases with ⟨kind, msg, hf, _⟩ | ⟨arts, hlist, hcases⟩
    · rw [hf] at hfail; cases hfail
    · rcases hcases with ⟨pre, k, post, cs, s, msg, _, hf, _⟩ |
        ⟨pre, d, post, cs, msg, _, hf, _⟩ | ⟨_, hcalls, _⟩
      · rw [hf] at hfail; cases hfail
      · rw [hf] at hfail; cases hfail
      · have hu := uploadableIn_eq client fs repoRoot meta rec.UploadRemaining arts hlist
          (sortKeys rec.UploadRemaining) (fun k hk => (mem_sortSlice keyLess _ k).1 hk)
        rw [hu] at hcalls
        have hcsd : ∀ c ∈ csd, c.ok = true := by
          intro c hc
          apply hok
          rw [hcalls]
          simp [hc]
        rw [hcalls, List.map_append, List.map_append, hdc.2 hcsd]
        simp only [plannedMutations, uploadsPlanned, deployTargets, List.map_map]
        rfl

/-- C1, counterexample: the record plans the upload of (iFlows, New) and nothing else,
every call of the run succeeds, and the run sends no request at all, because the tenant
does not list the artifact and the upload loop skips it.  So the requests are not the
sorted deletes, then an upload for each planned upload key, then deploys. -/
theorem applyTransportToTenant_skips_unlisted :
    (applyTransportToTenant (fixedClient listsNone none none none) allDirs "/repo" pkgMeta
      (pendingRecord [⟨"iFlows", "New"⟩] [] []) ()).failed = none ∧
    (∀ c ∈ (applyTransportToTenant (fixedClient listsNone none none none) allDirs "/repo" pkgMeta
      (pendingRecord [⟨"iFlows", "New"⟩] [] []) ()).calls, c.ok = true) ∧
    ¬ ∃ deploys : List (Op × artifactKey),
      (applyTransportToTenant (fixedClient listsNone none none none) allDirs "/repo" pkgMeta
        (pendingRecord [⟨"iFlows", "New"⟩] [] []) ()).calls.map CPICall.mutation =
      (sortKeys (pendingRecord [⟨"iFlows", "New"⟩] [] []).DeleteRemaining).map
          (fun k => (Op.delete, k)) ++
        (sortKeys (pendingRecord [⟨"iFlows", "New"⟩] [] []).UploadRemaining).map
          (fun k => (Op.upload, k)) ++ deploys := by
  have hcalls : (applyTransportToTenant (fixedClient listsNone none none none) allDirs "/repo"
      pkgMeta (pendingRecord [⟨"iFlows", "New"⟩] [] []) ()).calls = [] := by decide
  refine ⟨by decide, by rw [hcalls]; simp, ?_⟩
  rintro ⟨deploys, h⟩
  rw [hcalls] at h
  have hl := congrArg List.length h
  simp [pendingRecord, sortKeys, sortSlice, insertSorted] at hl

/-- C1, amended: in a run of the CPI phase in which nothing fails and every request
succeeds, the requests sent are, in this order: one delete for each key of
deleteRemaining whose kind has a delete endpoint (iFlows, ValueMappings,
MessageMappings, Scripts), in ascending (kind, id) order; then one upload for each key
of uploadRemaining that is not skipped (the tenant lists the artifact, its directory
exists, its kind has an entity set), in ascending (kind, id) order; then one deploy for
each deploy target of a deployable kind, in ascending (kind, id) order, the deploy
targets being deployRemaining with the uploaded artifacts merged in.  It holds for
`applyTransportToTenant` and for the loop inlined in `runSyncPush`; the sorted copies
are permutations of the lists in ascending order. -/
theorem cpi_mutations_in_order {σ : Type} (client : CPIClient σ) (fs : FileSystem)
    (repoRoot : String) (meta : SyncMetadata) (rec : TransportRecord) (w : σ) :
    ((applyTransportToTenant client fs repoRoot meta rec w).failed = none →
      (∀ c ∈ (applyTransportToTenant client fs repoRoot meta rec w).calls, c.ok = true) →
      (applyTransportToTenant client fs repoRoot meta rec w).calls.map CPICall.mutation =
        plannedMutations client fs repoRoot meta rec) ∧
    ((runSyncPushCPI client fs repoRoot meta rec w).failed = none →
      (∀ c ∈ (runSyncPushCPI client fs repoRoot meta rec w).calls, c.ok = true) →
      (runSyncPushCPI client fs repoRoot meta rec w).calls.map CPICall.mutation =
        plannedMutations client fs repoRoot meta rec) ∧
    (∀ l : List artifactKey,
      List.Perm (sortKeys l) l ∧ (sortKeys l).Pairwise (fun a b => keyLess b a = false)) ∧
    (∀ l : List deployTarget,
      List.Perm (sortTargets l) l ∧
        (sortTargets l).Pairwise (fun a b => targetLess b a = false)) :=
  ⟨applyTransportToTenant_ok_calls client fs repoRoot meta rec w,
   applyTransportToTenant_ok_calls client fs repoRoot meta rec w,
   fun l => ⟨sortSlice_perm keyLess l, sortSlice_sorted keyLess_strict l⟩,
   fun l => ⟨sortSlice_perm targetLess l, sortSlice_sorted targetLess_strict l⟩⟩

/-- C1, witness: a run that deletes (Scripts, s), skips the delete of (CustomTags, c),
uploads (iFlows, A) and (iFlows, B) and deploys both, in that order. -/
theorem cpi_mutations_in_order_witness :
    (applyTransportToTenant (fixedClient listsAll none none none) allDirs "/repo" pkgMeta
      (pendingRecord [⟨"iFlows", "B"⟩, ⟨"iFlows", "A"⟩] [⟨"Scripts", "s"⟩, ⟨"CustomTags", "c"⟩] [])
      ()).calls.map CPICall.mutation =
    [(Op.delete, ⟨"Scripts", "s"⟩), (Op.upload, ⟨"iFlows", "A"⟩), (Op.upload, ⟨"iFlows", "B"⟩),
      (Op.deploy, ⟨"iFlows", "A"⟩), (Op.deploy, ⟨"iFlows", "B"⟩)] := by
  rw [(cpi_mutations_in_order (fixedClient listsAll none none none) allDirs "/repo" pkgMeta
    (pendingRecord [⟨"iFlows", "B"⟩, ⟨"iFlows", "A"⟩] [⟨"Scripts", "s"⟩, ⟨"CustomTags", "c"⟩] [])
    ()).1 (by decide) (by decide)]
  decide

theorem remainingFrom_of_sorted {α : Type} [DecidableEq α] (less : α → α → Bool)
    (hs : StrictLess less) (htot : ∀ a b, less a b = false → less b a = false → a = b)
    (planned pre post : List α) (k : α) (hsplit : sortSlice less planned = pre ++ k :: post) :
    RemainingFrom less planned k (planned.filter (fun x => decide (x ∉ pre))) := by
  have hsorted := sortSlice_sorted hs planned
  rw [hsplit, List.pairwise_append] at hsorted
  obtain ⟨_, hkpost, hpre⟩ := hsorted
  rw [List.pairwise_cons] at hkpost
  have hprek : ∀ x ∈ pre, less k x = false := fun x hx => hpre x hx k (List.mem_cons_self _ _)
  have hpostk : ∀ y ∈ post, less y k = false := fun y hy => hkpost.1 y hy
  have hmem : ∀ x, x ∈ planned ↔ x ∈ pre ∨ x = k ∨ x ∈ post := by
    intro x
    rw [← mem_sortSlice less planned x, hsplit]
    simp
  have hcount : ∀ x, planned.count x = pre.count x + (k :: post).count x := by
    intro x
    rw [← (sortSlice_perm less planned).count_eq x, hsplit, List.count_append]
  refine ⟨List.filter_sublist _, ?_, ?_, ?_, ?_⟩
  · intro x hx hmemf
    rw [List.mem_filter] at hmemf
    obtain ⟨hp, hnp⟩ := hmemf
    have hnp' : x ∉ pre := by simpa using hnp
    rcases (hmem x).1 hp with h | h | h
    · exact hnp' h
    · rw [h, hs.irrefl] at hx; cases hx
    · rw [hpostk x h] at hx; cases hx
  · intro x hp hx
    rw [List.mem_filter]
    refine ⟨hp, ?_⟩
    simp only [decide_eq_true_eq]
    intro hin
    rw [hprek x hin] at hx
    cases hx
  · intro hc
    rw [List.mem_filter]
    refine ⟨(hmem k).2 (Or.inr (Or.inl rfl)), ?_⟩
    simp only [decide_eq_true_eq]
    intro hin
    have h1 : 1 ≤ pre.count k := List.count_pos_iff.2 hin
    have h2 : 1 ≤ (k :: post).count k := List.count_pos_iff.2 (List.mem_cons_self _ _)
    have := hcount k
    omega
  · intro hnd
    apply List.filter_congr
    intro x hp
    have hnd' : (pre ++ k :: post).Nodup := by
      rw [← hsplit]
      exact (sortSlice_perm less planned).nodup_iff.2 hnd
    by_cases hin : x ∈ pre
    · have hxk : x ≠ k := by
        intro e
        rw [e] at hin
        rw [List.nodup_append] at hnd'
        exact hnd'.2.2 hin (List.mem_cons_self _ _)
      have hlt : less x k = true := by
        by_contra hc
        exact hxk (htot x k (by simpa using hc) (hprek x hin))
      simp [hin, hlt]
    · have hlt : less x k = false := by
        rcases (hmem x).1 hp with h | h | h
        · exact absurd h hin
        · rw [h]; exact hs.irrefl k
        · exact hpostk x h
      simp [hin, hlt]

theorem forEach_result {σ α : Type} (body : α → Run σ → Run σ) (l : List α) (r : Run σ) :
    forEach body l r = r ∨ ∃ a rm, forEach body l r = body a rm := by
  induction l generalizing r with
  | nil => exact Or.inl rfl
  | cons a as ih =>
    unfold forEach
    simp only []
    split_ifs
    · exact Or.inr ⟨a, r, rfl⟩
    · rcases ih (body a r) with h | h
      · exact Or.inr ⟨a, r, h⟩
      · exact Or.inr h

theorem deleteStep_last {σ : Type} (client : CPIClient σ) (k : artifactKey) (r : Run σ) :
    (deleteStep client k r).persisted.getLast? = some (deleteStep client k r).record := by
  unfold deleteStep
  rcases deleteArtifactInCPI client r.tenant k.Kind k.ID with ⟨_ | err, w, cs⟩ <;>
    simp [Run.persist, Run.fail]

theorem uploadStep_last {σ : Type} (client : CPIClient σ) (fs : FileSystem) (repoRoot : String)
    (meta : SyncMetadata) (arts : ArtsByKind) (k : artifactKey) (r : Run σ) :
    (uploadStep client fs repoRoot meta arts k r).persisted.getLast? =
      some (uploadStep client fs repoRoot meta arts k r).record := by
  unfold uploadStep
  rcases (arts k.Kind).bind (fun arts => arts k.ID) with _ | art
  · simp [skipUpload, Run.persist]
  · simp only []
    by_cases hd : fs.IsDir (fs.Join [repoRoot, meta.BaseFolder, k.Kind, k.ID]) = false
    · simp [hd, skipUpload, Run.persist]
    · rw [if_neg hd]
      rcases client.ZipDirToBytes (fs.Join [repoRoot, meta.BaseFolder, k.Kind, k.ID]) with
        msg | zipBytes
      · simp [Run.fail]
      · simp only []
        by_cases he : kindToEntitySet k.Kind = ""
        · simp [he, skipUpload, Run.persist]
        · rw [if_neg he]
          rcases client.UpdateArtifact r.tenant (kindToEntitySet k.Kind) art zipBytes with
            ⟨_ | err, w⟩ <;> simp [Run.persist, Run.fail]

theorem deployStep_last {σ : Type} (client : CPIClient σ) (d : deployTarget) (r : Run σ) :
    (deployStep client d r).persisted.getLast? = some (deployStep client d r).record := by
  unfold deployStep
  rcases deployEndpointForKind d.Kind with _ | endpoint
  · simp [Run.persist]
  · simp only []
    rcases client.deployByEndpoint r.tenant endpoint d.ID with ⟨_ | err, w⟩ <;>
      simp [Run.persist, Run.fail]

theorem forEach_failed_last {σ α : Type} (body : α → Run σ → Run σ)
    (hbody : ∀ a r, (body a r).persisted.getLast? = some (body a r).record)
    (l : List α) (r : Run σ) (hr : r.failed = none)
    (hf : (forEach body l r).failed.isSome = true) :
    (forEach body l r).persisted.getLast? = some (forEach body l r).record := by
  rcases forEach_result body l r with h | ⟨a, rm, h⟩
  · rw [h, hr] at hf
    simp at hf
  · rw [h]
    exact hbody a rm

theorem applyTransportToTenant_last {σ : Type} (client : CPIClient σ) (fs : FileSystem)
    (repoRoot : String) (meta : SyncMetadata) (rec : TransportRecord) (w : σ) :
    (∃ msg, (applyTransportToTenant client fs repoRoot meta rec w).failed
      = some (Step.connect, msg)) ∨
    (applyTransportToTenant client fs repoRoot meta rec w).persisted.getLast? =
      some (applyTransportToTenant client fs repoRoot meta rec w).record := by
  unfold applyTransportToTenant
  rcases client.connect with _ | msg
  · refine Or.inr ?_
    simp only []
    split_ifs with h1
    · exact forEach_failed_last _ (deleteStep_last client) _ _ rfl h1
    · have hok1 : (forEach (deleteStep client) (sortKeys rec.DeleteRemaining)
          (⟨rec, w, [], [], 0, 0, 0, none⟩ : Run σ)).failed = none := by
        cases h : (forEach (deleteStep client) (sortKeys rec.DeleteRemaining)
          (⟨rec, w, [], [], 0, 0, 0, none⟩ : Run σ)).failed with
        | none => rfl
        | some x => rw [h] at h1; simp at h1
      generalize (forEach (deleteStep client) (sortKeys rec.DeleteRemaining)
          (⟨rec, w, [], [], 0, 0, 0, none⟩ : Run σ)) = r1 at hok1 ⊢
      unfold uploadAndDeploy
      rcases listArtifactsByKind client meta.PackageID
          (client.rangeKinds (uploadKinds r1.record.UploadRemaining)) (fun _ => none) with
        ⟨kind, err⟩ | arts
      · simp [Run.fail]
      · simp only []
        split_ifs with h2 h3
        · exact forEach_failed_last _ (uploadStep_last client fs repoRoot meta arts) _ _ hok1 h2
        · have hok2 : (forEach (uploadStep client fs repoRoot meta arts)
              (sortKeys r1.record.UploadRemaining) r1).failed = none := by
            cases h : (forEach (uploadStep client fs repoRoot meta arts)
              (sortKeys r1.record.UploadRemaining) r1).failed with
            | none => rfl
            | some x => rw [h] at h2; simp at h2
          exact forEach_failed_last _ (deployStep_last client) _ _ hok2 h3
        · simp [Run.persist]
  · exact Or.inl ⟨msg, rfl⟩

/-- C2 (amended): the checkpoint left by a failing run of `applyTransportToTenant`.  When
the run fails on the upload of key `k` (zipping its folder or the update request), it returns
that error and leaves the record with transportStatus "pending", error equal to the
message of the error, and uploadRemaining holding what is left of the planned upload
keys: none of the keys before `k` in (kind, id) order, every key after `k`, and `k`
itself when the plan holds it once; for a duplicate-free plan exactly the keys not
before `k`.  The same holds for
a failure in the delete loop with deleteRemaining, and for a failure in the deploy loop
with deployRemaining and the deploy targets of the run.  In each case the record
persisted last is the record the run leaves. -/
theorem applyTransportToTenant_checkpoint {σ : Type} (client : CPIClient σ) (fs : FileSystem)
    (repoRoot : String) (meta : SyncMetadata) (rec : TransportRecord) (w : σ) :
    (∀ k msg,
      ((applyTransportToTenant client fs repoRoot meta rec w).failed = some (Step.upload k, msg) ∨
       (applyTransportToTenant client fs repoRoot meta rec w).failed = some (Step.zip k, msg)) →
      (applyTransportToTenant client fs repoRoot meta rec w).retErr = some msg ∧
      (applyTransportToTenant client fs repoRoot meta rec w).record.TransportStatus = "pending" ∧
      (applyTransportToTenant client fs repoRoot meta rec w).record.Error = msg ∧
      RemainingFrom keyLess rec.UploadRemaining k
        (applyTransportToTenant client fs repoRoot meta rec w).record.UploadRemaining ∧
      (applyTransportToTenant client fs repoRoot meta rec w).persisted.getLast? =
        some (applyTransportToTenant client fs repoRoot meta rec w).record) ∧
    (∀ k msg,
      (applyTransportToTenant client fs repoRoot meta rec w).failed = some (Step.delete k, msg) →
      (applyTransportToTenant client fs repoRoot meta rec w).retErr = some msg ∧
      (applyTransportToTenant client fs repoRoot meta rec w).record.TransportStatus = "pending" ∧
      (applyTransportToTenant client fs repoRoot meta rec w).record.Error = msg ∧
      RemainingFrom keyLess rec.DeleteRemaining k
        (applyTransportToTenant client fs repoRoot meta rec w).record.DeleteRemaining ∧
      (applyTransportToTenant client fs repoRoot meta rec w).persisted.getLast? =
        some (applyTransportToTenant client fs repoRoot meta rec w).record) ∧
    (∀ d msg,
      (applyTransportToTenant client fs repoRoot meta rec w).failed = some (Step.deploy d, msg) →
      (applyTransportToTenant client fs repoRoot meta rec w).retErr = some msg ∧
      (applyTransportToTenant client fs repoRoot meta rec w).record.TransportStatus = "pending" ∧
      (applyTransportToTenant client fs repoRoot meta rec w).record.Error = msg ∧
      RemainingFrom targetLess (deployTargets client fs repoRoot meta rec) d
        (applyTransportToTenant client fs repoRoot meta rec w).record.DeployRemaining ∧
      (applyTransportToTenant client fs repoRoot meta rec w).persisted.getLast? =
        some (applyTransportToTenant client fs repoRoot meta rec w).record) := by
  obtain ⟨_, hcases⟩ := applyTransportToTenant_cases client fs repoRoot meta rec w _ rfl
  have hlast := applyTransportToTenant_last client fs repoRoot meta rec w
  generalize applyTransportToTenant client fs repoRoot meta rec w = R at hcases hlast ⊢
  have hlast' : ∀ s msg, R.failed = some (s, msg) → s ≠ Step.connect →
      R.persisted.getLast? = some R.record := by
    intro s msg hf hs
    rcases hlast with ⟨m, hm⟩ | h
    · rw [hm] at hf
      simp only [Option.some.injEq, Prod.mk.injEq] at hf
      exact absurd hf.1.symm hs
    · exact h
  have hret : ∀ s msg, R.failed = some (s, msg) → R.retErr = some msg := by
    intro s msg hf
    simp [Run.retErr, hf]
  rcases hcases with ⟨m, hf, _⟩ | ⟨pre, k0, post, m, hl, hf, _, hrec⟩ | ⟨csd, hdc, hcases⟩
  · refine ⟨fun k msg h => ?_, fun k msg h => ?_, fun d msg h => ?_⟩
    · rcases h with h | h <;> (rw [hf] at h; cases h)
    · rw [hf] at h; cases h
    · rw [hf] at h; cases h
  · refine ⟨fun k msg h => ?_, fun k msg h => ?_, fun d msg h => ?_⟩
    · rcases h with h | h <;> (rw [hf] at h; cases h)
    · have hl1 := hlast' _ _ h (by simp)
      have hr1 := hret _ _ h
      rw [hf] at h
      simp only [Option.some.injEq, Prod.mk.injEq, Step.delete.injEq] at h
      obtain ⟨hk, hm⟩ := h
      subst hk; subst hm
      refine ⟨hr1, by rw [hrec], by rw [hrec], ?_, hl1⟩
      rw [hrec]
      exact remainingFrom_of_sorted keyLess keyLess_strict keyLess_total _ pre post k0 hl
    · rw [hf] at h; cases h
  · rcases hcases with ⟨kind, m, hf, _⟩ | ⟨arts, hlist, hcases⟩
    · refine ⟨fun k msg h => ?_, fun k msg h => ?_, fun d msg h => ?_⟩
      · rcases h with h | h <;> (rw [hf] at h; cases h)
      · rw [hf] at h; cases h
      · rw [hf] at h; cases h
    · rcases hcases with ⟨pre, k0, post, cs, s, m, hl, hf, hs, _, _, hrec⟩ |
        ⟨pre, d0, post, cs, m, hl, hf, _, _, hrec⟩ | ⟨hf, _⟩
      · refine ⟨fun k msg h => ?_, fun k msg h => ?_, fun d msg h => ?_⟩
        · have hk : k = k0 ∧ msg = m := by
            rcases h with h | h <;> rcases hs with hs | hs <;>
              (rw [hf, hs] at h
               simp only [Option.some.injEq, Prod.mk.injEq, Step.upload.injEq, Step.zip.injEq,
                 reduceCtorEq, false_and] at h
               try exact ⟨h.1.symm, h.2.symm⟩)
          have hl1 : R.persisted.getLast? = some R.record := by
            rcases hs with hs | hs <;> exact hlast' _ _ hf (by rw [hs]; simp)
          obtain ⟨hk1, hm1⟩ := hk
          subst hk1; subst hm1
          refine ⟨hret _ _ hf, by rw [hrec], by rw [hrec], ?_, hl1⟩
          rw [hrec]
          exact remainingFrom_of_sorted keyLess keyLess_strict keyLess_total _ pre post k hl
        · rcases hs with hs | hs <;> (rw [hf, hs] at h; cases h)
        · rcases hs with hs | hs <;> (rw [hf, hs] at h; cases h)
      · refine ⟨fun k msg h => ?_, fun k msg h => ?_, fun d msg h => ?_⟩
        · rcases h with h | h <;> (rw [hf] at h; cases h)
        · rw [hf] at h; cases h
        · have hl1 := hlast' _ _ h (by simp)
          have hr1 := hret _ _ h
          rw [hf] at h
          simp only [Option.some.injEq, Prod.mk.injEq, Step.deploy.injEq] at h
          obtain ⟨hk, hm⟩ := h
          subst hk; subst hm
          have hu := uploadableIn_eq client fs repoRoot meta rec.UploadRemaining arts hlist
            (sortKeys rec.UploadRemaining) (fun k hk => (mem_sortSlice keyLess _ k).1 hk)
          rw [hu] at hl hrec
          refine ⟨hr1, by rw [hrec], by rw [hrec], ?_, hl1⟩
          rw [hrec]
          exact remainingFrom_of_sorted targetLess targetLess_strict targetLess_total _ pre post
            d0 hl
      · refine ⟨fun k msg h => ?_, fun k msg h => ?_, fun d msg h => ?_⟩
        · rcases h with h | h <;> (rw [hf] at h; cases h)
        · rw [hf] at h; cases h
        · rw [hf] at h; cases h

/-- C2, witness: the third of five uploads fails with an HTTP 500; the run leaves the
record pending with that error and with the third, fourth and fifth key still to do. -/
theorem applyTransportToTenant_checkpoint_witness :
    (applyTransportToTenant (countingClient listsAll 2 true) allDirs "/repo" pkgMeta
      (pendingRecord [⟨"iFlows", "e"⟩, ⟨"iFlows", "d"⟩, ⟨"iFlows", "c"⟩, ⟨"iFlows", "b"⟩,
        ⟨"iFlows", "a"⟩] [] []) 0).failed =
      some (Step.upload ⟨"iFlows", "c"⟩, "CPI request failed (500 Internal Server Error): boom") ∧
    (applyTransportToTenant (countingClient listsAll 2 true) allDirs "/repo" pkgMeta
      (pendingRecord [⟨"iFlows", "e"⟩, ⟨"iFlows", "d"⟩, ⟨"iFlows", "c"⟩, ⟨"iFlows", "b"⟩,
        ⟨"iFlows", "a"⟩] [] []) 0).record.UploadRemaining =
      [⟨"iFlows", "e"⟩, ⟨"iFlows", "d"⟩, ⟨"iFlows", "c"⟩] ∧
    (applyTransportToTenant (countingClient listsAll 2 true) allDirs "/repo" pkgMeta
      (pendingRecord [⟨"iFlows", "e"⟩, ⟨"iFlows", "d"⟩, ⟨"iFlows", "c"⟩, ⟨"iFlows", "b"⟩,
        ⟨"iFlows", "a"⟩] [] []) 0).record.TransportStatus = "pending" := by
  have h := (applyTransportToTenant_checkpoint (countingClient listsAll 2 true) allDirs "/repo"
    pkgMeta (pendingRecord [⟨"iFlows", "e"⟩, ⟨"iFlows", "d"⟩, ⟨"iFlows", "c"⟩, ⟨"iFlows", "b"⟩,
      ⟨"iFlows", "a"⟩] [] []) 0).1 ⟨"iFlows", "c"⟩
    "CPI request failed (500 Internal Server Error): boom" (Or.inl (by decide))
  refine ⟨by decide, ?_, h.2.1⟩
  rw [h.2.2.2.1.2.2.2.2 (by decide)]
  decide

/-- C2, the claim as stated fails for a record that lists a key twice.  The record has
uploadRemaining [(iFlows, a), (iFlows, a)]; the tenant accepts the first update request
and answers the second with an HTTP 500.  The first upload of (iFlows, a) succeeds and
`removeUpload` drops both copies; the run fails on the second upload of (iFlows, a) and
leaves uploadRemaining empty, without the key it failed on. -/
theorem applyTransportToTenant_duplicate_key :
    (applyTransportToTenant (countingClient listsAll 1 true) allDirs "/repo" pkgMeta
      (pendingRecord [⟨"iFlows", "a"⟩, ⟨"iFlows", "a"⟩] [] []) 0).failed =
      some (Step.upload ⟨"iFlows", "a"⟩, "CPI request failed (500 Internal Server Error): boom") ∧
    (applyTransportToTenant (countingClient listsAll 1 true) allDirs "/repo" pkgMeta
      (pendingRecord [⟨"iFlows", "a"⟩, ⟨"iFlows", "a"⟩] [] []) 0).calls.map CPICall.mutation =
      [(Op.upload, ⟨"iFlows", "a"⟩), (Op.upload, ⟨"iFlows", "a"⟩)] ∧
    (applyTransportToTenant (countingClient listsAll 1 true) allDirs "/repo" pkgMeta
      (pendingRecord [⟨"iFlows", "a"⟩, ⟨"iFlows", "a"⟩] [] []) 0).record.UploadRemaining = [] ∧
    (⟨"iFlows", "a"⟩ : artifactKey) ∉
      (applyTransportToTenant (countingClient listsAll 1 true) allDirs "/repo" pkgMeta
        (pendingRecord [⟨"iFlows", "a"⟩, ⟨"iFlows", "a"⟩] [] []) 0).record.UploadRemaining := by
  decide

theorem applyTransportToTenant_calls_of_ok {σ : Type} (client : CPIClient σ) (fs : FileSystem)
    (repoRoot : String) (meta : SyncMetadata) (rec : TransportRecord) (w : σ)
    (hfail : (applyTransportToTenant client fs repoRoot meta rec w).failed = none) :
    (applyTransportToTenant client fs repoRoot meta rec w).record.TransportStatus = "completed" ∧
    ∀ b ∈ (applyTransportToTenant client fs repoRoot meta rec w).calls,
      (b.op = Op.delete ∧ b.key ∈ rec.DeleteRemaining) ∨
      (b.op = Op.upload ∧ b.key ∈ rec.UploadRemaining) ∨
      (b.op = Op.deploy ∧
        (rec.UploadRemaining = [] → ∃ d ∈ rec.DeployRemaining, b.key = ⟨d.Kind, d.ID⟩)) := by
  obtain ⟨_, hcases⟩ := applyTransportToTenant_cases client fs repoRoot meta rec w _ rfl
  rcases hcases with ⟨msg, hf, _⟩ | ⟨pre, k, post, msg, _, hf, _⟩ | ⟨csd, hdc, hcases⟩
  · rw [hf] at hfail; cases hfail
  · rw [hf] at hfail; cases hfail
  · rcases hcases with ⟨kind, msg, hf, _⟩ | ⟨arts, hlist, hcases⟩
    · rw [hf] at hfail; cases hfail
    · rcases hcases with ⟨pre, k, post, cs, s, msg, _, hf, _⟩ |
        ⟨pre, d, post, cs, msg, _, hf, _⟩ | ⟨_, hcalls, hrec⟩
      · rw [hf] at hfail; cases hfail
      · rw [hf] at hfail; cases hfail
      · refine ⟨by rw [hrec], ?_⟩
        intro b hb
        rw [hcalls] at hb
        rcases List.mem_append.1 hb with hb | hb
        · rcases List.mem_append.1 hb with hb | hb
          · exact Or.inl (hdc.1 b hb)
          · obtain ⟨k, hk, hbk⟩ := List.mem_map.1 hb
            refine Or.inr (Or.inl ⟨by rw [← hbk]; rfl, ?_⟩)
            rw [← hbk]
            exact (mem_sortSlice keyLess _ k).1 (List.mem_filter.1 hk).1
        · obtain ⟨d, hd, hbd⟩ := List.mem_map.1 hb
          refine Or.inr (Or.inr ⟨by rw [← hbd]; rfl, ?_⟩)
          intro hup
          have hd' := (mem_sortSlice targetLess _ d).1 (List.mem_filter.1 hd).1
          rw [hup] at hd'
          exact ⟨d, by simpa [sortKeys, sortSlice, deployPlan] using hd', by rw [← hbd]; rfl⟩

theorem applyTransportToTenant_done_calls {σ : Type} (client : CPIClient σ) (fs : FileSystem)
    (repoRoot : String) (meta : SyncMetadata) (rec : TransportRecord) (w : σ)
    (hfail : (applyTransportToTenant client fs repoRoot meta rec w).failed ≠ none) :
    ∀ a ∈ (applyTransportToTenant client fs repoRoot meta rec w).calls, a.ok = true →
      (a.op = Op.delete ∧
        a.key ∉ (applyTransportToTenant client fs repoRoot meta rec w).record.DeleteRemaining) ∨
      (a.op = Op.upload ∧
        a.key ∉ (applyTransportToTenant client fs repoRoot meta rec w).record.UploadRemaining) ∨
      (a.op = Op.deploy ∧
        (applyTransportToTenant client fs repoRoot meta rec w).record.UploadRemaining = [] ∧
        ∀ d ∈ (applyTransportToTenant client fs repoRoot meta rec w).record.DeployRemaining,
          a.key ≠ ⟨d.Kind, d.ID⟩) := by
  obtain ⟨_, hcases⟩ := applyTransportToTenant_cases client fs repoRoot meta rec w _ rfl
  generalize applyTransportToTenant client fs repoRoot meta rec w = R at hcases hfail ⊢
  rcases hcases with ⟨msg, hf, hcalls, _⟩ | ⟨pre, k, post, msg, _, hf, hcalls, hrec⟩ |
    ⟨csd, hdc, hcases⟩
  · intro a ha
    rw [hcalls] at ha
    cases ha
  · intro a ha hok
    refine Or.inl ⟨(hcalls a ha).1, ?_⟩
    rw [hrec]
    simp only [List.mem_filter, decide_eq_true_eq, not_and, not_not]
    exact fun _ => (hcalls a ha).2 hok
  · have hdel : ∀ a ∈ csd, R.record.DeleteRemaining = [] →
        (a.op = Op.delete ∧ a.key ∉ R.record.DeleteRemaining) := by
      intro a ha he
      exact ⟨(hdc.1 a ha).1, by rw [he]; simp⟩
    rcases hcases with ⟨kind, msg, hf, hcalls, hrec⟩ | ⟨arts, hlist, hcases⟩
    · intro a ha _
      rw [hcalls] at ha
      exact Or.inl (hdel a ha (by rw [hrec]))
    · rcases hcases with ⟨pre, k, post, cs, s, msg, _, hf, _, hcalls, hcs, hrec⟩ |
        ⟨pre, d, post, cs, msg, _, hf, hcalls, hcs, hrec⟩ | ⟨hf, _⟩
      · intro a ha hok
        rw [hcalls] at ha
        rcases List.mem_append.1 ha with ha | ha
        · rcases List.mem_append.1 ha with ha | ha
          · exact Or.inl (hdel a ha (by rw [hrec]))
          · obtain ⟨k1, hk1, hak⟩ := List.mem_map.1 ha
            refine Or.inr (Or.inl ⟨by rw [← hak]; rfl, ?_⟩)
            rw [hrec, ← hak]
            simp only [List.mem_filter, decide_eq_true_eq, not_and, not_not]
            exact fun _ => (List.mem_filter.1 hk1).1
        · rw [(hcs a ha).2.2] at hok
          cases hok
      · intro a ha hok
        rw [hcalls] at ha
        rcases List.mem_append.1 ha with ha | ha
        · rcases List.mem_append.1 ha with ha | ha
          · rcases List.mem_append.1 ha with ha | ha
            · exact Or.inl (hdel a ha (by rw [hrec]))
            · obtain ⟨k1, hk1, hak⟩ := List.mem_map.1 ha
              refine Or.inr (Or.inl ⟨by rw [← hak]; rfl, ?_⟩)
              rw [hrec]
              simp
          · obtain ⟨d1, hd1, had⟩ := List.mem_map.1 ha
            refine Or.inr (Or.inr ⟨by rw [← had]; rfl, by rw [hrec], ?_⟩)
            intro d2 hd2
            rw [hrec] at hd2
            simp only [List.mem_filter, decide_eq_true_eq] at hd2
            rw [← had]
            intro he
            simp only [deployCall, artifactKey.mk.injEq] at he
            apply hd2.2
            have : d2 = d1 := by
              cases d1; cases d2
              simp only [deployTarget.mk.injEq]
              exact ⟨he.1.symm, he.2.symm⟩
            rw [this]
            exact (List.mem_filter.1 hd1).1
        · rw [(hcs a ha).2.2] at hok
          cases hok
      · exact absurd hf hfail

/-- C4: replay idempotence of the CPI phase.  If a run of `applyTransportToTenant`
fails at some step, and a second run is started from the record as the first run left
it and meets no error, then the second run ends with transportStatus "completed", and
no mutation (delete, upload or deploy of a given (kind, id)) whose request succeeded in
the first run is sent again in the second run.  The two runs may face different
tenants and hosts. -/
theorem applyTransportToTenant_replay {σ τ : Type} (client1 : CPIClient σ)
    (client2 : CPIClient τ) (fs1 fs2 : FileSystem) (repoRoot : String) (meta : SyncMetadata)
    (rec : TransportRecord) (w1 : σ) (w2 : τ)
    (h1 : (applyTransportToTenant client1 fs1 repoRoot meta rec w1).failed ≠ none)
    (h2 : (applyTransportToTenant client2 fs2 repoRoot meta
      (applyTransportToTenant client1 fs1 repoRoot meta rec w1).record w2).failed = none) :
    (applyTransportToTenant client2 fs2 repoRoot meta
      (applyTransportToTenant client1 fs1 repoRoot meta rec w1).record w2).record.TransportStatus
      = "completed" ∧
    ∀ a ∈ (applyTransportToTenant client1 fs1 repoRoot meta rec w1).calls, a.ok = true →
      ∀ b ∈ (applyTransportToTenant client2 fs2 repoRoot meta
        (applyTransportToTenant client1 fs1 repoRoot meta rec w1).record w2).calls,
        ¬ (b.op = a.op ∧ b.key = a.key) := by
  have hdone := applyTransportToTenant_done_calls client1 fs1 repoRoot meta rec w1 h1
  obtain ⟨hst, hsrc⟩ := applyTransportToTenant_calls_of_ok client2 fs2 repoRoot meta
    (applyTransportToTenant client1 fs1 repoRoot meta rec w1).record w2 h2
  refine ⟨hst, ?_⟩
  intro a ha hok b hb hba
  obtain ⟨hop, hkey⟩ := hba
  rcases hdone a ha hok with ⟨ho, hn⟩ | ⟨ho, hn⟩ | ⟨ho, hup, hn⟩
  · rcases hsrc b hb with ⟨ho2, hm⟩ | ⟨ho2, _⟩ | ⟨ho2, _⟩
    · exact hn (hkey ▸ hm)
    · rw [hop, ho] at ho2; cases ho2
    · rw [hop, ho] at ho2; cases ho2
  · rcases hsrc b hb with ⟨ho2, _⟩ | ⟨ho2, hm⟩ | ⟨ho2, _⟩
    · rw [hop, ho] at ho2; cases ho2
    · exact hn (hkey ▸ hm)
    · rw [hop, ho] at ho2; cases ho2
  · rcases hsrc b hb with ⟨ho2, _⟩ | ⟨ho2, _⟩ | ⟨ho2, hm⟩
    · rw [hop, ho] at ho2; cases ho2
    · rw [hop, ho] at ho2; cases ho2
    · obtain ⟨d, hd, hbd⟩ := hm hup
      exact hn d hd (by rw [← hkey, hbd])

/-- C4, witness: the third of five uploads fails; the second run uploads only the
third, fourth and fifth artifact and then deploys all five. -/
theorem applyTransportToTenant_replay_witness :
    (applyTransportToTenant (fixedClient listsAll none none none) allDirs "/repo" pkgMeta
      (applyTransportToTenant (countingClient listsAll 2 true) allDirs "/repo" pkgMeta
        (pendingRecord [⟨"iFlows", "e"⟩, ⟨"iFlows", "d"⟩, ⟨"iFlows", "c"⟩, ⟨"iFlows", "b"⟩,
          ⟨"iFlows", "a"⟩] [] []) 0).record ()).record.TransportStatus = "completed" ∧
    (applyTransportToTenant (fixedClient listsAll none none none) allDirs "/repo" pkgMeta
      (applyTransportToTenant (countingClient listsAll 2 true) allDirs "/repo" pkgMeta
        (pendingRecord [⟨"iFlows", "e"⟩, ⟨"iFlows", "d"⟩, ⟨"iFlows", "c"⟩, ⟨"iFlows", "b"⟩,
          ⟨"iFlows", "a"⟩] [] []) 0).record ()).calls.map CPICall.mutation =
      [(Op.upload, ⟨"iFlows", "c"⟩), (Op.upload, ⟨"iFlows", "d"⟩), (Op.upload, ⟨"iFlows", "e"⟩),
       (Op.deploy, ⟨"iFlows", "a"⟩), (Op.deploy, ⟨"iFlows", "b"⟩), (Op.deploy, ⟨"iFlows", "c"⟩),
       (Op.deploy, ⟨"iFlows", "d"⟩), (Op.deploy, ⟨"iFlows", "e"⟩)] :=
  ⟨(applyTransportToTenant_replay (countingClient listsAll 2 true)
      (fixedClient listsAll none none none) allDirs allDirs "/repo" pkgMeta
      (pendingRecord [⟨"iFlows", "e"⟩, ⟨"iFlows", "d"⟩, ⟨"iFlows", "c"⟩, ⟨"iFlows", "b"⟩,
        ⟨"iFlows", "a"⟩] [] []) 0 () (by decide) (by decide)).1, by decide⟩

theorem mapSet_length {β : Type} (m : List (String × β)) (key : String) (v : β) :
    (mapSet m key v).length ≤ m.length + 1 := by
  induction m with
  | nil => simp [mapSet]
  | cons p rest ih =>
    obtain ⟨k, w⟩ := p
    unfold mapSet
    split_ifs
    · simp
    · simp only [List.length_cons]
      omega

theorem deploySet_length (m : List (String × deployTarget)) (l : List deployTarget) :
    (deploySet m l).length ≤ m.length + l.length := by
  induction l generalizing m with
  | nil => simp [deploySet]
  | cons d ds ih =>
    unfold deploySet
    simp only [List.foldl_cons, List.length_cons]
    split_ifs
    · have := ih m
      unfold deploySet at this
      omega
    · have h1 := ih (mapSet m (d.Kind ++ "|" ++ d.ID) ⟨d.Kind, d.ID⟩)
      have h2 := mapSet_length m (d.Kind ++ "|" ++ d.ID) (⟨d.Kind, d.ID⟩ : deployTarget)
      unfold deploySet at h1
      omega

theorem mergeDeployRemaining_length (existing add : List deployTarget) :
    (mergeDeployRemaining existing add).length ≤ existing.length + add.length := by
  unfold mergeDeployRemaining sortTargets
  simp only []
  rw [(sortSlice_perm targetLess _).length_eq, List.length_map]
  have h1 := deploySet_length (deploySet [] existing) add
  have h2 := deploySet_length [] existing
  simp only [List.length_nil] at h2
  omega

theorem removeUpload_length (l : List artifactKey) (k : artifactKey) :
    (removeUpload l k).length ≤ l.length := List.length_filter_le _ _

theorem removeDeployTarget_length (l : List deployTarget) (d : deployTarget) :
    (removeDeployTarget l d).length ≤ l.length := List.length_filter_le _ _

theorem deleteStep_trail {σ : Type} (client : CPIClient σ) (k : artifactKey) (r : Run σ) :
    (deleteStep client k r).persisted = r.persisted ++ [(deleteStep client k r).record] ∧
    (deleteStep client k r).record.UploadRemaining.length ≤ r.record.UploadRemaining.length ∧
    (deleteStep client k r).record.DeleteRemaining.length ≤ r.record.DeleteRemaining.length ∧
    (deleteStep client k r).record.DeployRemaining.length ≤ r.record.DeployRemaining.length := by
  unfold deleteStep
  rcases deleteArtifactInCPI client r.tenant k.Kind k.ID with ⟨_ | err, w, cs⟩
  · simp [Run.persist, removeUpload_length]
  · simp [Run.fail]

theorem uploadStep_trail {σ : Type} (client : CPIClient σ) (fs : FileSystem) (repoRoot : String)
    (meta : SyncMetadata) (arts : ArtsByKind) (k : artifactKey) (r : Run σ) :
    (uploadStep client fs repoRoot meta arts k r).persisted =
      r.persisted ++ [(uploadStep client fs repoRoot meta arts k r).record] ∧
    (uploadStep client fs repoRoot meta arts k r).record.UploadRemaining.length
      ≤ r.record.UploadRemaining.length ∧
    (uploadStep client fs repoRoot meta arts k r).record.DeleteRemaining.length
      ≤ r.record.DeleteRemaining.length ∧
    (uploadStep client fs repoRoot meta arts k r).record.DeployRemaining.length
      ≤ r.record.DeployRemaining.length + 1 := by
  unfold uploadStep
  rcases (arts k.Kind).bind (fun arts => arts k.ID) with _ | art
  · simp [skipUpload, Run.persist, removeUpload_length]
  · simp only []
    by_cases hd : fs.IsDir (fs.Join [repoRoot, meta.BaseFolder, k.Kind, k.ID]) = false
    · simp [hd, skipUpload, Run.persist, removeUpload_length]
    · rw [if_neg hd]
      rcases client.ZipDirToBytes (fs.Join [repoRoot, meta.BaseFolder, k.Kind, k.ID]) with
        msg | zipBytes
      · simp [Run.fail]
      · simp only []
        by_cases he : kindToEntitySet k.Kind = ""
        · simp [he, skipUpload, Run.persist, removeUpload_length]
        · rw [if_neg he]
          rcases client.UpdateArtifact r.tenant (kindToEntitySet k.Kind) art zipBytes with
            ⟨_ | err, w⟩
          · simp only [Run.persist, true_and]
            refine ⟨removeUpload_length _ _, le_refl _, ?_⟩
            split_ifs
            · exact mergeDeployRemaining_length _ _
            · omega
          · simp [Run.fail]

theorem deployStep_trail {σ : Type} (client : CPIClient σ) (d : deployTarget) (r : Run σ) :
    (deployStep client d r).persisted = r.persisted ++ [(deployStep client d r).record] ∧
    (deployStep client d r).record.UploadRemaining.length ≤ r.record.UploadRemaining.length ∧
    (deployStep client d r).record.DeleteRemaining.length ≤ r.record.DeleteRemaining.length ∧
    (deployStep client d r).record.DeployRemaining.length ≤ r.record.DeployRemaining.length := by
  unfold deployStep
  rcases deployEndpointForKind d.Kind with _ | endpoint
  · simp [Run.persist, removeDeployTarget_length]
  · simp only []
    rcases client.deployByEndpoint r.tenant endpoint d.ID with ⟨_ | err, w⟩
    · simp [Run.persist, removeDeployTarget_length]
    · simp [Run.fail]

theorem trail_snoc (rec0 : TransportRecord) (old : TransportRecord)
    (persisted : List TransportRecord) (new : TransportRecord)
    (hchain : List.Chain' StepShrinks (rec0 :: persisted))
    (hlast : (rec0 :: persisted).getLast? = some old) (hrel : StepShrinks old new) :
    List.Chain' StepShrinks (rec0 :: (persisted ++ [new])) ∧
    (rec0 :: (persisted ++ [new])).getLast? = some new := by
  refine ⟨?_, by rw [← List.cons_append]; exact List.getLast?_concat _⟩
  rw [← List.cons_append, List.chain'_append]
  refine ⟨hchain, List.chain'_singleton new, ?_⟩
  intro x hx y hy
  rw [hlast] at hx
  simp only [Option.mem_def, Option.some.injEq, List.head?_cons] at hx hy
  rw [← hx, ← hy]
  exact hrel

theorem forEach_preserves {σ α : Type} (body : α → Run σ → Run σ) (P : Run σ → Prop)
    (hbody : ∀ a r, P r → P (body a r)) (l : List α) (r : Run σ) (h : P r) :
    P (forEach body l r) := by
  induction l generalizing r with
  | nil => exact h
  | cons a as ih =>
    unfold forEach
    simp only []
    split_ifs
    · exact hbody a r h
    · exact ih _ (hbody a r h)

theorem applyTransportToTenant_trail {σ : Type} (client : CPIClient σ) (fs : FileSystem)
    (repoRoot : String) (meta : SyncMetadata) (rec : TransportRecord) (w : σ) :
    List.Chain' StepShrinks
      (rec :: (applyTransportToTenant client fs repoRoot meta rec w).persisted) ∧
    (rec :: (applyTransportToTenant client fs repoRoot meta rec w).persisted).getLast? =
      some (applyTransportToTenant client fs repoRoot meta rec w).record := by
  have hdel : ∀ (k : artifactKey) (r : Run σ),
      (List.Chain' StepShrinks (rec :: r.persisted) ∧
        (rec :: r.persisted).getLast? = some r.record) →
      (List.Chain' StepShrinks (rec :: (deleteStep client k r).persisted) ∧
        (rec :: (deleteStep client k r).persisted).getLast? =
          some (deleteStep client k r).record) := by
    intro k r h
    obtain ⟨h1, h2, h3, h4⟩ := deleteStep_trail client k r
    rw [h1]
    exact trail_snoc rec r.record _ _ h.1 h.2 ⟨h2, h3, by omega⟩
  have hdep : ∀ (d : deployTarget) (r : Run σ),
      (List.Chain' StepShrinks (rec :: r.persisted) ∧
        (rec :: r.persisted).getLast? = some r.record) →
      (List.Chain' StepShrinks (rec :: (deployStep client d r).persisted) ∧
        (rec :: (deployStep client d r).persisted).getLast? =
          some (deployStep client d r).record) := by
    intro d r h
    obtain ⟨h1, h2, h3, h4⟩ := deployStep_trail client d r
    rw [h1]
    exact trail_snoc rec r.record _ _ h.1 h.2 ⟨h2, h3, by omega⟩
  have hup : ∀ arts (k : artifactKey) (r : Run σ),
      (List.Chain' StepShrinks (rec :: r.persisted) ∧
        (rec :: r.persisted).getLast? = some r.record) →
      (List.Chain' StepShrinks
          (rec :: (uploadStep client fs repoRoot meta arts k r).persisted) ∧
        (rec :: (uploadStep client fs repoRoot meta arts k r).persisted).getLast? =
          some (uploadStep client fs repoRoot meta arts k r).record) := by
    intro arts k r h
    obtain ⟨h1, h2, h3, h4⟩ := uploadStep_trail client fs repoRoot meta arts k r
    rw [h1]
    exact trail_snoc rec r.record _ _ h.1 h.2 ⟨h2, h3, h4⟩
  unfold applyTransportToTenant
  rcases client.connect with _ | msg
  · simp only []
    have h1 := forEach_preserves (deleteStep client)
      (fun r => List.Chain' StepShrinks (rec :: r.persisted) ∧
        (rec :: r.persisted).getLast? = some r.record) hdel (sortKeys rec.DeleteRemaining)
      (⟨rec, w, [], [], 0, 0, 0, none⟩ : Run σ) ⟨List.chain'_singleton rec, rfl⟩
    generalize (forEach (deleteStep client) (sortKeys rec.DeleteRemaining)
        (⟨rec, w, [], [], 0, 0, 0, none⟩ : Run σ)) = r1 at h1 ⊢
    split_ifs
    · exact h1
    · unfold uploadAndDeploy
      rcases listArtifactsByKind client meta.PackageID
          (client.rangeKinds (uploadKinds r1.record.UploadRemaining)) (fun _ => none) with
        ⟨kind, err⟩ | arts
      · simp only [Run.fail]
        exact trail_snoc rec r1.record _ _ h1.1 h1.2 ⟨le_refl _, le_refl _, by simp⟩
      · simp only []
        have h2 := forEach_preserves (uploadStep client fs repoRoot meta arts)
          (fun r => List.Chain' StepShrinks (rec :: r.persisted) ∧
            (rec :: r.persisted).getLast? = some r.record) (hup arts)
          (sortKeys r1.record.UploadRemaining) r1 h1
        generalize (forEach (uploadStep client fs repoRoot meta arts)
          (sortKeys r1.record.UploadRemaining) r1) = r2 at h2 ⊢
        split_ifs
        · exact h2
        · have h3 := forEach_preserves (deployStep client)
            (fun r => List.Chain' StepShrinks (rec :: r.persisted) ∧
              (rec :: r.persisted).getLast? = some r.record) hdep
            (sortTargets r2.record.DeployRemaining) r2 h2
          exact h3
        · have h3 := forEach_preserves (deployStep client)
            (fun r => List.Chain' StepShrinks (rec :: r.persisted) ∧
              (rec :: r.persisted).getLast? = some r.record) hdep
            (sortTargets r2.record.DeployRemaining) r2 h2
          generalize (forEach (deployStep client)
            (sortTargets r2.record.DeployRemaining) r2) = r3 at h3 ⊢
          simp only [Run.persist]
          exact trail_snoc rec r3.record _ _ h3.1 h3.2 ⟨le_refl _, le_refl _, by simp⟩
  · exact ⟨List.chain'_singleton rec, rfl⟩

/-- C5, counterexample: the record plans one upload and has an empty deployRemaining;
the first step of the run, the upload of (iFlows, a), leaves deployRemaining with one
entry, so the list has grown. -/
theorem applyTransportToTenant_deploy_grows :
    (pendingRecord [⟨"iFlows", "a"⟩] [] []).DeployRemaining.length = 0 ∧
    (applyTransportToTenant (fixedClient listsAll none none none) allDirs "/repo" pkgMeta
      (pendingRecord [⟨"iFlows", "a"⟩] [] []) ()).persisted.map
        (fun x => x.DeployRemaining.length) = [1, 0, 0] := by
  decide

/-- C5, amended: during the CPI phase uploadRemaining and deleteRemaining shrink
monotonically, and deployRemaining shrinks monotonically except in upload steps.  Along
the records a run of `applyTransportToTenant` persists, one per step and starting from
the record it is given, the length of uploadRemaining and of deleteRemaining after a
step is at most its length before, and the length of deployRemaining is at most its
length before plus one.  A delete step and a deploy step never lengthen
deployRemaining; an upload step lengthens it by at most one entry, the uploaded
artifact. -/
theorem applyTransportToTenant_lists_shrink {σ : Type} (client : CPIClient σ)
    (fs : FileSystem) (repoRoot : String) (meta : SyncMetadata) (rec : TransportRecord)
    (w : σ) :
    List.Chain' StepShrinks
      (rec :: (applyTransportToTenant client fs repoRoot meta rec w).persisted) ∧
    (∀ (k : artifactKey) (r : Run σ),
      (deleteStep client k r).record.UploadRemaining.length ≤ r.record.UploadRemaining.length ∧
      (deleteStep client k r).record.DeleteRemaining.length ≤ r.record.DeleteRemaining.length ∧
      (deleteStep client k r).record.DeployRemaining.length
        ≤ r.record.DeployRemaining.length) ∧
    (∀ (arts : ArtsByKind) (k : artifactKey) (r : Run σ),
      (uploadStep client fs repoRoot meta arts k r).record.UploadRemaining.length
        ≤ r.record.UploadRemaining.length ∧
      (uploadStep client fs repoRoot meta arts k r).record.DeleteRemaining.length
        ≤ r.record.DeleteRemaining.length ∧
      (uploadStep client fs repoRoot meta arts k r).record.DeployRemaining.length
        ≤ r.record.DeployRemaining.length + 1) ∧
    (∀ (d : deployTarget) (r : Run σ),
      (deployStep client d r).record.UploadRemaining.length ≤ r.record.UploadRemaining.length ∧
      (deployStep client d r).record.DeleteRemaining.length ≤ r.record.DeleteRemaining.length ∧
      (deployStep client d r).record.DeployRemaining.length
        ≤ r.record.DeployRemaining.length) :=
  ⟨(applyTransportToTenant_trail client fs repoRoot meta rec w).1,
   fun k r => (deleteStep_trail client k r).2,
   fun arts k r => (uploadStep_trail client fs repoRoot meta arts k r).2,
   fun d r => (deployStep_trail client d r).2⟩

theorem normalizeTransportStatus_pending (table : Char → Char) :
    normalizeTransportStatus table "pending" = "pending" := rfl

theorem normalizeTransportStatus_values (table : Char → Char) (s : String) :
    normalizeTransportStatus table s = "completed" ∨
      normalizeTransportStatus table s = "pending" := by
  unfold normalizeTransportStatus
  simp only []
  split_ifs
  · exact Or.inl rfl
  · exact Or.inr rfl

theorem mem_writtenRecords (table : Char → Char) (handed : List TransportRecord)
    (x : TransportRecord) (hx : x ∈ writtenRecords table handed) :
    ∃ y ∈ handed, x.TransportStatus = normalizeTransportStatus table y.TransportStatus ∧
      x.UploadRemaining = y.UploadRemaining ∧ x.DeleteRemaining = y.DeleteRemaining ∧
      x.DeployRemaining = y.DeployRemaining := by
  unfold writtenRecords at hx
  rw [List.mem_filterMap] at hx
  obtain ⟨y, hy, hxy⟩ := hx
  refine ⟨y, hy, ?_⟩
  unfold PersistTransportRecord at hxy
  simp only [] at hxy
  by_cases hid : TrimSpace y.TransportID = ""
  · rw [if_pos hid] at hxy
    simp at hxy
  · rw [if_neg hid] at hxy
    simp only [Option.some.injEq] at hxy
    rw [← hxy]
    exact ⟨rfl, rfl, rfl, rfl⟩

theorem cpiPhase_persisted {σ : Type} (table : Char → Char) (client : CPIClient σ)
    (fs : FileSystem) (repoRoot : String) (meta : SyncMetadata) (rec : TransportRecord) (w : σ)
    (hrec : normalizeTransportStatus table rec.TransportStatus = "completed" → rec.noWork) :
    (∀ y ∈ (applyTransportToTenant client fs repoRoot meta rec w).persisted,
      normalizeTransportStatus table y.TransportStatus = "completed" → y.noWork) ∧
    ((applyTransportToTenant client fs repoRoot meta rec w).failed.isSome ≠ true →
      (applyTransportToTenant client fs repoRoot meta rec w).record.noWork) := by
  obtain ⟨hsnap, hcases⟩ := applyTransportToTenant_cases client fs repoRoot meta rec w _ rfl
  refine ⟨?_, ?_⟩
  · intro y hy hst
    rcases hsnap y hy with h | ⟨h, hw⟩ | ⟨_, h⟩
    · rw [h, normalizeTransportStatus_pending] at hst
      exact absurd hst (by decide)
    · rw [h] at hst
      obtain ⟨h1, h2, h3⟩ := hrec hst
      rcases hw with hw | hw | hw
      · exact absurd h2 hw
      · exact absurd h1 hw
      · exact absurd h3 hw
    · exact h
  · intro hf
    rcases hcases with ⟨msg, hf1, _⟩ | ⟨pre, k, post, msg, _, hf1, _⟩ | ⟨csd, hdc, hcases⟩
    · rw [hf1] at hf; simp at hf
    · rw [hf1] at hf; simp at hf
    · rcases hcases with ⟨kind, msg, hf1, _⟩ | ⟨arts, hlist, hcases⟩
      · rw [hf1] at hf; simp at hf
      · rcases hcases with ⟨pre, k, post, cs, s, msg, _, hf1, _⟩ |
          ⟨pre, d, post, cs, msg, _, hf1, _⟩ | ⟨_, _, hr⟩
        · rw [hf1] at hf; simp at hf
        · rw [hf1] at hf; simp at hf
        · rw [hr]
          exact ⟨rfl, rfl, rfl⟩

theorem runSyncPushPlan_status (table : Char → Char) (pending : Option TransportRecord)
    (inp : TransportInputs) (rec : TransportRecord)
    (h : runSyncPushPlan table pending inp = some rec) : rec.TransportStatus = "pending" := by
  unfold runSyncPushPlan at h
  rcases pending with _ | stored
  · simp only [] at h
    split_ifs at h
    simp only [Option.some.injEq] at h
    rw [← h]
  · simp only [Option.some.injEq] at h
    rw [← h]
    have hs : (resumeObjects (resumeDeletes (resumeUploads
        (resumeCommits (LoadRecord table stored) inp) inp) inp)).TransportStatus =
        normalizeTransportStatus table stored.TransportStatus := by
      unfold resumeObjects resumeDeletes resumeUploads resumeCommits LoadRecord
      simp only []
      split_ifs <;> rfl
    unfold resumeStatus
    split_ifs with hc
    · rfl
    · rw [hs] at hc ⊢
      rcases normalizeTransportStatus_values table stored.TransportStatus with h1 | h1
      · exact absurd h1 hc
      · exact h1

/-- C3, counterexample: a pull that changes something persists its record twice, first
with transportStatus "pending" and then, after the git push, with "completed"; the
three lists are empty in both, so the first record has no remaining work and is not
completed. -/
theorem pull_persists_pending_without_work :
    (EngineRun.persists (fun c => c)
      (EngineRun.pull ⟨"20240101T000000000Z", "2024-01-01T00:00:00Z", "pkg", "dev", ["c0ffee"],
        "", "", [⟨"iFlows", "a"⟩], []⟩ none : EngineRun Unit)).map
      (fun x => (x.TransportStatus,
        x.UploadRemaining.length + x.DeleteRemaining.length + x.DeployRemaining.length)) =
    [("pending", 0), ("completed", 0)] := by
  decide

/-- C3, amended: every transport record the engine persists (by init, pull, push,
deliver or the CPI phase) with transportStatus "completed" has uploadRemaining,
deleteRemaining and deployRemaining all empty, provided the stored record a deliver
resumes, or the record the CPI phase is started on, has them empty when its status is
completed.  The converse is not claimed: pending records without remaining work are
persisted. -/
theorem persisted_completed_has_no_work {σ : Type} (table : Char → Char) (run : EngineRun σ)
    (hres : ∀ rec, run.resumed table = some rec →
      normalizeTransportStatus table rec.TransportStatus = "completed" → rec.noWork) :
    ∀ x ∈ run.persists table, x.TransportStatus = "completed" → x.noWork := by
  intro x hx hst
  have hpend : ∀ rec : TransportRecord, rec.TransportStatus = "pending" →
      normalizeTransportStatus table rec.TransportStatus = "completed" → rec.noWork := by
    intro rec h hc
    rw [h, normalizeTransportStatus_pending] at hc
    exact absurd hc (by decide)
  cases run with
  | init objs packageID branch transportID createdAt =>
    obtain ⟨y, hy, h1, h2, h3, h4⟩ := mem_writtenRecords table _ x hx
    simp only [List.mem_singleton] at hy
    subst hy
    exact ⟨h2, h3, h4⟩
  | pull inp gitPush =>
    obtain ⟨y, hy, h1, h2, h3, h4⟩ := mem_writtenRecords table _ x hx
    refine ⟨?_, ?_, ?_⟩
    · rw [h2]
      unfold runSyncPullRecords at hy
      simp only [] at hy
      split at hy
      · simp only [List.mem_singleton] at hy; rw [hy]
      · split at hy <;> simp only [List.mem_cons, List.mem_singleton, List.not_mem_nil,
          or_false] at hy <;> rcases hy with hy | hy <;> rw [hy]
    · rw [h3]
      unfold runSyncPullRecords at hy
      simp only [] at hy
      split at hy
      · simp only [List.mem_singleton] at hy; rw [hy]
      · split at hy <;> simp only [List.mem_cons, List.mem_singleton, List.not_mem_nil,
          or_false] at hy <;> rcases hy with hy | hy <;> rw [hy]
    · rw [h4]
      unfold runSyncPullRecords at hy
      simp only [] at hy
      split at hy
      · simp only [List.mem_singleton] at hy; rw [hy]
      · split at hy <;> simp only [List.mem_cons, List.mem_singleton, List.not_mem_nil,
          or_false] at hy <;> rcases hy with hy | hy <;> rw [hy]
  | push client fs repoRoot meta pending inp w =>
    obtain ⟨y, hy, h1, h2, h3, h4⟩ := mem_writtenRecords table _ x hx
    rw [h1] at hst
    unfold runSyncPushRecords at hy
    rcases hplan : runSyncPushPlan table pending inp with _ | rec
    · rw [hplan] at hy
      simp at hy
    · rw [hplan] at hy
      simp only [] at hy
      have hrs := runSyncPushPlan_status table pending inp rec hplan
      have hy' : y = rec ∨ y ∈ (runSyncPushCPI client fs repoRoot meta rec w).persisted := by
        split at hy
        · simp only [List.mem_singleton] at hy
          exact Or.inl hy
        · exact List.mem_cons.1 hy
      rcases hy' with hy' | hy'
      · rw [hy'] at hst h2 h3 h4
        obtain ⟨a, b, c⟩ := hpend rec hrs hst
        exact ⟨h2.trans a, h3.trans b, h4.trans c⟩
      · obtain ⟨a, b, c⟩ := (cpiPhase_persisted table client fs repoRoot meta rec w
          (hpend rec hrs)).1 y hy' hst
        exact ⟨h2.trans a, h3.trans b, h4.trans c⟩
  | deliver client fs repoRoot meta pending inp gitPush w =>
    obtain ⟨y, hy, h1, h2, h3, h4⟩ := mem_writtenRecords table _ x hx
    rw [h1] at hst
    suffices hyw : y.noWork from ⟨h2.trans hyw.1, h3.trans hyw.2.1, h4.trans hyw.2.2⟩
    unfold runSyncDeliverRecords at hy
    rcases pending with _ | stored
    · dsimp only at hy
      split at hy
      · simp only [List.mem_singleton] at hy
        rw [hy] at hst ⊢
        exact hpend _ rfl hst
      · split at hy
        · simp only [List.mem_cons, List.mem_singleton, List.not_mem_nil, or_false] at hy
          rcases hy with hy | hy <;> (rw [hy] at hst ⊢; exact hpend _ rfl hst)
        · have hcpi := fun (rec0 : TransportRecord) (h0 : rec0.TransportStatus = "pending") =>
            cpiPhase_persisted table client fs repoRoot meta rec0 w (hpend rec0 h0)
          split_ifs at hy with hf
          · rcases List.mem_cons.1 hy with hy | hy
            · rw [hy] at hst ⊢; exact hpend _ rfl hst
            · exact (hcpi _ rfl).1 y hy hst
          · rcases List.mem_cons.1 hy with hy | hy
            · rw [hy] at hst ⊢; exact hpend _ rfl hst
            · rcases List.mem_append.1 hy with hy | hy
              · exact (hcpi _ rfl).1 y hy hst
              · simp only [List.mem_singleton] at hy
                rw [hy]
                exact (hcpi _ rfl).2 hf
    · dsimp only at hy
      have hcpi := cpiPhase_persisted table client fs repoRoot meta (LoadRecord table stored) w
        (hres (LoadRecord table stored) rfl)
      split_ifs at hy with hf
      · exact hcpi.1 y hy hst
      · rcases List.mem_append.1 hy with hy | hy
        · exact hcpi.1 y hy hst
        · simp only [List.mem_singleton] at hy
          rw [hy]
          exact hcpi.2 hf
  | cpiPhase client fs repoRoot meta rec w =>
    obtain ⟨y, hy, h1, h2, h3, h4⟩ := mem_writtenRecords table _ x hx
    rw [h1] at hst
    obtain ⟨a, b, c⟩ := (cpiPhase_persisted table client fs repoRoot meta rec w
      (hres rec rfl)).1 y hy hst
    exact ⟨h2.trans a, h3.trans b, h4.trans c⟩

/-- C3, witness: the CPI phase run on a pending record with one delete, one upload and
no deploy target persists four records, and those that are completed have no work
left. -/
theorem persisted_completed_has_no_work_witness :
    ((EngineRun.cpiPhase (fixedClient listsAll none none none) allDirs "/repo" pkgMeta
      (pendingRecord [⟨"iFlows", "a"⟩] [⟨"Scripts", "s"⟩] []) ()).persists (fun c => c)).map
      (fun x => x.TransportStatus) = ["pending", "pending", "pending", "completed"] ∧
    (∀ x ∈ (EngineRun.cpiPhase (fixedClient listsAll none none none) allDirs "/repo" pkgMeta
      (pendingRecord [⟨"iFlows", "a"⟩] [⟨"Scripts", "s"⟩] []) ()).persists (fun c => c),
      x.TransportStatus = "completed" → x.noWork) :=
  ⟨by decide,
   persisted_completed_has_no_work (fun c => c)
    (EngineRun.cpiPhase (fixedClient listsAll none none none) allDirs "/repo" pkgMeta
      (pendingRecord [⟨"iFlows", "a"⟩] [⟨"Scripts", "s"⟩] []) ())
    (by
      intro rec h hc
      simp only [EngineRun.resumed, Option.some.injEq] at h
      subst h
      exact absurd hc (by decide))⟩

/-! ## Ignore rules -/

theorem pickFirst_mem (keep : String → Bool) (qs seen : List String) (x : String) :
    x ∈ pickFirst keep seen qs ↔ x ∈ qs ∧ keep x = true ∧ x ∉ seen := by
  induction qs generalizing seen with
  | nil => simp [pickFirst]
  | cons q qs ih =>
    unfold pickFirst
    by_cases h : keep q = true ∧ q ∉ seen
    · rw [if_pos h, List.mem_cons, ih]
      constructor
      · rintro (rfl | ⟨h1, h2, h3⟩)
        · exact ⟨List.mem_cons_self _ _, h.1, h.2⟩
        · exact ⟨List.mem_cons_of_mem _ h1, h2, fun hx => h3 (List.mem_cons_of_mem _ hx)⟩
      · rintro ⟨h1, h2, h3⟩
        by_cases hxq : x = q
        · exact Or.inl hxq
        · rcases List.mem_cons.1 h1 with h1 | h1
          · exact absurd h1 hxq
          · refine Or.inr ⟨h1, h2, fun hx => ?_⟩
            rcases List.mem_cons.1 hx with hx | hx
            · exact hxq hx
            · exact h3 hx
    · rw [if_neg h, ih]
      constructor
      · rintro ⟨h1, h2, h3⟩
        exact ⟨List.mem_cons_of_mem _ h1, h2, h3⟩
      · rintro ⟨h1, h2, h3⟩
        rcases List.mem_cons.1 h1 with h1 | h1
        · subst h1
          exact absurd ⟨h2, h3⟩ h
        · exact ⟨h1, h2, h3⟩

theorem pickFirst_nodup (keep : String → Bool) (qs seen : List String) :
    (pickFirst keep seen qs).Nodup := by
  induction qs generalizing seen with
  | nil => simp [pickFirst]
  | cons q qs ih =>
    unfold pickFirst
    by_cases h : keep q = true ∧ q ∉ seen
    · rw [if_pos h]
      refine List.nodup_cons.2 ⟨fun hq => ?_, ih _⟩
      exact ((pickFirst_mem keep qs (q :: seen) q).1 hq).2.2 (List.mem_cons_self _ _)
    · rw [if_neg h]
      exact ih _

theorem pickFirst_sublist (keep : String → Bool) (qs seen : List String) :
    List.Sublist (pickFirst keep seen qs) qs := by
  induction qs generalizing seen with
  | nil => simp [pickFirst]
  | cons q qs ih =>
    unfold pickFirst
    by_cases h : keep q = true ∧ q ∉ seen
    · rw [if_pos h]
      exact (ih _).cons₂ _
    · rw [if_neg h]
      exact (ih _).cons _

theorem pickFirst_order (keep : String → Bool) (qs seen : List String) :
    List.Pairwise (fun a b => qs.indexOf a < qs.indexOf b) (pickFirst keep seen qs) := by
  induction qs generalizing seen with
  | nil => simp [pickFirst]
  | cons q qs ih =>
    unfold pickFirst
    by_cases h : keep q = true ∧ q ∉ seen
    · rw [if_pos h]
      refine List.pairwise_cons.2 ⟨fun b hb => ?_, ?_⟩
      · have hb2 := (pickFirst_mem keep qs (q :: seen) b).1 hb
        have hne : b ≠ q := fun e => hb2.2.2 (e ▸ List.mem_cons_self _ _)
        rw [List.indexOf_cons_self, List.indexOf_cons_ne _ (Ne.symm hne)]
        exact Nat.succ_pos _
      · refine List.Pairwise.imp_of_mem ?_ (ih (q :: seen))
        intro a b ha hb hab
        have ha2 := (pickFirst_mem keep qs (q :: seen) a).1 ha
        have hb2 := (pickFirst_mem keep qs (q :: seen) b).1 hb
        have hna : a ≠ q := fun e => ha2.2.2 (e ▸ List.mem_cons_self _ _)
        have hnb : b ≠ q := fun e => hb2.2.2 (e ▸ List.mem_cons_self _ _)
        rw [List.indexOf_cons_ne _ (Ne.symm hna), List.indexOf_cons_ne _ (Ne.symm hnb)]
        exact Nat.succ_lt_succ hab
    · rw [if_neg h]
      refine List.Pairwise.imp_of_mem ?_ (ih seen)
      intro a b ha hb hab
      have ha2 := (pickFirst_mem keep qs seen a).1 ha
      have hb2 := (pickFirst_mem keep qs seen b).1 hb
      have hna : a ≠ q := fun e => h ⟨e ▸ ha2.2.1, e ▸ ha2.2.2⟩
      have hnb : b ≠ q := fun e => h ⟨e ▸ hb2.2.1, e ▸ hb2.2.2⟩
      rw [List.indexOf_cons_ne _ (Ne.symm hna), List.indexOf_cons_ne _ (Ne.symm hnb)]
      exact Nat.succ_lt_succ hab

theorem pickFirst_cons (keep : String → Bool) (seen : List String) (q : String)
    (qs : List String) :
    pickFirst keep seen (q :: qs) =
      if keep q = true ∧ q ∉ seen then q :: pickFirst keep (q :: seen) qs
      else pickFirst keep seen qs := rfl

theorem pickFirst_congr (keep : String → Bool) (qs seen seen2 : List String)
    (h : ∀ x, x ∈ seen ↔ x ∈ seen2) : pickFirst keep seen qs = pickFirst keep seen2 qs := by
  induction qs generalizing seen seen2 with
  | nil => simp [pickFirst]
  | cons q qs ih =>
    rw [pickFirst_cons, pickFirst_cons]
    have hq2 : (keep q = true ∧ q ∉ seen) ↔ (keep q = true ∧ q ∉ seen2) := by rw [h q]
    by_cases hq : keep q = true ∧ q ∉ seen2
    · rw [if_pos (hq2.2 hq), if_pos hq, ih (q :: seen) (q :: seen2)]
      intro x
      simp [h x]
    · rw [if_neg (fun c => hq (hq2.1 c)), if_neg hq, ih seen seen2 h]

theorem toSlash_eq_empty (sep : Char) (s : String) : ToSlash sep s = "" ↔ s = "" := by
  unfold ToSlash
  by_cases h : sep = '/'
  · rw [if_pos h]
  · rw [if_neg h]
    constructor
    · intro e
      have e2 := congrArg String.data e
      simp only [List.map_eq_nil_iff] at e2
      exact String.ext e2
    · intro e
      subst e
      rfl

theorem dedupe_fold (sep : Char) (l : List String) (acc : List String × List String) :
    (l.foldl (dedupeStep sep) acc).2 =
      acc.2 ++ pickFirst (fun q => decide (q ≠ "")) acc.1 (l.map (normPath sep)) := by
  induction l generalizing acc with
  | nil => simp [pickFirst]
  | cons p ps ih =>
    rw [List.foldl_cons, ih, List.map_cons]
    unfold dedupeStep
    simp only []
    by_cases h1 : ToSlash sep (TrimSpace p) = ""
    · rw [if_pos h1]
      rw [pickFirst_cons]
      rw [if_neg (by simp [normPath, h1])]
    · rw [if_neg h1]
      by_cases h2 : ToSlash sep (TrimSpace p) ∈ acc.1
      · rw [if_pos h2]
        rw [pickFirst_cons]
        rw [if_neg (by simp [normPath, h2])]
      · rw [if_neg h2]
        rw [pickFirst_cons]
        rw [if_pos (by simp [normPath, h1, h2])]
        simp only [List.append_assoc, List.singleton_append]
        rw [pickFirst_congr _ _ (setInsert acc.1 (ToSlash sep (TrimSpace p)))
          (normPath sep p :: acc.1)]
        · rfl
        · intro x
          rw [mem_setInsert]
          simp [normPath, or_comm]

theorem dedupeStable_eq (sep : Char) (l : List String) :
    dedupeStable sep l = pickFirst (fun q => decide (q ≠ "")) [] (l.map (normPath sep)) := by
  unfold dedupeStable
  rw [dedupe_fold]
  rfl

theorem filter_fold (keep : String → Bool) (paths acc : List String) :
    paths.foldl (fun out p => if keep p = true then out ++ [p] else out) acc =
      acc ++ paths.filter keep := by
  induction paths generalizing acc with
  | nil => simp
  | cons p ps ih =>
    rw [List.foldl_cons, ih]
    by_cases h : keep p = true
    · rw [if_pos h, List.filter_cons_of_pos h]
      simp
    · rw [if_neg h, List.filter_cons_of_neg h]

theorem isIgnored_congr (sep : Char) (ri : Option RepoIgnore) (p q : String)
    (h : normPath sep p = normPath sep q) :
    RepoIgnore.IsIgnored sep ri p = RepoIgnore.IsIgnored sep ri q := by
  unfold normPath at h
  unfold RepoIgnore.IsIgnored
  rw [h]

theorem isIgnored_of_isEmpty (sep : Char) (ri : Option RepoIgnore) (p : String)
    (h : RepoIgnore.isEmpty ri = true) : RepoIgnore.IsIgnored sep ri p = false := by
  unfold RepoIgnore.IsIgnored
  cases ri with
  | none => rfl
  | some r =>
    have h2 : r.patterns.isEmpty = true := h
    simp [h2]

theorem pickFirst_drop_blank (sep : Char) (ri : Option RepoIgnore) (paths seen : List String) :
    pickFirst (fun q => decide (q ≠ "")) seen
      ((paths.filter
        (fun p => decide (TrimSpace p ≠ "") && !(RepoIgnore.IsIgnored sep ri p))).map
          (normPath sep)) =
    pickFirst (fun q => decide (q ≠ "")) seen
      ((paths.filter (fun p => !(RepoIgnore.IsIgnored sep ri p))).map (normPath sep)) := by
  induction paths generalizing seen with
  | nil => rfl
  | cons p ps ih =>
    by_cases h2 : RepoIgnore.IsIgnored sep ri p = true
    · rw [List.filter_cons_of_neg (by simp [h2]), List.filter_cons_of_neg (by simp [h2])]
      exact ih seen
    · by_cases h1 : TrimSpace p = ""
      · rw [List.filter_cons_of_neg (by simp [h1]), List.filter_cons_of_pos (by simp [h2]),
          List.map_cons, pickFirst_cons,
          if_neg (by simp [normPath, (toSlash_eq_empty sep _).2 h1])]
        exact ih seen
      · rw [List.filter_cons_of_pos (by simp [h1, h2]), List.filter_cons_of_pos (by simp [h2]),
          List.map_cons, List.map_cons, pickFirst_cons, pickFirst_cons, ih, ih]

/-- The paths `Filter` hands to `dedupeStable`. -/
theorem filter_eq (sep : Char) (ri : Option RepoIgnore) (paths : List String) :
    RepoIgnore.Filter sep ri paths =
      pickFirst (fun q => decide (q ≠ "")) []
        ((paths.filter (fun p => !(RepoIgnore.IsIgnored sep ri p))).map (normPath sep)) := by
  unfold RepoIgnore.Filter
  by_cases h : RepoIgnore.isEmpty ri = true
  · rw [if_pos h, dedupeStable_eq]
    congr 2
    symm
    rw [List.filter_eq_self]
    intro p _
    simp [isIgnored_of_isEmpty sep ri p h]
  · rw [if_neg h, dedupeStable_eq]
    have hf : ∀ acc : List String,
        paths.foldl (fun out p => if TrimSpace p = "" then out
          else if RepoIgnore.IsIgnored sep ri p = true then out else out ++ [p]) acc =
        acc ++ paths.filter
          (fun p => decide (TrimSpace p ≠ "") && !(RepoIgnore.IsIgnored sep ri p)) := by
      intro acc
      rw [← filter_fold]
      congr 1
      funext out p
      by_cases h1 : TrimSpace p = ""
      · simp [h1]
      · by_cases h2 : RepoIgnore.IsIgnored sep ri p = true
        · simp [h1, h2]
        · simp [h1, h2]
    rw [hf, List.nil_append]
    exact pickFirst_drop_blank sep ri paths []

theorem indexOf_filter_map_lt (f : String → String) (keepP : String → Bool)
    (hcong : ∀ p q, f p = f q → keepP p = keepP q) (paths : List String) (a b : String)
    (ha : a ∈ (paths.filter keepP).map f) (hb : b ∈ (paths.filter keepP).map f)
    (h : ((paths.filter keepP).map f).indexOf a < ((paths.filter keepP).map f).indexOf b) :
    (paths.map f).indexOf a < (paths.map f).indexOf b := by
  induction paths with
  | nil => simp at ha
  | cons p ps ih =>
    rw [List.map_cons]
    by_cases hk : keepP p = true
    · rw [List.filter_cons_of_pos hk, List.map_cons] at ha hb h
      by_cases hap : a = f p
      · have hbp : b ≠ f p := by
          intro e
          rw [hap, e] at h
          exact Nat.lt_irrefl _ h
        rw [hap, List.indexOf_cons_self, List.indexOf_cons_ne _ (Ne.symm hbp)]
        exact Nat.succ_pos _
      · have hbp : b ≠ f p := by
          intro e
          rw [e, List.indexOf_cons_self] at h
          exact Nat.not_lt_zero _ h
        rw [List.indexOf_cons_ne _ (Ne.symm hap), List.indexOf_cons_ne _ (Ne.symm hbp)] at h
        rw [List.indexOf_cons_ne _ (Ne.symm hap), List.indexOf_cons_ne _ (Ne.symm hbp)]
        refine Nat.succ_lt_succ (ih ?_ ?_ (Nat.lt_of_succ_lt_succ h))
        · rcases List.mem_cons.1 ha with e | e
          · exact absurd e hap
          · exact e
        · rcases List.mem_cons.1 hb with e | e
          · exact absurd e hbp
          · exact e
    · rw [List.filter_cons_of_neg hk] at ha hb h
      have hne : ∀ x, x ∈ (ps.filter keepP).map f → x ≠ f p := by
        intro x hx e
        rcases List.mem_map.1 hx with ⟨px, hpx, hfx⟩
        have h1 := (List.mem_filter.1 hpx).2
        rw [hcong px p (hfx.trans e)] at h1
        exact hk h1
      rw [List.indexOf_cons_ne _ (Ne.symm (hne a ha)), List.indexOf_cons_ne _ (Ne.symm (hne b hb))]
      exact Nat.succ_lt_succ (ih ha hb h)

theorem filter_mem_iff (sep : Char) (ri : Option RepoIgnore) (paths : List String)
    (q : String) :
    q ∈ RepoIgnore.Filter sep ri paths ↔
      q ≠ "" ∧ ∃ p ∈ paths, RepoIgnore.IsIgnored sep ri p = false ∧
        ToSlash sep (TrimSpace p) = q := by
  rw [filter_eq, pickFirst_mem]
  constructor
  · rintro ⟨h1, h2, _⟩
    rcases List.mem_map.1 h1 with ⟨p, hp, hq⟩
    have hp2 := List.mem_filter.1 hp
    refine ⟨by simpa using h2, p, hp2.1, by simpa using hp2.2, hq⟩
  · rintro ⟨h1, p, hp, hi, hq⟩
    refine ⟨List.mem_map.2 ⟨p, List.mem_filter.2 ⟨hp, by simp [hi]⟩, hq⟩, by simpa using h1,
      List.not_mem_nil _⟩

/-- C11: `RepoIgnore.Filter` returns the input paths, trimmed and slash-normalised, that
match no pattern, each once, in the order of their first occurrence in the input.  For
every host separator, pattern set (none and empty included) and list of paths: a string
is in the result exactly when it is the non-blank normalised form of an input path that
`IsIgnored` rejects; the result has no duplicates; it is a sublist of the normalised
input; and its entries are ordered by their first position in the normalised input. -/
theorem filter_spec (sep : Char) (ri : Option RepoIgnore) (paths : List String) :
    (∀ q, q ∈ RepoIgnore.Filter sep ri paths ↔
      q ≠ "" ∧ ∃ p ∈ paths, RepoIgnore.IsIgnored sep ri p = false ∧
        ToSlash sep (TrimSpace p) = q) ∧
    (RepoIgnore.Filter sep ri paths).Nodup ∧
    List.Sublist (RepoIgnore.Filter sep ri paths)
      (paths.map (fun p => ToSlash sep (TrimSpace p))) ∧
    List.Pairwise
      (fun a b =>
        (paths.map (fun p => ToSlash sep (TrimSpace p))).indexOf a <
          (paths.map (fun p => ToSlash sep (TrimSpace p))).indexOf b)
      (RepoIgnore.Filter sep ri paths) := by
  refine ⟨fun q => filter_mem_iff sep ri paths q, ?_⟩
  rw [filter_eq]
  refine ⟨pickFirst_nodup _ _ _, ?_, ?_⟩
  · exact (pickFirst_sublist _ _ _).trans (List.Sublist.map _ (List.filter_sublist _))
  · refine List.Pairwise.imp_of_mem ?_ (pickFirst_order _ _ _)
    intro a b ha hb hab
    have ha2 := ((pickFirst_mem _ _ _ a).1 ha).1
    have hb2 := ((pickFirst_mem _ _ _ b).1 hb).1
    refine indexOf_filter_map_lt (normPath sep) _ ?_ paths a b ha2 hb2 hab
    intro p q hpq
    simp only [isIgnored_congr sep ri p q hpq]

/-- C12: `RepoIgnore.Filter` is monotonic in the pattern set.  When every pattern of
`small` is a pattern of `big` (in particular when `big` is `small` with one more pattern,
and when `small` is empty or nil), every path in the output of `Filter` under `big` is in
the output of `Filter` under `small`: adding a pattern can only remove paths. -/
theorem filter_monotonic (sep : Char) (small big : RepoIgnore) (q : ignorePattern)
    (paths : List String) (x : String) :
    ((∀ pat ∈ small.patterns, pat ∈ big.patterns) →
      x ∈ RepoIgnore.Filter sep (some big) paths → x ∈ RepoIgnore.Filter sep (some small) paths) ∧
    (x ∈ RepoIgnore.Filter sep (some ⟨small.patterns ++ [q]⟩) paths →
      x ∈ RepoIgnore.Filter sep (some small) paths) ∧
    (x ∈ RepoIgnore.Filter sep (some ⟨[q]⟩) paths → x ∈ RepoIgnore.Filter sep (some ⟨[]⟩) paths) ∧
    (x ∈ RepoIgnore.Filter sep (some big) paths → x ∈ RepoIgnore.Filter sep none paths) := by
  have key : ∀ (s : Option RepoIgnore) (b : RepoIgnore),
      (∀ p, RepoIgnore.IsIgnored sep s p = true → RepoIgnore.IsIgnored sep (some b) p = true) →
      x ∈ RepoIgnore.Filter sep (some b) paths → x ∈ RepoIgnore.Filter sep s paths := by
    intro s b hs hx
    rw [filter_mem_iff] at hx ⊢
    rcases hx with ⟨h1, p, hp, hi, hq⟩
    refine ⟨h1, p, hp, ?_, hq⟩
    cases hsp : RepoIgnore.IsIgnored sep s p with
    | false => rfl
    | true => rw [hs p hsp] at hi; exact absurd hi (by decide)
  have sub : ∀ (s b : RepoIgnore), (∀ pat ∈ s.patterns, pat ∈ b.patterns) →
      ∀ p, RepoIgnore.IsIgnored sep (some s) p = true →
        RepoIgnore.IsIgnored sep (some b) p = true := by
    intro s b hsb p hp
    unfold RepoIgnore.IsIgnored at hp ⊢
    simp only [] at hp ⊢
    by_cases hs : s.patterns.isEmpty = true
    · rw [if_pos hs] at hp
      exact absurd hp (by decide)
    · rw [if_neg hs] at hp
      by_cases hn : TrimPrefix (ToSlash sep (TrimSpace p)) "./" = ""
      · rw [if_pos hn] at hp
        exact absurd hp (by decide)
      · rw [if_neg hn] at hp
        rcases List.any_eq_true.1 hp with ⟨pat, hpat, hm⟩
        have hb : ¬ b.patterns.isEmpty = true := by
          intro e
          have := hsb pat hpat
          rw [List.isEmpty_iff.1 e] at this
          exact List.not_mem_nil _ this
        rw [if_neg hb, if_neg hn]
        exact List.any_eq_true.2 ⟨pat, hsb pat hpat, hm⟩
  refine ⟨fun h => key (some small) big (sub small big h), ?_, ?_, ?_⟩
  · exact key (some small) ⟨small.patterns ++ [q]⟩
      (sub small ⟨small.patterns ++ [q]⟩ (fun pat hp => List.mem_append_left _ hp))
  · exact key (some ⟨[]⟩) ⟨[q]⟩ (sub ⟨[]⟩ ⟨[q]⟩ (fun pat hp => absurd hp (List.not_mem_nil _)))
  · exact key none big (fun p hp => absurd hp (by simp [RepoIgnore.IsIgnored]))

theorem matchStar_append (p : Char → Bool) (k : List Char → Bool) (a b : List Char)
    (ha : ∀ c ∈ a, p c = true) (hb : k b = true) : matchStar p k (a ++ b) = true := by
  induction a with
  | nil =>
    cases b with
    | nil => exact hb
    | cons c cs => simp [matchStar, hb]
  | cons c cs ih =>
    have h1 : p c = true := ha c (List.mem_cons_self _ _)
    have h2 := ih (fun x hx => ha x (List.mem_cons_of_mem _ hx))
    simp [matchStar, h1, h2]

theorem matchStar_split (p : Char → Bool) (k : List Char → Bool) (s : List Char)
    (h : matchStar p k s = true) : ∃ a b, s = a ++ b ∧ k b = true := by
  induction s with
  | nil => exact ⟨[], [], rfl, h⟩
  | cons c cs ih =>
    simp only [matchStar, Bool.or_eq_true, Bool.and_eq_true] at h
    rcases h with h | ⟨_, h⟩
    · exact ⟨[], c :: cs, rfl, h⟩
    · rcases ih h with ⟨a, b, e, hk⟩
      exact ⟨c :: a, b, by rw [e]; rfl, hk⟩

theorem matchToks_lits (l s : List Char) :
    matchToks (l.map RegexTok.lit) s = true ↔ s = l := by
  induction l generalizing s with
  | nil => cases s <;> simp [matchToks]
  | cons a l ih =>
    cases s with
    | nil => simp [matchToks]
    | cons c cs =>
      simp only [List.map_cons, matchToks, Bool.and_eq_true, beq_iff_eq, ih, List.cons.injEq]

theorem globBody_plain (l : List Char) (h1 : '*' ∉ l) :
    globBody l = l.flatMap globRune := by
  induction l with
  | nil => rfl
  | cons c cs ih =>
    have hc : c ≠ '*' := fun e => h1 (e ▸ List.mem_cons_self _ _)
    have hcs : '*' ∉ cs := fun e => h1 (List.mem_cons_of_mem _ e)
    cases cs with
    | nil => simp [globBody]
    | cons c2 rest =>
      rw [globBody, if_neg (fun e => hc e.1), ih hcs]
      simp [List.flatMap]

theorem parse_fold_plain (l : List Char) (h1 : '*' ∉ l) (h2 : '?' ∉ l)
    (toks : List RegexTok) (rest : List Char) :
    (l.flatMap globRune ++ rest).foldl parseStep (.plain, toks) =
      rest.foldl parseStep (.plain, toks ++ l.map RegexTok.lit) := by
  induction l generalizing toks with
  | nil => simp
  | cons c cs ih =>
    have hc1 : c ≠ '*' := fun e => h1 (e ▸ List.mem_cons_self _ _)
    have hc2 : c ≠ '?' := fun e => h2 (e ▸ List.mem_cons_self _ _)
    have ih2 := ih (fun e => h1 (List.mem_cons_of_mem _ e)) (fun e => h2 (List.mem_cons_of_mem _ e))
    rw [List.flatMap_cons, List.append_assoc]
    have g : globRune c = if c ∈ regexMeta then ['\\', c] else [c] := by
      unfold globRune
      rw [if_neg hc1, if_neg hc2]
    rw [g]
    by_cases hm : c ∈ regexMeta
    · rw [if_pos hm]
      have s1 : parseStep (.plain, toks) '\\' = (.esc, toks) := by
        simp [parseStep, plainStep]
      have s2 : parseStep (.esc, toks) c = (.plain, toks ++ [RegexTok.lit c]) := by
        simp only [parseStep]
        rw [if_pos hm]
      simp only [List.cons_append, List.nil_append, List.foldl_cons, s1, s2, ih2, List.map_cons,
        List.append_assoc]
    · rw [if_neg hm]
      have e1 : c ≠ '$' := fun e => hm (by rw [e]; decide)
      have e2 : c ≠ '.' := fun e => hm (by rw [e]; decide)
      have e3 : c ≠ '[' := fun e => hm (by rw [e]; decide)
      have e4 : c ≠ '\\' := fun e => hm (by rw [e]; decide)
      have s1 : parseStep (.plain, toks) c = (.plain, toks ++ [RegexTok.lit c]) := by
        simp only [parseStep, plainStep]
        rw [if_neg e1, if_neg e2, if_neg e3, if_neg e4, if_neg (by simp [hm, hc1, hc2])]
      simp only [List.cons_append, List.nil_append, List.foldl_cons, s1, ih2, List.map_cons,
        List.append_assoc]

theorem trimLeftFunc_subset (p : Char → Bool) (s : List Char) (c : Char)
    (h : c ∈ trimLeftFunc p s) : c ∈ s := by
  induction s with
  | nil => exact h
  | cons a as ih =>
    unfold trimLeftFunc at h
    by_cases hp : p a = true
    · rw [if_pos hp] at h
      exact List.mem_cons_of_mem _ (ih h)
    · rw [if_neg hp] at h
      exact h

theorem trimFunc_subset (p : Char → Bool) (s : List Char) (c : Char)
    (h : c ∈ trimFunc p s) : c ∈ s := by
  unfold trimFunc at h
  have h1 := trimLeftFunc_subset p _ c (List.mem_reverse.1 h)
  exact trimLeftFunc_subset p _ c (List.mem_reverse.1 h1)

theorem toSlash_no_sep (sep : Char) (s : String) (h : sep ≠ '/') :
    sep ∉ (ToSlash sep s).data := by
  unfold ToSlash
  rw [if_neg h]
  intro hm
  rcases List.mem_map.1 hm with ⟨c, _, hc⟩
  by_cases e : c = sep
  · rw [if_pos e] at hc
    exact h hc.symm
  · rw [if_neg e] at hc
    exact e hc

theorem toSlash_id (sep : Char) (s : String) (h : sep = '/' ∨ sep ∉ s.data) :
    ToSlash sep s = s := by
  unfold ToSlash
  by_cases e : sep = '/'
  · rw [if_pos e]
  · rw [if_neg e]
    rcases h with h | h
    · exact absurd h e
    · apply String.ext
      show s.data.map _ = s.data
      conv_rhs => rw [← List.map_id s.data]
      apply List.map_congr_left
      intro c hc
      have : c ≠ sep := fun e2 => h (e2 ▸ hc)
      simp [this]

theorem containsL_single (c : Char) (s : List Char) : containsL [c] s = true ↔ c ∈ s := by
  induction s with
  | nil => simp [containsL]
  | cons a as ih =>
    simp only [containsL, Bool.or_eq_true, ih, List.mem_cons]
    constructor
    · rintro (h | h)
      · left
        simp [List.isPrefixOf] at h
        exact h
      · exact Or.inr h
    · rintro (h | h)
      · left
        simp [List.isPrefixOf, h]
      · exact Or.inr h

/-- The expression compiled for a bare name: `.*`, a slash, and the runes of the name. -/
theorem compile_bare_name (sep : Char) (n : String) (hsep : sep = '/' ∨ sep = '\\')
    (h0 : TrimSpace (ToSlash sep n) ≠ "")
    (h1 : '/' ∉ (TrimSpace (ToSlash sep n)).data)
    (h2 : '*' ∉ (TrimSpace (ToSlash sep n)).data)
    (h3 : '?' ∉ (TrimSpace (ToSlash sep n)).data) :
    compileIgnorePattern sep n =
      .ok ⟨n, some ⟨RegexTok.anyStar :: RegexTok.lit '/' ::
        (TrimSpace (ToSlash sep n)).data.map RegexTok.lit⟩⟩ := by
  generalize hn1 : TrimSpace (ToSlash sep n) = n1 at h0 h1 h2 h3
  have hsepn : sep = '/' ∨ sep ∉ ("**/" ++ n1).data := by
    rcases hsep with e | e
    · exact Or.inl e
    · right
      have hne : sep ≠ '/' := by rw [e]; decide
      have hs : sep ∉ n1.data := by
        intro hm
        rw [← hn1] at hm
        exact toSlash_no_sep sep n hne (trimFunc_subset _ _ _ hm)
      intro hm
      rw [String.data_append] at hm
      rcases List.mem_append.1 hm with hm | hm
      · rw [e] at hm
        exact absurd hm (by decide)
      · exact hs hm
  have hc1 : Contains n1 "/" = false := by
    cases hc : Contains n1 "/" with
    | false => rfl
    | true => exact absurd ((containsL_single '/' n1.data).1 hc) h1
  have hp : HasPrefix ("**/" ++ n1) "./" = false := by
    simp [HasPrefix, String.data_append, List.isPrefixOf]
  have hc2 : Contains ("**/" ++ n1) "**" = true := by
    simp [Contains, String.data_append, containsL, List.isPrefixOf]
  have hbody : globBody ("**/" ++ n1).data = '.' :: '*' :: '/' :: n1.data.flatMap globRune := by
    rw [String.data_append]
    show globBody ('*' :: '*' :: '/' :: n1.data) = _
    rw [globBody, if_pos ⟨rfl, rfl⟩, globBody_plain ('/' :: n1.data)]
    · rfl
    · intro hm
      rcases List.mem_cons.1 hm with hm | hm
      · exact absurd hm (by decide)
      · exact h2 hm
  have hparse : parseRegex ('.' :: '*' :: '/' :: n1.data.flatMap globRune ++ ['$']) =
      some (RegexTok.anyStar :: RegexTok.lit '/' :: n1.data.map RegexTok.lit) := by
    unfold parseRegex
    have s1 : parseStep (parseStep (parseStep (.plain, []) '.') '*') '/' =
        (.plain, [RegexTok.anyStar, RegexTok.lit '/']) := by decide
    simp only [List.cons_append, List.foldl_cons, s1]
    rw [parse_fold_plain _ h2 h3]
    simp [parseStep, plainStep]
  unfold compileIgnorePattern
  simp only [hn1]
  rw [if_neg h0]
  simp only [hc1, Bool.false_eq_true, if_false]
  unfold TrimPrefix
  rw [hp]
  simp only [Bool.false_eq_true, if_false]
  unfold globToRegex
  simp only [toSlash_id sep _ hsepn, hc2, if_true]
  unfold regexpCompile
  simp only [hbody, if_true, List.cons_append, List.append_eq]
  simp only [List.cons_append] at hparse
  rw [hparse]

/-- C13: what `IsIgnored` answers for a pattern without a slash.  For every file name
`n` that, once slash-normalised and trimmed, is non-empty and holds no slash and no
wildcard, the pattern `n` compiles, to the expression `^.*/n$`; a path whose normalised
form is `d/n` with no newline in `d`, at any depth below the repository root, is
ignored; and the path `n` itself, the file at the repository root, is NOT ignored,
although the pattern is documented to match anywhere in the tree. -/
theorem isIgnored_bare_name (sep : Char) (n : String) (hsep : sep = '/' ∨ sep = '\\')
    (h0 : TrimSpace (ToSlash sep n) ≠ "")
    (h1 : '/' ∉ (TrimSpace (ToSlash sep n)).data)
    (h2 : '*' ∉ (TrimSpace (ToSlash sep n)).data)
    (h3 : '?' ∉ (TrimSpace (ToSlash sep n)).data) :
    ∃ pat, compileIgnorePattern sep n = .ok pat ∧
      (∀ p d : String,
        TrimPrefix (ToSlash sep (TrimSpace p)) "./" = d ++ "/" ++ TrimSpace (ToSlash sep n) →
        '\n' ∉ d.data → RepoIgnore.IsIgnored sep (some ⟨[pat]⟩) p = true) ∧
      (∀ p : String,
        TrimPrefix (ToSlash sep (TrimSpace p)) "./" = TrimSpace (ToSlash sep n) →
        RepoIgnore.IsIgnored sep (some ⟨[pat]⟩) p = false) := by
  refine ⟨_, compile_bare_name sep n hsep h0 h1 h2 h3, ?_, ?_⟩
  · intro p d hp hd
    unfold RepoIgnore.IsIgnored
    simp only [hp, List.isEmpty_cons, Bool.false_eq_true, if_false]
    have hne : d ++ "/" ++ TrimSpace (ToSlash sep n) ≠ "" := by
      intro e
      have e2 := congrArg String.data e
      simp [String.data_append] at e2
    rw [if_neg hne]
    simp only [List.any_cons, List.any_nil, Bool.or_false, Regexp.MatchString, matchToks,
      String.data_append]
    rw [List.append_assoc]
    apply matchStar_append
    · intro c hc
      have : c ≠ '\n' := fun e => hd (e ▸ hc)
      simpa using this
    · simp [matchToks, matchToks_lits]
  · intro p hp
    unfold RepoIgnore.IsIgnored
    simp only [hp, List.isEmpty_cons, Bool.false_eq_true, if_false]
    rw [if_neg h0]
    simp only [List.any_cons, List.any_nil, Bool.or_false, Regexp.MatchString, matchToks]
    cases hm : matchStar (fun c => c != '\n')
        (fun r => match r with
          | c :: cs => c == '/' && matchToks ((TrimSpace (ToSlash sep n)).data.map RegexTok.lit) cs
          | [] => false)
        (TrimSpace (ToSlash sep n)).data with
    | false => rfl
    | true =>
      exfalso
      rcases matchStar_split _ _ _ hm with ⟨a, b, e, hk⟩
      cases b with
      | nil => simp at hk
      | cons c cs =>
        simp only [Bool.and_eq_true, beq_iff_eq] at hk
        apply h1
        rw [e, hk.1]
        simp

/-- C13, at a concrete input: the pattern `notes.txt` ignores `docs/notes.txt` and does
not ignore `notes.txt` at the repository root. -/
theorem isIgnored_bare_name_witness :
    ∃ pat, compileIgnorePattern '/' "notes.txt" = .ok pat ∧
      RepoIgnore.IsIgnored '/' (some ⟨[pat]⟩) "docs/notes.txt" = true ∧
      RepoIgnore.IsIgnored '/' (some ⟨[pat]⟩) "notes.txt" = false := by
  obtain ⟨pat, hc, hdeep, hroot⟩ :=
    isIgnored_bare_name '/' "notes.txt" (Or.inl rfl) (by decide) (by decide) (by decide)
      (by decide)
  exact ⟨pat, hc, hdeep "docs/notes.txt" "docs" (by decide) (by decide),
    hroot "notes.txt" (by decide)⟩

/-! ## Folder comparison -/

theorem strLt_strict : StrictLess strLt := ⟨strLt_irrefl, strLt_trans⟩

theorem mapGet_of_not_mem {β : Type} (m : List (String × β)) (key : String)
    (h : key ∉ m.map Prod.fst) : mapGet m key = none := by
  induction m with
  | nil => rfl
  | cons e rest ih =>
    obtain ⟨k, w⟩ := e
    have hk : k ≠ key := fun e => h (by simp [e])
    have hr : key ∉ rest.map Prod.fst := fun e => h (by simp at e ⊢; exact Or.inr e)
    simp only [mapGet, if_neg hk, ih hr]

theorem mapSet_keys {β : Type} (m : List (String × β)) (key : String) (v : β) (x : String) :
    x ∈ (mapSet m key v).map Prod.fst ↔ x = key ∨ x ∈ m.map Prod.fst := by
  induction m with
  | nil => simp [mapSet]
  | cons e rest ih =>
    obtain ⟨k, w⟩ := e
    unfold mapSet
    by_cases hk : k = key
    · rw [if_pos hk]
      simp only [List.map_cons, List.mem_cons]
      constructor
      · rintro (h | h)
        · exact Or.inl (h.trans hk)
        · exact Or.inr (Or.inr h)
      · rintro (h | h | h)
        · exact Or.inl (h.trans hk.symm)
        · exact Or.inl h
        · exact Or.inr h
    · rw [if_neg hk]
      simp only [List.map_cons, List.mem_cons, ih]
      constructor
      · rintro (h | h | h)
        · exact Or.inr (Or.inl h)
        · exact Or.inl h
        · exact Or.inr (Or.inr h)
      · rintro (h | h | h)
        · exact Or.inr (Or.inl h)
        · exact Or.inl h
        · exact Or.inr (Or.inr h)

theorem mapSet_keys_nodup {β : Type} (m : List (String × β)) (key : String) (v : β)
    (h : (m.map Prod.fst).Nodup) : ((mapSet m key v).map Prod.fst).Nodup := by
  induction m with
  | nil => simp [mapSet]
  | cons e rest ih =>
    obtain ⟨k, w⟩ := e
    rw [List.map_cons, List.nodup_cons] at h
    unfold mapSet
    by_cases hk : k = key
    · rw [if_pos hk]
      rw [List.map_cons, List.nodup_cons]
      exact h
    · rw [if_neg hk]
      rw [List.map_cons, List.nodup_cons]
      refine ⟨fun hm => ?_, ih h.2⟩
      rcases (mapSet_keys rest key v k).1 hm with e | e
      · exact hk e
      · exact h.1 e

theorem hashEntry_keys_nodup (sep : Char) (host : TreeHost) (pre root : String)
    (ign : Option RepoIgnore) (hashes out : List (String × String)) (e : WalkEntry)
    (h : (hashes.map Prod.fst).Nodup)
    (he : hashEntry sep host pre root ign hashes e = .ok out) : (out.map Prod.fst).Nodup := by
  unfold hashEntry at he
  cases hw : e.walkErr with
  | some msg => rw [hw] at he; cases he
  | none =>
    rw [hw] at he
    simp only [] at he
    by_cases hd : e.isDir = true
    · rw [if_pos hd] at he
      cases he
      exact h
    · rw [if_neg hd] at he
      cases hr : host.Rel root e.path with
      | error msg => rw [hr] at he; cases he
      | ok rel =>
        rw [hr] at he
        simp only [] at he
        by_cases hi : RepoIgnore.IsIgnored sep ign (TrimPrefix (pre ++ "/" ++ ToSlash sep rel) "./") = true
        · rw [if_pos hi] at he
          cases he
          exact h
        · rw [if_neg hi] at he
          cases hs : host.sha256File e.path with
          | error msg => rw [hs] at he; cases he
          | ok hsh =>
            rw [hs] at he
            cases he
            exact mapSet_keys_nodup _ _ _ h

theorem hashWalk_keys_nodup (sep : Char) (host : TreeHost) (pre root : String)
    (ign : Option RepoIgnore) (es : List WalkEntry) (hashes out : List (String × String))
    (h : (hashes.map Prod.fst).Nodup)
    (he : hashWalk sep host pre root ign es hashes = .ok out) : (out.map Prod.fst).Nodup := by
  induction es generalizing hashes with
  | nil =>
    unfold hashWalk at he
    cases he
    exact h
  | cons e rest ih =>
    unfold hashWalk at he
    cases h1 : hashEntry sep host pre root ign hashes e with
    | error msg => rw [h1] at he; cases he
    | ok hashes1 =>
      rw [h1] at he
      exact ih hashes1 (hashEntry_keys_nodup sep host pre root ign hashes hashes1 e h h1) he

theorem hashDir_keys_nodup (sep : Char) (host : TreeHost) (pre root : String)
    (ign : Option RepoIgnore) (out : List (String × String))
    (he : hashDir sep host pre root ign = .ok out) : (out.map Prod.fst).Nodup := by
  unfold hashDir at he
  cases hs : host.Stat root with
  | notExist => rw [hs] at he; cases he; exact List.nodup_nil
  | failed msg => rw [hs] at he; cases he
  | file => rw [hs] at he; cases he
  | dir =>
    rw [hs] at he
    exact hashWalk_keys_nodup sep host pre root ign _ [] out List.nodup_nil he

theorem diffInto_mem (h other : List (String × String)) (diff : List String) (x : String)
    (hn : (h.map Prod.fst).Nodup) :
    x ∈ diffInto h other diff ↔
      x ∈ diff ∨ ∃ a, mapGet h x = some a ∧ mapGet other x ≠ some a := by
  induction h generalizing diff with
  | nil => simp [diffInto, mapGet]
  | cons e rest ih =>
    obtain ⟨k, a⟩ := e
    rw [List.map_cons, List.nodup_cons] at hn
    have hstep : diffInto ((k, a) :: rest) other diff =
        diffInto rest other
          (match mapGet other k with
            | some b => if b ≠ a then setInsert diff k else diff
            | none => setInsert diff k) := rfl
    rw [hstep, ih _ hn.2]
    have hin : ∀ y, y ∈ (match mapGet other k with
            | some b => if b ≠ a then setInsert diff k else diff
            | none => setInsert diff k) ↔ y ∈ diff ∨ (y = k ∧ mapGet other k ≠ some a) := by
      intro y
      cases ho : mapGet other k with
      | none => simp [mem_setInsert, or_comm]
      | some b =>
        by_cases hb : b = a
        · simp [hb]
        · simp [hb, mem_setInsert, or_comm]
    rw [hin]
    by_cases hx : k = x
    · subst hx
      have hr : mapGet rest k = none := mapGet_of_not_mem rest k hn.1
      simp [mapGet, hr]
    · have hx2 : x ≠ k := fun e => hx e.symm
      simp [mapGet, hx, hx2]

theorem diffInto_nodup (h other : List (String × String)) (diff : List String)
    (hd : diff.Nodup) : (diffInto h other diff).Nodup := by
  induction h generalizing diff with
  | nil => exact hd
  | cons e rest ih =>
    obtain ⟨k, a⟩ := e
    have hstep : diffInto ((k, a) :: rest) other diff =
        diffInto rest other
          (match mapGet other k with
            | some b => if b ≠ a then setInsert diff k else diff
            | none => setInsert diff k) := rfl
    rw [hstep]
    apply ih
    cases mapGet other k with
    | none => exact setInsert_nodup _ _ hd
    | some b =>
      by_cases hb : b = a
      · simp [hb, hd]
      · simp [hb, setInsert_nodup _ _ hd]

theorem compareHashes_mem (hA hB : List (String × String)) (k : String)
    (hnA : (hA.map Prod.fst).Nodup) (hnB : (hB.map Prod.fst).Nodup) :
    k ∈ compareHashes hA hB ↔ mapGet hA k ≠ mapGet hB k := by
  unfold compareHashes
  rw [mem_sortSlice, diffInto_mem _ _ _ _ hnB, diffInto_mem _ _ _ _ hnA]
  cases ha : mapGet hA k with
  | none =>
    cases hb : mapGet hB k with
    | none => simp
    | some b => simp
  | some a =>
    cases hb : mapGet hB k with
    | none => simp
    | some b =>
      by_cases e : a = b
      · simp [e]
      · have e2 : b ≠ a := fun h => e h.symm
        simp [e, e2]

theorem compareHashes_sorted (hA hB : List (String × String)) :
    (compareHashes hA hB).Pairwise (fun a b => strLt a b = true) ∧
      (compareHashes hA hB).Nodup := by
  have hnd : (compareHashes hA hB).Nodup :=
    (sortSlice_perm strLt _).nodup_iff.2
      (diffInto_nodup hB hA _ (diffInto_nodup hA hB [] List.nodup_nil))
  refine ⟨?_, hnd⟩
  have hs := sortSlice_sorted strLt_strict (diffInto hB hA (diffInto hA hB []))
  have hboth := List.Pairwise.and hs hnd
  refine List.Pairwise.imp ?_ hboth
  intro a b hab
  cases h : strLt a b with
  | true => rfl
  | false => exact absurd (strLt_total a b h hab.1) hab.2

/-- C14: `CompareFolderTrees`, over the two maps from key to SHA-256 that `hashDir`
builds from the roots A and B.  A root that does not exist gives the empty map.  When
the prefix and both paths are given and both maps are built, the call succeeds and
returns a list that is strictly ascending in string order and free of duplicates, and
that holds exactly the keys present in only one map or present in both with different
hashes; it is empty exactly when the two maps agree on every key. -/
theorem compareFolderTrees_spec (sep : Char) (host : TreeHost)
    (repoRelPrefix absA absB : String) (ign : Option RepoIgnore) :
    (∀ root, host.Stat root = .notExist →
      hashDir sep host (Trim (TrimSpace (ToSlash sep repoRelPrefix)) "/") root ign = .ok []) ∧
    (∀ hA hB,
      Trim (TrimSpace (ToSlash sep repoRelPrefix)) "/" ≠ "" → absA ≠ "" → absB ≠ "" →
      hashDir sep host (Trim (TrimSpace (ToSlash sep repoRelPrefix)) "/") absA ign = .ok hA →
      hashDir sep host (Trim (TrimSpace (ToSlash sep repoRelPrefix)) "/") absB ign = .ok hB →
      ∃ out, CompareFolderTrees sep host repoRelPrefix absA absB ign = .ok out ∧
        out.Pairwise (fun a b => strLt a b = true) ∧ out.Nodup ∧
        (∀ k, k ∈ out ↔
          (mapGet hA k ≠ none ∧ mapGet hB k = none) ∨
          (mapGet hA k = none ∧ mapGet hB k ≠ none) ∨
          (∃ a b, mapGet hA k = some a ∧ mapGet hB k = some b ∧ a ≠ b)) ∧
        (out = [] ↔ ∀ k, mapGet hA k = mapGet hB k)) := by
  refine ⟨fun root hr => ?_, ?_⟩
  · unfold hashDir
    rw [hr]
  · intro hA hB hp ha hb h1 h2
    have hnA := hashDir_keys_nodup _ _ _ _ _ _ h1
    have hnB := hashDir_keys_nodup _ _ _ _ _ _ h2
    refine ⟨compareHashes hA hB, ?_, (compareHashes_sorted hA hB).1,
      (compareHashes_sorted hA hB).2, fun k => ?_, ?_⟩
    · unfold CompareFolderTrees
      simp only []
      rw [if_neg hp, if_neg (by simp [ha, hb]), h1, h2]
    · rw [compareHashes_mem hA hB k hnA hnB]
      cases mapGet hA k with
      | none =>
        cases mapGet hB k with
        | none => simp
        | some b => simp
      | some a =>
        cases mapGet hB k with
        | none => simp
        | some b => simp
    · constructor
      · intro he k
        by_contra hne
        have := (compareHashes_mem hA hB k hnA hnB).2 hne
        rw [he] at this
        exact List.not_mem_nil _ this
      · intro hall
        apply List.eq_nil_iff_forall_not_mem.2
        intro k hk
        exact (compareHashes_mem hA hB k hnA hnB).1 hk (hall k)

/-- C14, at a concrete input: the root `/a` holds two files and the root `/b` does not
exist; both files are reported, in ascending order. -/
theorem compareFolderTrees_spec_witness :
    hashDir '/' twoFileHost "IntegrationPackage" "/b" none = .ok [] ∧
    ∃ out, CompareFolderTrees '/' twoFileHost "IntegrationPackage/" "/a" "/b" none = .ok out ∧
      out = ["IntegrationPackage/x", "IntegrationPackage/y"] := by
  have h := compareFolderTrees_spec '/' twoFileHost "IntegrationPackage/" "/a" "/b" none
  refine ⟨h.1 "/b" (by decide), ?_⟩
  obtain ⟨out, hout, _⟩ := h.2
    [("IntegrationPackage/x", "/a/x"), ("IntegrationPackage/y", "/a/y")] []
    (by decide) (by decide) (by decide) (by decide) (by decide)
  refine ⟨out, hout, ?_⟩
  have e : CompareFolderTrees '/' twoFileHost "IntegrationPackage/" "/a" "/b" none =
      .ok ["IntegrationPackage/x", "IntegrationPackage/y"] := by decide
  rw [e] at hout
  cases hout
  rfl

/-! ## The calendar -/

theorem yearOfFour_bounds (r : Int) (h0 : 0 ≤ r) (h1 : r ≤ 1460) :
    0 ≤ (yearOfFour r).1 ∧ (yearOfFour r).1 ≤ 3 ∧ 0 ≤ (yearOfFour r).2 ∧
      (yearOfFour r).2 ≤ 365 := by
  unfold yearOfFour cycleIndex
  simp only []
  split_ifs <;> omega

theorem yearOfFour_mono (r s : Int) (h : r < s) :
    (yearOfFour r).1 < (yearOfFour s).1 ∨
      ((yearOfFour r).1 = (yearOfFour s).1 ∧ (yearOfFour r).2 < (yearOfFour s).2) := by
  unfold yearOfFour cycleIndex
  simp only []
  split_ifs <;> omega

theorem yearOfCentury_bounds (r : Int) (h0 : 0 ≤ r) (h1 : r ≤ 36524) :
    0 ≤ (yearOfCentury r).1 ∧ (yearOfCentury r).1 ≤ 99 ∧ 0 ≤ (yearOfCentury r).2 ∧
      (yearOfCentury r).2 ≤ 365 := by
  have b := yearOfFour_bounds (r % 1461) (by omega) (by omega)
  unfold yearOfCentury
  simp only []
  omega

theorem yearOfCentury_mono (r s : Int) (h : r < s) :
    (yearOfCentury r).1 < (yearOfCentury s).1 ∨
      ((yearOfCentury r).1 = (yearOfCentury s).1 ∧
        (yearOfCentury r).2 < (yearOfCentury s).2) := by
  have b1 := yearOfFour_bounds (r % 1461) (by omega) (by omega)
  have b2 := yearOfFour_bounds (s % 1461) (by omega) (by omega)
  unfold yearOfCentury
  simp only []
  by_cases hlt : r % 1461 < s % 1461
  · have m := yearOfFour_mono (r % 1461) (s % 1461) hlt
    omega
  · omega

theorem yearOfEra_bounds (r : Int) (h0 : 0 ≤ r) (h1 : r < 146097) :
    0 ≤ (yearOfEra r).1 ∧ (yearOfEra r).1 ≤ 399 ∧ 0 ≤ (yearOfEra r).2 ∧
      (yearOfEra r).2 ≤ 365 := by
  have c : 0 ≤ cycleIndex r 36524 ∧ cycleIndex r 36524 ≤ 3 ∧
      0 ≤ r - 36524 * cycleIndex r 36524 ∧ r - 36524 * cycleIndex r 36524 ≤ 36524 := by
    unfold cycleIndex
    split_ifs <;> omega
  have b := yearOfCentury_bounds (r - 36524 * cycleIndex r 36524) c.2.2.1 c.2.2.2
  unfold yearOfEra
  simp only []
  omega

theorem yearOfEra_mono (r s : Int) (h0 : 0 ≤ r) (h : r < s) (h1 : s < 146097) :
    (yearOfEra r).1 < (yearOfEra s).1 ∨
      ((yearOfEra r).1 = (yearOfEra s).1 ∧ (yearOfEra r).2 < (yearOfEra s).2) := by
  have c : 0 ≤ cycleIndex r 36524 ∧ cycleIndex s 36524 ≤ 3 ∧
      0 ≤ r - 36524 * cycleIndex r 36524 ∧ r - 36524 * cycleIndex r 36524 ≤ 36524 ∧
      0 ≤ s - 36524 * cycleIndex s 36524 ∧ s - 36524 * cycleIndex s 36524 ≤ 36524 ∧
      (cycleIndex r 36524 < cycleIndex s 36524 ∨
        (cycleIndex r 36524 = cycleIndex s 36524 ∧
          r - 36524 * cycleIndex r 36524 < s - 36524 * cycleIndex s 36524)) := by
    unfold cycleIndex
    split_ifs <;> omega
  have b1 := yearOfCentury_bounds (r - 36524 * cycleIndex r 36524) c.2.2.1 c.2.2.2.1
  have b2 := yearOfCentury_bounds (s - 36524 * cycleIndex s 36524) c.2.2.2.2.1 c.2.2.2.2.2.1
  unfold yearOfEra
  simp only []
  rcases c.2.2.2.2.2.2 with hq | ⟨hq, hr⟩
  · omega
  · have m := yearOfCentury_mono _ _ hr
    rw [hq] at m ⊢
    omega

theorem marchYearDay_bounds (z : Int) :
    0 ≤ (marchYearDay z).2 ∧ (marchYearDay z).2 ≤ 365 := by
  have b := yearOfEra_bounds (z % 146097) (by omega) (by omega)
  unfold marchYearDay
  exact ⟨b.2.2.1, b.2.2.2⟩

theorem marchYearDay_mono (a b : Int) (h : a < b) :
    (marchYearDay a).1 < (marchYearDay b).1 ∨
      ((marchYearDay a).1 = (marchYearDay b).1 ∧ (marchYearDay a).2 < (marchYearDay b).2) := by
  have b1 := yearOfEra_bounds (a % 146097) (by omega) (by omega)
  have b2 := yearOfEra_bounds (b % 146097) (by omega) (by omega)
  unfold marchYearDay
  simp only []
  by_cases hlt : a % 146097 < b % 146097
  · have m := yearOfEra_mono (a % 146097) (b % 146097) (by omega) hlt (by omega)
    omega
  · omega

theorem marchMonthDay_bounds (doy : Int) (h0 : 0 ≤ doy) (h1 : doy ≤ 365) :
    0 ≤ (marchMonthDay doy).1 ∧ (marchMonthDay doy).1 ≤ 11 ∧
    1 ≤ (marchMonthDay doy).2 ∧ (marchMonthDay doy).2 ≤ 31 := by
  unfold marchMonthDay
  simp only []
  omega

theorem marchMonthDay_mono (a b : Int) (h : a < b) :
    (marchMonthDay a).1 < (marchMonthDay b).1 ∨
    ((marchMonthDay a).1 = (marchMonthDay b).1 ∧ (marchMonthDay a).2 < (marchMonthDay b).2) := by
  unfold marchMonthDay
  simp only []
  omega

/-! ## Transport ids -/

/-- A decimal digit. -/
theorem decDigit_range (n : Nat) : 48 ≤ (decDigit n).toNat ∧ (decDigit n).toNat ≤ 57 := by
  unfold decDigit
  have h : n % 10 < 10 := Nat.mod_lt _ (by decide)
  generalize n % 10 = k at h
  interval_cases k <;> decide

theorem fixedDigits_length (w n : Nat) : (fixedDigits w n).length = w := by
  induction w generalizing n with
  | zero => rfl
  | succ w ih => simp [fixedDigits, ih]

theorem fixedDigits_range (w n : Nat) (c : Char) (h : c ∈ fixedDigits w n) :
    48 ≤ c.toNat ∧ c.toNat ≤ 57 := by
  induction w generalizing n with
  | zero => simp [fixedDigits] at h
  | succ w ih =>
    simp only [fixedDigits, List.mem_append, List.mem_singleton] at h
    rcases h with h | h
    · exact ih _ h
    · rw [h]
      exact decDigit_range n

theorem decDigit_toNat (n : Nat) : (decDigit n).toNat = 48 + n % 10 := by
  unfold decDigit
  have h : n % 10 < 10 := Nat.mod_lt _ (by decide)
  generalize n % 10 = k at h
  interval_cases k <;> decide

theorem strLtL_append_same (x u v : List Char) : strLtL (x ++ u) (x ++ v) = strLtL u v := by
  induction x with
  | nil => rfl
  | cons c cs ih =>
    simp only [List.cons_append, strLtL]
    simp [ih]

theorem strLtL_append_lt (x y u v : List Char) (hl : x.length = y.length)
    (h : strLtL x y = true) : strLtL (x ++ u) (y ++ v) = true := by
  induction x generalizing y with
  | nil =>
    cases y with
    | nil => simp [strLtL] at h
    | cons d ds => simp at hl
  | cons c cs ih =>
    cases y with
    | nil => simp at hl
    | cons d ds =>
      simp only [List.length_cons, Nat.succ.injEq, add_left_inj] at hl
      simp only [strLtL, Bool.or_eq_true, decide_eq_true_eq, Bool.and_eq_true, beq_iff_eq] at h
      simp only [List.cons_append, strLtL, Bool.or_eq_true, decide_eq_true_eq, Bool.and_eq_true,
        beq_iff_eq]
      rcases h with h | ⟨h1, h2⟩
      · exact Or.inl h
      · exact Or.inr ⟨h1, ih ds hl h2⟩

theorem fixedDigits_lt (w a b : Nat) (h : a < b) (hb : b < 10 ^ w) :
    strLtL (fixedDigits w a) (fixedDigits w b) = true := by
  induction w generalizing a b with
  | zero =>
    simp at hb
    omega
  | succ w ih =>
    simp only [fixedDigits]
    have hb2 : b / 10 < 10 ^ w := by
      rw [Nat.div_lt_iff_lt_mul (by decide)]
      rw [pow_succ] at hb
      exact hb
    by_cases hq : a / 10 < b / 10
    · exact strLtL_append_lt _ _ _ _ (by rw [fixedDigits_length, fixedDigits_length])
        (ih _ _ hq hb2)
    · have he : a / 10 = b / 10 := by omega
      rw [he, strLtL_append_same]
      simp only [strLtL, Bool.or_eq_true, decide_eq_true_eq, Bool.and_eq_true, beq_iff_eq,
        decDigit_toNat]
      left
      omega

theorem trimFunc_id (p : Char → Bool) (l : List Char) (h : ∀ c ∈ l, p c = false) :
    trimFunc p l = l := by
  have hl : ∀ m : List Char, (∀ c ∈ m, p c = false) → trimLeftFunc p m = m := by
    intro m hm
    cases m with
    | nil => rfl
    | cons c cs =>
      unfold trimLeftFunc
      rw [if_neg (by simp [hm c (List.mem_cons_self _ _)])]
  unfold trimFunc
  rw [hl l h, hl l.reverse (fun c hc => h c (List.mem_reverse.1 hc)), List.reverse_reverse]

/-- The runes of a transport id: decimal digits, `T` and `Z`. -/
theorem stampRune_plain (c : Char)
    (h : (48 ≤ c.toNat ∧ c.toNat ≤ 57) ∨ c = 'T' ∨ c = 'Z') :
    isSpace c = false ∧ c ∉ sanitizeStripped := by
  rcases h with ⟨h1, h2⟩ | h | h
  · constructor
    · unfold isSpace
      simp only [Bool.or_eq_false_iff, decide_eq_false_iff_not, Bool.and_eq_false_imp,
        decide_eq_true_eq]
      omega
    · intro hm
      simp only [sanitizeStripped, List.mem_cons, List.mem_singleton, List.not_mem_nil,
        or_false] at hm
      rcases hm with e | e | e | e | e | e | e | e | e | e <;>
        (rw [e] at h1 h2; revert h1 h2; decide)
  · rw [h]
    decide
  · rw [h]
    decide

theorem stamp_layout (A B : List Char) (hA : A.length = 8) (hB : B.length = 9)
    (dA : ∀ c ∈ A, 48 ≤ c.toNat ∧ c.toNat ≤ 57) (dB : ∀ c ∈ B, 48 ≤ c.toNat ∧ c.toNat ≤ 57) :
    (A ++ 'T' :: (B ++ ['Z'])).length = 19 ∧
    (A ++ 'T' :: (B ++ ['Z']))[8]? = some 'T' ∧
    (A ++ 'T' :: (B ++ ['Z']))[18]? = some 'Z' ∧
    (∀ i, i < 19 → i ≠ 8 → i ≠ 18 →
      ∃ c, (A ++ 'T' :: (B ++ ['Z']))[i]? = some c ∧ 48 ≤ c.toNat ∧ c.toNat ≤ 57) ∧
    (∀ c ∈ A ++ 'T' :: (B ++ ['Z']), c ∉ sanitizeStripped) ∧
    sanitizeTransportID ⟨A ++ 'T' :: (B ++ ['Z'])⟩ = ⟨A ++ 'T' :: (B ++ ['Z'])⟩ := by
  have hall : ∀ c ∈ A ++ 'T' :: (B ++ ['Z']),
      (48 ≤ c.toNat ∧ c.toNat ≤ 57) ∨ c = 'T' ∨ c = 'Z' := by
    intro c hc
    simp only [List.mem_append, List.mem_cons, List.mem_singleton, List.not_mem_nil,
      or_false] at hc
    rcases hc with hc | hc | hc | hc
    · exact Or.inl (dA c hc)
    · exact Or.inr (Or.inl hc)
    · exact Or.inl (dB c hc)
    · exact Or.inr (Or.inr hc)
  refine ⟨by simp [hA, hB], ?_, ?_, ?_, fun c hc => (stampRune_plain c (hall c hc)).2, ?_⟩
  · rw [List.getElem?_append_right (by omega)]
    simp [hA]
  · rw [List.getElem?_append_right (by omega)]
    simp only [hA]
    show ('T' :: (B ++ ['Z']))[9 + 1]? = some 'Z'
    rw [List.getElem?_cons_succ, List.getElem?_append_right (by omega)]
    simp [hB]
  · intro i hi h8 h18
    by_cases h : i < 8
    · rw [List.getElem?_append_left (by omega)]
      have hi2 : i < A.length := by omega
      exact ⟨A[i], List.getElem?_eq_getElem hi2, dA _ (List.getElem_mem _)⟩
    · rw [List.getElem?_append_right (by omega)]
      have e : i - A.length = (i - 9) + 1 := by omega
      rw [e, List.getElem?_cons_succ, List.getElem?_append_left (by omega)]
      have hi2 : i - 9 < B.length := by omega
      exact ⟨B[i - 9], List.getElem?_eq_getElem hi2, dB _ (List.getElem_mem _)⟩
  · unfold sanitizeTransportID TrimSpace
    simp only []
    rw [trimFunc_id _ _ (fun c hc => (stampRune_plain c (hall c hc)).1)]
    congr 1
    rw [List.filter_eq_self]
    intro c hc
    have := (stampRune_plain c (hall c hc)).2
    simpa using this

theorem appendInt_fixed (x : Int) (w : Nat) (h0 : 0 ≤ x) (h1 : x < 10 ^ w) :
    appendInt x w = fixedDigits w x.toNat := by
  unfold appendInt
  rw [if_pos ⟨h0, h1⟩]

theorem civil_bounds (t : Time) :
    1 ≤ t.civil.month ∧ t.civil.month ≤ 12 ∧ 1 ≤ t.civil.day ∧ t.civil.day ≤ 31 ∧
    0 ≤ t.civil.hour ∧ t.civil.hour ≤ 23 ∧ 0 ≤ t.civil.minute ∧ t.civil.minute ≤ 59 ∧
    0 ≤ t.civil.second ∧ t.civil.second ≤ 59 := by
  have yd := marchYearDay_bounds (t.Unix / 86400 + 719468)
  have md := marchMonthDay_bounds _ yd.1 yd.2
  unfold Time.civil civilFromDays
  simp only []
  split_ifs <;> simp only [] <;> omega

/-- The transport id of an instant, rune by rune. -/
theorem newTransportIDs_data (t : Time) (h0 : 0 ≤ t.civil.year) (h1 : t.civil.year ≤ 9999) :
    (newTransportIDs t).1.data =
      (fixedDigits 4 t.civil.year.toNat ++ fixedDigits 2 t.civil.month.toNat ++
        fixedDigits 2 t.civil.day.toNat) ++ 'T' ::
      ((fixedDigits 2 t.civil.hour.toNat ++ fixedDigits 2 t.civil.minute.toNat ++
        fixedDigits 2 t.civil.second.toNat ++
        fixedDigits 3 (t.unixNano % 1000000000 / 1000000).toNat) ++ ['Z']) := by
  have b := civil_bounds t
  unfold newTransportIDs formatCompact Time.Nanosecond
  simp only []
  rw [appendInt_fixed _ 4 h0 (by norm_num; omega), appendInt_fixed _ 2 (by omega) (by norm_num; omega),
    appendInt_fixed _ 2 (by omega) (by norm_num; omega), appendInt_fixed _ 2 (by omega) (by norm_num; omega),
    appendInt_fixed _ 2 (by omega) (by norm_num; omega), appendInt_fixed _ 2 (by omega) (by norm_num; omega),
    appendInt_fixed _ 3 (by omega) (by norm_num; omega)]
  simp only [List.append_assoc, List.cons_append, List.nil_append, List.singleton_append]

/-- C15: the transport id of `newTransportIDs`.  For every instant whose UTC year is in
0000..9999 the transportId has exactly 19 runes, of the form YYYYMMDD `T` HHMMSS mmm `Z`:
a decimal digit everywhere except `T` at index 8 and `Z` at index 18, the runes 15 to 17
being the three digits of the millisecond of the instant; it holds none of the runes
`sanitizeTransportID` strips, and `sanitizeTransportID` leaves it unchanged. -/
theorem newTransportIDs_format (t : Time) (h0 : 0 ≤ t.civil.year) (h1 : t.civil.year ≤ 9999) :
    (newTransportIDs t).1.data.length = 19 ∧
    (newTransportIDs t).1.data[8]? = some 'T' ∧
    (newTransportIDs t).1.data[18]? = some 'Z' ∧
    (∀ i, i < 19 → i ≠ 8 → i ≠ 18 →
      ∃ c, (newTransportIDs t).1.data[i]? = some c ∧ 48 ≤ c.toNat ∧ c.toNat ≤ 57) ∧
    ((newTransportIDs t).1.data.drop 15).take 3 =
      fixedDigits 3 (t.Nanosecond / 1000000).toNat ∧
    (newTransportIDs t).1.data.take 8 =
      fixedDigits 4 t.civil.year.toNat ++ fixedDigits 2 t.civil.month.toNat ++
        fixedDigits 2 t.civil.day.toNat ∧
    ((newTransportIDs t).1.data.drop 9).take 6 =
      fixedDigits 2 t.civil.hour.toNat ++ fixedDigits 2 t.civil.minute.toNat ++
        fixedDigits 2 t.civil.second.toNat ∧
    (∀ c ∈ (newTransportIDs t).1.data, c ∉ sanitizeStripped) ∧
    sanitizeTransportID (newTransportIDs t).1 = (newTransportIDs t).1 := by
  have hd := newTransportIDs_data t h0 h1
  have hA : (fixedDigits 4 t.civil.year.toNat ++ fixedDigits 2 t.civil.month.toNat ++
      fixedDigits 2 t.civil.day.toNat).length = 8 := by
    simp [fixedDigits_length]
  have hB : (fixedDigits 2 t.civil.hour.toNat ++ fixedDigits 2 t.civil.minute.toNat ++
      fixedDigits 2 t.civil.second.toNat ++
      fixedDigits 3 (t.unixNano % 1000000000 / 1000000).toNat).length = 9 := by
    simp [fixedDigits_length]
  have hH : (fixedDigits 2 t.civil.hour.toNat ++ fixedDigits 2 t.civil.minute.toNat ++
      fixedDigits 2 t.civil.second.toNat).length = 6 := by
    simp [fixedDigits_length]
  have dA : ∀ c ∈ fixedDigits 4 t.civil.year.toNat ++ fixedDigits 2 t.civil.month.toNat ++
      fixedDigits 2 t.civil.day.toNat, 48 ≤ c.toNat ∧ c.toNat ≤ 57 := by
    intro c hc
    simp only [List.mem_append] at hc
    rcases hc with (hc | hc) | hc <;> exact fixedDigits_range _ _ c hc
  have dB : ∀ c ∈ fixedDigits 2 t.civil.hour.toNat ++ fixedDigits 2 t.civil.minute.toNat ++
      fixedDigits 2 t.civil.second.toNat ++
      fixedDigits 3 (t.unixNano % 1000000000 / 1000000).toNat,
      48 ≤ c.toNat ∧ c.toNat ≤ 57 := by
    intro c hc
    simp only [List.mem_append] at hc
    rcases hc with ((hc | hc) | hc) | hc <;> exact fixedDigits_range _ _ c hc
  have lay := stamp_layout _ _ hA hB dA dB
  have hid : (newTransportIDs t).1 = ⟨(newTransportIDs t).1.data⟩ := rfl
  rw [hid, hd]
  refine ⟨lay.1, lay.2.1, lay.2.2.1, lay.2.2.2.1, ?_, ?_, ?_, lay.2.2.2.2.1, lay.2.2.2.2.2⟩
  · show List.take 3 (List.drop 15 _) = fixedDigits 3 (t.unixNano % 1000000000 / 1000000).toNat
    rw [List.drop_append_eq_append_drop, hA, List.drop_of_length_le (by omega)]
    simp only [List.nil_append]
    show List.take 3 (List.drop (6 + 1) ('T' :: _)) = _
    rw [List.drop_succ_cons, List.append_assoc, List.drop_append_eq_append_drop, hH,
      List.drop_of_length_le (by omega)]
    simp only [List.nil_append, Nat.sub_self, List.drop_zero]
    rw [List.take_append_eq_append_take, fixedDigits_length, List.take_of_length_le
      (by rw [fixedDigits_length])]
    simp
  · rw [List.take_append_eq_append_take, hA, List.take_of_length_le (by omega)]
    simp
  · rw [List.drop_append_eq_append_drop, hA, List.drop_of_length_le (by omega)]
    simp only [List.nil_append]
    show List.take 6 (List.drop (0 + 1) ('T' :: _)) = _
    rw [List.drop_succ_cons, List.drop_zero, List.append_assoc, List.take_append_eq_append_take,
      hH, List.take_of_length_le (by omega)]
    simp

/-- C15, at a concrete instant: 2024-02-29T12:34:56.123456789Z. -/
theorem newTransportIDs_format_witness :
    (0 ≤ (Time.civil ⟨1709210096123456789⟩).year ∧
      (Time.civil ⟨1709210096123456789⟩).year ≤ 9999) ∧
    newTransportIDs ⟨1709210096123456789⟩ = ("20240229T123456123Z", "2024-02-29T12:34:56Z") ∧
    sanitizeTransportID (newTransportIDs ⟨1709210096123456789⟩).1 =
      (newTransportIDs ⟨1709210096123456789⟩).1 :=
  ⟨by decide, by decide,
    (newTransportIDs_format ⟨1709210096123456789⟩ (by decide) (by decide)).2.2.2.2.2.2.2.2⟩

theorem strLtL_field (w a b : Nat) (u v : List Char) (hb : b < 10 ^ w)
    (h : a < b ∨ (a = b ∧ strLtL u v = true)) :
    strLtL (fixedDigits w a ++ u) (fixedDigits w b ++ v) = true := by
  rcases h with h | ⟨h, huv⟩
  · exact strLtL_append_lt _ _ _ _ (by rw [fixedDigits_length, fixedDigits_length])
      (fixedDigits_lt w a b h hb)
  · rw [h, strLtL_append_same]
    exact huv

theorem strLtL_cons_same (c : Char) (u v : List Char) :
    strLtL (c :: u) (c :: v) = strLtL u v := by
  simp [strLtL]

theorem civilFromDays_mono (d1 d2 : Int) (h : d1 < d2) :
    (civilFromDays d1).1 < (civilFromDays d2).1 ∨
    ((civilFromDays d1).1 = (civilFromDays d2).1 ∧
      ((civilFromDays d1).2.1 < (civilFromDays d2).2.1 ∨
        ((civilFromDays d1).2.1 = (civilFromDays d2).2.1 ∧
          (civilFromDays d1).2.2 < (civilFromDays d2).2.2))) := by
  have y1 := marchYearDay_bounds (d1 + 719468)
  have y2 := marchYearDay_bounds (d2 + 719468)
  have ym := marchYearDay_mono (d1 + 719468) (d2 + 719468) (by omega)
  have m1 := marchMonthDay_bounds _ y1.1 y1.2
  have m2 := marchMonthDay_bounds _ y2.1 y2.2
  unfold civilFromDays
  simp only []
  rcases ym with ym | ⟨ym, yd⟩
  · split_ifs <;> simp only [] <;> omega
  · have mm := marchMonthDay_mono _ _ yd
    split_ifs <;> simp only [] <;> omega

/-- The order of two instants on their UTC fields, the year first, the millisecond
last. -/
theorem civil_lex (t1 t2 : Time) (h : t1.unixNano / 1000000 < t2.unixNano / 1000000) :
    t1.civil.year < t2.civil.year ∨ (t1.civil.year = t2.civil.year ∧
    (t1.civil.month < t2.civil.month ∨ (t1.civil.month = t2.civil.month ∧
    (t1.civil.day < t2.civil.day ∨ (t1.civil.day = t2.civil.day ∧
    (t1.civil.hour < t2.civil.hour ∨ (t1.civil.hour = t2.civil.hour ∧
    (t1.civil.minute < t2.civil.minute ∨ (t1.civil.minute = t2.civil.minute ∧
    (t1.civil.second < t2.civil.second ∨ (t1.civil.second = t2.civil.second ∧
    t1.unixNano % 1000000000 / 1000000 < t2.unixNano % 1000000000 / 1000000))))))))))) := by
  by_cases hd : t1.Unix / 86400 < t2.Unix / 86400
  · have m := civilFromDays_mono _ _ hd
    unfold Time.civil
    simp only []
    omega
  · have e : t1.Unix / 86400 = t2.Unix / 86400 := by
      unfold Time.Unix at hd ⊢
      omega
    unfold Time.civil
    simp only []
    rw [e]
    unfold Time.Unix at e ⊢
    omega

/-- C16: transport ids are strictly increasing in time.  For two instants with UTC years
in 0000..9999: when the first is earlier and they fall in distinct milliseconds, the
transportId of the first is strictly less than that of the second in the byte-wise string
order; when they fall in the same millisecond, the two transportIds are equal. -/
theorem newTransportIDs_increasing (t1 t2 : Time)
    (hy1 : 0 ≤ t1.civil.year ∧ t1.civil.year ≤ 9999)
    (hy2 : 0 ≤ t2.civil.year ∧ t2.civil.year ≤ 9999) :
    (t1.unixNano < t2.unixNano → t1.unixNano / 1000000 ≠ t2.unixNano / 1000000 →
      strLt (newTransportIDs t1).1 (newTransportIDs t2).1 = true) ∧
    (t1.unixNano / 1000000 = t2.unixNano / 1000000 →
      (newTransportIDs t1).1 = (newTransportIDs t2).1) := by
  have d1 := newTransportIDs_data t1 hy1.1 hy1.2
  have d2 := newTransportIDs_data t2 hy2.1 hy2.2
  have b1 := civil_bounds t1
  have b2 := civil_bounds t2
  constructor
  · intro hlt hms
    have hT : t1.unixNano / 1000000 < t2.unixNano / 1000000 := by omega
    have bY : t2.civil.year.toNat < 10 ^ 4 := by omega
    have bM : t2.civil.month.toNat < 10 ^ 2 := by omega
    have bD : t2.civil.day.toNat < 10 ^ 2 := by omega
    have bh : t2.civil.hour.toNat < 10 ^ 2 := by omega
    have bm : t2.civil.minute.toNat < 10 ^ 2 := by omega
    have bs : t2.civil.second.toNat < 10 ^ 2 := by omega
    have bx : (t2.unixNano % 1000000000 / 1000000).toNat < 10 ^ 3 := by omega
    have lex := civil_lex t1 t2 hT
    clear hlt hms hT
    unfold strLt
    rw [d1, d2]
    clear d1 d2
    simp only [List.append_assoc, List.cons_append, List.nil_append]
    refine strLtL_field 4 _ _ _ _ bY ?_
    rcases lex with h | ⟨h, lex⟩
    · exact Or.inl (by omega)
    · refine Or.inr ⟨by omega, ?_⟩
      refine strLtL_field 2 _ _ _ _ bM ?_
      rcases lex with h | ⟨h, lex⟩
      · exact Or.inl (by omega)
      · refine Or.inr ⟨by omega, ?_⟩
        refine strLtL_field 2 _ _ _ _ bD ?_
        rcases lex with h | ⟨h, lex⟩
        · exact Or.inl (by omega)
        · refine Or.inr ⟨by omega, ?_⟩
          rw [strLtL_cons_same]
          refine strLtL_field 2 _ _ _ _ bh ?_
          rcases lex with h | ⟨h, lex⟩
          · exact Or.inl (by omega)
          · refine Or.inr ⟨by omega, ?_⟩
            refine strLtL_field 2 _ _ _ _ bm ?_
            rcases lex with h | ⟨h, lex⟩
            · exact Or.inl (by omega)
            · refine Or.inr ⟨by omega, ?_⟩
              refine strLtL_field 2 _ _ _ _ bs ?_
              rcases lex with h | ⟨h, lex⟩
              · exact Or.inl (by omega)
              · refine Or.inr ⟨by omega, ?_⟩
                exact strLtL_field 3 _ _ _ _ bx (Or.inl (by omega))
  · intro hms
    have hu : t1.Unix = t2.Unix := by
      unfold Time.Unix
      omega
    have hc : t1.civil = t2.civil := by
      unfold Time.civil
      rw [hu]
    have hn : t1.unixNano % 1000000000 / 1000000 = t2.unixNano % 1000000000 / 1000000 := by
      omega
    apply String.ext
    rw [d1, d2, hc, hn]

/-- C16, at two concrete instants one millisecond apart across the end of a year, and at
two instants of the same millisecond. -/
theorem newTransportIDs_increasing_witness :
    strLt (newTransportIDs ⟨1704067199999000000⟩).1 (newTransportIDs ⟨1704067200000000000⟩).1
      = true ∧
    (newTransportIDs ⟨1704067199999000000⟩).1 = (newTransportIDs ⟨1704067199999999999⟩).1 :=
  ⟨(newTransportIDs_increasing ⟨1704067199999000000⟩ ⟨1704067200000000000⟩
      (by decide) (by decide)).1 (by decide) (by decide),
    (newTransportIDs_increasing ⟨1704067199999000000⟩ ⟨1704067199999999999⟩
      (by decide) (by decide)).2 (by decide)⟩

/-! ## The transport index -/

theorem maxSeq_fold (items : List TransportIndexItem) (m : Int) :
    (∀ it ∈ items, it.Seq ≤ items.foldl (fun m it => if it.Seq > m then it.Seq else m) m) ∧
    m ≤ items.foldl (fun m it => if it.Seq > m then it.Seq else m) m ∧
    (items.foldl (fun m it => if it.Seq > m then it.Seq else m) m = m ∨
      ∃ it ∈ items, it.Seq = items.foldl (fun m it => if it.Seq > m then it.Seq else m) m) := by
  induction items generalizing m with
  | nil => simp
  | cons a rest ih =>
    rw [List.foldl_cons]
    have h := ih (if a.Seq > m then a.Seq else m)
    refine ⟨fun it hit => ?_, ?_, ?_⟩
    · rcases List.mem_cons.1 hit with e | e
      · rw [e]
        have := h.2.1
        split_ifs at this ⊢ <;> omega
      · exact h.1 it e
    · have := h.2.1
      split_ifs at this ⊢ <;> omega
    · rcases h.2.2 with e | ⟨it, hit, e⟩
      · by_cases ha : a.Seq > m
        · right
          refine ⟨a, List.mem_cons_self _ _, ?_⟩
          rw [e, if_pos ha]
        · left
          rw [e, if_neg ha]
      · exact Or.inr ⟨it, List.mem_cons_of_mem _ hit, e⟩

theorem updateItem_none (table : Char → Char) (rec : TransportRecord)
    (items : List TransportIndexItem) :
    updateItem table rec items = none ↔ ∀ it ∈ items, it.TransportID ≠ rec.TransportID := by
  induction items with
  | nil => simp [updateItem]
  | cons a rest ih =>
    unfold updateItem
    by_cases h : a.TransportID = rec.TransportID
    · rw [if_pos h]
      simp [h]
    · rw [if_neg h]
      simp [ih, h]

theorem updateItem_some (table : Char → Char) (rec : TransportRecord)
    (items updated : List TransportIndexItem) (h : updateItem table rec items = some updated) :
    ∃ pre it post, items = pre ++ it :: post ∧
      (∀ x ∈ pre, x.TransportID ≠ rec.TransportID) ∧ it.TransportID = rec.TransportID ∧
      updated = pre ++
        { it with
          TransportType := rec.TransportType
          TransportStatus := normalizeTransportStatus table rec.TransportStatus
          CreatedAt := rec.CreatedAt } :: post := by
  induction items generalizing updated with
  | nil => simp [updateItem] at h
  | cons a rest ih =>
    unfold updateItem at h
    by_cases ha : a.TransportID = rec.TransportID
    · rw [if_pos ha] at h
      cases h
      exact ⟨[], a, rest, rfl, by simp, ha, rfl⟩
    · rw [if_neg ha] at h
      cases hr : updateItem table rec rest with
      | none => rw [hr] at h; cases h
      | some u =>
        rw [hr] at h
        cases h
        obtain ⟨pre, it, post, e1, e2, e3, e4⟩ := ih u hr
        refine ⟨a :: pre, it, post, by rw [e1]; rfl, ?_, e3, by rw [e4]; rfl⟩
        intro x hx
        rcases List.mem_cons.1 hx with e | e
        · rw [e]; exact ha
        · exact e2 x e

/-- C17 (amended): the index upsert of `PersistTransportRecord` (`upsertIndex`).  The
items it writes are `upsertItems` of the items it loads, none for a missing index.  When
no item has the record's transportId, one item is appended with the record's id, type,
normalised status and createdAt, and with seq = `maxSeq` + 1 as a Go `int` of 64 bits,
and the existing items are unchanged; `maxSeq` is the largest of 0 and the existing
seqs (0 for an empty index, the maximum of the existing seqs as soon as one of them is
not negative), and the sum is exact when every existing seq is below 2^63 - 1.  When an
item has that transportId, the first such item gets the record's type, normalised
status and createdAt; its seq, its id and its position, and every other item, are
unchanged, and so is the number of items.  An index whose seqs are strictly increasing
and below 2^63 - 1 stays strictly increasing, and one whose seqs are all at least 1 and
below 2^63 - 1 keeps seqs of at least 1. -/
theorem upsertIndex_spec (table : Char → Char) (items : List TransportIndexItem)
    (rec : TransportRecord) :
    (∀ (dir : TransportDir) (v : Int), dir.indexFile = .ok (some ⟨v, items⟩) →
      ∃ idx, upsertIndex table dir rec = .ok idx ∧ idx.Items = upsertItems table items rec) ∧
    (∀ dir : TransportDir, dir.indexFile = .ok none →
      ∃ idx, upsertIndex table dir rec = .ok idx ∧ idx.Items = upsertItems table [] rec) ∧
    ((∀ it ∈ items, it.TransportID ≠ rec.TransportID) →
      upsertItems table items rec =
        items ++ [⟨wrapInt (maxSeq items + 1), rec.TransportID, rec.TransportType,
          normalizeTransportStatus table rec.TransportStatus, rec.CreatedAt⟩]) ∧
    ((items = [] → maxSeq items = 0) ∧ 0 ≤ maxSeq items ∧
      (∀ it ∈ items, it.Seq ≤ maxSeq items) ∧
      (maxSeq items = 0 ∨ ∃ it ∈ items, it.Seq = maxSeq items) ∧
      ((∃ it ∈ items, 0 ≤ it.Seq) → ∃ it ∈ items, it.Seq = maxSeq items) ∧
      ((∀ it ∈ items, it.Seq < 9223372036854775807) →
        wrapInt (maxSeq items + 1) = maxSeq items + 1)) ∧
    ((∃ it ∈ items, it.TransportID = rec.TransportID) →
      ∃ pre it post, items = pre ++ it :: post ∧
        (∀ x ∈ pre, x.TransportID ≠ rec.TransportID) ∧ it.TransportID = rec.TransportID ∧
        upsertItems table items rec = pre ++
          ⟨it.Seq, it.TransportID, rec.TransportType,
            normalizeTransportStatus table rec.TransportStatus, rec.CreatedAt⟩ :: post ∧
        (upsertItems table items rec).length = items.length) ∧
    (items.Pairwise (fun a b => a.Seq < b.Seq) →
      (∀ it ∈ items, it.Seq < 9223372036854775807) →
      (upsertItems table items rec).Pairwise (fun a b => a.Seq < b.Seq)) ∧
    ((∀ it ∈ items, 1 ≤ it.Seq) → (∀ it ∈ items, it.Seq < 9223372036854775807) →
      ∀ it ∈ upsertItems table items rec, 1 ≤ it.Seq) := by
  have hmax := maxSeq_fold items 0
  have hmax0 : maxSeq items = 0 ∨ ∃ it ∈ items, it.Seq = maxSeq items := hmax.2.2
  have hwrap : (∀ it ∈ items, it.Seq < 9223372036854775807) →
      wrapInt (maxSeq items + 1) = maxSeq items + 1 := by
    intro hb
    have h0 : 0 ≤ maxSeq items := hmax.2.1
    have h1 : maxSeq items < 9223372036854775807 := by
      rcases hmax0 with e | ⟨it, hit, e⟩
      · rw [e]
        decide
      · rw [← e]
        exact hb it hit
    unfold wrapInt
    omega
  have hnone : (∀ it ∈ items, it.TransportID ≠ rec.TransportID) →
      upsertItems table items rec = items ++ [newIndexItem table items rec] := by
    intro h
    unfold upsertItems
    rw [(updateItem_none table rec items).2 h]
  have hsome : (∃ it ∈ items, it.TransportID = rec.TransportID) →
      ∃ pre it post, items = pre ++ it :: post ∧
        (∀ x ∈ pre, x.TransportID ≠ rec.TransportID) ∧ it.TransportID = rec.TransportID ∧
        upsertItems table items rec = pre ++
          ⟨it.Seq, it.TransportID, rec.TransportType,
            normalizeTransportStatus table rec.TransportStatus, rec.CreatedAt⟩ :: post := by
    rintro ⟨x, hx, hxid⟩
    cases hu : updateItem table rec items with
    | none => exact absurd hxid ((updateItem_none table rec items).1 hu x hx)
    | some u =>
      obtain ⟨pre, it, post, e1, e2, e3, e4⟩ := updateItem_some table rec items u hu
      refine ⟨pre, it, post, e1, e2, e3, ?_⟩
      unfold upsertItems
      rw [hu, e4]
  refine ⟨?_, ?_, hnone, ⟨?_, hmax.2.1, hmax.1, hmax0, ?_, hwrap⟩, ?_, ?_, ?_⟩
  · intro dir v hdir
    refine ⟨saveIndex ⟨if v = 0 then 1 else v, upsertItems table items rec⟩, ?_, rfl⟩
    unfold upsertIndex loadIndex
    rw [hdir]
  · intro dir hdir
    refine ⟨saveIndex ⟨1, upsertItems table [] rec⟩, ?_, rfl⟩
    unfold upsertIndex loadIndex
    rw [hdir]
  · intro e
    rw [e]
    rfl
  · rintro ⟨x, hx, hx0⟩
    rcases hmax.2.2 with e | h
    · refine ⟨x, hx, ?_⟩
      have := hmax.1 x hx
      unfold maxSeq
      omega
    · exact h
  · intro h
    obtain ⟨pre, it, post, e1, e2, e3, e4⟩ := hsome h
    refine ⟨pre, it, post, e1, e2, e3, e4, ?_⟩
    rw [e4, e1]
    simp
  · intro hp hbound
    by_cases h : ∃ it ∈ items, it.TransportID = rec.TransportID
    · obtain ⟨pre, it, post, e1, _, _, e4⟩ := hsome h
      rw [e4]
      rw [e1] at hp
      have hmap : (pre ++ (⟨it.Seq, it.TransportID, rec.TransportType,
          normalizeTransportStatus table rec.TransportStatus, rec.CreatedAt⟩ :
            TransportIndexItem) :: post).map (fun a => a.Seq) =
          (pre ++ it :: post).map (fun a => a.Seq) := by simp
      have hp2 := (List.pairwise_map (f := fun a : TransportIndexItem => a.Seq)
        (R := fun a b : Int => a < b)).2 hp
      rw [← hmap] at hp2
      exact (List.pairwise_map (f := fun a : TransportIndexItem => a.Seq)
        (R := fun a b : Int => a < b)).1 hp2
    · have h2 : ∀ it ∈ items, it.TransportID ≠ rec.TransportID :=
        fun it hit e => h ⟨it, hit, e⟩
      rw [hnone h2, List.pairwise_append]
      refine ⟨hp, List.pairwise_singleton _ _, ?_⟩
      intro a ha b hb
      rw [List.mem_singleton] at hb
      rw [hb]
      have := hmax.1 a ha
      show a.Seq < wrapInt (maxSeq items + 1)
      rw [hwrap hbound]
      unfold maxSeq
      omega
  · intro hpos hbound x hx
    by_cases h : ∃ it ∈ items, it.TransportID = rec.TransportID
    · obtain ⟨pre, it, post, e1, _, _, e4⟩ := hsome h
      rw [e4] at hx
      rw [e1] at hpos
      rcases List.mem_append.1 hx with hx | hx
      · exact hpos x (List.mem_append_left _ hx)
      · rcases List.mem_cons.1 hx with hx | hx
        · rw [hx]
          exact hpos it (List.mem_append_right _ (List.mem_cons_self _ _))
        · exact hpos x (List.mem_append_right _ (List.mem_cons_of_mem _ hx))
    · have h2 : ∀ it ∈ items, it.TransportID ≠ rec.TransportID :=
        fun it hit e => h ⟨it, hit, e⟩
      rw [hnone h2] at hx
      rcases List.mem_append.1 hx with hx | hx
      · exact hpos x hx
      · rw [List.mem_singleton] at hx
        rw [hx]
        have := hmax.2.1
        show 1 ≤ wrapInt (maxSeq items + 1)
        rw [hwrap hbound]
        unfold maxSeq
        omega

/-- C17, at a concrete index: a record with a new id is appended with the next seq, and
a record with a known id updates its item in place. -/
theorem upsertIndex_spec_witness :
    upsertItems (fun c => c) [⟨1, "a", "init", "completed", "t1"⟩, ⟨2, "b", "push", "pending", "t2"⟩]
      ⟨1, "c", "push", "", "", "t3", [], "", "", [], [], "pending", "", [], [], []⟩ =
      [⟨1, "a", "init", "completed", "t1"⟩, ⟨2, "b", "push", "pending", "t2"⟩,
        ⟨3, "c", "push", "pending", "t3"⟩] ∧
    (upsertItems (fun c => c) [⟨1, "a", "init", "completed", "t1"⟩, ⟨2, "b", "push", "pending", "t2"⟩]
      ⟨1, "b", "push", "", "", "t2", [], "", "", [], [], "completed", "", [], [], []⟩).Pairwise
      (fun a b => a.Seq < b.Seq) :=
  ⟨(upsertIndex_spec (fun c => c)
      [⟨1, "a", "init", "completed", "t1"⟩, ⟨2, "b", "push", "pending", "t2"⟩]
      ⟨1, "c", "push", "", "", "t3", [], "", "", [], [], "pending", "", [], [], []⟩).2.2.1
      (by decide),
    (upsertIndex_spec (fun c => c)
      [⟨1, "a", "init", "completed", "t1"⟩, ⟨2, "b", "push", "pending", "t2"⟩]
      ⟨1, "b", "push", "", "", "t2", [], "", "", [], [], "completed", "", [], [], []⟩).2.2.2.2.2.1
      (by decide) (by decide)⟩

/-- C17, the claim as stated fails.  The index holds one item with seq -5: the item
appended gets seq 1, since `maxSeq` starts from 0, and not the maximum seq plus one,
-4.  The index holds one item with seq 2^63 - 1: the item appended gets seq -2^63, the
Go `int` after 2^63 - 1, and the seqs of the index, strictly increasing before, are not
strictly increasing after. -/
theorem upsertItems_seq_from_zero :
    upsertItems (fun c => c) [⟨-5, "a", "init", "completed", "t1"⟩]
      ⟨1, "c", "push", "", "", "t3", [], "", "", [], [], "pending", "", [], [], []⟩ =
      [⟨-5, "a", "init", "completed", "t1"⟩, ⟨1, "c", "push", "pending", "t3"⟩] ∧
    (1 : Int) ≠ -5 + 1 ∧
    upsertItems (fun c => c) [⟨9223372036854775807, "a", "init", "completed", "t1"⟩]
      ⟨1, "c", "push", "", "", "t3", [], "", "", [], [], "pending", "", [], [], []⟩ =
      [⟨9223372036854775807, "a", "init", "completed", "t1"⟩,
        ⟨-9223372036854775808, "c", "push", "pending", "t3"⟩] ∧
    [(⟨9223372036854775807, "a", "init", "completed", "t1"⟩ : TransportIndexItem)].Pairwise
      (fun a b => a.Seq < b.Seq) ∧
    ¬ (upsertItems (fun c => c) [⟨9223372036854775807, "a", "init", "completed", "t1"⟩]
      ⟨1, "c", "push", "", "", "t3", [], "", "", [], [], "pending", "", [], [], []⟩).Pairwise
      (fun a b => a.Seq < b.Seq) := by
  decide

theorem pendingCandidate_iff (table : Char → Char) (dir : TransportDir)
    (packageID branch transportType : String) (it : TransportIndexItem) (r : TransportRecord) :
    pendingCandidate table dir packageID branch transportType it = some r ↔
      pendingMatch table dir packageID branch transportType it r := by
  unfold pendingCandidate pendingMatch
  by_cases h1 : normalizeTransportStatus table it.TransportStatus = "completed"
  · simp [h1]
  · rw [if_neg h1]
    by_cases h2 : transportType ≠ "" ∧
        normalizeTransportType table it.TransportType ≠
          normalizeTransportType table transportType
    · rw [if_pos h2]
      exact ⟨fun e => (by cases e), fun h => absurd (h.2.1 h2.1) h2.2⟩
    · rw [if_neg h2]
      have h2b : transportType ≠ "" →
          normalizeTransportType table it.TransportType =
            normalizeTransportType table transportType := by
        intro e
        by_contra c
        exact h2 ⟨e, c⟩
      cases hl : loadRecordFile table dir it.TransportID with
      | none => simp
      | some r0 =>
        simp only []
        by_cases h3 : packageID ≠ "" ∧ r0.PackageID ≠ packageID
        · rw [if_pos h3]
          refine ⟨fun e => (by cases e), fun h => ?_⟩
          have e := Option.some.inj h.2.2.1
          subst e
          exact absurd (h.2.2.2.1 h3.1) h3.2
        · rw [if_neg h3]
          by_cases h4 : branch ≠ "" ∧ r0.Branch ≠ branch
          · rw [if_pos h4]
            refine ⟨fun e => (by cases e), fun h => ?_⟩
            have e := Option.some.inj h.2.2.1
            subst e
            exact absurd (h.2.2.2.2.1 h4.1) h4.2
          · rw [if_neg h4]
            by_cases h5 : transportType ≠ "" ∧
                normalizeTransportType table r0.TransportType ≠
                  normalizeTransportType table transportType
            · rw [if_pos h5]
              refine ⟨fun e => (by cases e), fun h => ?_⟩
              have e := Option.some.inj h.2.2.1
              subst e
              exact absurd (h.2.2.2.2.2 h5.1) h5.2
            · rw [if_neg h5]
              constructor
              · intro e
                cases e
                refine ⟨h1, h2b, rfl, ?_, ?_, ?_⟩
                · intro e
                  by_contra c
                  exact h3 ⟨e, c⟩
                · intro e
                  by_contra c
                  exact h4 ⟨e, c⟩
                · intro e
                  by_contra c
                  exact h5 ⟨e, c⟩
              · rintro ⟨_, _, e, _⟩
                exact e

theorem pendingScan_some (table : Char → Char) (dir : TransportDir)
    (packageID branch transportType : String) (l : List TransportIndexItem)
    (r : TransportRecord) :
    pendingScan table dir packageID branch transportType l = some r ↔
      ∃ pre it post, l = pre ++ it :: post ∧
        (∀ x ∈ pre, pendingCandidate table dir packageID branch transportType x = none) ∧
        pendingCandidate table dir packageID branch transportType it = some r := by
  induction l with
  | nil => simp [pendingScan]
  | cons a rest ih =>
    unfold pendingScan
    cases ha : pendingCandidate table dir packageID branch transportType a with
    | some r0 =>
      simp only []
      constructor
      · intro e
        cases e
        exact ⟨[], a, rest, rfl, by simp, ha⟩
      · rintro ⟨pre, it, post, e1, e2, e3⟩
        cases pre with
        | nil =>
          simp only [List.nil_append, List.cons.injEq] at e1
          rw [← e1.1, ha] at e3
          exact e3
        | cons p ps =>
          simp only [List.cons_append, List.cons.injEq] at e1
          have := e2 p (List.mem_cons_self _ _)
          rw [← e1.1, ha] at this
          cases this
    | none =>
      simp only []
      rw [ih]
      constructor
      · rintro ⟨pre, it, post, e1, e2, e3⟩
        refine ⟨a :: pre, it, post, by rw [e1]; rfl, ?_, e3⟩
        intro x hx
        rcases List.mem_cons.1 hx with e | e
        · rw [e]; exact ha
        · exact e2 x e
      · rintro ⟨pre, it, post, e1, e2, e3⟩
        cases pre with
        | nil =>
          simp only [List.nil_append, List.cons.injEq] at e1
          rw [← e1.1, ha] at e3
          cases e3
        | cons p ps =>
          simp only [List.cons_append, List.cons.injEq] at e1
          exact ⟨ps, it, post, e1.2, fun x hx => e2 x (List.mem_cons_of_mem _ hx), e3⟩

theorem pendingScan_none (table : Char → Char) (dir : TransportDir)
    (packageID branch transportType : String) (l : List TransportIndexItem) :
    pendingScan table dir packageID branch transportType l = none ↔
      ∀ x ∈ l, pendingCandidate table dir packageID branch transportType x = none := by
  induction l with
  | nil => simp [pendingScan]
  | cons a rest ih =>
    unfold pendingScan
    cases ha : pendingCandidate table dir packageID branch transportType a with
    | some r0 =>
      simp only [List.mem_cons, forall_eq_or_imp, ha, false_and]
      simp
    | none =>
      simp only [List.mem_cons, forall_eq_or_imp, ha, true_and]
      exact ih

/-- Two tenant directories with one index item, for transport `a`, whose status in the
index is pending.  In the first the index gives the item the type
pull and the record has the type push: the record matches the filters (pkg, dev, push),
and yet nothing is found, because the type of the index item is tested too.  In the
second the record file says completed: the record is returned, so the record returned
has transportStatus "completed". -/
theorem loadLatestPending_index_decides :
    (normalizeTransportStatus (fun c => c) "pending" ≠ "completed" ∧
      loadRecordFile (fun c => c) (dirA "pull" "pending" (recordA "push" "pending")) "a" =
        some (recordA "push" "pending") ∧
      (recordA "push" "pending").PackageID = "pkg" ∧
      (recordA "push" "pending").Branch = "dev" ∧
      (recordA "push" "pending").TransportType = "push" ∧
      LoadLatestPendingTransport (fun c => c) (dirA "pull" "pending" (recordA "push" "pending"))
        "pkg" "dev" "push" = .ok none) ∧
    (LoadLatestPendingTransport (fun c => c)
        (dirA "push" "pending" (recordA "push" "completed")) "pkg" "dev" "push" =
        .ok (some (recordA "push" "completed")) ∧
      (recordA "push" "completed").TransportStatus = "completed") := by
  decide

/-- The exact result of `LoadLatestPendingTransport`: it returns the error of reading the index,
not-found for a missing index, and otherwise the record of the last (newest) index item
that passes its tests: the status of the item in the index, normalised, is not
completed; the type of the item in the index matches the filter type; the record file
loads; and the record matches every filter that is given (package id, branch, type), the
type filter being trimmed and types being compared after normalisation.  It reports
not-found exactly when no item passes.  The record returned belongs to an item of the
index whose index status is not completed, so it is not completed itself whenever the
index carries the status of the record. -/
theorem loadLatestPending_spec (table : Char → Char) (dir : TransportDir)
    (packageID branch transportType : String) :
    (∀ e, dir.indexFile = .error e →
      LoadLatestPendingTransport table dir packageID branch transportType = .error e) ∧
    (dir.indexFile = .ok none →
      LoadLatestPendingTransport table dir packageID branch transportType = .ok none) ∧
    (∀ v items, dir.indexFile = .ok (some ⟨v, items⟩) →
      ∃ res, LoadLatestPendingTransport table dir packageID branch transportType = .ok res ∧
        (∀ r, res = some r ↔
          ∃ older it newer, items = older ++ it :: newer ∧
            pendingMatch table dir packageID branch (TrimSpace transportType) it r ∧
            ∀ x ∈ newer, ∀ r2,
              ¬ pendingMatch table dir packageID branch (TrimSpace transportType) x r2) ∧
        (res = none ↔
          ∀ it ∈ items, ∀ r,
            ¬ pendingMatch table dir packageID branch (TrimSpace transportType) it r) ∧
        (∀ r, res = some r →
          ∃ it ∈ items, pendingMatch table dir packageID branch (TrimSpace transportType) it r ∧
            (normalizeTransportStatus table it.TransportStatus = r.TransportStatus →
              r.TransportStatus ≠ "completed"))) := by
  have hnone : ∀ x : TransportIndexItem,
      pendingCandidate table dir packageID branch (TrimSpace transportType) x = none ↔
        ∀ r2, ¬ pendingMatch table dir packageID branch (TrimSpace transportType) x r2 := by
    intro x
    constructor
    · intro h r2 hm
      rw [← pendingCandidate_iff, h] at hm
      cases hm
    · intro h
      cases hc : pendingCandidate table dir packageID branch (TrimSpace transportType) x with
      | none => rfl
      | some r2 => exact absurd ((pendingCandidate_iff _ _ _ _ _ _ _).1 hc) (h r2)
  refine ⟨fun e he => ?_, fun he => ?_, fun v items he => ?_⟩
  · unfold LoadLatestPendingTransport loadIndex
    rw [he]
  · unfold LoadLatestPendingTransport loadIndex
    rw [he]
  · have hres : LoadLatestPendingTransport table dir packageID branch transportType =
        .ok (pendingScan table dir packageID branch (TrimSpace transportType) items.reverse) := by
      unfold LoadLatestPendingTransport loadIndex
      rw [he]
    have hsome : ∀ r,
        pendingScan table dir packageID branch (TrimSpace transportType) items.reverse = some r ↔
          ∃ older it newer, items = older ++ it :: newer ∧
            pendingMatch table dir packageID branch (TrimSpace transportType) it r ∧
            ∀ x ∈ newer, ∀ r2,
              ¬ pendingMatch table dir packageID branch (TrimSpace transportType) x r2 := by
      intro r
      rw [pendingScan_some]
      constructor
      · rintro ⟨pre, it, post, e1, e2, e3⟩
        refine ⟨post.reverse, it, pre.reverse, ?_, (pendingCandidate_iff _ _ _ _ _ _ _).1 e3, ?_⟩
        · have := congrArg List.reverse e1
          simpa using this
        · intro x hx
          exact (hnone x).1 (e2 x (List.mem_reverse.1 hx))
      · rintro ⟨older, it, newer, e1, e2, e3⟩
        refine ⟨newer.reverse, it, older.reverse, ?_, ?_, (pendingCandidate_iff _ _ _ _ _ _ _).2 e2⟩
        · rw [e1]
          simp
        · intro x hx
          exact (hnone x).2 (e3 x (List.mem_reverse.1 hx))
    refine ⟨_, hres, hsome, ?_, ?_⟩
    · rw [pendingScan_none]
      constructor
      · intro h it hit
        exact (hnone it).1 (h it (List.mem_reverse.2 hit))
      · intro h x hx
        exact (hnone x).2 (h x (List.mem_reverse.1 hx))
    · intro r hr
      obtain ⟨older, it, newer, e1, e2, _⟩ := (hsome r).1 hr
      refine ⟨it, by rw [e1]; simp, e2, ?_⟩
      intro e
      rw [← e]
      exact e2.1

/-- C18: `LoadLatestPendingTransport` tests the status on the index item only.  For every
index and set of stored records it returns the record of the last (newest) index item
whose status in the index is not completed, whose type in the index matches the filter
type, whose record file loads and whose record matches every filter that is given, and it
reports not-found exactly when no item passes; the record returned is not completed
whenever the index carries the status of the record.  When the index says pending and
the record file says completed, the record is returned all the same: the record
returned has transportStatus "completed". -/
theorem loadLatestPending_returns_completed :
    (∀ (table : Char → Char) (dir : TransportDir) (packageID branch transportType : String),
      (∀ e, dir.indexFile = .error e →
        LoadLatestPendingTransport table dir packageID branch transportType = .error e) ∧
      (dir.indexFile = .ok none →
        LoadLatestPendingTransport table dir packageID branch transportType = .ok none) ∧
      (∀ v items, dir.indexFile = .ok (some ⟨v, items⟩) →
        ∃ res, LoadLatestPendingTransport table dir packageID branch transportType = .ok res ∧
          (∀ r, res = some r ↔
            ∃ older it newer, items = older ++ it :: newer ∧
              pendingMatch table dir packageID branch (TrimSpace transportType) it r ∧
              ∀ x ∈ newer, ∀ r2,
                ¬ pendingMatch table dir packageID branch (TrimSpace transportType) x r2) ∧
          (res = none ↔
            ∀ it ∈ items, ∀ r,
              ¬ pendingMatch table dir packageID branch (TrimSpace transportType) it r) ∧
          (∀ r, res = some r →
            ∃ it ∈ items,
              pendingMatch table dir packageID branch (TrimSpace transportType) it r ∧
              (normalizeTransportStatus table it.TransportStatus = r.TransportStatus →
                r.TransportStatus ≠ "completed")))) ∧
    (dirA "push" "pending" (recordA "push" "completed")).indexFile =
      .ok (some ⟨1, [⟨1, "a", "push", "pending", "2024-01-01T00:00:00Z"⟩]⟩) ∧
    loadRecordFile (fun c => c) (dirA "push" "pending" (recordA "push" "completed")) "a" =
      some (recordA "push" "completed") ∧
    LoadLatestPendingTransport (fun c => c)
      (dirA "push" "pending" (recordA "push" "completed")) "pkg" "dev" "push" =
      .ok (some (recordA "push" "completed")) ∧
    (recordA "push" "completed").TransportStatus = "completed" :=
  ⟨loadLatestPending_spec, rfl, by decide, loadLatestPending_index_decides.2.1,
    loadLatestPending_index_decides.2.2⟩

/-! ## Git state and commit messages -/

theorem splitLines_sorted (s : String) :
    (splitLines s).Pairwise (fun a b => strLt b a = false) :=
  sortSlice_sorted strLt_strict _

/-- C19: the commits `gitPendingChanges` returns are not in the order git printed them.
`git rev-list --reverse origin/dev..HEAD` prints the older commit `b7e2...` before the
newer commit `1a9c...`; `gitPendingChanges` returns them through `splitLines`, which
sorts its lines, so the newer commit comes first.  `mergeStringList` sorts in the same
way, so the gitCommits of a resumed transport are in hash order too. -/
theorem gitPendingChanges_sorts_commits :
    Split "b7e23ac41f0d5e6a7b8c9d0e1f2a3b4c5d6e7f80\n1a9c04d2e3f4a5b6c7d8e9f0a1b2c3d4e5f6a7b8\n"
        '\n' =
      ["b7e23ac41f0d5e6a7b8c9d0e1f2a3b4c5d6e7f80", "1a9c04d2e3f4a5b6c7d8e9f0a1b2c3d4e5f6a7b8", ""] ∧
    gitPendingChanges gitTwoCommits "origin/dev" "dev" =
      .ok (["IntegrationPackage/iFlows/Orders/META-INF/MANIFEST.MF"],
        ["1a9c04d2e3f4a5b6c7d8e9f0a1b2c3d4e5f6a7b8", "b7e23ac41f0d5e6a7b8c9d0e1f2a3b4c5d6e7f80"]) ∧
    mergeStringList ["b7e23ac41f0d5e6a7b8c9d0e1f2a3b4c5d6e7f80"]
        ["1a9c04d2e3f4a5b6c7d8e9f0a1b2c3d4e5f6a7b8"] =
      ["1a9c04d2e3f4a5b6c7d8e9f0a1b2c3d4e5f6a7b8", "b7e23ac41f0d5e6a7b8c9d0e1f2a3b4c5d6e7f80"] := by
  decide

theorem splitL_cons (sep c : Char) (cs : List Char) :
    splitL sep (c :: cs) =
      if c = sep then [] :: splitL sep cs
      else
        match splitL sep cs with
        | [] => [[c]]
        | h :: t => (c :: h) :: t := rfl

theorem splitL_no_sep (sep : Char) (a : List Char) (h : sep ∉ a) : splitL sep a = [a] := by
  induction a with
  | nil => rfl
  | cons c cs ih =>
    have hc : c ≠ sep := fun e => h (e ▸ List.mem_cons_self _ _)
    have hcs : sep ∉ cs := fun e => h (List.mem_cons_of_mem _ e)
    rw [splitL_cons, if_neg hc, ih hcs]

theorem splitL_append (sep : Char) (a rest : List Char) (h : sep ∉ a) :
    splitL sep (a ++ sep :: rest) = a :: splitL sep rest := by
  induction a with
  | nil =>
    show splitL sep (sep :: rest) = _
    rw [splitL_cons, if_pos rfl]
  | cons c cs ih =>
    have hc : c ≠ sep := fun e => h (e ▸ List.mem_cons_self _ _)
    have hcs : sep ∉ cs := fun e => h (List.mem_cons_of_mem _ e)
    show splitL sep (c :: (cs ++ sep :: rest)) = _
    rw [splitL_cons, if_neg hc, ih hcs]

/-- C20: `buildTransportCommitMessage` produces the strict, parseable format.  The
message is transportId, a space, transportType, a space and commitType, followed by a
space and the trimmed extra text exactly when the extra text is not blank.  When the
three fields hold no space, splitting the message on single spaces gives them back as
its first three tokens, and as its only tokens when the extra text is blank. -/
theorem buildTransportCommitMessage_format (transportID transportType commitType extra : String) :
    (TrimSpace extra = "" →
      buildTransportCommitMessage transportID transportType commitType extra =
        transportID ++ " " ++ transportType ++ " " ++ commitType) ∧
    (TrimSpace extra ≠ "" →
      buildTransportCommitMessage transportID transportType commitType extra =
        transportID ++ " " ++ transportType ++ " " ++ commitType ++ " " ++ TrimSpace extra) ∧
    (' ' ∉ transportID.data → ' ' ∉ transportType.data → ' ' ∉ commitType.data →
      (Split (buildTransportCommitMessage transportID transportType commitType extra) ' ').take 3
          = [transportID, transportType, commitType] ∧
        (TrimSpace extra = "" →
          Split (buildTransportCommitMessage transportID transportType commitType extra) ' '
            = [transportID, transportType, commitType])) := by
  refine ⟨fun h => ?_, fun h => ?_, fun h1 h2 h3 => ?_⟩
  · unfold buildTransportCommitMessage
    simp only [h, if_true]
  · unfold buildTransportCommitMessage
    simp only [h, if_false]
  · have hblank : TrimSpace extra = "" →
        Split (buildTransportCommitMessage transportID transportType commitType extra) ' '
          = [transportID, transportType, commitType] := by
      intro h
      unfold buildTransportCommitMessage Split
      simp only [h, if_true, String.data_append]
      simp only [List.append_assoc, List.singleton_append]
      show List.map String.mk (splitL ' ' (transportID.data ++ ' ' :: (transportType.data ++
        ' ' :: commitType.data))) = _
      rw [splitL_append _ _ _ h1, splitL_append _ _ _ h2, splitL_no_sep _ _ h3]
      rfl
    refine ⟨?_, hblank⟩
    by_cases h : TrimSpace extra = ""
    · rw [hblank h]
      rfl
    · unfold buildTransportCommitMessage Split
      simp only [h, if_false, String.data_append]
      simp only [List.append_assoc, List.singleton_append]
      show List.take 3 (List.map String.mk (splitL ' ' (transportID.data ++ ' ' ::
        (transportType.data ++ ' ' :: (commitType.data ++ ' ' :: (TrimSpace extra).data))))) = _
      rw [splitL_append _ _ _ h1, splitL_append _ _ _ h2, splitL_append _ _ _ h3]
      cases splitL ' ' (TrimSpace extra).data <;> rfl

/-- C20, at a concrete input: with an extra text the message has more than three
tokens, the first three being the fields. -/
theorem buildTransportCommitMessage_format_witness :
    buildTransportCommitMessage "20240229T123456123Z" "push" "contents" "  fix mapping " =
      "20240229T123456123Z push contents fix mapping" ∧
    (Split (buildTransportCommitMessage "20240229T123456123Z" "push" "contents" "  fix mapping ")
      ' ').take 3 = ["20240229T123456123Z", "push", "contents"] :=
  ⟨by decide,
    ((buildTransportCommitMessage_format "20240229T123456123Z" "push" "contents"
      "  fix mapping ").2.2 (by decide) (by decide) (by decide)).1⟩

/-! ## Tag names -/

theorem replaceRune_twice (s : String) :
    (replaceRune ' ' '-' (replaceRune '/' '-' s)).data =
      s.data.map (fun c => if c = '/' ∨ c = ' ' then '-' else c) := by
  unfold replaceRune
  simp only [List.map_map]
  apply List.map_congr_left
  intro c _
  by_cases h1 : c = '/'
  · simp [h1]
  · by_cases h2 : c = ' '
    · simp [h2]
    · simp [h1, h2]

theorem trimPrefix_subset (s pre : String) (c : Char) (h : c ∈ (TrimPrefix s pre).data) :
    c ∈ s.data := by
  unfold TrimPrefix at h
  split_ifs at h
  · exact List.mem_of_mem_drop h
  · exact h

/-- The branch name after the trimming and the stripping of the ref prefixes, before
the replacements. -/
theorem tagBranchName_eq (branch : String) :
    ∃ s : String,
      s = (let b := TrimPrefix (TrimPrefix (TrimSpace branch) "refs/heads/") "refs/remotes/"
           if HasPrefix b "origin/" = true then TrimPrefix b "origin/" else b) ∧
      (∀ c ∈ s.data, c ∈ (TrimSpace branch).data) ∧
      tagBranchName branch =
        (if trimFunc (fun c => c = '-')
            (s.data.map (fun c => if c = '/' ∨ c = ' ' then '-' else c)) = [] then "unknown"
         else ⟨trimFunc (fun c => c = '-')
            (s.data.map (fun c => if c = '/' ∨ c = ' ' then '-' else c))⟩) := by
  refine ⟨_, rfl, ?_, ?_⟩
  · intro c hc
    have h1 : c ∈ (TrimPrefix (TrimPrefix (TrimSpace branch) "refs/heads/")
        "refs/remotes/").data := by
      dsimp only at hc
      split_ifs at hc
      · exact trimPrefix_subset _ _ c hc
      · exact hc
    exact trimPrefix_subset _ _ c (trimPrefix_subset _ _ c h1)
  · unfold tagBranchName
    dsimp only
    have e : ∀ t : String, Trim (replaceRune ' ' '-' (replaceRune '/' '-' t)) "-" =
        ⟨trimFunc (fun c => c = '-')
          (t.data.map (fun c => if c = '/' ∨ c = ' ' then '-' else c))⟩ := by
      intro t
      unfold Trim
      rw [replaceRune_twice]
      congr 1
      congr 1
      funext c
      simp
    rw [e]
    congr 1
    rw [String.ext_iff]

theorem tagBranchName_chars (branch : String) :
    tagBranchName branch ≠ "" ∧
    (∀ c ∈ (tagBranchName branch).data, c ≠ '/' ∧ c ≠ ' ') ∧
    ((∀ c ∈ (TrimSpace branch).data, isSpace c = true → c = ' ') →
      ∀ c ∈ (tagBranchName branch).data, isSpace c = false) := by
  obtain ⟨s, _, hs, e⟩ := tagBranchName_eq branch
  rw [e]
  have hmem : ∀ c ∈ trimFunc (fun c => c = '-')
      (s.data.map (fun c => if c = '/' ∨ c = ' ' then '-' else c)),
      c = '-' ∨ (c ∈ s.data ∧ c ≠ '/' ∧ c ≠ ' ') := by
    intro c hc
    have h := trimFunc_subset _ _ c hc
    obtain ⟨d, hd, hdc⟩ := List.mem_map.1 h
    by_cases h1 : d = '/' ∨ d = ' '
    · rw [if_pos h1] at hdc
      exact Or.inl hdc.symm
    · rw [if_neg h1] at hdc
      rw [← hdc]
      exact Or.inr ⟨hd, fun h => h1 (Or.inl h), fun h => h1 (Or.inr h)⟩
  by_cases h0 : trimFunc (fun c => c = '-')
      (s.data.map (fun c => if c = '/' ∨ c = ' ' then '-' else c)) = []
  · rw [if_pos h0]
    refine ⟨by decide, by decide, fun _ => by decide⟩
  · rw [if_neg h0]
    refine ⟨fun h => h0 (congrArg String.data h), ?_, ?_⟩
    · intro c hc
      rcases hmem c hc with h | h
      · rw [h]
        exact ⟨by decide, by decide⟩
      · exact h.2
    · intro hsp c hc
      rcases hmem c hc with h | h
      · rw [h]
        rfl
      · cases hc2 : isSpace c with
        | false => rfl
        | true => exact absurd (hsp c (hs c h.1) hc2) h.2.2

/-- C21 (amended): `transportTagName` returns the trimmed transport id, an underscore
and the normalised branch.  The normalised branch is the trimmed branch with the
prefixes `refs/heads/`, `refs/remotes/` and then `origin/` stripped, every `/` and
every space replaced by `-`, and the `-` at both ends removed, or `unknown` when nothing
is left.  The part after the underscore is never empty and holds no `/` and no space,
and no white space at all when the trimmed branch holds no white space other than
spaces.  For the branches dev, qas and prd the tag is the trimmed id, `_` and the
branch. -/
theorem transportTagName_spec (transportID branch : String) :
    (∃ s : String,
      s = (let b := TrimPrefix (TrimPrefix (TrimSpace branch) "refs/heads/") "refs/remotes/"
           if HasPrefix b "origin/" = true then TrimPrefix b "origin/" else b) ∧
      transportTagName transportID branch = TrimSpace transportID ++ "_" ++
        (if trimFunc (fun c => c = '-')
            (s.data.map (fun c => if c = '/' ∨ c = ' ' then '-' else c)) = [] then "unknown"
         else ⟨trimFunc (fun c => c = '-')
            (s.data.map (fun c => if c = '/' ∨ c = ' ' then '-' else c))⟩)) ∧
    (∃ part : String,
      transportTagName transportID branch = TrimSpace transportID ++ "_" ++ part ∧
      part ≠ "" ∧ (∀ c ∈ part.data, c ≠ '/' ∧ c ≠ ' ') ∧
      ((∀ c ∈ (TrimSpace branch).data, isSpace c = true → c = ' ') →
        ∀ c ∈ part.data, isSpace c = false)) ∧
    (∀ b : String, b = "dev" ∨ b = "qas" ∨ b = "prd" →
      transportTagName transportID b = TrimSpace transportID ++ "_" ++ b) := by
  refine ⟨?_, ?_, ?_⟩
  · obtain ⟨s, hs, _, e⟩ := tagBranchName_eq branch
    refine ⟨s, hs, ?_⟩
    unfold transportTagName
    rw [e]
  · obtain ⟨h1, h2, h3⟩ := tagBranchName_chars branch
    exact ⟨tagBranchName branch, rfl, h1, h2, h3⟩
  · intro b hb
    unfold transportTagName
    rcases hb with h | h | h
    · rw [h]
      rfl
    · rw [h]
      rfl
    · rw [h]
      rfl

/-- C21, the claim as stated fails: the transport id is trimmed, so the tag of the id
" T1" on dev is not the id followed by `_dev`; a `/` at the end of the branch is
removed, not replaced; a branch made of a `/` gives `unknown`; and a tab inside the
branch stays in the tag. -/
theorem transportTagName_normalises :
    transportTagName " T1" "dev" = "T1_dev" ∧
    transportTagName " T1" "dev" ≠ " T1" ++ "_" ++ "dev" ∧
    transportTagName "T1" "feature/x/" = "T1_feature-x" ∧
    transportTagName "T1" "feature/x/" ≠
      "T1" ++ "_" ++ replaceRune ' ' '-' (replaceRune '/' '-' "feature/x/") ∧
    transportTagName "T1" "/" = "T1_unknown" ∧
    transportTagName "T1" "a\tb" = "T1_a\tb" ∧
    (∃ c ∈ (transportTagName "T1" "a\tb").data, isSpace c = true) := by
  decide

/-! ## The porcelain status -/

theorem trimLeftFunc_head (p : Char → Bool) (l : List Char)
    (h : ∀ a ∈ l.head?, p a = false) : trimLeftFunc p l = l := by
  cases l with
  | nil => rfl
  | cons a m =>
    have ha : p a = false := h a rfl
    simp [trimLeftFunc, ha]

theorem trimFunc_ends (p : Char → Bool) (l : List Char)
    (h1 : ∀ a ∈ l.head?, p a = false) (h2 : ∀ b ∈ l.getLast?, p b = false) :
    trimFunc p l = l := by
  unfold trimFunc
  rw [trimLeftFunc_head p l h1, trimLeftFunc_head p l.reverse, List.reverse_reverse]
  rw [List.head?_reverse]
  exact h2

theorem runeLen_pos (c : Char) : 1 ≤ runeLen c := by
  unfold runeLen
  split_ifs <;> omega

theorem byteLen_pos (l : List Char) (h : l ≠ []) : 1 ≤ byteLen l := by
  cases l with
  | nil => exact absurd rfl h
  | cons c cs =>
    have := runeLen_pos c
    simp only [byteLen, List.map_cons, List.sum_cons]
    omega

theorem runeLen_ascii (c : Char) (h : c.toNat < 128) : runeLen c = 1 := by
  unfold runeLen
  rw [if_pos (by omega)]

theorem getLast?_cons_of_ne (a : Char) (l : List Char) (h : l ≠ []) :
    (a :: l).getLast? = l.getLast? := by
  cases l with
  | nil => exact absurd rfl h
  | cons b m => rfl

/-- An entry line whose first status column is not blank: the path is read whole. -/
theorem porcelainLinePath_entry (x y : Char) (path : List Char)
    (hx : isSpace x = false) (hxa : x.toNat < 128) (hya : y.toNat < 128)
    (hne : path ≠ [])
    (hhead : ∀ a ∈ path.head?, isSpace a = false)
    (hlast : ∀ b ∈ path.getLast?, isSpace b = false)
    (harrow : containsL ['-', '>'] (x :: y :: ' ' :: path) = false) :
    porcelainLinePath ⟨x :: y :: ' ' :: path⟩ = some ⟨path⟩ := by
  have htrim : TrimSpace ⟨x :: y :: ' ' :: path⟩ = ⟨x :: y :: ' ' :: path⟩ := by
    unfold TrimSpace
    rw [trimFunc_ends]
    · intro a ha
      cases ha
      exact hx
    · rw [getLast?_cons_of_ne _ _ (by simp), getLast?_cons_of_ne _ _ (by simp),
        getLast?_cons_of_ne _ _ hne]
      exact hlast
  have hlen : byteLen (x :: y :: ' ' :: path) > 3 := by
    have := byteLen_pos path hne
    have e1 := runeLen_ascii x hxa
    have e2 := runeLen_ascii y hya
    have e3 : runeLen ' ' = 1 := rfl
    simp only [byteLen, List.map_cons, List.sum_cons] at this ⊢
    omega
  have hdrop : dropBytes 2 (x :: y :: ' ' :: path) = ' ' :: path := by
    have e1 := runeLen_ascii x hxa
    have e2 := runeLen_ascii y hya
    simp [dropBytes, e1, e2]
  have htrim2 : TrimSpace ⟨' ' :: path⟩ = ⟨path⟩ := by
    unfold TrimSpace
    have e : trimFunc isSpace (' ' :: path) = trimFunc isSpace path := by
      unfold trimFunc
      rfl
    show (⟨trimFunc isSpace (' ' :: path)⟩ : String) = ⟨path⟩
    rw [e, trimFunc_ends _ _ hhead hlast]
  unfold porcelainLinePath
  simp only [htrim]
  have hne1 : (⟨x :: y :: ' ' :: path⟩ : String) ≠ "" :=
    fun e => List.cons_ne_nil _ _ (congrArg String.data e)
  have hne2 : (⟨path⟩ : String) ≠ "" := fun e => hne (congrArg String.data e)
  rw [if_neg hne1]
  have hc : Contains ⟨x :: y :: ' ' :: path⟩ "->" = false := harrow
  rw [hc, if_neg (by decide), if_pos hlen, hdrop, htrim2, if_pos hne2]

/-- An entry line whose first status column is blank: the path is read when it has two
bytes or more, and the line is skipped when the path has one byte. -/
theorem porcelainLinePath_blank_first (y : Char) (path : List Char)
    (hy : isSpace y = false) (hya : y.toNat < 128)
    (hne : path ≠ [])
    (hhead : ∀ a ∈ path.head?, isSpace a = false)
    (hlast : ∀ b ∈ path.getLast?, isSpace b = false)
    (harrow : containsL ['-', '>'] (y :: ' ' :: path) = false) :
    porcelainLinePath ⟨' ' :: y :: ' ' :: path⟩ =
      if 2 ≤ byteLen path then some ⟨path⟩ else none := by
  have htrim : TrimSpace ⟨' ' :: y :: ' ' :: path⟩ = ⟨y :: ' ' :: path⟩ := by
    have e : trimFunc isSpace (' ' :: y :: ' ' :: path) = trimFunc isSpace (y :: ' ' :: path) := by
      unfold trimFunc
      rfl
    show (⟨trimFunc isSpace (' ' :: y :: ' ' :: path)⟩ : String) = ⟨y :: ' ' :: path⟩
    rw [e, trimFunc_ends]
    · intro a ha
      cases ha
      exact hy
    · rw [getLast?_cons_of_ne _ _ (by simp), getLast?_cons_of_ne _ _ hne]
      exact hlast
  have hlen : byteLen (y :: ' ' :: path) = 2 + byteLen path := by
    have e2 := runeLen_ascii y hya
    have e3 : runeLen ' ' = 1 := rfl
    simp only [byteLen, List.map_cons, List.sum_cons]
    omega
  have hdrop : dropBytes 2 (y :: ' ' :: path) = path := by
    have e2 := runeLen_ascii y hya
    have e3 : runeLen ' ' = 1 := rfl
    cases path with
    | nil => simp [dropBytes, e2, e3]
    | cons c cs => simp [dropBytes, e2, e3]
  have htrim2 : TrimSpace ⟨path⟩ = ⟨path⟩ := by
    show (⟨trimFunc isSpace path⟩ : String) = ⟨path⟩
    rw [trimFunc_ends _ _ hhead hlast]
  have hne1 : (⟨y :: ' ' :: path⟩ : String) ≠ "" :=
    fun e => List.cons_ne_nil _ _ (congrArg String.data e)
  have hne2 : (⟨path⟩ : String) ≠ "" := fun e => hne (congrArg String.data e)
  have hc : Contains ⟨y :: ' ' :: path⟩ "->" = false := harrow
  unfold porcelainLinePath
  simp only [htrim]
  rw [if_neg hne1, hc, if_neg (by decide), hlen, hdrop, htrim2, if_pos hne2]
  by_cases h : 2 ≤ byteLen path
  · rw [if_pos h, if_pos (by omega)]
  · rw [if_neg h, if_neg (by omega)]

theorem gitPorcelainPaths_mem (sep : Char) (runGitOutput : List String → Except String String)
    (out : String) (h : runGitOutput ["status", "--porcelain"] = .ok out) (x : String) :
    x ∈ gitPorcelainPaths sep runGitOutput ↔
      x ≠ "" ∧ ∃ line ∈ Split out '\n', ∃ p, porcelainLinePath line = some p ∧
        ToSlash sep (TrimSpace p) = x := by
  unfold gitPorcelainPaths
  rw [h]
  simp only
  rw [mem_sortSlice, dedupeStable_eq, pickFirst_mem]
  constructor
  · rintro ⟨h1, h2, _⟩
    obtain ⟨p, hp, hpx⟩ := List.mem_map.1 h1
    obtain ⟨line, hl, hlp⟩ := List.mem_filterMap.1 hp
    exact ⟨by simpa using h2, line, hl, p, hlp, hpx⟩
  · rintro ⟨h1, line, hl, p, hlp, hpx⟩
    exact ⟨List.mem_map.2 ⟨p, List.mem_filterMap.2 ⟨line, hl, hlp⟩, hpx⟩, by simpa using h1,
      List.not_mem_nil _⟩

theorem gitPorcelainPaths_sorted (sep : Char)
    (runGitOutput : List String → Except String String) :
    (gitPorcelainPaths sep runGitOutput).Pairwise (fun a b => strLt a b = true) ∧
      (gitPorcelainPaths sep runGitOutput).Nodup := by
  unfold gitPorcelainPaths
  cases runGitOutput ["status", "--porcelain"] with
  | error e => exact ⟨List.Pairwise.nil, List.nodup_nil⟩
  | ok out =>
    simp only
    have hnd : (sortSlice strLt (dedupeStable sep
        ((Split out '\n').filterMap porcelainLinePath))).Nodup := by
      rw [(sortSlice_perm strLt _).nodup_iff, dedupeStable_eq]
      exact pickFirst_nodup _ _ _
    refine ⟨?_, hnd⟩
    have hs := sortSlice_sorted strLt_strict
      (dedupeStable sep ((Split out '\n').filterMap porcelainLinePath))
    refine List.Pairwise.imp ?_ (List.Pairwise.and hs hnd)
    intro a b hab
    cases hlt : strLt a b with
    | true => rfl
    | false => exact absurd (strLt_total a b hlt hab.1) hab.2

/-- C22: `gitPorcelainPaths` over the text `git status --porcelain` prints.  The result
is strictly ascending and free of duplicates, and it holds exactly the non-empty
normalised paths the loop reads from the lines of the output.  The loop reads the whole
path of an entry line whose first status column is not blank, and of an entry line
whose first status column is blank when the path has two bytes or more; it skips the
entry line whose first status column is blank and whose path has one byte: the status
" M f" next to "?? g", a rename and "MM dir/file.go" gives dir/file.go, g and new.txt,
without f. -/
theorem gitPorcelainPaths_drops_short_path :
    (∀ (sep : Char) (runGitOutput : List String → Except String String),
      (gitPorcelainPaths sep runGitOutput).Pairwise (fun a b => strLt a b = true) ∧
      (gitPorcelainPaths sep runGitOutput).Nodup) ∧
    (∀ (sep : Char) (runGitOutput : List String → Except String String) (out x : String),
      runGitOutput ["status", "--porcelain"] = .ok out →
      (x ∈ gitPorcelainPaths sep runGitOutput ↔
        x ≠ "" ∧ ∃ line ∈ Split out '\n', ∃ p, porcelainLinePath line = some p ∧
          ToSlash sep (TrimSpace p) = x)) ∧
    (∀ (x y : Char) (path : List Char), isSpace x = false → x.toNat < 128 → y.toNat < 128 →
      path ≠ [] → (∀ a ∈ path.head?, isSpace a = false) →
      (∀ b ∈ path.getLast?, isSpace b = false) →
      containsL ['-', '>'] (x :: y :: ' ' :: path) = false →
      porcelainLinePath ⟨x :: y :: ' ' :: path⟩ = some ⟨path⟩) ∧
    (∀ (y : Char) (path : List Char), isSpace y = false → y.toNat < 128 →
      path ≠ [] → (∀ a ∈ path.head?, isSpace a = false) →
      (∀ b ∈ path.getLast?, isSpace b = false) →
      containsL ['-', '>'] (y :: ' ' :: path) = false →
      porcelainLinePath ⟨' ' :: y :: ' ' :: path⟩ =
        if 2 ≤ byteLen path then some ⟨path⟩ else none) ∧
    gitPorcelainPaths '/' (gitxOutput (statusPrints
        "?? g\nR  old.txt -> new.txt\n M f\nMM dir/file.go\n")) =
      ["dir/file.go", "g", "new.txt"] ∧
    gitPorcelainPaths '/' (gitxOutput (statusPrints " M f\n")) = [] ∧
    gitPorcelainPaths '/' (gitxOutput (statusPrints "M  f\n")) = ["f"] ∧
    gitPorcelainPaths '/' (gitxOutput (statusPrints " M fg\n")) = ["fg"] :=
  ⟨gitPorcelainPaths_sorted, fun sep run out x h => gitPorcelainPaths_mem sep run out h x,
    porcelainLinePath_entry, porcelainLinePath_blank_first,
    by decide, by decide, by decide, by decide⟩

/-! ## The requests of a delete -/

theorem deleteRequest_path_active (entitySet id : String) :
    (⟨entitySet, id, "active"⟩ : DeleteRequest).path =
      "/api/v1/" ++ entitySet ++ "(Id='" ++ escapeODataID id ++ "',Version='active')" := by
  have h1 : TrimSpace "active" ≠ "" := by decide
  have h2 : escapeODataID "active" = "active" := by decide
  have h3 : "',Version='" ++ ("active" ++ "')") = "',Version='active')" := by decide
  unfold DeleteRequest.path
  simp only
  rw [if_neg h1, h2, String.append_assoc, String.append_assoc, h3]

/-- C23: `deleteArtifactInCPI` over a client that is a function from request to
result and records the requests it receives.  For iFlows the first request is the
DELETE of IntegrationAdapterDesigntimeArtifacts(Id='<id>') without a Version key; the
fallback DELETE of IntegrationDesigntimeArtifacts(Id='<id>',Version='active') is sent
exactly when the first call failed with HTTP 400 or 404, and its result is returned;
otherwise the result of the first call is returned and nothing else is sent.  For
ValueMappings, MessageMappings and Scripts exactly one DELETE goes to the entity set of
the kind with Version='active' and its result is returned.  For every other kind,
CustomTags among them, no request is sent and the call succeeds. -/
theorem deleteArtifactInCPI_requests (answer : DeleteRequest → Option CPIError)
    (kind id : String) :
    (kind = "iFlows" →
      (⟨"IntegrationAdapterDesigntimeArtifacts", id, ""⟩ : DeleteRequest).path =
        "/api/v1/IntegrationAdapterDesigntimeArtifacts(Id='" ++ escapeODataID id ++ "')" ∧
      (⟨"IntegrationDesigntimeArtifacts", id, "active"⟩ : DeleteRequest).path =
        "/api/v1/IntegrationDesigntimeArtifacts(Id='" ++ escapeODataID id ++
          "',Version='active')" ∧
      (deleteArtifactInCPI (requestClient answer) [] kind id).2.1.head? =
        some ⟨"IntegrationAdapterDesigntimeArtifacts", id, ""⟩ ∧
      ((⟨"IntegrationDesigntimeArtifacts", id, "active"⟩ : DeleteRequest) ∈
          (deleteArtifactInCPI (requestClient answer) [] kind id).2.1 ↔
        ∃ code status body,
          answer ⟨"IntegrationAdapterDesigntimeArtifacts", id, ""⟩ =
            some (.http code status body) ∧ (code = 400 ∨ code = 404)) ∧
      ((∃ code status body,
          answer ⟨"IntegrationAdapterDesigntimeArtifacts", id, ""⟩ =
            some (.http code status body) ∧ (code = 400 ∨ code = 404)) →
        (deleteArtifactInCPI (requestClient answer) [] kind id).2.1 =
          [⟨"IntegrationAdapterDesigntimeArtifacts", id, ""⟩,
            ⟨"IntegrationDesigntimeArtifacts", id, "active"⟩] ∧
        (deleteArtifactInCPI (requestClient answer) [] kind id).1 =
          answer ⟨"IntegrationDesigntimeArtifacts", id, "active"⟩) ∧
      ((¬ ∃ code status body,
          answer ⟨"IntegrationAdapterDesigntimeArtifacts", id, ""⟩ =
            some (.http code status body) ∧ (code = 400 ∨ code = 404)) →
        (deleteArtifactInCPI (requestClient answer) [] kind id).2.1 =
          [⟨"IntegrationAdapterDesigntimeArtifacts", id, ""⟩] ∧
        (deleteArtifactInCPI (requestClient answer) [] kind id).1 =
          answer ⟨"IntegrationAdapterDesigntimeArtifacts", id, ""⟩)) ∧
    (kind = "ValueMappings" ∨ kind = "MessageMappings" ∨ kind = "Scripts" →
      (deleteArtifactInCPI (requestClient answer) [] kind id).2.1 =
        [⟨kindToEntitySet kind, id, "active"⟩] ∧
      (deleteArtifactInCPI (requestClient answer) [] kind id).1 =
        answer ⟨kindToEntitySet kind, id, "active"⟩ ∧
      (⟨kindToEntitySet kind, id, "active"⟩ : DeleteRequest).path =
        "/api/v1/" ++ kindToEntitySet kind ++ "(Id='" ++ escapeODataID id ++
          "',Version='active')") ∧
    (kind ≠ "iFlows" ∧ kind ≠ "ValueMappings" ∧ kind ≠ "MessageMappings" ∧
        kind ≠ "Scripts" →
      (deleteArtifactInCPI (requestClient answer) [] kind id).2.1 = [] ∧
      (deleteArtifactInCPI (requestClient answer) [] kind id).1 = none) ∧
    (deleteArtifactInCPI (requestClient answer) [] "CustomTags" id).2.1 = [] ∧
    (deleteArtifactInCPI (requestClient answer) [] "CustomTags" id).1 = none := by
  refine ⟨?_, ?_, ?_, rfl, rfl⟩
  · intro hk
    subst hk
    refine ⟨rfl, deleteRequest_path_active _ _, ?_⟩
    cases ha : answer ⟨"IntegrationAdapterDesigntimeArtifacts", id, ""⟩ with
    | none =>
      have hn : ¬ ∃ code status body, (none : Option CPIError) =
          some (.http code status body) ∧ (code = 400 ∨ code = 404) := by
        rintro ⟨_, _, _, h, _⟩
        cases h
      simp [deleteArtifactInCPI, requestClient, ha]
    | some e =>
      cases e with
      | other msg =>
        simp [deleteArtifactInCPI, requestClient, ha, IsNotFound, IsBadRequest, isHTTPStatus]
      | http code status body =>
        by_cases hc : code = 400 ∨ code = 404
        · have hb : (IsNotFound (.http code status body) ||
              IsBadRequest (.http code status body)) = true := by
            rcases hc with h | h <;> simp [IsNotFound, IsBadRequest, isHTTPStatus, h]
          simp [deleteArtifactInCPI, requestClient, ha, hb, hc]
        · have hb : (IsNotFound (.http code status body) ||
              IsBadRequest (.http code status body)) = false := by
            simp only [not_or] at hc
            simp [IsNotFound, IsBadRequest, isHTTPStatus, hc.1, hc.2]
          simp [deleteArtifactInCPI, requestClient, ha, hb, hc]
  · intro hk
    refine ⟨?_, ?_, deleteRequest_path_active _ _⟩
    · rcases hk with h | h | h <;> subst h <;> rfl
    · rcases hk with h | h | h <;> subst h <;> rfl
  · rintro ⟨h1, h2, h3, h4⟩
    simp [deleteArtifactInCPI, h1, h2, h3, h4]

/-! ## The kind table -/

theorem deletableKind_iff (kind : String) :
    deletableKind kind = true ↔
      kind = "iFlows" ∨ kind = "ValueMappings" ∨ kind = "MessageMappings" ∨ kind = "Scripts" := by
  simp only [deletableKind, Bool.or_eq_true, decide_eq_true_eq]
  tauto

theorem deployRequiredKind_iff (kind : String) :
    deployRequiredKind kind = true ↔
      kind = "iFlows" ∨ kind = "ValueMappings" ∨ kind = "MessageMappings" ∨ kind = "Scripts" := by
  simp only [deployRequiredKind, Bool.or_eq_true, decide_eq_true_eq]
  tauto

theorem deleteArtifactInCPI_sends_iff (answer : DeleteRequest → Option CPIError)
    (kind id : String) :
    (deleteArtifactInCPI (requestClient answer) [] kind id).2.1 ≠ [] ↔
      kind = "iFlows" ∨ kind = "ValueMappings" ∨ kind = "MessageMappings" ∨ kind = "Scripts" := by
  by_cases h1 : kind = "iFlows"
  · subst h1
    simp only [true_or, iff_true]
    unfold deleteArtifactInCPI
    rw [if_pos rfl]
    cases ha : answer ⟨"IntegrationAdapterDesigntimeArtifacts", id, ""⟩ with
    | none => simp [requestClient, ha]
    | some e =>
      by_cases hb : (IsNotFound e || IsBadRequest e) = true
      · simp [requestClient, ha, hb]
      · simp [requestClient, ha, hb]
  · by_cases h2 : kind = "ValueMappings"
    · subst h2
      simp [deleteArtifactInCPI, requestClient]
    · by_cases h3 : kind = "MessageMappings"
      · subst h3
        simp [deleteArtifactInCPI, requestClient]
      · by_cases h4 : kind = "Scripts"
        · subst h4
          simp [deleteArtifactInCPI, requestClient]
        · simp [deleteArtifactInCPI, h1, h2, h3, h4]

/-- C27: the kind table.  For every kind string these are the same: the closure
`deletableKind` of `partitionChangedKeys` accepts it; the closure `deployRequiredKind` of
the upload step accepts it; `kindToEntitySet` is not empty; `deleteArtifactInCPI` sends a
request; the kind is iFlows, ValueMappings, MessageMappings or Scripts.
`partitionChangedKeys` puts a key whose directory is missing on the delete list exactly
for these kinds, and an upload step that sends its upload and succeeds has one of these
kinds and merges the key into the deploy list, while a step for another kind leaves the
deploy list as it is.  `kindToEntitySet` maps the four kinds to their entity sets, and
CustomTags is in none of the sets. -/
theorem kind_table_consistent (kind : String) :
    (deletableKind kind = true ↔
      kind = "iFlows" ∨ kind = "ValueMappings" ∨ kind = "MessageMappings" ∨ kind = "Scripts") ∧
    (deployRequiredKind kind = true ↔ deletableKind kind = true) ∧
    (kindToEntitySet kind ≠ "" ↔ deletableKind kind = true) ∧
    (∀ (answer : DeleteRequest → Option CPIError) (id : String),
      (deleteArtifactInCPI (requestClient answer) [] kind id).2.1 ≠ [] ↔
        deletableKind kind = true) ∧
    (∀ (fs : FileSystem) (repoRoot : String) (meta : SyncMetadata) (id : String),
      fs.IsDir (fs.Join [repoRoot, resolveContentFolder meta, kind, id]) = false →
      (partitionChangedKeys fs repoRoot meta [⟨kind, id⟩]).1 = [] ∧
      (partitionChangedKeys fs repoRoot meta [⟨kind, id⟩]).2 =
        if deletableKind kind = true then [⟨kind, id⟩] else []) ∧
    (∀ (σ : Type) (client : CPIClient σ) (fs : FileSystem) (repoRoot : String)
      (meta : SyncMetadata) (arts : ArtsByKind) (id : String) (r : Run σ),
      (uploadStep client fs repoRoot meta arts ⟨kind, id⟩ r).failed = none →
      (uploadStep client fs repoRoot meta arts ⟨kind, id⟩ r).record.DeployRemaining =
        (if uploadableIn fs repoRoot meta arts ⟨kind, id⟩ = true then
          mergeDeployRemaining r.record.DeployRemaining [⟨kind, id⟩]
        else r.record.DeployRemaining) ∧
      (uploadableIn fs repoRoot meta arts ⟨kind, id⟩ = true → deployRequiredKind kind = true) ∧
      (deployRequiredKind kind = false →
        (uploadStep client fs repoRoot meta arts ⟨kind, id⟩ r).record.DeployRemaining =
          r.record.DeployRemaining)) ∧
    kindToEntitySet "iFlows" = "IntegrationDesigntimeArtifacts" ∧
    kindToEntitySet "ValueMappings" = "ValueMappingDesigntimeArtifacts" ∧
    kindToEntitySet "MessageMappings" = "MessageMappingDesigntimeArtifacts" ∧
    kindToEntitySet "Scripts" = "ScriptCollectionDesigntimeArtifacts" ∧
    deletableKind "CustomTags" = false ∧ deployRequiredKind "CustomTags" = false ∧
    kindToEntitySet "CustomTags" = "" ∧
    (∀ (answer : DeleteRequest → Option CPIError) (id : String),
      (deleteArtifactInCPI (requestClient answer) [] "CustomTags" id).2.1 = []) := by
  have hdep : deployRequiredKind kind = true ↔ deletableKind kind = true := by
    rw [deletableKind_iff, deployRequiredKind_iff]
  refine ⟨deletableKind_iff kind, hdep, ?_, ?_, ?_, ?_, rfl, rfl, rfl, rfl, rfl, rfl, rfl,
    fun _ _ => rfl⟩
  · rw [kindToEntitySet_ne_empty, hdep]
  · intro answer id
    rw [deleteArtifactInCPI_sends_iff, deletableKind_iff]
  · intro fs repoRoot meta id hdir
    unfold partitionChangedKeys
    simp only [List.foldl_cons, List.foldl_nil, hdir, Bool.false_eq_true, if_false]
    by_cases hk : deletableKind kind = true
    · simp [hk, setInsert]
    · simp [hk]
  · intro σ client fs repoRoot meta arts id r hfail
    have h := (uploadStep_ok client fs repoRoot meta arts ⟨kind, id⟩ r hfail).1
    have hup : uploadableIn fs repoRoot meta arts ⟨kind, id⟩ = true →
        deployRequiredKind kind = true := by
      intro hu
      unfold uploadableIn at hu
      simp only [Bool.and_eq_true, decide_eq_true_eq] at hu
      exact (kindToEntitySet_ne_empty kind).1 hu.2
    refine ⟨?_, hup, ?_⟩
    · rw [h]
    · intro hno
      rw [h]
      have hu : uploadableIn fs repoRoot meta arts ⟨kind, id⟩ = false := by
        cases hu : uploadableIn fs repoRoot meta arts ⟨kind, id⟩ with
        | false => rfl
        | true =>
          rw [hup hu] at hno
          cases hno
      simp [hu]

/-! ## The list merges -/

theorem objectSet_eq (m : List (String × SyncObject)) (l : List SyncObject) :
    objectSet m l = keyedSet (fun o => o.Kind ++ "|" ++ o.ID) SyncObject.isZero m l := rfl

theorem deploySet_eq (m : List (String × deployTarget)) (l : List deployTarget) :
    deploySet m l = keyedSet (fun d => d.Kind ++ "|" ++ d.ID) deployTarget.isZero m l := rfl

theorem mapSet_mem {β : Type} (m : List (String × β)) (key : String) (v : β)
    (e : String × β) (h : e ∈ mapSet m key v) : e = (key, v) ∨ e ∈ m := by
  induction m with
  | nil =>
    simp only [mapSet, List.mem_singleton] at h
    exact Or.inl h
  | cons p rest ih =>
    obtain ⟨k, w⟩ := p
    unfold mapSet at h
    by_cases hk : k = key
    · rw [if_pos hk] at h
      rcases List.mem_cons.1 h with h1 | h1
      · left
        rw [h1, hk]
      · exact Or.inr (List.mem_cons_of_mem _ h1)
    · rw [if_neg hk] at h
      rcases List.mem_cons.1 h with h1 | h1
      · right
        rw [h1]
        exact List.mem_cons_self _ _
      · rcases ih h1 with h2 | h2
        · exact Or.inl h2
        · exact Or.inr (List.mem_cons_of_mem _ h2)

theorem keyedSet_inv {α : Type} (key : α → String) (zero : α → Bool) (l : List α)
    (m : List (String × α)) (hnd : (m.map Prod.fst).Nodup) :
    ((keyedSet key zero m l).map Prod.fst).Nodup ∧
    (∀ e ∈ keyedSet key zero m l,
      e ∈ m ∨ (e.2 ∈ l ∧ zero e.2 = false ∧ e.1 = key e.2)) ∧
    (∀ x ∈ m.map Prod.fst, x ∈ (keyedSet key zero m l).map Prod.fst) ∧
    (∀ o ∈ l, zero o = false → key o ∈ (keyedSet key zero m l).map Prod.fst) := by
  induction l generalizing m with
  | nil =>
    refine ⟨hnd, fun e he => Or.inl he, fun x hx => hx, fun o ho => absurd ho (List.not_mem_nil o)⟩
  | cons a l ih =>
    have step : keyedSet key zero m (a :: l) =
        keyedSet key zero (if zero a = true then m else mapSet m (key a) a) l := rfl
    rw [step]
    by_cases hz : zero a = true
    · rw [if_pos hz]
      obtain ⟨h1, h2, h3, h4⟩ := ih m hnd
      refine ⟨h1, ?_, h3, ?_⟩
      · intro e he
        rcases h2 e he with h | ⟨h, h'⟩
        · exact Or.inl h
        · exact Or.inr ⟨List.mem_cons_of_mem _ h, h'⟩
      · intro o ho hzo
        rcases List.mem_cons.1 ho with h | h
        · rw [h, hz] at hzo
          cases hzo
        · exact h4 o h hzo
    · rw [if_neg hz]
      have hz' : zero a = false := by simpa using hz
      obtain ⟨h1, h2, h3, h4⟩ := ih (mapSet m (key a) a) (mapSet_keys_nodup m (key a) a hnd)
      refine ⟨h1, ?_, ?_, ?_⟩
      · intro e he
        rcases h2 e he with h | ⟨h, h'⟩
        · rcases mapSet_mem m (key a) a e h with h5 | h5
          · right
            rw [h5]
            exact ⟨List.mem_cons_self _ _, hz', rfl⟩
          · exact Or.inl h5
        · exact Or.inr ⟨List.mem_cons_of_mem _ h, h'⟩
      · intro x hx
        exact h3 x ((mapSet_keys m (key a) a x).2 (Or.inr hx))
      · intro o ho hzo
        rcases List.mem_cons.1 ho with h | h
        · rw [h]
          exact h3 (key a) ((mapSet_keys m (key a) a (key a)).2 (Or.inl rfl))
        · exact h4 o h hzo

theorem keyedSet_append {α : Type} (key : α → String) (zero : α → Bool) (a b : List α) :
    keyedSet key zero (keyedSet key zero [] a) b = keyedSet key zero [] (a ++ b) := by
  unfold keyedSet
  rw [List.foldl_append]

/-- The values of the map: free of duplicates, not zero, taken from the input, and
holding every input element that is not zero when the key tells the elements apart. -/
theorem keyedSet_values {α : Type} (key : α → String) (zero : α → Bool) (l : List α) :
    ((keyedSet key zero [] l).map Prod.snd).Nodup ∧
    (∀ v ∈ (keyedSet key zero [] l).map Prod.snd, v ∈ l ∧ zero v = false) ∧
    (∀ o ∈ l, zero o = false →
      ∃ v ∈ (keyedSet key zero [] l).map Prod.snd, key v = key o) := by
  obtain ⟨h1, h2, _, h4⟩ := keyedSet_inv key zero l [] List.nodup_nil
  have hkey : ∀ e ∈ keyedSet key zero [] l, e.2 ∈ l ∧ zero e.2 = false ∧ e.1 = key e.2 := by
    intro e he
    rcases h2 e he with h | h
    · exact absurd h (List.not_mem_nil e)
    · exact h
  refine ⟨?_, ?_, ?_⟩
  · have hmap : (keyedSet key zero [] l).map Prod.fst =
        ((keyedSet key zero [] l).map Prod.snd).map key := by
      rw [List.map_map]
      apply List.map_congr_left
      intro e he
      exact (hkey e he).2.2
    rw [hmap] at h1
    exact List.Nodup.of_map key h1
  · intro v hv
    obtain ⟨e, he, hev⟩ := List.mem_map.1 hv
    rw [← hev]
    exact ⟨(hkey e he).1, (hkey e he).2.1⟩
  · intro o ho hzo
    obtain ⟨e, he, hek⟩ := List.mem_map.1 (h4 o ho hzo)
    refine ⟨e.2, List.mem_map.2 ⟨e, he, rfl⟩, ?_⟩
    rw [← (hkey e he).2.2, hek]

theorem sortSlice_strict {α : Type} {less : α → α → Bool} (h : StrictLess less)
    (htot : ∀ a b, less a b = false → less b a = false → a = b) (l : List α)
    (hnd : l.Nodup) : (sortSlice less l).Pairwise (fun a b => less a b = true) := by
  have hnd2 : (sortSlice less l).Nodup := (sortSlice_perm less l).nodup_iff.2 hnd
  refine List.Pairwise.imp ?_ (List.Pairwise.and (sortSlice_sorted h l) hnd2)
  intro a b hab
  cases hlt : less a b with
  | true => rfl
  | false => exact absurd (htot a b hlt hab.1) hab.2

theorem objectLess_strict : StrictLess objectLess :=
  ⟨fun a => lessKindID_irrefl a.Kind a.ID,
    fun a b c => lessKindID_trans a.Kind a.ID b.Kind b.ID c.Kind c.ID⟩

theorem objectLess_total (a b : SyncObject) (h1 : objectLess a b = false)
    (h2 : objectLess b a = false) : a = b := by
  obtain ⟨e1, e2⟩ := lessKindID_total _ _ _ _ h1 h2
  cases a; cases b; simp_all

theorem pipeKey_inj (k1 i1 k2 i2 : List Char) (h1 : '|' ∉ k1) (h2 : '|' ∉ k2)
    (h : k1 ++ '|' :: i1 = k2 ++ '|' :: i2) : k1 = k2 ∧ i1 = i2 := by
  induction k1 generalizing k2 with
  | nil =>
    cases k2 with
    | nil => exact ⟨rfl, by simpa using h⟩
    | cons c cs =>
      simp only [List.nil_append, List.cons_append, List.cons.injEq] at h
      exact absurd (h.1 ▸ List.mem_cons_self _ _) h2
  | cons a as ih =>
    cases k2 with
    | nil =>
      simp only [List.nil_append, List.cons_append, List.cons.injEq] at h
      exact absurd (h.1 ▸ List.mem_cons_self _ _) h1
    | cons c cs =>
      simp only [List.cons_append, List.cons.injEq] at h
      obtain ⟨e1, e2⟩ := ih cs (fun hm => h1 (List.mem_cons_of_mem _ hm))
        (fun hm => h2 (List.mem_cons_of_mem _ hm)) h.2
      exact ⟨by rw [h.1, e1], e2⟩

theorem pipeKey_eq (k1 i1 k2 i2 : String) (h1 : '|' ∉ k1.data) (h2 : '|' ∉ k2.data)
    (h : k1 ++ "|" ++ i1 = k2 ++ "|" ++ i2) : k1 = k2 ∧ i1 = i2 := by
  have hd := congrArg String.data h
  simp only [String.data_append] at hd
  rw [List.append_assoc, List.append_assoc, List.singleton_append,
    List.singleton_append] at hd
  obtain ⟨e1, e2⟩ := pipeKey_inj _ _ _ _ h1 h2 hd
  exact ⟨String.ext e1, String.ext e2⟩

theorem nonZeroSet_fold {α : Type} [DecidableEq α] (zero : α → Bool) (l acc : List α)
    (hnd : acc.Nodup) :
    (l.foldl (fun set k => if zero k = true then set else setInsert set k) acc).Nodup ∧
    ∀ x, x ∈ l.foldl (fun set k => if zero k = true then set else setInsert set k) acc ↔
      x ∈ acc ∨ (x ∈ l ∧ zero x = false) := by
  induction l generalizing acc with
  | nil => exact ⟨hnd, fun x => by simp⟩
  | cons a l ih =>
    rw [List.foldl_cons]
    by_cases hz : zero a = true
    · rw [if_pos hz]
      refine ⟨(ih acc hnd).1, fun x => ?_⟩
      rw [(ih acc hnd).2 x]
      constructor
      · rintro (h | ⟨h, h'⟩)
        · exact Or.inl h
        · exact Or.inr ⟨List.mem_cons_of_mem _ h, h'⟩
      · rintro (h | ⟨h, h'⟩)
        · exact Or.inl h
        · rcases List.mem_cons.1 h with e | e
          · rw [e, hz] at h'
            cases h'
          · exact Or.inr ⟨e, h'⟩
    · rw [if_neg hz]
      have hz' : zero a = false := by simpa using hz
      have hi := ih (setInsert acc a) (setInsert_nodup acc a hnd)
      refine ⟨hi.1, fun x => ?_⟩
      rw [hi.2 x, mem_setInsert]
      constructor
      · rintro ((h | h) | ⟨h, h'⟩)
        · exact Or.inl h
        · exact Or.inr ⟨by rw [h]; exact List.mem_cons_self _ _, by rw [h]; exact hz'⟩
        · exact Or.inr ⟨List.mem_cons_of_mem _ h, h'⟩
      · rintro (h | ⟨h, h'⟩)
        · exact Or.inl (Or.inl h)
        · rcases List.mem_cons.1 h with e | e
          · exact Or.inl (Or.inr e)
          · exact Or.inr ⟨e, h'⟩

theorem mergeUpload_spec (existing add : List artifactKey) :
    (mergeUpload existing add).Pairwise (fun a b => keyLess a b = true) ∧
    ∀ k, k ∈ mergeUpload existing add ↔
      (k ∈ existing ∨ k ∈ add) ∧ k.Kind ≠ "" ∧ k.ID ≠ "" := by
  obtain ⟨hnd, hmem⟩ := nonZeroSet_fold artifactKey.isZero (existing ++ add) [] List.nodup_nil
  refine ⟨sortSlice_strict keyLess_strict keyLess_total _ hnd, fun k => ?_⟩
  unfold mergeUpload sortKeys
  rw [mem_sortSlice, hmem k]
  simp [artifactKey.isZero]

theorem mergeObjects_spec (existing add : List SyncObject) :
    (mergeObjects existing add).Pairwise (fun a b => objectLess a b = true) ∧
    (∀ o ∈ mergeObjects existing add, (o ∈ existing ∨ o ∈ add) ∧ o.Kind ≠ "" ∧ o.ID ≠ "") ∧
    ((∀ o ∈ existing ++ add, '|' ∉ o.Kind.data) →
      ∀ o, (o ∈ existing ∨ o ∈ add) ∧ o.Kind ≠ "" ∧ o.ID ≠ "" → o ∈ mergeObjects existing add) := by
  obtain ⟨hnd, hsound, hcomplete⟩ :=
    keyedSet_values (fun o : SyncObject => o.Kind ++ "|" ++ o.ID) SyncObject.isZero (existing ++ add)
  have e : mergeObjects existing add = sortSlice objectLess
      ((keyedSet (fun o : SyncObject => o.Kind ++ "|" ++ o.ID) SyncObject.isZero []
        (existing ++ add)).map Prod.snd) := by
    unfold mergeObjects sortObjects
    rw [objectSet_eq, objectSet_eq, keyedSet_append]
  rw [e]
  refine ⟨sortSlice_strict objectLess_strict objectLess_total _ hnd, ?_, ?_⟩
  · intro o ho
    rw [mem_sortSlice] at ho
    have h := hsound o ho
    simpa [SyncObject.isZero] using h
  · intro hbar o ho
    rw [mem_sortSlice]
    have hmem : o ∈ existing ++ add := List.mem_append.2 ho.1
    have hz : o.isZero = false := by simp [SyncObject.isZero, ho.2.1, ho.2.2]
    obtain ⟨v, hv, hk⟩ := hcomplete o hmem hz
    obtain ⟨e1, e2⟩ := pipeKey_eq _ _ _ _ (hbar v (hsound v hv).1) (hbar o hmem) hk
    have hvo : v = o := by
      cases v; cases o; simp_all
    rw [← hvo]
    exact hv

theorem mergeDeployRemaining_spec (existing add : List deployTarget) :
    (mergeDeployRemaining existing add).Pairwise (fun a b => targetLess a b = true) ∧
    (∀ d ∈ mergeDeployRemaining existing add,
      (d ∈ existing ∨ d ∈ add) ∧ d.Kind ≠ "" ∧ d.ID ≠ "") ∧
    ((∀ d ∈ existing ++ add, '|' ∉ d.Kind.data) →
      ∀ d, (d ∈ existing ∨ d ∈ add) ∧ d.Kind ≠ "" ∧ d.ID ≠ "" →
        d ∈ mergeDeployRemaining existing add) := by
  obtain ⟨hnd, hsound, hcomplete⟩ :=
    keyedSet_values (fun d : deployTarget => d.Kind ++ "|" ++ d.ID) deployTarget.isZero
      (existing ++ add)
  have e : mergeDeployRemaining existing add = sortSlice targetLess
      ((keyedSet (fun d : deployTarget => d.Kind ++ "|" ++ d.ID) deployTarget.isZero []
        (existing ++ add)).map Prod.snd) := by
    unfold mergeDeployRemaining sortTargets
    simp only
    rw [deploySet_eq, deploySet_eq, keyedSet_append]
  rw [e]
  refine ⟨sortSlice_strict targetLess_strict targetLess_total _ hnd, ?_, ?_⟩
  · intro o ho
    rw [mem_sortSlice] at ho
    have h := hsound o ho
    simpa [deployTarget.isZero] using h
  · intro hbar o ho
    rw [mem_sortSlice]
    have hmem : o ∈ existing ++ add := List.mem_append.2 ho.1
    have hz : o.isZero = false := by simp [deployTarget.isZero, ho.2.1, ho.2.2]
    obtain ⟨v, hv, hk⟩ := hcomplete o hmem hz
    obtain ⟨e1, e2⟩ := pipeKey_eq _ _ _ _ (hbar v (hsound v hv).1) (hbar o hmem) hk
    have hvo : v = o := by
      cases v; cases o; simp_all
    rw [← hvo]
    exact hv

/-- C30: the three list merges.  `mergeUpload` returns a list that is strictly ascending
in (kind, id) order and holds exactly the keys of either input whose kind and id are not
empty, for arbitrary strings.  `mergeObjects` and `mergeDeployRemaining` return a strictly
ascending list of elements of the inputs with non-empty kind and id, and they hold every
such element when no kind of the inputs contains the rune `|`.  They store the elements
under the string kind + "|" + id, so two different pairs with the same string collide:
merging (iFlows|A, B) with (iFlows, A|B) keeps only the second, where `mergeUpload`
keeps both. -/
theorem mergeObjects_key_collision :
    (∀ existing add : List artifactKey,
      (mergeUpload existing add).Pairwise (fun a b => keyLess a b = true) ∧
      ∀ k, k ∈ mergeUpload existing add ↔
        (k ∈ existing ∨ k ∈ add) ∧ k.Kind ≠ "" ∧ k.ID ≠ "") ∧
    (∀ existing add : List SyncObject,
      (mergeObjects existing add).Pairwise (fun a b => objectLess a b = true) ∧
      (∀ o ∈ mergeObjects existing add,
        (o ∈ existing ∨ o ∈ add) ∧ o.Kind ≠ "" ∧ o.ID ≠ "") ∧
      ((∀ o ∈ existing ++ add, '|' ∉ o.Kind.data) →
        ∀ o, (o ∈ existing ∨ o ∈ add) ∧ o.Kind ≠ "" ∧ o.ID ≠ "" →
          o ∈ mergeObjects existing add)) ∧
    (∀ existing add : List deployTarget,
      (mergeDeployRemaining existing add).Pairwise (fun a b => targetLess a b = true) ∧
      (∀ d ∈ mergeDeployRemaining existing add,
        (d ∈ existing ∨ d ∈ add) ∧ d.Kind ≠ "" ∧ d.ID ≠ "") ∧
      ((∀ d ∈ existing ++ add, '|' ∉ d.Kind.data) →
        ∀ d, (d ∈ existing ∨ d ∈ add) ∧ d.Kind ≠ "" ∧ d.ID ≠ "" →
          d ∈ mergeDeployRemaining existing add)) ∧
    mergeObjects [⟨"iFlows|A", "B"⟩] [⟨"iFlows", "A|B"⟩] = [⟨"iFlows", "A|B"⟩] ∧
    mergeDeployRemaining [⟨"iFlows|A", "B"⟩] [⟨"iFlows", "A|B"⟩] = [⟨"iFlows", "A|B"⟩] ∧
    mergeUpload [⟨"iFlows|A", "B"⟩] [⟨"iFlows", "A|B"⟩] =
      [⟨"iFlows", "A|B"⟩, ⟨"iFlows|A", "B"⟩] :=
  ⟨mergeUpload_spec, mergeObjects_spec, mergeDeployRemaining_spec, by decide, by decide,
    by decide⟩

/-! ## The plan of a resumed push -/

theorem resumeStatus_lists (r : TransportRecord) :
    (resumeStatus r).UploadRemaining = r.UploadRemaining ∧
    (resumeStatus r).DeleteRemaining = r.DeleteRemaining := by
  unfold resumeStatus
  split_ifs <;> exact ⟨rfl, rfl⟩

theorem resumeObjects_lists (r : TransportRecord) :
    (resumeObjects r).UploadRemaining = r.UploadRemaining ∧
    (resumeObjects r).DeleteRemaining = r.DeleteRemaining := by
  unfold resumeObjects
  by_cases h1 : r.Objects.length = 0 ∧ r.UploadRemaining.length > 0
  · simp only [if_pos h1]
    split_ifs <;> exact ⟨rfl, rfl⟩
  · simp only [if_neg h1]
    split_ifs <;> exact ⟨rfl, rfl⟩

theorem resumeDeletes_lists (r : TransportRecord) (inp : TransportInputs) :
    (resumeDeletes r inp).UploadRemaining = r.UploadRemaining ∧
    (resumeDeletes r inp).DeleteRemaining =
      (if inp.keysToDelete.length > 0 then mergeUpload r.DeleteRemaining inp.keysToDelete
       else r.DeleteRemaining) := by
  unfold resumeDeletes
  split_ifs <;> exact ⟨rfl, rfl⟩

theorem resumeUploads_lists (r : TransportRecord) (inp : TransportInputs) :
    (resumeUploads r inp).UploadRemaining =
      (if inp.keysToUpload.length > 0 then mergeUpload r.UploadRemaining inp.keysToUpload
       else r.UploadRemaining) ∧
    (resumeUploads r inp).DeleteRemaining = r.DeleteRemaining := by
  unfold resumeUploads
  split_ifs <;> exact ⟨rfl, rfl⟩

theorem runSyncPushPlan_lists (table : Char → Char) (stored : TransportRecord)
    (inp : TransportInputs) :
    ∃ rec, runSyncPushPlan table (some stored) inp = some rec ∧
      rec.UploadRemaining =
        (if inp.keysToUpload.length > 0 then mergeUpload stored.UploadRemaining inp.keysToUpload
         else stored.UploadRemaining) ∧
      rec.DeleteRemaining =
        (if inp.keysToDelete.length > 0 then mergeUpload stored.DeleteRemaining inp.keysToDelete
         else stored.DeleteRemaining) := by
  refine ⟨_, rfl, ?_, ?_⟩
  · rw [(resumeStatus_lists _).1, (resumeObjects_lists _).1, (resumeDeletes_lists _ _).1,
      (resumeUploads_lists _ _).1]
    rfl
  · rw [(resumeStatus_lists _).2, (resumeObjects_lists _).2, (resumeDeletes_lists _ _).2,
      (resumeUploads_lists _ _).2]
    rfl

/-- C28, the claim as stated fails: the pending record has the upload (iFlows, A) left
and no delete, the new run detects no upload and the delete of (iFlows, A); each pair of
lists is disjoint, and the merged record holds (iFlows, A) in uploadRemaining and in
deleteRemaining. -/
theorem runSyncPushPlan_overlap :
    (∀ k ∈ (pendingRecord [⟨"iFlows", "A"⟩] [] []).UploadRemaining,
      k ∉ (pendingRecord [⟨"iFlows", "A"⟩] [] []).DeleteRemaining) ∧
    (∀ k ∈ ([] : List artifactKey), k ∉ [(⟨"iFlows", "A"⟩ : artifactKey)]) ∧
    (runSyncPushPlan (fun c => c) (some (pendingRecord [⟨"iFlows", "A"⟩] [] []))
      ⟨"20240102T000000000Z", "2024-01-02T00:00:00Z", "pkg", "dev", [], "", "", [],
        [⟨"iFlows", "A"⟩]⟩).map (fun rec => (rec.UploadRemaining, rec.DeleteRemaining)) =
      some ([⟨"iFlows", "A"⟩], [⟨"iFlows", "A"⟩]) := by
  decide

/-- C28 (amended): when `runSyncPush` resumes a pending push record, the merged
uploadRemaining is the merge of the pending uploads with the new upload keys (the
pending list as it is when there is no new upload key), and the merged deleteRemaining
likewise.  A key that is in both merged lists is in an upload input and in a delete
input.  So the merged lists are disjoint for every pending record whose two lists are
disjoint and every new disjoint pair such that, in addition, no pending upload is a new
delete and no new upload is a pending delete. -/
theorem runSyncPushPlan_disjoint (table : Char → Char) (stored : TransportRecord)
    (inp : TransportInputs) :
    ∃ rec, runSyncPushPlan table (some stored) inp = some rec ∧
      rec.UploadRemaining =
        (if inp.keysToUpload.length > 0 then mergeUpload stored.UploadRemaining inp.keysToUpload
         else stored.UploadRemaining) ∧
      rec.DeleteRemaining =
        (if inp.keysToDelete.length > 0 then mergeUpload stored.DeleteRemaining inp.keysToDelete
         else stored.DeleteRemaining) ∧
      (∀ k ∈ rec.UploadRemaining, k ∈ stored.UploadRemaining ∨ k ∈ inp.keysToUpload) ∧
      (∀ k ∈ rec.DeleteRemaining, k ∈ stored.DeleteRemaining ∨ k ∈ inp.keysToDelete) ∧
      ((∀ k ∈ stored.UploadRemaining, k ∉ stored.DeleteRemaining) →
        (∀ k ∈ inp.keysToUpload, k ∉ inp.keysToDelete) →
        (∀ k ∈ stored.UploadRemaining, k ∉ inp.keysToDelete) →
        (∀ k ∈ inp.keysToUpload, k ∉ stored.DeleteRemaining) →
        ∀ k ∈ rec.UploadRemaining, k ∉ rec.DeleteRemaining) := by
  obtain ⟨rec, hplan, hup, hdel⟩ := runSyncPushPlan_lists table stored inp
  have h1 : ∀ k ∈ rec.UploadRemaining, k ∈ stored.UploadRemaining ∨ k ∈ inp.keysToUpload := by
    intro k hk
    rw [hup] at hk
    split_ifs at hk
    · exact (((mergeUpload_spec _ _).2 k).1 hk).1
    · exact Or.inl hk
  have h2 : ∀ k ∈ rec.DeleteRemaining, k ∈ stored.DeleteRemaining ∨ k ∈ inp.keysToDelete := by
    intro k hk
    rw [hdel] at hk
    split_ifs at hk
    · exact (((mergeUpload_spec _ _).2 k).1 hk).1
    · exact Or.inl hk
  refine ⟨rec, hplan, hup, hdel, h1, h2, ?_⟩
  intro d1 d2 d3 d4 k hk hk2
  rcases h1 k hk with a | a
  · rcases h2 k hk2 with b | b
    · exact d1 k a b
    · exact d3 k a b
  · rcases h2 k hk2 with b | b
    · exact d4 k a b
    · exact d2 k a b

/-! ## The artifact directory of the classifier and of the upload step -/

/-- C29: the directory of an artifact.  `partitionChangedKeys` tests the directory under
`resolveContentFolder(meta)`, the upload step stats and zips the directory under
`meta.BaseFolder`.  The two are the same on every host when baseFolder is not blank and
has no white space and no slash around it, and on a host whose separator is the slash
also when baseFolder has a slash at both ends.  A blank baseFolder is refused by
`ValidateRequired` before either is reached.  A baseFolder padded with white space
passes `ValidateRequired`, and there the two differ: with baseFolder
"IntegrationPackage " and the directory /repo/IntegrationPackage/iFlows/A on disk, the
key (iFlows, A) is classified as an upload and planned for upload, and the upload step,
which finds the artifact listed by the tenant, looks at
"/repo/IntegrationPackage /iFlows/A", sends nothing and drops the key from
uploadRemaining; with baseFolder "IntegrationPackage" the upload and the deploy are
sent. -/
theorem upload_directory_differs :
    (∀ (fs : FileSystem) (repoRoot : String) (meta : SyncMetadata) (k : artifactKey),
      TrimSpace meta.BaseFolder ≠ "" → Trim (TrimSpace meta.BaseFolder) "/" = meta.BaseFolder →
      fs.Join [repoRoot, resolveContentFolder meta, k.Kind, k.ID] =
        fs.Join [repoRoot, meta.BaseFolder, k.Kind, k.ID]) ∧
    unixJoin ["/repo", resolveContentFolder slashFolderMeta, "iFlows", "A"] =
      unixJoin ["/repo", slashFolderMeta.BaseFolder, "iFlows", "A"] ∧
    ValidateRequired blankFolderMeta ≠ none ∧
    ValidateRequired paddedFolderMeta = none ∧
    unixJoin ["/repo", resolveContentFolder paddedFolderMeta, "iFlows", "A"] =
      "/repo/IntegrationPackage/iFlows/A" ∧
    unixJoin ["/repo", paddedFolderMeta.BaseFolder, "iFlows", "A"] =
      "/repo/IntegrationPackage /iFlows/A" ∧
    partitionChangedKeys (unixHost ["/repo/IntegrationPackage/iFlows/A"]) "/repo"
      paddedFolderMeta [⟨"iFlows", "A"⟩] = ([⟨"iFlows", "A"⟩], []) ∧
    (runSyncPushPlan (fun c => c) none
      ⟨"20240101T000000000Z", "2024-01-01T00:00:00Z", "pkg", "dev", [], "", "",
        (partitionChangedKeys (unixHost ["/repo/IntegrationPackage/iFlows/A"]) "/repo"
          paddedFolderMeta [⟨"iFlows", "A"⟩]).1,
        (partitionChangedKeys (unixHost ["/repo/IntegrationPackage/iFlows/A"]) "/repo"
          paddedFolderMeta [⟨"iFlows", "A"⟩]).2⟩).map (fun rec => rec.UploadRemaining) =
      some [⟨"iFlows", "A"⟩] ∧
    lookupArtifact (fun _ => some listsAll) ⟨"iFlows", "A"⟩ ≠ none ∧
    uploadableIn (unixHost ["/repo/IntegrationPackage/iFlows/A"]) "/repo" paddedFolderMeta
      (fun _ => some listsAll) ⟨"iFlows", "A"⟩ = false ∧
    (runSyncPushCPI (fixedClient listsAll none none none)
      (unixHost ["/repo/IntegrationPackage/iFlows/A"]) "/repo" paddedFolderMeta
      (pendingRecord [⟨"iFlows", "A"⟩] [] []) ()).calls = [] ∧
    (runSyncPushCPI (fixedClient listsAll none none none)
      (unixHost ["/repo/IntegrationPackage/iFlows/A"]) "/repo" paddedFolderMeta
      (pendingRecord [⟨"iFlows", "A"⟩] [] []) ()).record.UploadRemaining = [] ∧
    (applyTransportToTenant (fixedClient listsAll none none none)
      (unixHost ["/repo/IntegrationPackage/iFlows/A"]) "/repo" paddedFolderMeta
      (pendingRecord [⟨"iFlows", "A"⟩] [] []) ()).calls = [] ∧
    (applyTransportToTenant (fixedClient listsAll none none none)
      (unixHost ["/repo/IntegrationPackage/iFlows/A"]) "/repo" paddedFolderMeta
      (pendingRecord [⟨"iFlows", "A"⟩] [] []) ()).record.UploadRemaining = [] ∧
    (applyTransportToTenant (fixedClient listsAll none none none)
      (unixHost ["/repo/IntegrationPackage/iFlows/A"]) "/repo" pkgMeta
      (pendingRecord [⟨"iFlows", "A"⟩] [] []) ()).calls.map CPICall.mutation =
      [(Op.upload, ⟨"iFlows", "A"⟩), (Op.deploy, ⟨"iFlows", "A"⟩)] := by
  refine ⟨?_, by decide, by decide, by decide, by decide, by decide, by decide, by decide,
    by decide, by decide, by decide, by decide, by decide, by decide, by decide⟩
  intro fs repoRoot meta k h1 h2
  unfold resolveContentFolder
  simp only
  rw [if_neg h1, h2]

/-! ## Zip extraction -/

theorem forEntries_cons (body : ZipEntry → Disk → Option ExtractError × Disk)
    (f : ZipEntry) (rest : List ZipEntry) (d : Disk) :
    forEntries body (f :: rest) d =
      match body f d with
      | (some e, d1) => (some e, d1)
      | (none, d1) => forEntries body rest d1 := rfl

theorem forEntries_append (body : ZipEntry → Disk → Option ExtractError × Disk)
    (pre rest : List ZipEntry) (d : Disk) :
    forEntries body (pre ++ rest) d =
      match forEntries body pre d with
      | (some e, d1) => (some e, d1)
      | (none, d1) => forEntries body rest d1 := by
  induction pre generalizing d with
  | nil => rfl
  | cons f pre ih =>
    rw [List.cons_append, forEntries_cons, forEntries_cons]
    rcases hb : body f d with ⟨_ | e, d1⟩
    · exact ih d1
    · rfl

/-- A loop that meets an entry at which the body returns an error without touching the
disk: the loop returns an error and leaves the disk as the entries before leave it. -/
theorem forEntries_stops (body : ZipEntry → Disk → Option ExtractError × Disk)
    (pre post : List ZipEntry) (f : ZipEntry) (d : Disk)
    (h : ∀ d1, ∃ e, body f d1 = (some e, d1)) :
    (forEntries body (pre ++ f :: post) d).1 ≠ none ∧
    (forEntries body (pre ++ f :: post) d).2 = (forEntries body pre d).2 := by
  rw [forEntries_append]
  rcases hp : forEntries body pre d with ⟨_ | e, d1⟩
  · obtain ⟨e, he⟩ := h d1
    show (forEntries body (f :: post) d1).1 ≠ none ∧ (forEntries body (f :: post) d1).2 = d1
    rw [forEntries_cons, he]
    exact ⟨fun hn => (by cases hn), rfl⟩
  · exact ⟨fun hn => (by cases hn), rfl⟩

theorem hasPrefix_slash_iff (r t : List Char) :
    (r ++ ['/']).isPrefixOf (t ++ ['/']) = true ↔ t = r ∨ (r ++ ['/']).isPrefixOf t = true := by
  rw [List.isPrefixOf_iff_prefix, List.isPrefixOf_iff_prefix]
  have h : r ++ ['/'] <+: t ++ ['/'] ↔ r ++ ['/'] = t ++ ['/'] ∨ r ++ ['/'] <+: t :=
    List.prefix_concat_iff
  rw [h]
  constructor
  · rintro (h1 | h1)
    · exact Or.inl (List.append_cancel_right h1).symm
    · exact Or.inr h1
  · rintro (h1 | h1)
    · exact Or.inl (by rw [h1])
    · exact Or.inr h1

/-- The test of `filex.ExtractZipFile` on the target and the root with their separators
is the test that the target is the root or lies inside it. -/
theorem within_iff (root t : String) :
    HasPrefix (t ++ "/") (root ++ "/") = within root t := by
  have h := hasPrefix_slash_iff root.data t.data
  unfold within HasPrefix
  simp only [String.data_append]
  have e : "/".data = ['/'] := rfl
  cases hw : (decide (t = root) || (root.data ++ "/".data).isPrefixOf t.data) with
  | true =>
    apply h.2
    simp only [Bool.or_eq_true, decide_eq_true_eq] at hw
    rcases hw with h1 | h1
    · exact Or.inl (by rw [h1])
    · exact Or.inr h1
  | false =>
    cases hp : (root.data ++ "/".data).isPrefixOf (t.data ++ "/".data) with
    | false => rfl
    | true =>
      simp only [Bool.or_eq_false_iff, decide_eq_false_iff_not] at hw
      rcases h.1 hp with h1 | h1
      · exact absurd (String.ext h1) hw.1
      · rw [hw.2] at h1
        cases h1
theorem head_of_isAbs (p : String) (h : IsAbs p = true) : p.data.head? = some '/' := by
  unfold IsAbs HasPrefix at h
  have e : "/".data = ['/'] := rfl
  rw [e] at h
  cases hp : p.data with
  | nil =>
    rw [hp] at h
    cases h
  | cons c cs =>
    rw [hp] at h
    simp only [List.isPrefixOf, Bool.and_eq_true, beq_iff_eq] at h
    rw [List.head?_cons, h.1]

theorem isAbs_of_head (p : String) (h : p.data.head? = some '/') : IsAbs p = true := by
  unfold IsAbs HasPrefix
  have e : "/".data = ['/'] := rfl
  rw [e]
  cases hp : p.data with
  | nil =>
    rw [hp] at h
    cases h
  | cons c cs =>
    rw [hp, List.head?_cons] at h
    cases h
    simp [List.isPrefixOf]

theorem clean_isAbs (p : String) (h : IsAbs p = true) : IsAbs (Clean p) = true := by
  have hh := head_of_isAbs p h
  have hne : p ≠ "" := by
    intro e
    rw [e] at hh
    cases hh
  apply isAbs_of_head
  unfold Clean
  rw [if_neg hne]
  simp only [hh, if_true]
  rfl

theorem extractEntry_escape (host : ZipHost) (destDir root : String) (f : ZipEntry)
    (hroot : Abs host.Getwd destDir = .ok root)
    (h : escapesDestination host destDir f = true) (d : Disk) :
    extractEntry host destDir (Clean root ++ "/") f d = (some (.escapes f.Name), d) := by
  unfold escapesDestination at h
  rw [hroot] at h
  unfold extractEntry
  cases ht : entryTarget host destDir f with
  | error e =>
    rw [ht] at h
    cases h
  | ok t =>
    rw [ht] at h
    simp only [Bool.not_eq_true'] at h
    simp only
    rw [within_iff, h, if_pos rfl]

theorem secureEntry_escape (host : ZipHost) (destDir : String) (f : ZipEntry)
    (hname : f.Name ≠ "")
    (h : Contains f.Name ":" = true ∨ IsAbs (Clean f.Name) = true ∨
      HasPrefix (Clean f.Name) "../" = true ∨ Clean f.Name = ".." ∨
      within destDir (secureTarget destDir f) = false) (d : Disk) :
    ∃ e, secureEntry host destDir f d = (some e, d) := by
  have hg : ∃ e, secureGuard destDir f.Name = some e := by
    unfold secureGuard
    by_cases h1 : Contains f.Name ":" = true
    · exact ⟨_, if_pos h1⟩
    · rw [if_neg h1]
      by_cases h2 : IsAbs (Clean f.Name) = true ∨ HasPrefix (Clean f.Name) "../" = true ∨
          Clean f.Name = ".."
      · exact ⟨_, if_pos h2⟩
      · rw [if_neg h2]
        have h3 : within destDir (secureTarget destDir f) = false := by
          rcases h with h | h | h | h | h
          · exact absurd h h1
          · exact absurd (Or.inl h) h2
          · exact absurd (Or.inr (Or.inl h)) h2
          · exact absurd (Or.inr (Or.inr h)) h2
          · exact h
        unfold within secureTarget at h3
        simp only [Bool.or_eq_false_iff, decide_eq_false_iff_not] at h3
        exact ⟨_, if_pos ⟨h3.2, h3.1⟩⟩
  obtain ⟨e, he⟩ := hg
  refine ⟨e, ?_⟩
  unfold secureEntry
  rw [if_neg hname, he]

theorem extractZipFile_stops (host : ZipHost) (destDir : String) (pre post : List ZipEntry)
    (f : ZipEntry) (d : Disk) (h : escapesDestination host destDir f = true) :
    (ExtractZipFile host destDir (pre ++ f :: post) d).1 ≠ none ∧
    (ExtractZipFile host destDir (pre ++ f :: post) d).2 =
      (ExtractZipFile host destDir pre d).2 := by
  unfold ExtractZipFile
  rcases hm : MkdirAll host d destDir with ⟨_ | e, d1⟩
  · simp only
    cases hroot : Abs host.Getwd destDir with
    | error e => exact ⟨fun hn => (by cases hn), rfl⟩
    | ok root =>
      simp only
      exact forEntries_stops _ pre post f d1
        (fun d2 => ⟨_, extractEntry_escape host destDir root f hroot h d2⟩)
  · exact ⟨fun hn => (by cases hn), rfl⟩

theorem extractZipSecure_stops (host : ZipHost) (destDir : String) (pre post : List ZipEntry)
    (f : ZipEntry) (d : Disk) (hname : f.Name ≠ "")
    (h : Contains f.Name ":" = true ∨ IsAbs (Clean f.Name) = true ∨
      HasPrefix (Clean f.Name) "../" = true ∨ Clean f.Name = ".." ∨
      within destDir (secureTarget destDir f) = false) :
    (extractZipSecure host destDir (pre ++ f :: post) d).1 ≠ none ∧
    (extractZipSecure host destDir (pre ++ f :: post) d).2 =
      (extractZipSecure host destDir pre d).2 := by
  unfold extractZipSecure
  rcases hm : MkdirAll host d destDir with ⟨_ | e, d1⟩
  · simp only
    obtain ⟨h1, h2⟩ := forEntries_stops (secureEntry host destDir) pre post f d1
      (fun d2 => secureEntry_escape host destDir f hname h d2)
    rcases hall : forEntries (secureEntry host destDir) (pre ++ f :: post) d1 with ⟨_ | e, d2⟩
    · rw [hall] at h1
      exact absurd rfl h1
    · rw [hall] at h2
      simp only at h2 ⊢
      refine ⟨fun hn => (by cases hn), ?_⟩
      rw [h2]
      rcases forEntries (secureEntry host destDir) pre d1 with ⟨_ | e3, d3⟩
      · simp only
        cases host.statErr (unixJoin [destDir, ManifestFileName]) <;> rfl
      · rfl
  · exact ⟨fun hn => (by cases hn), rfl⟩
/-- C24, the claim as stated fails: the archive holds the file a.txt and then the entry
../evil, whose target escapes the destination /d.  Both extractors return an error, and
both have written /d/a.txt by then. -/
theorem extraction_not_atomic :
    escapesDestination plainHost "/d" (fileEntry "../evil") = true ∧
    ExtractZipFile plainHost "/d" [fileEntry "a.txt", fileEntry "../evil"] ⟨["/d"], [], []⟩ =
      (some (.escapes "../evil"), ⟨["/d"], ["/d/a.txt"], [.write "/d/a.txt"]⟩) ∧
    escapesSecure "/d" (fileEntry "../evil") = true ∧
    extractZipSecure plainHost "/d" [fileEntry "a.txt", fileEntry "../evil"] ⟨["/d"], [], []⟩ =
      (some (.zipSlip "../evil"), ⟨["/d"], ["/d/a.txt"], [.write "/d/a.txt"]⟩) := by
  decide

/-- C24 (amended): for every archive that holds an entry whose target escapes the
destination, `filex.ExtractZipFile` and `archive.extractZipSecure` return an error, and
they leave the disk as the extraction of the entries before that entry leaves it:
nothing is created or written for the escaping entry or for an entry after it,
whatever the position of the escaping entry. -/
theorem extraction_stops_at_escape (host : ZipHost) (destDir : String)
    (pre post : List ZipEntry) (f : ZipEntry) (d : Disk) :
    (escapesDestination host destDir f = true →
      (ExtractZipFile host destDir (pre ++ f :: post) d).1 ≠ none ∧
      (ExtractZipFile host destDir (pre ++ f :: post) d).2 =
        (ExtractZipFile host destDir pre d).2) ∧
    (escapesSecure destDir f = true →
      (extractZipSecure host destDir (pre ++ f :: post) d).1 ≠ none ∧
      (extractZipSecure host destDir (pre ++ f :: post) d).2 =
        (extractZipSecure host destDir pre d).2) := by
  refine ⟨extractZipFile_stops host destDir pre post f d, ?_⟩
  intro h
  unfold escapesSecure at h
  simp only [Bool.and_eq_true, decide_eq_true_eq, Bool.not_eq_true'] at h
  exact extractZipSecure_stops host destDir pre post f d h.1
    (Or.inr (Or.inr (Or.inr (Or.inr h.2))))

/-- C25, the claim as stated fails: `filex.ExtractZipFile` extracts an archive whose
entry is named a/../b, C:x or /etc/passwd without an error, to b, C:x and etc/passwd
under the destination, and `archive.extractZipSecure` extracts the entry a/../b without
an error. -/
theorem extraction_accepts_inner_dotdot :
    ExtractZipFile plainHost "/d" [fileEntry "a/../b"] ⟨["/d"], [], []⟩ =
      (none, ⟨["/d"], ["/d/b"], [.write "/d/b"]⟩) ∧
    ExtractZipFile plainHost "/d" [fileEntry "C:x"] ⟨["/d"], [], []⟩ =
      (none, ⟨["/d"], ["/d/C:x"], [.write "/d/C:x"]⟩) ∧
    ExtractZipFile plainHost "/d" [fileEntry "/etc/passwd"] ⟨["/d"], [], []⟩ =
      (none, ⟨["/d", "/d/etc"], ["/d/etc/passwd"], [.mkdir "/d/etc", .write "/d/etc/passwd"]⟩) ∧
    extractZipSecure plainHost "/d" [fileEntry "a/../b"] ⟨["/d"], [], []⟩ =
      (none, ⟨["/d"], ["/d/b"], [.write "/d/b"]⟩) := by
  decide

/-- C25 (amended): `archive.extractZipSecure` returns an error for every archive that
has an entry whose name contains `:`, is an absolute path, or, once cleaned, is `..` or
begins with `../`, or whose target lies outside the destination; `filex.ExtractZipFile`
returns an error for every archive that has an entry whose target lies outside the
destination. -/
theorem extraction_rejects_unsafe (host : ZipHost) (destDir : String)
    (files : List ZipEntry) (d : Disk) :
    ((∃ f ∈ files, Contains f.Name ":" = true ∨ IsAbs f.Name = true ∨ Clean f.Name = ".." ∨
        HasPrefix (Clean f.Name) "../" = true ∨ escapesSecure destDir f = true) →
      (extractZipSecure host destDir files d).1 ≠ none) ∧
    ((∃ f ∈ files, escapesDestination host destDir f = true) →
      (ExtractZipFile host destDir files d).1 ≠ none) := by
  constructor
  · rintro ⟨f, hf, h⟩
    obtain ⟨pre, post, e⟩ := List.append_of_mem hf
    rw [e]
    have hname : f.Name ≠ "" := by
      intro hn
      rw [escapesSecure, hn] at h
      rcases h with h | h | h | h | h
      · exact absurd h (by decide)
      · exact absurd h (by decide)
      · exact absurd h (by decide)
      · exact absurd h (by decide)
      · simp at h
    refine (extractZipSecure_stops host destDir pre post f d hname ?_).1
    rcases h with h | h | h | h | h
    · exact Or.inl h
    · exact Or.inr (Or.inl (clean_isAbs _ h))
    · exact Or.inr (Or.inr (Or.inr (Or.inl h)))
    · exact Or.inr (Or.inr (Or.inl h))
    · unfold escapesSecure at h
      simp only [Bool.and_eq_true, decide_eq_true_eq, Bool.not_eq_true'] at h
      exact Or.inr (Or.inr (Or.inr (Or.inr h.2)))
  · rintro ⟨f, hf, h⟩
    obtain ⟨pre, post, e⟩ := List.append_of_mem hf
    rw [e]
    exact (extractZipFile_stops host destDir pre post f d h).1

/-! ## Cleaned absolute paths -/

theorem intercalate_go_data (acc : String) (l : List String) :
    (String.intercalate.go acc "/" l).data = acc.data ++ l.flatMap (fun s => '/' :: s.data) := by
  induction l generalizing acc with
  | nil => simp [String.intercalate.go]
  | cons a as ih =>
    rw [String.intercalate.go, ih]
    simp [String.data_append]

theorem joinSegs_cons (a : List Char) (rest : List (List Char)) :
    joinSegs (a :: rest) = a ++ rest.flatMap (fun s => '/' :: s) := by
  induction rest generalizing a with
  | nil => simp [joinSegs]
  | cons b r ih =>
    rw [joinSegs, ih]
    simp

theorem slash_joinSegs (es : List (List Char)) (h : es ≠ []) :
    '/' :: joinSegs es = es.flatMap (fun s => '/' :: s) := by
  cases es with
  | nil => exact absurd rfl h
  | cons a r =>
    rw [joinSegs_cons]
    simp

theorem intercalate_data (es : List (List Char)) :
    (String.intercalate "/" (es.map String.mk)).data = joinSegs es := by
  cases es with
  | nil => rfl
  | cons a r =>
    rw [List.map_cons, String.intercalate, intercalate_go_data, joinSegs_cons]
    simp [List.flatMap_map]

theorem joinSegs_append (a b : List (List Char)) (ha : a ≠ []) (hb : b ≠ []) :
    joinSegs (a ++ b) = joinSegs a ++ '/' :: joinSegs b := by
  cases a with
  | nil => exact absurd rfl ha
  | cons x r =>
    rw [List.cons_append, joinSegs_cons, joinSegs_cons, List.flatMap_append,
      ← slash_joinSegs b hb]
    simp

theorem splitL_join_append (es : List (List Char)) (x : List Char) (hne : es ≠ [])
    (h : ∀ e ∈ es, '/' ∉ e) :
    splitL '/' (joinSegs es ++ '/' :: x) = es ++ splitL '/' x := by
  induction es with
  | nil => exact absurd rfl hne
  | cons a r ih =>
    cases r with
    | nil =>
      show splitL '/' (a ++ '/' :: x) = _
      rw [splitL_append _ _ _ (h a (List.mem_cons_self _ _))]
      rfl
    | cons b r2 =>
      have e : joinSegs (a :: b :: r2) ++ '/' :: x =
          a ++ '/' :: (joinSegs (b :: r2) ++ '/' :: x) := by
        simp [joinSegs]
      rw [e, splitL_append _ _ _ (h a (List.mem_cons_self _ _)),
        ih (List.cons_ne_nil _ _) (fun e he => h e (List.mem_cons_of_mem _ he))]
      rfl

theorem splitL_join (es : List (List Char)) (hne : es ≠ []) (h : ∀ e ∈ es, '/' ∉ e) :
    splitL '/' (joinSegs es) = es := by
  induction es with
  | nil => exact absurd rfl hne
  | cons a r ih =>
    cases r with
    | nil => exact splitL_no_sep _ _ (h a (List.mem_cons_self _ _))
    | cons b r2 =>
      show splitL '/' (a ++ '/' :: joinSegs (b :: r2)) = _
      rw [splitL_append _ _ _ (h a (List.mem_cons_self _ _)),
        ih (List.cons_ne_nil _ _) (fun e he => h e (List.mem_cons_of_mem _ he))]

theorem splitL_pieces (sep : Char) (l : List Char) : ∀ s ∈ splitL sep l, sep ∉ s := by
  induction l with
  | nil =>
    intro s hs
    simp only [splitL, List.mem_singleton] at hs
    rw [hs]
    exact List.not_mem_nil _
  | cons c cs ih =>
    intro s hs
    rw [splitL_cons] at hs
    by_cases hc : c = sep
    · rw [if_pos hc] at hs
      rcases List.mem_cons.1 hs with h | h
      · rw [h]
        exact List.not_mem_nil _
      · exact ih s h
    · rw [if_neg hc] at hs
      cases hsp : splitL sep cs with
      | nil =>
        rw [hsp] at hs
        simp only [List.mem_singleton] at hs
        rw [hs]
        simp only [List.mem_singleton]
        exact fun e => hc e.symm
      | cons h t =>
        rw [hsp] at hs ih
        rcases List.mem_cons.1 hs with h1 | h1
        · rw [h1]
          intro hm
          rcases List.mem_cons.1 hm with h2 | h2
          · exact hc h2.symm
          · exact ih h (List.mem_cons_self _ _) h2
        · exact ih s (List.mem_cons_of_mem _ h1)

theorem cleanElems_good (stack : List (List Char)) (seg : List Char)
    (hs : ∀ e ∈ stack, goodSeg e) (hseg : '/' ∉ seg) :
    ∀ e ∈ cleanElems true stack seg, goodSeg e := by
  unfold cleanElems
  by_cases h1 : seg = [] ∨ seg = ['.']
  · rw [if_pos h1]
    exact hs
  · rw [if_neg h1]
    by_cases h2 : seg = ['.', '.']
    · rw [if_pos h2]
      cases stack with
      | nil => simp
      | cons top rest =>
        simp only
        have htop : top ≠ ['.', '.'] := (hs top (List.mem_cons_self _ _)).2.2.1
        rw [if_neg htop]
        exact fun e he => hs e (List.mem_cons_of_mem _ he)
    · rw [if_neg h2]
      intro e he
      rcases List.mem_cons.1 he with h | h
      · rw [h]
        exact ⟨fun e => h1 (Or.inl e), fun e => h1 (Or.inr e), h2, hseg⟩
      · exact hs e h

theorem cleanFold_good (segs : List (List Char)) (stack : List (List Char))
    (hs : ∀ e ∈ stack, goodSeg e) (hsegs : ∀ s ∈ segs, '/' ∉ s) :
    ∀ e ∈ segs.foldl (cleanElems true) stack, goodSeg e := by
  induction segs generalizing stack with
  | nil => exact hs
  | cons s rest ih =>
    rw [List.foldl_cons]
    exact ih _ (cleanElems_good stack s hs (hsegs s (List.mem_cons_self _ _)))
      (fun x hx => hsegs x (List.mem_cons_of_mem _ hx))

theorem cleanFold_id (es : List (List Char)) (stack : List (List Char))
    (h : ∀ e ∈ es, goodSeg e) :
    es.foldl (cleanElems true) stack = es.reverse ++ stack := by
  induction es generalizing stack with
  | nil => rfl
  | cons a r ih =>
    have ha := h a (List.mem_cons_self _ _)
    have step : cleanElems true stack a = a :: stack := by
      unfold cleanElems
      rw [if_neg (fun e => e.elim ha.1 ha.2.1), if_neg ha.2.2.1]
    rw [List.foldl_cons, step, ih _ (fun e he => h e (List.mem_cons_of_mem _ he))]
    simp

/-- The cleaned form of a rooted path: a slash and good elements joined by slashes. -/
theorem clean_rooted (p : String) (h : IsAbs p = true) :
    ∃ es, (∀ e ∈ es, goodSeg e) ∧ Clean p = ⟨'/' :: joinSegs es⟩ := by
  have hh := head_of_isAbs p h
  have hne : p ≠ "" := by
    intro e
    rw [e] at hh
    cases hh
  refine ⟨((splitL '/' p.data).foldl (cleanElems true) []).reverse, ?_, ?_⟩
  · intro e he
    rw [List.mem_reverse] at he
    exact cleanFold_good _ [] (fun e he => absurd he (List.not_mem_nil e)) (splitL_pieces '/' _) e he
  · unfold Clean
    rw [if_neg hne]
    simp only [hh, if_true, decide_True]
    apply String.ext
    rw [String.data_append, intercalate_data]
    rfl

theorem clean_good (es : List (List Char)) (h : ∀ e ∈ es, goodSeg e) :
    Clean ⟨'/' :: joinSegs es⟩ = ⟨'/' :: joinSegs es⟩ := by
  have hne : (⟨'/' :: joinSegs es⟩ : String) ≠ "" :=
    fun e => List.cons_ne_nil _ _ (congrArg String.data e)
  unfold Clean
  rw [if_neg hne]
  simp only [List.head?_cons, if_true, decide_True]
  have hfold : ((splitL '/' ('/' :: joinSegs es)).foldl (cleanElems true) []).reverse = es := by
    rw [splitL_cons, if_pos rfl, List.foldl_cons]
    have e0 : cleanElems true [] [] = [] := rfl
    rw [e0]
    cases es with
    | nil => rfl
    | cons a r =>
      rw [splitL_join _ (List.cons_ne_nil _ _) (fun e he => (h e he).2.2.2), cleanFold_id _ _ h]
      simp
  rw [hfold]
  apply String.ext
  rw [String.data_append, intercalate_data]
  rfl

theorem abs_good (wd : Except String String) (p a : String)
    (hwd : ∀ w, wd = .ok w → IsAbs w = true) (h : Abs wd p = .ok a) :
    ∃ es, (∀ e ∈ es, goodSeg e) ∧ a = ⟨'/' :: joinSegs es⟩ := by
  unfold Abs at h
  by_cases hp : IsAbs p = true
  · rw [if_pos hp] at h
    cases h
    exact clean_rooted p hp
  · rw [if_neg hp] at h
    cases hw : wd with
    | error e =>
      rw [hw] at h
      cases h
    | ok w =>
      rw [hw] at h
      cases h
      have hw2 := hwd w hw
      have hhead := head_of_isAbs w hw2
      have hne : w ≠ "" := by
        intro e
        rw [e] at hhead
        cases hhead
      have hj : ∃ rest : List String,
          unixJoin [w, p] = Clean (String.intercalate "/" (w :: rest)) := by
        unfold unixJoin
        by_cases hpe : p = ""
        · exact ⟨[], by simp [List.filter, hne, hpe]⟩
        · exact ⟨[p], by simp [List.filter, hne, hpe]⟩
      obtain ⟨rest, hj⟩ := hj
      rw [hj]
      apply clean_rooted
      apply isAbs_of_head
      rw [String.intercalate, intercalate_go_data]
      cases hd : w.data with
      | nil =>
        rw [hd] at hhead
        cases hhead
      | cons c cs =>
        rw [hd] at hhead
        simpa using hhead

theorem abs_of_good (wd : Except String String) (es : List (List Char))
    (h : ∀ e ∈ es, goodSeg e) :
    Abs wd ⟨'/' :: joinSegs es⟩ = .ok ⟨'/' :: joinSegs es⟩ := by
  unfold Abs
  rw [if_pos (isAbs_of_head ⟨'/' :: joinSegs es⟩ rfl), clean_good es h]

theorem pathChain_good (es : List (List Char)) (h : ∀ e ∈ es, goodSeg e) :
    pathChain ⟨'/' :: joinSegs es⟩ = chainFrom [] es := by
  unfold pathChain
  congr 1
  show List.filter _ (splitL '/' ('/' :: joinSegs es)) = es
  rw [splitL_cons, if_pos rfl]
  cases es with
  | nil => rfl
  | cons a r =>
    rw [splitL_join _ (List.cons_ne_nil _ _) (fun e he => (h e he).2.2.2)]
    rw [List.filter_cons_of_neg (by simp)]
    apply List.filter_eq_self.2
    intro e he
    simpa using (h e he).1

theorem dropThroughSlash (a last : List Char) (h : '/' ∉ last) :
    ((a ++ '/' :: last).reverse.dropWhile (fun c => c ≠ '/')).reverse = a ++ ['/'] := by
  have e : (a ++ '/' :: last).reverse = last.reverse ++ '/' :: a.reverse := by simp
  rw [e]
  have hd : ∀ l : List Char, '/' ∉ l → ∀ r : List Char,
      (l ++ '/' :: r).dropWhile (fun c => c ≠ '/') = '/' :: r := by
    intro l hl r
    induction l with
    | nil => simp [List.dropWhile]
    | cons c cs ih =>
      have hc : c ≠ '/' := fun e => hl (e ▸ List.mem_cons_self _ _)
      rw [List.cons_append, List.dropWhile_cons]
      simp only [hc, ne_eq, not_false_eq_true, decide_True, if_true]
      exact ih (fun hm => hl (List.mem_cons_of_mem _ hm))
  rw [hd _ (by simpa using h)]
  simp

theorem dir_good (es : List (List Char)) (h : ∀ e ∈ es, goodSeg e) :
    Dir ⟨'/' :: joinSegs es⟩ = ⟨'/' :: joinSegs es.dropLast⟩ := by
  unfold Dir
  rcases List.eq_nil_or_concat es with hnil | ⟨init, last, hes⟩
  · rw [hnil]
    rfl
  · rw [hes, List.concat_eq_append, List.dropLast_concat]
    have hlast : goodSeg last := h last (by rw [hes]; simp)
    have hinit : ∀ e ∈ init, goodSeg e := fun e he => h e (by rw [hes]; simp [he])
    by_cases hi : init = []
    · rw [hi]
      have e1 : '/' :: joinSegs ([] ++ [last]) = [] ++ '/' :: last := rfl
      show Clean ⟨(List.dropWhile _ ('/' :: joinSegs ([] ++ [last])).reverse).reverse⟩ = _
      rw [e1, dropThroughSlash _ _ hlast.2.2.2]
      rfl
    · have e1 : '/' :: joinSegs (init ++ [last]) = ('/' :: joinSegs init) ++ '/' :: last := by
        rw [joinSegs_append _ _ hi (List.cons_ne_nil _ _)]
        rfl
      show Clean ⟨(List.dropWhile _ ('/' :: joinSegs (init ++ [last])).reverse).reverse⟩ = _
      rw [e1, dropThroughSlash _ _ hlast.2.2.2]
      have hne : (⟨'/' :: joinSegs init ++ ['/']⟩ : String) ≠ "" :=
        fun e => List.cons_ne_nil _ _ (congrArg String.data e)
      unfold Clean
      rw [if_neg hne]
      simp only [List.cons_append, List.head?_cons, if_true, decide_True]
      have hfold : ((splitL '/' ('/' :: (joinSegs init ++ ['/']))).foldl
          (cleanElems true) []).reverse = init := by
        rw [splitL_cons, if_pos rfl, List.foldl_cons,
          splitL_join_append _ _ hi (fun e he => (hinit e he).2.2.2)]
        have e0 : cleanElems true [] [] = [] := rfl
        rw [e0, List.foldl_append, cleanFold_id _ _ hinit]
        simp [splitL, cleanElems]
      rw [hfold]
      apply String.ext
      rw [String.data_append, intercalate_data]
      rfl

theorem joinSegs_ne_nil (es : List (List Char)) (hne : es ≠ []) (h : ∀ e ∈ es, goodSeg e) :
    ∃ c cs, joinSegs es = c :: cs ∧ c ≠ '/' := by
  cases es with
  | nil => exact absurd rfl hne
  | cons a r =>
    have ha := h a (List.mem_cons_self _ _)
    cases ha2 : a with
    | nil => exact absurd ha2 ha.1
    | cons c cs =>
      refine ⟨c, cs ++ r.flatMap (fun s => '/' :: s), ?_, ?_⟩
      · rw [joinSegs_cons]
        rfl
      · intro e
        exact ha.2.2.2 (by rw [ha2, e]; exact List.mem_cons_self _ _)

theorem joinSegs_inj (a b : List (List Char)) (ha : ∀ e ∈ a, goodSeg e)
    (hb : ∀ e ∈ b, goodSeg e) (h : joinSegs a = joinSegs b) : a = b := by
  by_cases h1 : a = []
  · by_cases h2 : b = []
    · rw [h1, h2]
    · obtain ⟨c, cs, e, _⟩ := joinSegs_ne_nil b h2 hb
      rw [h1, e] at h
      cases h
  · by_cases h2 : b = []
    · obtain ⟨c, cs, e, _⟩ := joinSegs_ne_nil a h1 ha
      rw [h2, e] at h
      cases h
    · rw [← splitL_join a h1 (fun e he => (ha e he).2.2.2), h,
        splitL_join b h2 (fun e he => (hb e he).2.2.2)]

/-- A cleaned absolute path that is the root or lies inside it holds the elements of the
root followed by its own. -/
theorem within_good (esR esT : List (List Char)) (hR : ∀ e ∈ esR, goodSeg e)
    (hT : ∀ e ∈ esT, goodSeg e)
    (h : within ⟨'/' :: joinSegs esR⟩ ⟨'/' :: joinSegs esT⟩ = true) :
    ∃ rest, esT = esR ++ rest ∧ (esR = [] → rest = []) := by
  unfold within at h
  simp only [Bool.or_eq_true, decide_eq_true_eq] at h
  rcases h with h | h
  · have e : joinSegs esT = joinSegs esR := by
      have := congrArg String.data h
      simpa using this
    exact ⟨[], by rw [joinSegs_inj esT esR hT hR e]; simp, fun _ => rfl⟩
  · unfold HasPrefix at h
    rw [List.isPrefixOf_iff_prefix] at h
    obtain ⟨x, hx⟩ := h
    have e : joinSegs esR ++ '/' :: x = joinSegs esT := by
      have e0 : (⟨'/' :: joinSegs esR⟩ ++ "/" : String).data = '/' :: (joinSegs esR ++ ['/']) := by
        rw [String.data_append]
        rfl
      rw [e0] at hx
      simp only [List.cons_append, List.append_assoc, List.singleton_append,
        List.cons.injEq, true_and] at hx
      exact hx
    have hTne : esT ≠ [] := by
      intro e2
      rw [e2] at e
      have : (joinSegs esR ++ '/' :: x).length = 0 := by rw [e]; rfl
      simp at this
    by_cases hRe : esR = []
    · obtain ⟨c, cs, e3, hc⟩ := joinSegs_ne_nil esT hTne hT
      rw [hRe, e3] at e
      simp only [joinSegs, List.nil_append, List.cons.injEq] at e
      exact absurd e.1.symm hc
    · refine ⟨splitL '/' x, ?_, fun e1 => absurd e1 hRe⟩
      rw [← splitL_join esT hTne (fun e he => (hT e he).2.2.2), ← e,
        splitL_join_append esR x hRe (fun e he => (hR e he).2.2.2)]

theorem chainFrom_append (base : List Char) (a b : List (List Char)) :
    chainFrom base (a ++ b) =
      chainFrom base a ++ chainFrom (base ++ a.flatMap (fun s => '/' :: s)) b := by
  induction a generalizing base with
  | nil => simp [chainFrom]
  | cons s r ih =>
    rw [List.cons_append, chainFrom, chainFrom, ih]
    simp

theorem chainFrom_data (base : List Char) (b : List (List Char)) :
    ∀ c ∈ chainFrom base b, ∃ x, c.data = base ++ '/' :: x := by
  induction b generalizing base with
  | nil =>
    intro c hc
    exact absurd hc (List.not_mem_nil c)
  | cons s r ih =>
    intro c hc
    rw [chainFrom] at hc
    rcases List.mem_cons.1 hc with h | h
    · exact ⟨s, by rw [h]⟩
    · obtain ⟨x, hx⟩ := ih _ c h
      exact ⟨s ++ '/' :: x, by rw [hx]; simp⟩

theorem chain_within (esR rest : List (List Char)) (h0 : esR = [] → rest = []) :
    ∀ c ∈ chainFrom [] (esR ++ rest),
      c ∈ chainFrom [] esR ∨ HasPrefix c (⟨'/' :: joinSegs esR⟩ ++ "/") = true := by
  intro c hc
  by_cases hRe : esR = []
  · rw [h0 hRe, List.append_nil] at hc
    exact Or.inl hc
  · rw [chainFrom_append] at hc
    rcases List.mem_append.1 hc with h | h
    · exact Or.inl h
    · right
      obtain ⟨x, hx⟩ := chainFrom_data _ _ c h
      rw [List.nil_append, ← slash_joinSegs esR hRe] at hx
      unfold HasPrefix
      rw [List.isPrefixOf_iff_prefix, hx]
      refine ⟨x, ?_⟩
      rw [String.data_append]
      show ('/' :: joinSegs esR) ++ ['/'] ++ x = _
      simp

theorem chain_dropLast (base : List Char) (l : List (List Char)) :
    ∀ c ∈ chainFrom base l.dropLast, c ∈ chainFrom base l := by
  intro c hc
  rcases List.eq_nil_or_concat l with hnil | ⟨init, last, hl⟩
  · rw [hnil] at hc
    exact absurd hc (List.not_mem_nil c)
  · rw [hl, List.concat_eq_append] at hc ⊢
    rw [List.dropLast_concat] at hc
    rw [chainFrom_append]
    exact List.mem_append_left _ hc

/-! ## The effects of the host calls -/

theorem mkdirStep_fold (host : ZipHost) (P : String → Prop) (cs : List String)
    (acc : Option ExtractError × Disk) (h : ∀ c ∈ cs, c ∈ acc.2.dirs ∨ P c) :
    (∀ x ∈ acc.2.dirs, x ∈ (cs.foldl (mkdirStep host) acc).2.dirs) ∧
    ((cs.foldl (mkdirStep host) acc).1 = none → ∀ c ∈ cs, c ∈ (cs.foldl (mkdirStep host) acc).2.dirs) ∧
    ∃ effs, (cs.foldl (mkdirStep host) acc).2.log = acc.2.log ++ effs ∧
      ∀ e ∈ effs, P e.path := by
  induction cs generalizing acc with
  | nil =>
    exact ⟨fun x hx => hx, fun _ c hc => absurd hc (List.not_mem_nil c), [], by simp,
      fun e he => absurd he (List.not_mem_nil e)⟩
  | cons c rest ih =>
    rw [List.foldl_cons]
    have hstep : (∀ x ∈ acc.2.dirs, x ∈ (mkdirStep host acc c).2.dirs) ∧
        ((mkdirStep host acc c).1 = none → c ∈ (mkdirStep host acc c).2.dirs) ∧
        ∃ effs, (mkdirStep host acc c).2.log = acc.2.log ++ effs ∧ ∀ e ∈ effs, P e.path := by
      obtain ⟨err, d⟩ := acc
      unfold mkdirStep
      cases err with
      | some e =>
        exact ⟨fun x hx => hx, fun hn => (by cases hn), [], by simp,
          fun e he => absurd he (List.not_mem_nil e)⟩
      | none =>
        simp only
        by_cases h1 : c ∈ d.dirs
        · rw [if_pos h1]
          exact ⟨fun x hx => hx, fun _ => h1, [], by simp,
            fun e he => absurd he (List.not_mem_nil e)⟩
        · rw [if_neg h1]
          by_cases h2 : c ∈ d.files
          · rw [if_pos h2]
            exact ⟨fun x hx => hx, fun hn => (by cases hn), [], by simp,
              fun e he => absurd he (List.not_mem_nil e)⟩
          · rw [if_neg h2]
            by_cases h3 : host.denied c = true
            · rw [if_pos h3]
              exact ⟨fun x hx => hx, fun hn => (by cases hn), [], by simp,
                fun e he => absurd he (List.not_mem_nil e)⟩
            · rw [if_neg h3]
              have hP : P c := by
                rcases h c (List.mem_cons_self _ _) with hc | hc
                · exact absurd hc h1
                · exact hc
              refine ⟨fun x hx => List.mem_append_left _ hx, fun _ => by simp,
                [.mkdir c], rfl, ?_⟩
              intro e he
              rw [List.mem_singleton] at he
              rw [he]
              exact hP
    obtain ⟨s1, s2, effs1, s3, s4⟩ := hstep
    have hrest : ∀ x ∈ rest, x ∈ (mkdirStep host acc c).2.dirs ∨ P x := by
      intro x hx
      rcases h x (List.mem_cons_of_mem _ hx) with hc | hc
      · exact Or.inl (s1 x hc)
      · exact Or.inr hc
    obtain ⟨i1, i2, effs2, i3, i4⟩ := ih (mkdirStep host acc c) hrest
    have hnone : (rest.foldl (mkdirStep host) (mkdirStep host acc c)).1 = none →
        (mkdirStep host acc c).1 = none := by
      intro hn
      cases hm : (mkdirStep host acc c).1 with
      | none => rfl
      | some e =>
        have hstay : ∀ (l : List String) (a : Option ExtractError × Disk), a.1 = some e →
            (l.foldl (mkdirStep host) a).1 = some e := by
          intro l
          induction l with
          | nil => exact fun a ha => ha
          | cons y ys ihy =>
            intro a ha
            rw [List.foldl_cons]
            apply ihy
            obtain ⟨a1, a2⟩ := a
            simp only at ha
            rw [ha]
            rfl
        rw [hstay rest _ hm] at hn
        cases hn
    refine ⟨fun x hx => i1 x (s1 x hx), ?_, effs1 ++ effs2, ?_, ?_⟩
    · intro hn x hx
      rcases List.mem_cons.1 hx with e | e
      · rw [e]
        exact i1 c (s2 (hnone hn))
      · exact i2 hn x e
    · rw [i3, s3, List.append_assoc]
    · intro e he
      rcases List.mem_append.1 he with h1 | h1
      · exact s4 e h1
      · exact i4 e h1

theorem mkdirAll_good (host : ZipHost) (d : Disk) (es : List (List Char))
    (hes : ∀ e ∈ es, goodSeg e) (P : String → Prop)
    (h : ∀ c ∈ chainFrom [] es, c ∈ d.dirs ∨ P c) :
    (∀ x ∈ d.dirs, x ∈ (MkdirAll host d ⟨'/' :: joinSegs es⟩).2.dirs) ∧
    ((MkdirAll host d ⟨'/' :: joinSegs es⟩).1 = none →
      ∀ c ∈ chainFrom [] es, c ∈ (MkdirAll host d ⟨'/' :: joinSegs es⟩).2.dirs) ∧
    ∃ effs, (MkdirAll host d ⟨'/' :: joinSegs es⟩).2.log = d.log ++ effs ∧
      ∀ e ∈ effs, P e.path := by
  unfold MkdirAll
  rw [abs_of_good host.Getwd es hes]
  simp only
  rw [pathChain_good es hes]
  exact mkdirStep_fold host P _ (none, d) h

theorem createFile_effect (host : ZipHost) (d : Disk) (p : String) :
    (createFile host d p).2.dirs = d.dirs ∧
    ∃ effs, (createFile host d p).2.log = d.log ++ effs ∧
      ∀ e ∈ effs, Abs host.Getwd p = .ok e.path := by
  unfold createFile
  cases ha : Abs host.Getwd p with
  | error e => exact ⟨rfl, [], by simp, fun e he => absurd he (List.not_mem_nil e)⟩
  | ok a =>
    simp only
    split_ifs
    · exact ⟨rfl, [], by simp, fun e he => absurd he (List.not_mem_nil e)⟩
    · exact ⟨rfl, [], by simp, fun e he => absurd he (List.not_mem_nil e)⟩
    · exact ⟨rfl, [], by simp, fun e he => absurd he (List.not_mem_nil e)⟩
    · refine ⟨rfl, [.write a], rfl, ?_⟩
      intro e he
      rw [List.mem_singleton] at he
      rw [he]
      rfl

theorem copyEntry_effect (host : ZipHost) (f : ZipEntry) (p : String) (d : Disk) :
    (copyEntry host f p d).2.dirs = d.dirs ∧
    ∃ effs, (copyEntry host f p d).2.log = d.log ++ effs ∧
      ∀ e ∈ effs, Abs host.Getwd p = .ok e.path := by
  unfold copyEntry
  cases f.openErr with
  | some e => exact ⟨rfl, [], by simp, fun e he => absurd he (List.not_mem_nil e)⟩
  | none =>
    simp only
    have hc := createFile_effect host d p
    generalize createFile host d p = r at hc ⊢
    obtain ⟨_ | e, d1⟩ := r
    · simp only
      cases f.readErr <;> exact hc
    · exact hc

theorem entryTarget_good (host : ZipHost) (destDir : String) (f : ZipEntry) (t : String)
    (hwd : ∀ w, host.Getwd = .ok w → IsAbs w = true)
    (h : entryTarget host destDir f = .ok t) :
    ∃ es, (∀ e ∈ es, goodSeg e) ∧ t = ⟨'/' :: joinSegs es⟩ := by
  unfold entryTarget at h
  simp only at h
  cases ha : Abs host.Getwd
      (unixJoin [destDir, TrimPrefix (replaceRune '\\' '/' f.Name) "/"]) with
  | error e =>
    rw [ha] at h
    cases h
  | ok a =>
    rw [ha] at h
    obtain ⟨es, hes, hea⟩ := abs_good host.Getwd _ a hwd ha
    refine ⟨es, hes, ?_⟩
    simp only [Except.ok.injEq] at h
    rw [← h, hea, clean_good es hes]

theorem within_of_prefix (root p : String) (h : HasPrefix p (root ++ "/") = true) :
    within root p = true := by
  unfold within
  rw [h, Bool.or_true]

/-- The loop body of `filex.ExtractZipFile` on a disk that holds the destination and the
directories above it: they stay, and whatever the body creates or writes is the
destination or lies inside it. -/
theorem extractEntry_within (host : ZipHost) (destDir : String) (esR : List (List Char))
    (f : ZipEntry) (d : Disk) (hwd : ∀ w, host.Getwd = .ok w → IsAbs w = true)
    (hR : ∀ e ∈ esR, goodSeg e) (hinv : ∀ c ∈ chainFrom [] esR, c ∈ d.dirs) :
    (∀ c ∈ chainFrom [] esR,
      c ∈ (extractEntry host destDir (⟨'/' :: joinSegs esR⟩ ++ "/") f d).2.dirs) ∧
    ∃ effs, (extractEntry host destDir (⟨'/' :: joinSegs esR⟩ ++ "/") f d).2.log =
        d.log ++ effs ∧
      ∀ e ∈ effs, within ⟨'/' :: joinSegs esR⟩ e.path = true := by
  have hnil : ∃ effs : List DiskEffect, d.log = d.log ++ effs ∧
      ∀ e ∈ effs, within ⟨'/' :: joinSegs esR⟩ e.path = true :=
    ⟨[], by simp, fun e he => absurd he (List.not_mem_nil e)⟩
  unfold extractEntry
  cases ht : entryTarget host destDir f with
  | error e => exact ⟨hinv, hnil⟩
  | ok t =>
    simp only
    obtain ⟨esT, hT, het⟩ := entryTarget_good host destDir f t hwd ht
    by_cases hg : HasPrefix (t ++ "/") (⟨'/' :: joinSegs esR⟩ ++ "/") = false
    · rw [if_pos hg]
      exact ⟨hinv, hnil⟩
    · rw [if_neg hg]
      have hw : within ⟨'/' :: joinSegs esR⟩ t = true := by
        rw [← within_iff]
        simpa using hg
      rw [het] at hw ⊢
      obtain ⟨rest, hrest, h0⟩ := within_good esR esT hR hT hw
      have hchain : ∀ c ∈ chainFrom [] esT, c ∈ d.dirs ∨
          HasPrefix c (⟨'/' :: joinSegs esR⟩ ++ "/") = true := by
        intro c hc
        rw [hrest] at hc
        rcases chain_within esR rest h0 c hc with h | h
        · exact Or.inl (hinv c h)
        · exact Or.inr h
      by_cases hdir : f.IsDir = true
      · rw [if_pos hdir]
        obtain ⟨m1, _, effs, m3, m4⟩ := mkdirAll_good host d esT hT _ hchain
        exact ⟨fun c hc => m1 c (hinv c hc), effs, m3,
          fun e he => within_of_prefix _ _ (m4 e he)⟩
      · rw [if_neg hdir]
        rw [dir_good esT hT]
        have hTd : ∀ e ∈ esT.dropLast, goodSeg e :=
          fun e he => hT e (List.mem_of_mem_dropLast he)
        obtain ⟨m1, _, effs, m3, m4⟩ := mkdirAll_good host d esT.dropLast hTd _
          (fun c hc => hchain c (chain_dropLast [] esT c hc))
        generalize MkdirAll host d ⟨'/' :: joinSegs esT.dropLast⟩ = r at m1 m3 ⊢
        obtain ⟨_ | e, d1⟩ := r
        · simp only at m1 m3 ⊢
          obtain ⟨c1, effs2, c3, c4⟩ := copyEntry_effect host f ⟨'/' :: joinSegs esT⟩ d1
          refine ⟨?_, effs ++ effs2, ?_, ?_⟩
          · intro c hc
            rw [c1]
            exact m1 c (hinv c hc)
          · rw [c3, m3, List.append_assoc]
          · intro e he
            rcases List.mem_append.1 he with h | h
            · exact within_of_prefix _ _ (m4 e h)
            · have := c4 e h
              rw [abs_of_good host.Getwd esT hT] at this
              simp only [Except.ok.injEq] at this
              rw [← this]
              exact hw
        · exact ⟨fun c hc => m1 c (hinv c hc), effs, m3,
            fun e he => within_of_prefix _ _ (m4 e he)⟩

theorem forEntries_within (host : ZipHost) (destDir : String) (esR : List (List Char))
    (files : List ZipEntry) (d : Disk) (hwd : ∀ w, host.Getwd = .ok w → IsAbs w = true)
    (hR : ∀ e ∈ esR, goodSeg e) (hinv : ∀ c ∈ chainFrom [] esR, c ∈ d.dirs) :
    ∃ effs, (forEntries (extractEntry host destDir (⟨'/' :: joinSegs esR⟩ ++ "/"))
        files d).2.log = d.log ++ effs ∧
      ∀ e ∈ effs, within ⟨'/' :: joinSegs esR⟩ e.path = true := by
  induction files generalizing d with
  | nil => exact ⟨[], by simp [forEntries], fun e he => absurd he (List.not_mem_nil e)⟩
  | cons f rest ih =>
    rw [forEntries_cons]
    obtain ⟨s1, effs, s3, s4⟩ := extractEntry_within host destDir esR f d hwd hR hinv
    generalize extractEntry host destDir (⟨'/' :: joinSegs esR⟩ ++ "/") f d = r at s1 s3 ⊢
    obtain ⟨_ | e, d1⟩ := r
    · simp only at s1 s3 ⊢
      obtain ⟨effs2, i1, i2⟩ := ih d1 s1
      refine ⟨effs ++ effs2, ?_, ?_⟩
      · rw [i1, s3, List.append_assoc]
      · intro e he
        rcases List.mem_append.1 he with h | h
        · exact s4 e h
        · exact i2 e h
    · exact ⟨effs, s3, s4⟩

/-- C26: zip-slip safety of `filex.ExtractZipFile`, on a host whose working directory is
an absolute path.  The call first ensures the destination, which creates the
destination and the missing directories above it and nothing else.  After that, every
directory the extraction creates and every file it creates or writes has a cleaned
absolute path that is the cleaned absolute destination or lies inside it, for every
archive, destination and disk, whether the extraction succeeds or stops with an error;
an entry whose target is neither the destination nor inside it is never created or
written. -/
theorem extractZipFile_within (host : ZipHost) (destDir : String) (files : List ZipEntry)
    (d : Disk) (hwd : ∀ w, host.Getwd = .ok w → IsAbs w = true) :
    ∃ first effects,
      (MkdirAll host d destDir).2.log = d.log ++ first ∧
      (ExtractZipFile host destDir files d).2.log = d.log ++ first ++ effects ∧
      (∀ msg, Abs host.Getwd destDir = .error msg → first = [] ∧ effects = []) ∧
      ∀ root, Abs host.Getwd destDir = .ok root →
        (∀ e ∈ first, e.path ∈ pathChain root) ∧
        (∀ e ∈ effects, within (Clean root) e.path = true) ∧
        (∀ f ∈ files, ∀ t, entryTarget host destDir f = .ok t →
          within (Clean root) t = false → ∀ e ∈ effects, e.path ≠ t) := by
  cases ha : Abs host.Getwd destDir with
  | error msg =>
    refine ⟨[], [], ?_, ?_, fun _ _ => ⟨rfl, rfl⟩, fun root hr => (by cases hr)⟩
    · unfold MkdirAll
      rw [ha]
      simp
    · unfold ExtractZipFile MkdirAll
      rw [ha]
      simp
  | ok root =>
    obtain ⟨esR, hR, hroot⟩ := abs_good host.Getwd destDir root hwd ha
    have hclean : Clean root = root := by rw [hroot, clean_good esR hR]
    have hM : MkdirAll host d destDir = (pathChain root).foldl (mkdirStep host) (none, d) := by
      unfold MkdirAll
      rw [ha]
    obtain ⟨_, post, first, hlog, hfirst⟩ := mkdirStep_fold host (fun c => c ∈ pathChain root)
      (pathChain root) (none, d) (fun c hc => Or.inr hc)
    rw [← hM] at post hlog
    have hE : ExtractZipFile host destDir files d =
        match MkdirAll host d destDir with
        | (some e, d1) => (some e, d1)
        | (none, d1) => forEntries (extractEntry host destDir (Clean root ++ "/")) files d1 := by
      unfold ExtractZipFile
      rw [ha]
    rw [hE]
    generalize MkdirAll host d destDir = r at post hlog ⊢
    obtain ⟨_ | e, d1⟩ := r
    · have hinv : ∀ c ∈ chainFrom [] esR, c ∈ d1.dirs := by
        intro c hc
        exact post rfl c (by rw [hroot, pathChain_good esR hR]; exact hc)
      simp only at hlog ⊢
      obtain ⟨effs, e1, e2⟩ := forEntries_within host destDir esR files d1 hwd hR hinv
      rw [hclean]
      rw [← hroot] at e1 e2
      refine ⟨first, effs, hlog, ?_, fun msg hm => (by cases hm), ?_⟩
      · rw [e1, hlog]
      · intro root2 hr
        cases hr
        refine ⟨hfirst, ?_, ?_⟩
        · rw [hclean]
          exact e2
        · intro f _ t _ hout e he heq
          have := e2 e he
          rw [hclean, ← heq, this] at hout
          cases hout
    · refine ⟨first, [], hlog, ?_, fun msg hm => (by cases hm), ?_⟩
      · simp only [List.append_nil]
        exact hlog
      · intro root2 hr
        cases hr
        exact ⟨hfirst, fun e he => absurd he (List.not_mem_nil e),
          fun f _ t _ _ e he => absurd he (List.not_mem_nil e)⟩

/-- C26, on an archive that holds the files a.txt and sub/b.txt and then the entry
../evil, extracted to /d with the working directory /work: the changes are inside /d, and
/evil is not among them. -/
theorem extractZipFile_within_witness :
    (∀ w, plainHost.Getwd = .ok w → IsAbs w = true) ∧
    (ExtractZipFile plainHost "/d"
      [fileEntry "a.txt", fileEntry "sub/b.txt", fileEntry "../evil"] emptyDisk).2.log =
      [.mkdir "/d", .write "/d/a.txt", .mkdir "/d/sub", .write "/d/sub/b.txt"] ∧
    ∃ first effects,
      (MkdirAll plainHost emptyDisk "/d").2.log = emptyDisk.log ++ first ∧
      (ExtractZipFile plainHost "/d"
        [fileEntry "a.txt", fileEntry "sub/b.txt", fileEntry "../evil"] emptyDisk).2.log =
        emptyDisk.log ++ first ++ effects ∧
      (∀ msg, Abs plainHost.Getwd "/d" = .error msg → first = [] ∧ effects = []) ∧
      ∀ root, Abs plainHost.Getwd "/d" = .ok root →
        (∀ e ∈ first, e.path ∈ pathChain root) ∧
        (∀ e ∈ effects, within (Clean root) e.path = true) ∧
        (∀ f ∈ [fileEntry "a.txt", fileEntry "sub/b.txt", fileEntry "../evil"],
          ∀ t, entryTarget plainHost "/d" f = .ok t →
          within (Clean root) t = false → ∀ e ∈ effects, e.path ≠ t) :=
  ⟨fun w h => (by cases h; decide), by decide,
    extractZipFile_within plainHost "/d"
      [fileEntry "a.txt", fileEntry "sub/b.txt", fileEntry "../evil"] emptyDisk
      (fun w h => (by cases h; decide))⟩

end Sync
